import Mathlib

/-! libFirm backend: block scheduling, copy introduction and the emitters

A shallow embedding of parts of `ir/be/beblocksched.c`, `ir/be/beirgmod.c`,
`ir/be/ia32/ia32_emitter.c` and `ir/be/arm/arm_emitter.c`, with the properties
proved about them.

Conventions of the embedding

* Blocks and other IR nodes are identified by their node number, a `Nat`.
* A control-flow predecessor that is the `Bad` node is `none`.
* A finite `double` is the rational number it denotes; the C conversion
  `(float)x` is the function `toFloat`, a parameter of the functions that
  perform it.
* `panic`, a failing `assert` and running out of fuel are the result `none`.
* The dominance information of a graph (`irdom`) is an input, the structure
  `Dom`.
* `int` and `long` have 32 bits; a set of pointers (`pset`) is the list of its
  members in the order of insertion.
* The binary emitter appends items (`BItem`) to its output, the text emitters
  lines or strings; a register is one of the eight general-purpose registers.
* Functions and constants that are declared outside these files are inputs:
  fields of a structure that the embedded function takes as a parameter.
-/

namespace Firm

/-! ## The IR graph as the block scheduler sees it

Blocks and the other nodes are numbered separately. The control-flow
predecessors of a block are nodes of mode X (a `Jmp`, a `Proj` of a `Cond`, ...);
such nodes are used by blocks only, and no other node is used by a block. -/

/-- Opcodes of the nodes that are not blocks, as far as the block scheduler
tells them apart, and `Phi`. `SimpleJump` stands for a node that is not a
`Jmp` but carries `arch_irn_flag_simple_jump`. -/
inductive NodeKind
  | Jmp | SimpleJump | Pin | Sync | End | Phi | Deleted | Other
  deriving DecidableEq, Repr

/-- An operand of a node that is not a block. -/
inductive Operand
  | bad
  | node (n : Nat)
  | block (b : Nat)
  deriving DecidableEq, Repr

/-- The state of an `ir_graph` read and written by `beblocksched.c`. -/
structure Irg where
  /-- the blocks of the graph, in the order in which out edges are listed -/
  blocks : List Nat
  /-- `get_Block_cfgpred`: the control-flow predecessors of a block; `none`
  is a `Bad` node -/
  cfgpreds : Nat → List (Option Nat)
  /-- `get_Block_entity`, the label of a block -/
  entity : Nat → Option Nat
  /-- the schedule of a block -/
  sched : Nat → List Nat
  /-- the visited flag of a block in the current walk -/
  visited : Nat → Bool
  /-- the nodes that are not blocks, in the order in which out edges are
  listed -/
  nodes : List Nat
  kind : Nat → NodeKind
  /-- `get_nodes_block` -/
  nodesBlock : Nat → Nat
  /-- the operands of a node that is not a block -/
  ins : Nat → List Operand
  startBlock : Nat
  endBlock : Nat
  /-- `get_irg_end` -/
  endNode : Nat
  /-- `get_block_execfreq` -/
  execfreq : Nat → ℚ
  /-- `get_irn_loop` of a block -/
  irnLoop : Nat → Nat
  /-- `get_loop_depth` -/
  loopDepth : Nat → Nat
  /-- `get_loop_outer_loop` -/
  outerLoop : Nat → Nat
  /-- the sub-loops among the elements of a loop -/
  loopSons : Nat → List Nat
  /-- `get_irg_loop`, the root of the loop tree -/
  irgLoop : Nat
  /-- the static flag `blocks_removed` -/
  blocksRemoved : Bool
  /-- `IR_GRAPH_PROPERTY_CONSISTENT_DOMINANCE` -/
  consistentDominance : Bool
  /-- whether the link of a loop is set (`get_loop_link`) on entry -/
  loopLink : Nat → Bool

/-- `get_Block_cfgpred`; a position outside the array reads as `Bad`. -/
def get_Block_cfgpred (g : Irg) (block : Nat) (pos : Nat) : Option Nat :=
  (g.cfgpreds block).getD pos none

/-- `get_Block_n_cfgpreds` -/
def get_Block_n_cfgpreds (g : Irg) (block : Nat) : Nat :=
  (g.cfgpreds block).length

/-- `get_Block_cfgpred_block`: the block of a control-flow predecessor,
`none` when the predecessor is `Bad`. -/
def get_Block_cfgpred_block (g : Irg) (block : Nat) (pos : Nat) : Option Nat :=
  (get_Block_cfgpred g block pos).map g.nodesBlock

/-- `set_irn_n` on a block, that is `set_Block_cfgpred`. -/
def set_Block_cfgpred (g : Irg) (block : Nat) (pos : Nat) (v : Option Nat) : Irg :=
  { g with cfgpreds := Function.update g.cfgpreds block ((g.cfgpreds block).set pos v) }

/-- `get_irn_n` on a node that is not a block. -/
def get_irn_n (g : Irg) (n : Nat) (pos : Nat) : Operand :=
  (g.ins n).getD pos Operand.bad

/-- `set_irn_n node pos block` on a node that is not a block; position `-1`
is the block of the node. -/
def set_irn_n (g : Irg) (n : Nat) (pos : Int) (block : Nat) : Irg :=
  if pos < 0 then { g with nodesBlock := Function.update g.nodesBlock n block }
  else { g with ins := Function.update g.ins n ((g.ins n).set pos.toNat (Operand.block block)) }

/-- `set_Block_entity` -/
def set_Block_entity (g : Irg) (block : Nat) (entity : Option Nat) : Irg :=
  { g with entity := Function.update g.entity block entity }

/-- `set_nodes_block` -/
def set_nodes_block (g : Irg) (n : Nat) (block : Nat) : Irg :=
  { g with nodesBlock := Function.update g.nodesBlock n block }

/-- `kill_node`: nobody may reference the node any more. -/
def kill_node (g : Irg) (n : Nat) : Irg :=
  { g with kind := Function.update g.kind n NodeKind.Deleted }

/-- `exchange old nw` for a node `old` that is not of mode X: every use of
`old` becomes a use of `nw`, and `old` is deleted. -/
def exchange (g : Irg) (old : Nat) (nw : Operand) : Irg :=
  { g with
    ins := fun u => (g.ins u).map fun x => if x = Operand.node old then nw else x
    kind := Function.update g.kind old NodeKind.Deleted }

/-- The out edges of a node of mode X (`foreach_out_edge`) as pairs of using
block and position. -/
def jump_out_edges (g : Irg) (jump : Nat) : List (Nat × Nat) :=
  g.blocks.flatMap fun u =>
    ((List.range (g.cfgpreds u).length).filter fun i =>
      get_Block_cfgpred g u i == some jump).map fun i => (u, i)

/-- The out edges of a block (`foreach_out_edge`) as pairs of user and
position: the nodes that lie in the block (position `-1`) and the nodes that
have the block as an operand. -/
def block_out_edges (g : Irg) (block : Nat) : List (Nat × Int) :=
  ((g.nodes.filter fun u =>
      g.kind u != NodeKind.Deleted && g.nodesBlock u == block).map fun u => (u, (-1 : Int))) ++
  (g.nodes.filter fun u => g.kind u != NodeKind.Deleted).flatMap fun u =>
    ((List.range (g.ins u).length).filter fun i =>
      get_irn_n g u i == Operand.block block).map fun i => (u, (i : Int))

/-- The control-flow successors of a block (`foreach_block_succ`): one entry
for every predecessor position of a block that holds a node of `b`. -/
def block_succs (g : Irg) (b : Nat) : List Nat :=
  g.blocks.flatMap fun u =>
    (g.cfgpreds u).filterMap fun x =>
      match x with
      | some n => if g.nodesBlock n = b then some u else none
      | none => none

/-- `irn_visited_else_mark`, the marking half. -/
def mark_irn_visited (g : Irg) (n : Nat) : Irg :=
  { g with visited := Function.update g.visited n true }

/-- `inc_irg_visited`: no node is visited any more. -/
def inc_irg_visited (g : Irg) : Irg :=
  { g with visited := fun _ => false }

/-! ## `remove_empty_block` -/

/-- Outcome of the scan of a block's schedule for its single jump. -/
inductive Scan
  | notEmpty
  | twoJumps
  | found (jump : Option Nat)

/-- The `sched_foreach` loop of `remove_empty_block`. -/
def scanSched (g : Irg) : List Nat → Option Nat → Scan
  | [], jump => Scan.found jump
  | node :: rest, jump =>
    if g.kind node ≠ NodeKind.Jmp ∧ g.kind node ≠ NodeKind.SimpleJump then
      Scan.notEmpty
    else if jump.isSome then Scan.twoJumps
    else scanSched g rest (some node)

/-- Outcome of the loop over the out edges of the jump. -/
inductive Reroute
  | failed
  | labelClash
  | done (g : Irg) (succ_block : Option Nat)

/-- The loop over the out edges of the jump: the successor block gets the
predecessor of the removed block, unless both blocks carry a label. -/
def rerouteJump (entity pred : Option Nat) :
    List (Nat × Nat) → Option Nat → Irg → Reroute
  | [], succ_block, g => Reroute.done g succ_block
  | (src, pos) :: rest, succ_block, g =>
    if succ_block.isSome then Reroute.failed
    else if (g.entity src).isSome ∧ entity.isSome then Reroute.labelClash
    else rerouteJump entity pred rest (some src) (set_Block_cfgpred g src pos pred)

/-- The body of the loop over the out edges of the removed block: the jump is
skipped, a Pin is killed, a Sync moves to the block of the predecessor, an End
keep-alive is rerouted to the successor, anything else is a panic. -/
def spliceNode (jump : Nat) (pred : Option Nat) (succ_block : Nat) (g : Irg)
    (edge : Nat × Int) : Option Irg :=
  let node := edge.1
  if node = jump then some g
  else
    match g.kind node with
    | NodeKind.Pin => some (exchange g node (get_irn_n g node 0))
    | NodeKind.Sync =>
      match pred with
      | some p => some (set_nodes_block g node (g.nodesBlock p))
      | none => none
    | NodeKind.End => some (set_irn_n g node edge.2 succ_block)
    | _ => none

/-- The loop over the out edges of the removed block. -/
def spliceNodes (jump : Nat) (pred : Option Nat) (succ_block : Nat)
    (edges : List (Nat × Int)) (g : Irg) : Option Irg :=
  edges.foldlM (spliceNode jump pred succ_block) g

/-- What one call of `remove_empty_block` does to its block before it goes on
to other blocks. -/
inductive StepResult
  | failed
  | check_preds
  | removed (g : Irg) (pred : Option Nat)

/-- The body of `remove_empty_block` for a block that was not visited before,
up to the recursive calls. -/
def remove_empty_block_step (g : Irg) (block : Nat) : StepResult :=
  if get_Block_n_cfgpreds g block ≠ 1 then StepResult.check_preds
  else
    match scanSched g (g.sched block) none with
    | Scan.notEmpty => StepResult.check_preds
    | Scan.twoJumps => StepResult.failed
    | Scan.found none => StepResult.check_preds
    | Scan.found (some jump) =>
      let entity := g.entity block
      let pred := get_Block_cfgpred g block 0
      match rerouteJump entity pred (jump_out_edges g jump) none g with
      | Reroute.failed => StepResult.failed
      | Reroute.labelClash => StepResult.check_preds
      | Reroute.done _ none => StepResult.failed
      | Reroute.done g1 (some succ_block) =>
        let g2 := set_Block_entity g1 succ_block entity
        match spliceNodes jump pred succ_block (block_out_edges g2 block) g2 with
        | none => StepResult.failed
        | some g3 =>
          let g4 := set_Block_cfgpred g3 block 0 none
          let g5 := kill_node g4 jump
          StepResult.removed { g5 with blocksRemoved := true } pred

/-- `remove_empty_block`, with fuel for the recursion. -/
def remove_empty_block : Nat → Irg → Nat → Option Irg
  | 0, _, _ => none
  | fuel + 1, g, block =>
    if g.visited block then some g
    else
      let g0 := mark_irn_visited g block
      match remove_empty_block_step g0 block with
      | StepResult.failed => none
      | StepResult.removed g1 pred =>
        match pred with
        | some p => remove_empty_block fuel g1 (g1.nodesBlock p)
        | none => none
      | StepResult.check_preds =>
        (List.range (get_Block_n_cfgpreds g0 block)).foldlM
          (fun gi i =>
            match get_Block_cfgpred_block gi block i with
            | some pred => remove_empty_block fuel gi pred
            | none => none)
          g0

/-- `remove_empty_blocks` -/
def remove_empty_blocks (fuel : Nat) (g : Irg) : Option Irg := do
  let g0 := inc_irg_visited { g with blocksRemoved := false }
  let g1 ← remove_empty_block fuel g0 g0.endBlock
  let g2 ← (List.range (g1.ins g1.endNode).length).foldlM
    (fun gi i =>
      match get_irn_n gi gi.endNode i with
      | Operand.block pred => remove_empty_block fuel gi pred
      | _ => some gi)
    g1
  if g2.blocksRemoved then some { g2 with consistentDominance := false }
  else some g2

/-! ## Edges and their order -/

/-- `edge_t` -/
structure Edge where
  /-- the block the edge leads to -/
  block : Nat
  /-- number of the control-flow predecessor -/
  pos : Nat
  execfreq : ℚ
  outedge_penalty_freq : ℚ
  highest_execfreq : Bool
  deriving DecidableEq

/-- `blocksched_env_t`, together with the `blocksched_entry_t` of every block
(reached through the link of the block; the entry of a block is identified
with the block) and the links of the loops. -/
structure Env where
  edges : List Edge
  worklist : List Nat
  blockcount : Nat
  next : Nat → Option Nat
  prev : Nat → Option Nat
  loopLink : Nat → Bool

/-- Sets the flag `highest_execfreq` of the edge with index `k`. -/
def setHighest : List Edge → Nat → List Edge
  | [], _ => []
  | e :: rest, 0 => { e with highest_execfreq := true } :: rest
  | e :: rest, k + 1 => e :: setHighest rest k

/-- The loop over the predecessors in the last branch of
`collect_egde_frequency`. -/
def collectPreds (g : Irg) (block : Nat) :
    List Nat → List Edge → ℚ → Option Nat → Option (List Edge × Option Nat)
  | [], edges, _, highest_edge_num => some (edges, highest_edge_num)
  | i :: rest, edges, highest_execfreq, highest_edge_num =>
    match get_Block_cfgpred_block g block i with
    | none => none
    | some pred_block =>
      let execfreq := g.execfreq pred_block
      let edges1 := edges ++ [Edge.mk block i execfreq 0 false]
      if execfreq > highest_execfreq then
        collectPreds g block rest edges1 execfreq (some (edges1.length - 1))
      else collectPreds g block rest edges1 highest_execfreq highest_edge_num

/-- `collect_egde_frequency`: creates the entry of the block and appends its
incoming edges to the edge array. -/
def collect_egde_frequency (toFloat : ℚ → ℚ) (g : Irg) (env : Env) (block : Nat) :
    Option Env :=
  let env0 : Env :=
    { env with
      next := Function.update env.next block none
      prev := Function.update env.prev block none }
  let loop := g.irnLoop block
  let arity := get_Block_n_cfgpreds g block
  if arity = 0 then
    if block = g.startBlock ∨ block = g.endBlock then some env0 else none
  else if arity = 1 then
    match get_Block_cfgpred_block g block 0 with
    | none => none
    | some pred_block =>
      let pred_loop := g.irnLoop pred_block
      let freq := toFloat (g.execfreq block)
      let penalty : ℚ :=
        if g.loopDepth pred_loop > g.loopDepth loop then
          -(toFloat (toFloat (g.execfreq pred_block) - freq))
        else 0
      some { env0 with edges := env0.edges ++ [Edge.mk block 0 freq penalty true] }
  else
    match collectPreds g block (List.range arity) env0.edges (-1) none with
    | none => none
    | some (edges, none) => some { env0 with edges := edges }
    | some (edges, some k) => some { env0 with edges := setHighest edges k }

/-- `cmp_edges_base` -/
def cmp_edges_base (e1 e2 : Edge) : Int :=
  if e1.block < e2.block then 1
  else if e1.block > e2.block then -1
  else if e1.pos < e2.pos then 1
  else if e1.pos > e2.pos then -1
  else 0

/-- `cmp_edges` -/
def cmp_edges (e1 e2 : Edge) : Int :=
  if e1.execfreq < e2.execfreq then 1
  else if e1.execfreq > e2.execfreq then -1
  else cmp_edges_base e1 e2

/-- `cmp_edges_outedge_penalty` -/
def cmp_edges_outedge_penalty (e1 e2 : Edge) : Int :=
  if e1.outedge_penalty_freq > e2.outedge_penalty_freq then 1
  else if e1.outedge_penalty_freq < e2.outedge_penalty_freq then -1
  else cmp_edges_base e1 e2

/-- `QSORT_ARR`: the array sorted by a three-way comparison. -/
def qsort_arr {α : Type} (cmp : α → α → Int) (arr : List α) : List α :=
  arr.insertionSort fun a b => cmp a b ≤ 0

/-! ## `coalesce_blocks` -/

/-- Schedules two blocks behind each other:
`pred_entry->next = entry; entry->prev = pred_entry`. -/
def link (env : Env) (pred_block block : Nat) : Env :=
  { env with
    next := Function.update env.next pred_block (some block)
    prev := Function.update env.prev block (some pred_block) }

/-- The first loop of `coalesce_blocks`, which only looks at jumps. -/
def coalesce_run1 (g : Irg) : List Edge → Env → Option Env
  | [], env => some env
  | edge :: rest, env =>
    if edge.highest_execfreq = false then coalesce_run1 g rest env
    else if (get_Block_cfgpred g edge.block 0).isNone then coalesce_run1 g rest env
    else
      match get_Block_cfgpred_block g edge.block edge.pos with
      | none => none
      | some pred_block =>
        if (env.next pred_block).isSome ∨ (env.prev edge.block).isSome then
          coalesce_run1 g rest env
        else if 2 ≤ (block_succs g pred_block).length then coalesce_run1 g rest env
        else coalesce_run1 g rest (link env pred_block edge.block)

/-- `clear_loop_links` -/
def clear_loop_links (g : Irg) : Nat → (Nat → Bool) → Nat → Option (Nat → Bool)
  | 0, _, _ => none
  | fuel + 1, loopLink, loop =>
    (g.loopSons loop).foldlM (fun ll son => clear_loop_links g fuel ll son)
      (Function.update loopLink loop false)

/-- The `do ... while (loop != outer_loop)` of the second loop of
`coalesce_blocks`: marks the loops that are left. -/
def markLoops (g : Irg) (outer_loop : Nat) : Nat → (Nat → Bool) → Nat → Option (Nat → Bool)
  | 0, _, _ => none
  | fuel + 1, loopLink, loop =>
    let loopLink1 := Function.update loopLink loop true
    let loop1 := g.outerLoop loop
    if loop1 ≠ outer_loop then markLoops g outer_loop fuel loopLink1 loop1
    else some loopLink1

/-- The second loop of `coalesce_blocks`, which picks the loop fallthroughs. -/
def coalesce_run2 (g : Irg) (fuel : Nat) : List Edge → Env → Option Env
  | [], env => some env
  | edge :: rest, env =>
    if edge.outedge_penalty_freq = 0 then some env
    else
      match get_Block_cfgpred g edge.block edge.pos with
      | none => coalesce_run2 g fuel rest env
      | some pred =>
        let pred_block := g.nodesBlock pred
        if (env.next pred_block).isSome ∨ (env.prev edge.block).isSome then
          coalesce_run2 g fuel rest env
        else
          let loop := g.irnLoop pred_block
          if env.loopLink loop then coalesce_run2 g fuel rest env
          else
            let env1 := link env pred_block edge.block
            match markLoops g (g.irnLoop edge.block) fuel env1.loopLink loop with
            | none => none
            | some ll => coalesce_run2 g fuel rest { env1 with loopLink := ll }

/-- The third loop of `coalesce_blocks`, for the remaining edges. -/
def coalesce_run3 (g : Irg) : List Edge → Env → Env
  | [], env => env
  | edge :: rest, env =>
    match get_Block_cfgpred g edge.block edge.pos with
    | none => coalesce_run3 g rest env
    | some pred =>
      let pred_block := g.nodesBlock pred
      if (env.next pred_block).isSome ∨ (env.prev edge.block).isSome then
        coalesce_run3 g rest env
      else coalesce_run3 g rest (link env pred_block edge.block)

/-- The first pass of `coalesce_blocks`: the edges are sorted by execution
frequency, then jumps are coalesced. -/
def coalesce_jumps (g : Irg) (env : Env) : Option Env :=
  let edges := qsort_arr cmp_edges env.edges
  coalesce_run1 g edges { env with edges := edges }

/-- The second pass of `coalesce_blocks`: the links of the loops are cleared,
the edges are sorted by the penalty of the loop outedges, then at most one
outedge of a loop is coalesced. -/
def coalesce_loop_outedges (g : Irg) (fuel : Nat) (env : Env) : Option Env := do
  let ll ← clear_loop_links g fuel env.loopLink g.irgLoop
  let edges := qsort_arr cmp_edges_outedge_penalty env.edges
  coalesce_run2 g fuel edges { env with edges := edges, loopLink := ll }

/-- The third pass of `coalesce_blocks`: the edges are sorted by execution
frequency again, then the remaining edges are coalesced. -/
def coalesce_remaining (g : Irg) (env : Env) : Env :=
  let edges := qsort_arr cmp_edges env.edges
  coalesce_run3 g edges { env with edges := edges }

/-- `coalesce_blocks` -/
def coalesce_blocks (g : Irg) (fuel : Nat) (env : Env) : Option Env := do
  let env1 ← coalesce_jumps g env
  let env2 ← coalesce_loop_outedges g fuel env1
  some (coalesce_remaining g env2)

/-! ## The final walk -/

/-- The `while (succ_entry->prev != NULL)` loop of `pick_block_successor`:
walks to the first block of a chain and breaks a cycle through `succ_block`. -/
def chainHead (succ_block : Nat) : Nat → Env → Nat → Option (Env × Nat)
  | 0, _, _ => none
  | fuel + 1, env, succ_entry =>
    match env.prev succ_entry with
    | none => some (env, succ_entry)
    | some p =>
      if p = succ_block then
        some ({ env with
                next := Function.update env.next p none
                prev := Function.update env.prev succ_entry none }, succ_entry)
      else chainHead succ_block fuel env p

/-- The first `foreach_block_succ` loop of `pick_block_successor`: puts the
first blocks of the chains of the successors into the worklist. -/
def putSuccs (g : Irg) (n : Nat) : List Nat → Env → Option Env
  | [], env => some env
  | succ_block :: rest, env =>
    if g.visited succ_block then putSuccs g n rest env
    else
      match chainHead succ_block n env succ_block with
      | none => none
      | some (env1, head) =>
        if g.visited head then putSuccs g n rest env1
        else putSuccs g n rest { env1 with worklist := env1.worklist ++ [head] }

/-- The second `foreach_block_succ` loop of `pick_block_successor`: the
successor of highest execution frequency that has no predecessor yet. -/
def bestSucc (g : Irg) (env : Env) : List Nat → ℚ → Option Nat → Option Nat
  | [], _, succ => succ
  | succ_block :: rest, best_succ_execfreq, succ =>
    if g.visited succ_block then bestSucc g env rest best_succ_execfreq succ
    else if (env.prev succ_block).isSome then bestSucc g env rest best_succ_execfreq succ
    else
      let execfreq := g.execfreq succ_block
      if execfreq > best_succ_execfreq then bestSucc g env rest execfreq (some succ_block)
      else bestSucc g env rest best_succ_execfreq succ

/-- The `do ... while (irn_visited(succ))` loop of `pick_block_successor`:
takes blocks from the left of the worklist until one is not visited. -/
def popWorklist (g : Irg) : List Nat → Option Nat × List Nat
  | [] => (none, [])
  | succ :: rest => if g.visited succ then popWorklist g rest else (some succ, rest)

/-- `pick_block_successor`; `n` bounds the walk to the first block of a chain,
the second argument the depth of the recursion. -/
def pick_block_successor (n : Nat) : Nat → Irg → Env → Nat → Option (Irg × Env)
  | 0, _, _, _ => none
  | fuel + 1, g, env, block =>
    if g.visited block then some (g, env)
    else
      let g1 := mark_irn_visited g block
      let env1 := { env with blockcount := env.blockcount + 1 }
      match putSuccs g1 n (block_succs g1 block) env1 with
      | none => none
      | some env2 =>
        match env2.next block with
        | some nx => pick_block_successor n fuel g1 env2 nx
        | none =>
          match bestSucc g1 env2 (block_succs g1 block) (-1) none with
          | some succ => pick_block_successor n fuel g1 (link env2 block succ) succ
          | none =>
            match popWorklist g1 env2.worklist with
            | (none, wl) => some (g1, { env2 with worklist := wl })
            | (some succ, wl) =>
              pick_block_successor n fuel g1 (link { env2 with worklist := wl } block succ) succ

/-- `finish_block_schedule` -/
def finish_block_schedule (fuel : Nat) (g : Irg) (env : Env) : Option (Irg × Env × Nat) :=
  let g0 := inc_irg_visited g
  match pick_block_successor fuel fuel g0 { env with worklist := [] } g0.startBlock with
  | none => none
  | some (g1, env1) => if env1.worklist.isEmpty then some (g1, env1, g1.startBlock) else none

/-- The loop of `create_blocksched_array` with its assertions. -/
def blockschedLoop (env : Env) (count : Nat) : Nat → Option Nat → List Nat → Option (List Nat)
  | _, none, block_list => if block_list.length = count then some block_list else none
  | 0, some _, _ => none
  | fuel + 1, some entry, block_list =>
    if block_list.length < count then
      blockschedLoop env count fuel (env.next entry) (block_list ++ [entry])
    else none

/-- `create_blocksched_array`: at most `count + 1` entries are looked at. -/
def create_blocksched_array (env : Env) (first : Nat) (count : Nat) : Option (List Nat) :=
  blockschedLoop env count (count + 1) (some first) []

/-- `be_create_block_schedule`; `walk` lists the blocks in the order in which
`irg_block_walk_graph` visits them. -/
def be_create_block_schedule (toFloat : ℚ → ℚ) (fuel : Nat) (walk : List Nat) (g : Irg) :
    Option (List Nat) := do
  let env0 : Env := Env.mk [] [] 0 (fun _ => none) (fun _ => none) g.loopLink
  let env1 ← walk.foldlM (collect_egde_frequency toFloat g) env0
  let g1 ← remove_empty_blocks fuel g
  let env2 ← coalesce_blocks g1 fuel env1
  let (_, env3, start_entry) ← finish_block_schedule fuel g1 env2
  create_blocksched_array env3 start_entry env3.blockcount

/-! ## Invariants of the links and of the final walk -/

/-- One step along the `next` links. -/
def NextStep (next : Nat → Option Nat) (a b : Nat) : Prop := next a = some b

/-- A chain of `next` links leads from the first block to the second. -/
def NextReach (next : Nat → Option Nat) : Nat → Nat → Prop :=
  Relation.ReflTransGen (NextStep next)

/-- The links are consistent: `a.next = b` exactly when `b.prev = a`. -/
def LinksOk (next prev : Nat → Option Nat) : Prop :=
  ∀ a b, next a = some b ↔ prev b = some a

/-- The block lies on a cycle of `next` links. -/
def OnCycle (next : Nat → Option Nat) (y : Nat) : Prop :=
  ∃ z, next y = some z ∧ NextReach next z y

/-- The effect of breaking a cycle: the link from `s` to `head` is removed. -/
def cutEnv (env : Env) (s head : Nat) : Env :=
  { env with
    next := Function.update env.next s none
    prev := Function.update env.prev head none }

/-- The invariant of the final walk. `vis` lists the visited blocks in the
order of their visits, `U` is a finite set that holds every block the walk
can touch, and `P` is a property that the walk cannot leave. -/
structure WalkInv (U : List Nat) (P : Nat → Prop) (start : Nat) (env : Env)
    (vis : List Nat) : Prop where
  links : LinksOk env.next env.prev
  start_prev : env.prev start = none
  head : vis.head? = some start
  chain : vis.Chain' (fun a b => env.next a = some b)
  nodup : vis.Nodup
  wl : ∀ h ∈ env.worklist, h ∈ vis ∨ env.prev h = none
  inU : ∀ a b, env.next a = some b → a ∈ U ∧ b ∈ U
  visU : ∀ b ∈ vis, b ∈ U
  wlU : ∀ h ∈ env.worklist, h ∈ U
  visP : ∀ b ∈ vis, P b
  wlP : ∀ h ∈ env.worklist, P h
  linkP : ∀ a b, env.next a = some b → (P a ↔ P b)

/-- The block will be reached: a chain of links leads to it from a visited
block or from a block of the worklist. -/
def Covered (env : Env) (vis : List Nat) (s : Nat) : Prop :=
  ∃ h, (h ∈ vis ∨ h ∈ env.worklist) ∧ NextReach env.next h s

/-- The state in which the final walk returns. -/
structure WalkDone (U : List Nat) (P : Nat → Prop) (start : Nat) (g0 g1 : Irg) (env1 : Env)
    (vis1 : List Nat) : Prop where
  inv : WalkInv U P start env1 vis1
  closed : ∀ v ∈ vis1, ∀ s ∈ block_succs g0 v, s ∈ vis1
  wl_empty : env1.worklist = []
  visited : ∀ b, g1.visited b = true ↔ b ∈ vis1
  count : env1.blockcount = vis1.length
  last_next : ∀ l, vis1.getLast? = some l → env1.next l = none

/-- Every link follows a control-flow edge of the graph. -/
def LinksCfg (g : Irg) (env : Env) : Prop :=
  ∀ a b, env.next a = some b → b ∈ block_succs g a

/-- No block is linked. -/
def NoLinks (env : Env) : Prop := ∀ a, env.next a = none ∧ env.prev a = none

/-- The blocks of the operands of all nodes. -/
def predBlocks (g : Irg) : List Nat :=
  g.blocks.flatMap fun u => (g.cfgpreds u).filterMap fun x => x.map g.nodesBlock

/-- A finite set that holds every block the scheduler can touch. -/
def blockUniverse (g : Irg) : List Nat :=
  g.startBlock :: (g.blocks ++ predBlocks g)

/-- `b` is reachable from `a` along control-flow edges. -/
def Reach (g : Irg) : Nat → Nat → Prop :=
  Relation.ReflTransGen fun x y => y ∈ block_succs g x

/-! ## The final walk, call by call -/

/-- How a call of `pick_block_successor` ends: it returns, or it calls itself
for another block. -/
inductive PickStep
  | done (g : Irg) (env : Env)
  | call (g : Irg) (env : Env) (block : Nat)

/-- The body of `pick_block_successor` up to the call of itself. -/
def pick_block_successor_step (n : Nat) (g : Irg) (env : Env) (block : Nat) :
    Option PickStep :=
  if g.visited block then some (PickStep.done g env)
  else
    let g1 := mark_irn_visited g block
    let env1 := { env with blockcount := env.blockcount + 1 }
    match putSuccs g1 n (block_succs g1 block) env1 with
    | none => none
    | some env2 =>
      match env2.next block with
      | some nx => some (PickStep.call g1 env2 nx)
      | none =>
        match bestSucc g1 env2 (block_succs g1 block) (-1) none with
        | some succ => some (PickStep.call g1 (link env2 block succ) succ)
        | none =>
          match popWorklist g1 env2.worklist with
          | (none, wl) => some (PickStep.done g1 { env2 with worklist := wl })
          | (some succ, wl) =>
            some (PickStep.call g1 (link { env2 with worklist := wl } block succ) succ)

/-- The states in which the first `k` calls of `pick_block_successor` start:
the graph, the links and the block of the call. -/
def pick_calls (n : Nat) : Nat → Irg → Env → Nat → List (Irg × Env × Nat)
  | 0, _, _, _ => []
  | k + 1, g, env, block =>
    (g, env, block) ::
      match pick_block_successor_step n g env block with
      | some (PickStep.call g1 env1 b1) => pick_calls n k g1 env1 b1
      | _ => []

/-- The links are consistent, and a block of the worklist that is not visited
has no `prev` link, the block of the current call apart. -/
def WalkLinks (g : Irg) (env : Env) (cur : Nat) : Prop :=
  LinksOk env.next env.prev ∧
    ∀ h ∈ env.worklist, g.visited h = true ∨ env.prev h = none ∨ h = cur

/-! ## Graphs used as concrete inputs -/

/-- A graph given by its blocks (number, control-flow predecessors, schedule),
its other nodes (number, opcode, block), the labels and the execution
frequencies of the blocks; there are no loops and no keep-alive edges. -/
def graphOf (blocks : List (Nat × List (Option Nat) × List Nat))
    (nodes : List (Nat × NodeKind × Nat)) (entity : Nat → Option Nat) (freq : Nat → ℚ)
    (startBlock endBlock endNode : Nat) : Irg where
  blocks := blocks.map fun b => b.1
  cfgpreds := fun b => ((blocks.lookup b).map fun x => x.1).getD []
  entity := entity
  sched := fun b => ((blocks.lookup b).map fun x => x.2).getD []
  visited := fun _ => false
  nodes := nodes.map fun n => n.1
  kind := fun n => ((nodes.lookup n).map fun x => x.1).getD NodeKind.Other
  nodesBlock := fun n => ((nodes.lookup n).map fun x => x.2).getD 0
  ins := fun _ => []
  startBlock := startBlock
  endBlock := endBlock
  endNode := endNode
  execfreq := freq
  irnLoop := fun _ => 0
  loopDepth := fun _ => 0
  outerLoop := fun _ => 0
  loopSons := fun _ => []
  irgLoop := 0
  blocksRemoved := false
  consistentDominance := true
  loopLink := fun _ => false

/-- Dead code that flows into live code: the start block 1 jumps to block 3;
block 2 is not reachable from the start block, branches to itself and to
block 3, and has the higher execution frequency. -/
def deadCodeGraph : Irg :=
  graphOf [(1, [], [10]), (2, [some 21], [20]), (3, [some 10, some 22], [30])]
    [(10, NodeKind.Jmp, 1), (20, NodeKind.Other, 2), (21, NodeKind.Other, 2),
      (22, NodeKind.Other, 2), (30, NodeKind.Other, 3), (31, NodeKind.End, 3)]
    (fun _ => none) (fun b => if b = 2 then 2 else 1) 1 3 31

/-- A chain of three blocks 1, 2, 3, none of them empty. -/
def chainGraph : Irg :=
  graphOf [(1, [], [10, 11]), (2, [some 11], [20, 21]), (3, [some 21], [30])]
    [(10, NodeKind.Other, 1), (11, NodeKind.Jmp, 1), (20, NodeKind.Other, 2),
      (21, NodeKind.Jmp, 2), (30, NodeKind.Other, 3), (31, NodeKind.End, 3)]
    (fun _ => none) (fun _ => 1) 1 3 31

/-- The chain of three blocks 1, 2, 3 in which block 2 holds only a jump;
`entB` and `entC` are the labels of blocks 2 and 3. -/
def jumpChainGraph (entB entC : Option Nat) : Irg :=
  graphOf [(1, [], [10, 11]), (2, [some 11], [21]), (3, [some 21], [30])]
    [(10, NodeKind.Other, 1), (11, NodeKind.Jmp, 1), (21, NodeKind.Jmp, 2),
      (30, NodeKind.Other, 3), (31, NodeKind.End, 3)]
    (fun b => if b = 2 then entB else if b = 3 then entC else none) (fun _ => 1) 1 3 31

/-- The chain of three blocks whose middle block holds only a jump, with one
more node, 22, that lies in the middle block and is not scheduled. -/
def strayNodeGraph : Irg :=
  graphOf [(1, [], [10, 11]), (2, [some 11], [21]), (3, [some 21], [30])]
    [(10, NodeKind.Other, 1), (11, NodeKind.Jmp, 1), (21, NodeKind.Jmp, 2),
      (22, NodeKind.Other, 2), (30, NodeKind.Other, 3), (31, NodeKind.End, 3)]
    (fun _ => none) (fun _ => 1) 1 3 31

/-- A loop with two exits: the start block 1 jumps to the loop header 2, the
loop body 3 jumps back to 2; block 2 leaves the loop to block 4, block 3
leaves it to block 5, and blocks 4 and 5 jump to the end block 6. Loop 1 holds
the blocks 2 and 3 and lies in the root loop 0. -/
def loopExitGraph : Irg :=
  { graphOf
      [(1, [], [10, 11]), (2, [some 11, some 32], [20, 21]), (3, [some 22], [30, 31]),
        (4, [some 23], [40, 41]), (5, [some 33], [50, 51]), (6, [some 41, some 51], [60])]
      [(10, NodeKind.Other, 1), (11, NodeKind.Jmp, 1), (20, NodeKind.Other, 2),
        (21, NodeKind.Other, 2), (22, NodeKind.Other, 2), (23, NodeKind.Other, 2),
        (30, NodeKind.Other, 3), (31, NodeKind.Other, 3), (32, NodeKind.Other, 3),
        (33, NodeKind.Other, 3), (40, NodeKind.Other, 4), (41, NodeKind.Jmp, 4),
        (50, NodeKind.Other, 5), (51, NodeKind.Jmp, 5), (60, NodeKind.Other, 6),
        (61, NodeKind.End, 6)]
      (fun _ => none)
      (fun b => if b = 2 then 10 else if b = 3 then 9 else if b = 4 ∨ b = 5 then 1 / 2 else 1)
      1 6 61 with
    irnLoop := fun b => if b = 2 ∨ b = 3 then 1 else 0
    loopDepth := fun l => if l = 1 then 1 else 0
    outerLoop := fun _ => 0
    loopSons := fun l => if l = 0 then [1] else [] }

/-- The state of the scheduler for `loopExitGraph` before the loop-outedge
pass: the edges are collected and the jumps are coalesced. -/
def loopExitEnv : Env :=
  ((([6, 4, 2, 1, 3, 5] : List Nat).foldlM (collect_egde_frequency id loopExitGraph)
      (Env.mk [] [] 0 (fun _ => none) (fun _ => none) loopExitGraph.loopLink)).bind
    (coalesce_jumps loopExitGraph)).getD
    (Env.mk [] [] 0 (fun _ => none) (fun _ => none) loopExitGraph.loopLink)

/-! ## A graph with a loop inside a loop -/

/-- A loop inside a loop: the start block 1 jumps to the header 2 of the
outer loop, which branches to the header 3 of the inner loop and to the exit
block 7. Block 3 branches to the body 4 of the inner loop and to the block 6,
which jumps back to block 2. Block 4 branches back to block 3 and to the exit
block 5. The blocks 5 and 7 jump to the end block 8. Loop 2 holds the blocks
3 and 4 and lies in loop 1, which holds the blocks 2 and 6 and lies in the
root loop 0; the root loop is its own outer loop. -/
def nestedLoopGraph : Irg :=
  { graphOf
      [(1, [], [10, 11]), (2, [some 11, some 61], [20, 21, 22]),
        (3, [some 21, some 41], [30, 31, 32]), (4, [some 31], [40, 41, 42]),
        (5, [some 42], [50, 51]), (6, [some 32], [60, 61]), (7, [some 22], [70, 71]),
        (8, [some 51, some 71], [80])]
      [(10, NodeKind.Other, 1), (11, NodeKind.Jmp, 1), (20, NodeKind.Other, 2),
        (21, NodeKind.Other, 2), (22, NodeKind.Other, 2), (30, NodeKind.Other, 3),
        (31, NodeKind.Other, 3), (32, NodeKind.Other, 3), (40, NodeKind.Other, 4),
        (41, NodeKind.Other, 4), (42, NodeKind.Other, 4), (50, NodeKind.Other, 5),
        (51, NodeKind.Jmp, 5), (60, NodeKind.Other, 6), (61, NodeKind.Jmp, 6),
        (70, NodeKind.Other, 7), (71, NodeKind.Jmp, 7), (80, NodeKind.Other, 8),
        (81, NodeKind.End, 8)]
      (fun _ => none)
      (fun b => if b = 3 then 100 else if b = 4 then 90 else if b = 2 then 10
        else if b = 6 then 20 else if b = 5 ∨ b = 7 then 1 / 2 else 1)
      1 8 81 with
    irnLoop := fun b => if b = 3 ∨ b = 4 then 2 else if b = 2 ∨ b = 6 then 1 else 0
    loopDepth := fun l => if l = 2 then 2 else if l = 1 then 1 else 0
    outerLoop := fun l => if l = 2 then 1 else 0
    loopSons := fun l => if l = 0 then [1] else if l = 1 then [2] else [] }

/-- The state of the scheduler for `nestedLoopGraph` before the loop-outedge
pass: the edges are collected and the jumps are coalesced. -/
def nestedLoopEnv : Env :=
  ((([8, 5, 7, 4, 6, 3, 2, 1] : List Nat).foldlM (collect_egde_frequency id nestedLoopGraph)
      (Env.mk [] [] 0 (fun _ => none) (fun _ => none) (fun _ => false))).bind
    (coalesce_jumps nestedLoopGraph)).getD
    (Env.mk [] [] 0 (fun _ => none) (fun _ => none) (fun _ => false))

/-- The loop of a block with one control-flow predecessor is the loop of
the predecessor or a loop around it: it is reached from the loop of the
predecessor by steps to the outer loop. A loop tree built from the cycles of
the control flow is such, as a cycle through the block runs through its only
predecessor. -/
def LoopEncloses (g : Irg) : Prop :=
  ∀ block pred, g.cfgpreds block = [some pred] →
    ∃ k, g.outerLoop^[k] (g.irnLoop (g.nodesBlock pred)) = g.irnLoop block

/-- The edges of nonzero penalty are loop exits as `collect_egde_frequency`
finds them: the block of such an edge has one control-flow predecessor, the
edge is the edge of position 0, and unless the predecessor is `Bad` its loop
is deeper than the loop of the block. -/
def ExitEdges (g : Irg) (edges : List Edge) : Prop :=
  ∀ e ∈ edges, e.outedge_penalty_freq ≠ 0 →
    (g.cfgpreds e.block).length = 1 ∧ e.pos = 0 ∧
      ∀ pred, get_Block_cfgpred g e.block 0 = some pred →
        g.loopDepth (g.irnLoop (g.nodesBlock pred)) > g.loopDepth (g.irnLoop e.block)

/-! ## The links that the cycle breaking of the final walk removes -/

/-- The loop that fills the worklist, with the same steps as `putSuccs`:
whether the cycle breaking removes the link from `a` to `c`, that is
whether for the successor `a` the walk to the first block of the chain
comes back to `a` and sets `a.next`, which was `c`, to `NULL`. -/
def putSuccs_cuts (g : Irg) (n a c : Nat) : List Nat → Env → Bool
  | [], _ => false
  | succ_block :: rest, env =>
    if g.visited succ_block then putSuccs_cuts g n a c rest env
    else
      match chainHead succ_block n env succ_block with
      | none => false
      | some (env1, head) =>
        (decide (succ_block = a) && decide (env.next a = some c) &&
            decide (env1.next a = none)) ||
          if g.visited head then putSuccs_cuts g n a c rest env1
          else putSuccs_cuts g n a c rest { env1 with worklist := env1.worklist ++ [head] }

/-- Whether the cycle breaking of the call of `pick_block_successor` for the
block `cur` removes the link from `a` to `c`. -/
def pick_step_cuts (n : Nat) (g : Irg) (env : Env) (cur a c : Nat) : Bool :=
  if g.visited cur then false
  else
    putSuccs_cuts (mark_irn_visited g cur) n a c (block_succs (mark_irn_visited g cur) cur)
      { env with blockcount := env.blockcount + 1 }

/-- Whether the cycle breaking of one of the first `k` calls of
`pick_block_successor` removes the link from `a` to `c`. -/
def walk_cuts (n k : Nat) (g : Irg) (env : Env) (start a c : Nat) : Bool :=
  (pick_calls n k g env start).any fun s => pick_step_cuts n s.1 s.2.1 s.2.2 a c

/-- A loop whose two blocks are coalesced into a cycle: the start block 1
jumps to the loop header 2, which branches to the loop body 3 and to the end
block 4; the body jumps back to the header. The header and the body are
executed more often than the other blocks. -/
def cycleGraph : Irg :=
  graphOf [(1, [], [10, 11]), (2, [some 11, some 31], [20, 21, 22]), (3, [some 21], [30, 31]),
      (4, [some 22], [40])]
    [(10, NodeKind.Other, 1), (11, NodeKind.Jmp, 1), (20, NodeKind.Other, 2),
      (21, NodeKind.Other, 2), (22, NodeKind.Other, 2), (30, NodeKind.Other, 3),
      (31, NodeKind.Jmp, 3), (40, NodeKind.Other, 4), (41, NodeKind.End, 4)]
    (fun _ => none) (fun b => if b = 2 then 10 else if b = 3 then 9 else 1) 1 4 41

/-- The state of the scheduler for `cycleGraph` in front of the final walk:
the edges are collected and the blocks are coalesced. -/
def cycleEnv : Env :=
  ((([4, 3, 2, 1] : List Nat).foldlM (collect_egde_frequency id cycleGraph)
      (Env.mk [] [] 0 (fun _ => none) (fun _ => none) cycleGraph.loopLink)).bind
    (coalesce_blocks cycleGraph 10)).getD
    (Env.mk [] [] 0 (fun _ => none) (fun _ => none) cycleGraph.loopLink)

/-! ## Blocks that are cut off from the graph -/

/-- The block is cut off from the control flow: its only predecessor is `Bad`
and no block has a predecessor that lies in it. -/
def Dead (g : Irg) (b : Nat) : Prop :=
  g.cfgpreds b = [none] ∧ ∀ u n, some n ∈ g.cfgpreds u → g.nodesBlock n ≠ b

/-- The block takes part in the control flow: it is the start block, a
control-flow successor of a block, or has a control-flow successor. -/
def Live (g : Irg) (b : Nat) : Prop :=
  b = g.startBlock ∨ (∃ a, b ∈ block_succs g a) ∨ (∃ s, s ∈ block_succs g b)

/-! ## Invariant of the loop-outedge pass -/

/-- A diamond: the start block 1 branches to the blocks 2 and 3, which both
jump to the end block 4; `fB` and `fC` are the execution frequencies of the
blocks 2 and 3. -/
def diamondGraph (fB fC : ℚ) : Irg :=
  graphOf
    [(1, [], [10, 11, 12]), (2, [some 11], [20, 21]), (3, [some 12], [30, 31]),
      (4, [some 21, some 31], [40])]
    [(10, NodeKind.Other, 1), (11, NodeKind.Other, 1), (12, NodeKind.Other, 1),
      (20, NodeKind.Other, 2), (21, NodeKind.Jmp, 2), (30, NodeKind.Other, 3),
      (31, NodeKind.Jmp, 3), (40, NodeKind.Other, 4), (41, NodeKind.End, 4)]
    (fun _ => none) (fun b => if b = 2 then fB else if b = 3 then fC else fB + fC) 1 4 41

/-! ## Dominance frontiers and the introduction of copies (`beirgmod.c`) -/

/-- The dominance information that `compute_doms` stores in the blocks of a
graph. -/
structure Dom where
  /-- `get_Block_idom`; `none` is `NULL`, the value of the start block -/
  idom : Nat → Option Nat
  /-- `get_Block_dominated_first` and `get_Block_dominated_next`: the
  children of a block in the dominator tree -/
  dominated : Nat → List Nat
  /-- `block_dominates` -/
  block_dominates : Nat → Nat → Bool

/-- `get_idom`: the immediate dominator, the block itself for the start
block. -/
def get_idom (dom : Dom) (bl : Nat) : Nat :=
  match dom.idom bl with
  | none => bl
  | some idom => idom

/-- `pset_insert_ptr`: a set of pointers is the list of its members, in the
order in which they were inserted. -/
def pset_insert_ptr (s : List Nat) (x : Nat) : List Nat :=
  if x ∈ s then s else s ++ [x]

/-- The first loop of `compute_df`: the local dominance frontier. -/
def df_local (g : Irg) (dom : Dom) (n : Nat) : List Nat :=
  (block_succs g n).foldl
    (fun df y => if get_idom dom y ≠ n then pset_insert_ptr df y else df) []

/-- The inner loop of the second loop of `compute_df`: the blocks of the
frontier of a child that `n` does not dominate are added. -/
def df_up (dom : Dom) (n : Nat) (df_c df : List Nat) : List Nat :=
  df_c.foldl (fun df w => if !dom.block_dominates n w then pset_insert_ptr df w else df) df

/-- The body of the second loop of `compute_df` for the child `c` of `n`; the
state is the set `df` and the map, `compute_df_c` is the recursive call. -/
def df_child (dom : Dom) (n : Nat)
    (compute_df_c : Nat → (Nat → Option (List Nat)) → Option (Nat → Option (List Nat)))
    (st : List Nat × (Nat → Option (List Nat))) (c : Nat) :
    Option (List Nat × (Nat → Option (List Nat))) :=
  match compute_df_c c st.2 with
  | none => none
  | some df_map1 =>
    match df_map1 c with
    | none => none
    | some df_c => some (df_up dom n df_c st.1, df_map1)

/-- `compute_df`: the map from blocks to dominance frontiers after the call
for block `n`. -/
def compute_df (g : Irg) (dom : Dom) :
    Nat → Nat → (Nat → Option (List Nat)) → Option (Nat → Option (List Nat))
  | 0, _, _ => none
  | fuel + 1, n, df_map =>
    ((dom.dominated n).foldlM (df_child dom n (compute_df g dom fuel))
      (df_local g dom n, df_map)).map
      fun (st : List Nat × (Nat → Option (List Nat))) => Function.update st.2 n (some st.1)

/-- `be_compute_dominance_frontiers` -/
def be_compute_dominance_frontiers (g : Irg) (dom : Dom) (fuel : Nat) :
    Option (Nat → Option (List Nat)) :=
  compute_df g dom fuel g.startBlock fun _ => none

/-- The dominance frontier of `n` as the spec defines it: `n` dominates a
predecessor of `y` and does not strictly dominate `y`. -/
def InFrontier (g : Irg) (dom : Dom) (n y : Nat) : Prop :=
  (∃ p, some p ∈ g.cfgpreds y ∧ dom.block_dominates n (g.nodesBlock p) = true) ∧
    ¬ (dom.block_dominates n y = true ∧ n ≠ y)

/-- The state of `place_phi_functions`. -/
structure PhiState where
  g : Irg
  copies : List Nat
  copy_blocks : List Nat
  phi_blocks : List Nat
  worklist : List Nat

/-- `new_r_Phi` with optimization switched off: a new node. -/
def new_r_Phi (g : Irg) (block : Nat) (ins : List Operand) : Irg × Nat :=
  let phi := g.nodes.foldl max 0 + 1
  ({ g with
      nodes := g.nodes ++ [phi]
      kind := Function.update g.kind phi NodeKind.Phi
      nodesBlock := Function.update g.nodesBlock phi block
      ins := Function.update g.ins phi ins }, phi)

/-- `sched_add_before(sched_first(y), phi)` -/
def sched_add_first (g : Irg) (y phi : Nat) : Irg :=
  { g with sched := Function.update g.sched y (phi :: g.sched y) }

/-- The body of the loop over the dominance frontier in
`place_phi_functions`; `appear` is `to_appear_in_schedule` of a Phi of the
mode of `orig`. -/
def place_phi_step (orig : Nat) (appear : Bool) (orig_blocks : List Nat)
    (st : PhiState) (y : Nat) : PhiState :=
  if y ∈ st.phi_blocks then st
  else
    let n_preds := (st.g.cfgpreds y).length
    let r := new_r_Phi st.g y (List.replicate n_preds (Operand.node orig))
    { g := if appear then sched_add_first r.1 y r.2 else r.1
      copies := pset_insert_ptr st.copies r.2
      copy_blocks := pset_insert_ptr st.copy_blocks y
      phi_blocks := pset_insert_ptr st.phi_blocks y
      worklist := if y ∈ orig_blocks then st.worklist else st.worklist ++ [y] }

/-- The `while(!pdeq_empty(worklist))` loop of `place_phi_functions`. -/
def place_phi_loop (df_map : Nat → Option (List Nat)) (orig : Nat) (appear : Bool)
    (orig_blocks : List Nat) : Nat → PhiState → Option PhiState
  | 0, _ => none
  | fuel + 1, st =>
    match st.worklist with
    | [] => some st
    | bl :: rest =>
      match df_map bl with
      | none => none
      | some df =>
        place_phi_loop df_map orig appear orig_blocks fuel
          (df.foldl (place_phi_step orig appear orig_blocks) { st with worklist := rest })

/-- `place_phi_functions` -/
def place_phi_functions (g : Irg) (dom : Dom) (df_map : Nat → Option (List Nat))
    (appear : Bool) (fuel : Nat) (orig : Nat) (copies copy_blocks : List Nat) :
    Option PhiState :=
  if copy_blocks.all fun copy_block => dom.block_dominates (g.nodesBlock orig) copy_block then
    place_phi_loop df_map orig appear copy_blocks fuel
      (PhiState.mk g copies copy_blocks [] copy_blocks)
  else none

/-- The `while(curr_bl != NULL)` loop of `search_def`; `start` holds the
schedule of `curr_bl` up to `start_irn`. The result `some none` is `NULL`. -/
def search_up (g : Irg) (dom : Dom) (copies copy_blocks : List Nat) :
    Nat → Nat → List Nat → Option (Option Nat)
  | 0, _, _ => none
  | fuel + 1, curr_bl, start =>
    match (if curr_bl ∈ copy_blocks then start.reverse.find? fun irn => irn ∈ copies
      else none) with
    | some irn => some (some irn)
    | none =>
      match dom.idom curr_bl with
      | none => some none
      | some idom => search_up g dom copies copy_blocks fuel idom (g.sched idom)

/-- `search_def`; the usage is scheduled unless it is a Phi. -/
def search_def (g : Irg) (dom : Dom) (fuel : Nat) (usage pos : Nat)
    (copies copy_blocks : List Nat) : Option (Option Nat) :=
  let curr_bl := g.nodesBlock usage
  if g.kind usage = NodeKind.Phi then
    match get_Block_cfgpred_block g curr_bl pos with
    | none => none
    | some pred_bl => search_up g dom copies copy_blocks fuel pred_bl (g.sched pred_bl)
  else if usage ∈ g.sched curr_bl then
    search_up g dom copies copy_blocks fuel curr_bl
      ((g.sched curr_bl).takeWhile fun irn => irn ≠ usage)
  else none

/-- The out edges of a node that is not of mode X (`foreach_out_edge`): the
pairs of user and position. -/
def node_out_edges (g : Irg) (orig : Nat) : List (Nat × Nat) :=
  (g.nodes.filter fun u => g.kind u != NodeKind.Deleted).flatMap fun u =>
    ((List.range (g.ins u).length).filter fun i =>
      get_irn_n g u i == Operand.node orig).map fun i => (u, i)

/-- `set_irn_n irn pos def` for a node `def`. -/
def set_irn_n_node (g : Irg) (irn pos def_ : Nat) : Irg :=
  { g with ins := Function.update g.ins irn ((g.ins irn).set pos (Operand.node def_)) }

/-- `fix_usages` -/
def fix_usages (g : Irg) (dom : Dom) (fuel : Nat) (orig : Nat)
    (copies copy_blocks : List Nat) : Option Irg :=
  (node_out_edges g orig).foldlM
    (fun gi out =>
      match search_def gi dom fuel out.1 out.2 copies copy_blocks with
      | none => none
      | some none => some gi
      | some (some def_) => some (set_irn_n_node gi out.1 out.2 def_))
    g

/-- `sched_remove` -/
def sched_remove (g : Irg) (irn : Nat) : Irg :=
  { g with
    sched := Function.update g.sched (g.nodesBlock irn)
      ((g.sched (g.nodesBlock irn)).filter fun x => x ≠ irn) }

/-- `remove_odd_phis` -/
def remove_odd_phis (g : Irg) (copies : List Nat) : Option Irg :=
  copies.foldlM
    (fun gi irn =>
      if gi.kind irn = NodeKind.Phi then
        if irn ∈ gi.sched (gi.nodesBlock irn) then
          if (gi.ins irn).any fun x => x == Operand.bad then some (sched_remove gi irn)
          else some gi
        else none
      else some gi)
    g

/-- `be_introduce_copies`: the graph and the set `copies` at the end. -/
def be_introduce_copies (g : Irg) (dom : Dom) (df_map : Nat → Option (List Nat))
    (appear : Bool) (fuel : Nat) (orig : Nat) (copy_nodes : List Nat) :
    Option (Irg × List Nat) := do
  let copies := copy_nodes.foldl pset_insert_ptr [orig]
  let copy_blocks :=
    copy_nodes.foldl (fun s c => pset_insert_ptr s (g.nodesBlock c)) [g.nodesBlock orig]
  let st ← place_phi_functions g dom df_map appear fuel orig copies copy_blocks
  let g1 ← fix_usages st.g dom fuel orig st.copies st.copy_blocks
  let g2 ← remove_odd_phis g1 st.copies
  some (g2, st.copies)

/-! ## Graphs with dominance information used as concrete inputs -/

/-- Whether `a` lies on the chain of immediate dominators that starts at
`b`. -/
def onIdomChain (idom : Nat → Option Nat) : Nat → Nat → Nat → Bool
  | 0, a, b => a == b
  | fuel + 1, a, b =>
    a == b ||
      match idom b with
      | none => false
      | some i => onIdomChain idom fuel a i

/-- The dominance information given by the immediate dominators of the blocks
other than the start block: the children of a block are the blocks it
dominates immediately, and a block dominates the blocks whose chain of
immediate dominators it lies on. -/
def domOf (idoms : List (Nat × Nat)) : Dom where
  idom := fun b => idoms.lookup b
  dominated := fun n => (idoms.filter fun x => x.2 = n).map fun x => x.1
  block_dominates := fun a b => onIdomChain (fun b => idoms.lookup b) idoms.length a b

/-- A loop: the start block 1 jumps to the loop header 2, which branches to
the loop body 3 and to the end block 4; the body jumps back to the header. -/
def loopGraph : Irg :=
  graphOf [(1, [], [10, 11]), (2, [some 11, some 31], [20, 21, 22]), (3, [some 21], [30, 31]),
      (4, [some 22], [40])]
    [(10, NodeKind.Other, 1), (11, NodeKind.Jmp, 1), (20, NodeKind.Other, 2),
      (21, NodeKind.Other, 2), (22, NodeKind.Other, 2), (30, NodeKind.Other, 3),
      (31, NodeKind.Jmp, 3), (40, NodeKind.Other, 4), (41, NodeKind.End, 4)]
    (fun _ => none) (fun _ => 1) 1 4 41

/-- The dominator tree of `loopGraph`: block 1 dominates block 2 immediately,
block 2 the blocks 3 and 4. -/
def loopDom : Dom := domOf [(2, 1), (3, 2), (4, 2)]

/-- The dominator tree of `diamondGraph`: block 1 dominates the blocks 2, 3
and 4 immediately. -/
def diamondDom : Dom := domOf [(2, 1), (3, 1), (4, 1)]

/-- A diamond in which a value is reloaded: the start block 1 branches to the
blocks 2 and 3, which both jump to the end block 4. Block 2 defines the value
20, reloads it as node 23 and uses it in node 24, which follows the reload in
the schedule. The value is not used outside block 2. -/
def reloadGraph : Irg :=
  { graphOf
      [(1, [], [10, 11, 12]), (2, [some 11], [20, 23, 24, 21]), (3, [some 12], [30, 31]),
        (4, [some 21, some 31], [40])]
      [(10, NodeKind.Other, 1), (11, NodeKind.Other, 1), (12, NodeKind.Other, 1),
        (20, NodeKind.Other, 2), (21, NodeKind.Jmp, 2), (23, NodeKind.Other, 2),
        (24, NodeKind.Other, 2), (30, NodeKind.Other, 3), (31, NodeKind.Jmp, 3),
        (40, NodeKind.Other, 4), (41, NodeKind.End, 4)]
      (fun _ => none) (fun _ => 1) 1 4 41 with
    ins := fun n => if n = 24 then [Operand.node 20] else [] }

/-! ## The search for the valid copy: the notions of the specification -/

/-- The chain of immediate dominators that starts at a block and ends at the
block without an immediate dominator; `none` if it has more than `fuel`
blocks. -/
def idom_chain (dom : Dom) : Nat → Nat → Option (List Nat)
  | 0, _ => none
  | fuel + 1, bl =>
    match dom.idom bl with
    | none => some [bl]
    | some idom => (idom_chain dom fuel idom).map fun chain => bl :: chain

/-- The blocks of a chain with the part of the schedule that is searched in
each: `start` in the first block and the whole schedule in the others. -/
def search_segments (g : Irg) (start : List Nat) : List Nat → List (Nat × List Nat)
  | [] => []
  | bl :: chain => (bl, start) :: chain.map fun b => (b, g.sched b)

/-- A block is in the copy-block set and the part of its schedule that is
searched holds a member of the copy set. -/
def segment_holds (copies copy_blocks : List Nat) (seg : Nat × List Nat) : Bool :=
  decide (seg.1 ∈ copy_blocks) && seg.2.any fun irn => decide (irn ∈ copies)

/-- The result of the search as the specification describes it: a node is
the last member of the copy set in the first block of the chain that is in
the copy-block set and holds one; `NULL` says that there is no such block. -/
def SearchResult (copies copy_blocks : List Nat) (segs : List (Nat × List Nat)) :
    Option Nat → Prop
  | some irn =>
    irn ∈ copies ∧
      ∃ pre seg post, segs = pre ++ seg :: post ∧
        (∀ p ∈ pre, segment_holds copies copy_blocks p = false) ∧
        seg.1 ∈ copy_blocks ∧
        ∃ before after, seg.2 = before ++ irn :: after ∧ ∀ x ∈ after, x ∉ copies
  | none => ∀ p ∈ segs, segment_holds copies copy_blocks p = false

/-! ## The iterated dominance frontier: the notions of the specification -/

/-- The iterated dominance frontier of a set of blocks with respect to the
frontier sets of a map: the blocks in the frontier of a block of the set or
of a block of the iterated frontier. -/
inductive InIDF (df_map : Nat → Option (List Nat)) (s : List Nat) : Nat → Prop
  | base (b y : Nat) (df : List Nat) : b ∈ s → df_map b = some df → y ∈ df → InIDF df_map s y
  | step (b y : Nat) (df : List Nat) :
    InIDF df_map s b → df_map b = some df → y ∈ df → InIDF df_map s y

/-- What holds of the state of `place_phi_functions` at every point of its
loops, for the graph `g0`, the copy set `copies0` and the copy-block set
`s` at the call. -/
structure PhiInv (g0 : Irg) (df_map : Nat → Option (List Nat)) (orig : Nat)
    (copies0 s : List Nat) (st : PhiState) : Prop where
  nodup : st.phi_blocks.Nodup
  idf : ∀ y ∈ st.phi_blocks, InIDF df_map s y
  wl : ∀ b ∈ st.worklist, b ∈ s ∨ b ∈ st.phi_blocks
  cfg : st.g.cfgpreds = g0.cfgpreds
  nodes : ∃ phis, st.g.nodes = g0.nodes ++ phis ∧ phis.map st.g.nodesBlock = st.phi_blocks ∧
    (∀ phi ∈ phis, st.g.kind phi = NodeKind.Phi ∧
      st.g.ins phi =
        List.replicate (g0.cfgpreds (st.g.nodesBlock phi)).length (Operand.node orig) ∧
      phi ∉ g0.nodes) ∧
    ∀ x, x ∈ st.copies ↔ x ∈ copies0 ∨ x ∈ phis
  old : ∀ n ∈ g0.nodes,
    st.g.kind n = g0.kind n ∧ st.g.nodesBlock n = g0.nodesBlock n ∧ st.g.ins n = g0.ins n
  blocks : ∀ b, b ∈ st.copy_blocks ↔ b ∈ s ∨ b ∈ st.phi_blocks

/-- The frontier of a block has been looked at: it is defined and all its
blocks have a Phi. -/
def PhiDone (df_map : Nat → Option (List Nat)) (st : PhiState) (b : Nat) : Prop :=
  ∃ df, df_map b = some df ∧ ∀ y ∈ df, y ∈ st.phi_blocks

/-- The number of steps that the loop of `place_phi_functions` can still
take: the blocks in the worklist and the blocks without a Phi. -/
def phi_measure (blocks : List Nat) (st : PhiState) : Nat :=
  st.worklist.length + (blocks.toFinset \ st.phi_blocks.toFinset).card

/-- The dominance frontiers of the blocks of `loopGraph`: the loop header 2
is the frontier of itself and of the loop body 3. -/
def loopFrontiers (b : Nat) : Option (List Nat) :=
  [(1, []), (2, [2]), (3, [2]), (4, [])].lookup b

/-! ## The jump table of a `SwitchJmp` (`ia32_emitter.c`)

The types `int` and `long` have 32 bits, as on the ia32 machines the backend
is written for. A `SwitchJmp` is given by its out edges, the list of its Projs
with their numbers, and by the number of the default Proj. -/

/-- `INT_MAX` and `LONG_MAX` -/
def LONG_MAX : Int := 2147483647

/-- `INT_MIN` and `LONG_MIN` -/
def LONG_MIN : Int := -2147483648

/-- The value of an `int` after an operation: the result modulo `2 ^ 32`. -/
def wrapInt (x : Int) : Int := (x + 2147483648) % 4294967296 - 2147483648

/-- `branch_t` -/
structure Branch where
  target : Nat
  value : Int
  deriving DecidableEq, Repr

/-- `jmp_tbl_t` -/
structure JmpTbl where
  defProj : Option Nat
  min_value : Int
  max_value : Int
  num_branches : Int
  branches : List Branch

/-- `ia32_cmp_branch_t` -/
def ia32_cmp_branch_t (b1 b2 : Branch) : Int :=
  if b1.value ≤ b2.value then -1 else 1

/-- The body of the loop over the out edges in `generate_jump_table`. -/
def collect_proj (default_pn : Int) (tbl : JmpTbl) (proj : Nat × Int) : Option JmpTbl :=
  let pnc := proj.2
  if pnc = default_pn then
    if tbl.defProj.isSome then none else some { tbl with defProj := some proj.1 }
  else
    some { tbl with
      min_value := if pnc < tbl.min_value then pnc else tbl.min_value
      max_value := if pnc > tbl.max_value then pnc else tbl.max_value
      branches := tbl.branches ++ [Branch.mk proj.1 (wrapInt pnc)] }

/-- `generate_jump_table` -/
def generate_jump_table (projs : List (Nat × Int)) (default_pn : Int) : Option JmpTbl :=
  let num_branches : Int := (projs.length : Int) - 1
  match projs.foldlM (collect_proj default_pn) (JmpTbl.mk none LONG_MAX LONG_MIN num_branches [])
  with
  | none => none
  | some tbl =>
    if (tbl.branches.length : Int) = tbl.num_branches then
      some { tbl with branches := qsort_arr ia32_cmp_branch_t tbl.branches }
    else none

/-- The loop that emits the entries of the jump table, in `emit_ia32_SwitchJmp`
and in `bemit_switchjmp`: an entry is the Proj whose label is emitted. Every
entry takes one unit of fuel. -/
def emit_entries (defProj : Nat) : Nat → Int → List Branch → List Nat → Option (List Nat)
  | _, _, [], out => some out
  | 0, _, _ :: _, _ => none
  | fuel + 1, last_value, b :: rest, out =>
    if last_value ≠ b.value then
      emit_entries defProj fuel (wrapInt (last_value + 1)) (b :: rest) (out ++ [defProj])
    else emit_entries defProj fuel (wrapInt (last_value + 1)) rest (out ++ [b.target])

/-- What is emitted for a `SwitchJmp`: the comparison with `interval` and the
jump to the default target, then the jump through the table and the table, or
one jump. -/
inductive SwitchCode
  | table (interval : Nat) (defProj : Nat) (entries : List Nat)
  | jump (interval : Nat) (defProj : Nat) (target : Nat)
  deriving DecidableEq, Repr

/-- `emit_ia32_SwitchJmp` -/
def emit_ia32_SwitchJmp (projs : List (Nat × Int)) (default_pn : Int) (fuel : Nat) :
    Option SwitchCode :=
  match generate_jump_table projs default_pn with
  | none => none
  | some tbl =>
    match tbl.defProj with
    | none => none
    | some defProj =>
      let interval := ((tbl.max_value - tbl.min_value) % 4294967296).toNat
      if tbl.num_branches > 1 then
        match tbl.branches with
        | [] => none
        | b :: _ =>
          (emit_entries defProj fuel b.value tbl.branches []).map
            (SwitchCode.table interval defProj)
      else
        match tbl.branches with
        | [] => none
        | b :: _ => some (SwitchCode.jump interval defProj b.target)

/-- `bemit_switchjmp` -/
def bemit_switchjmp (projs : List (Nat × Int)) (default_pn : Int) (fuel : Nat) :
    Option SwitchCode :=
  match generate_jump_table projs default_pn with
  | none => none
  | some tbl =>
    match tbl.defProj with
    | none => none
    | some defProj =>
      let interval := ((tbl.max_value - tbl.min_value) % 4294967296).toNat
      if tbl.num_branches > 1 then
        match tbl.branches with
        | [] => none
        | b :: _ =>
          (emit_entries defProj fuel b.value tbl.branches []).map
            (SwitchCode.table interval defProj)
      else none

/-- The entry `k` of a jump table that starts at the case value `v`: the
target of the branch with the value `v + k`, the default target when there is
none. -/
def tableEntry (defProj : Nat) (branches : List Branch) (v : Int) (k : Nat) : Nat :=
  match branches.find? fun b => b.value = v + k with
  | some b => b.target
  | none => defProj

/-! ## Condition codes and conditional jumps (`ia32_emitter.c`, `arm_emitter.c`)

A condition code `pnc` is a non-negative `int`. The enumerators of `pn_Cmp`
and of `ir_relation`, the ia32 flags of a condition code and the functions of
the middle end that mirror and negate a condition are declared outside the
sources; they are inputs. -/

/-- What the binary emitter appends to the output stream. -/
inductive BItem
  /-- `bemit8`: the line `.byte` -/
  | byte (b : Nat)
  /-- `bemit16`: the line `.word` -/
  | word (w : Nat)
  /-- `bemit32`: the line `.long` -/
  | long (v : Nat)
  /-- `bemit_entity` for an entity: four bytes that hold the address of the
  entity, negated if `sign`, plus `offset`; relative to the end of the four
  bytes if `relative` -/
  | entity (ent : Nat) (sign : Bool) (offset : Int) (relative : Bool)
  /-- `bemit_jmp_destination`: four bytes that hold the distance to a block -/
  | jmp_destination (block : Nat)
  deriving DecidableEq, Repr

/-- The value of an `int` converted to `unsigned`. -/
def toUnsigned (x : Int) : Nat := (x % 4294967296).toNat

/-- `bemit8`; the argument is converted to `unsigned char`. -/
def bemit8 (byte : Nat) : BItem := BItem.byte (byte % 256)

/-- `bemit32`; the argument is converted to `unsigned`. -/
def bemit32 (u32 : Int) : BItem := BItem.long (toUnsigned u32)

/-- `bemit_entity` -/
def bemit_entity (entity : Option Nat) (entity_sign : Bool) (offset : Int)
    (is_relative : Bool) : BItem :=
  match entity with
  | none => bemit32 offset
  | some e => BItem.entity e entity_sign offset is_relative

/-- A line of assembler text, as far as the emitters of jumps produce it. -/
inductive AsmLine
  /-- an instruction whose operand is the label of a block, such as
  `jne %L` -/
  | branch (mnemonic : String) (target : Nat)
  /-- an instruction whose operand is a local label, `jp 1f` -/
  | branch_local (mnemonic : String) (label : String)
  /-- a local label, `1:` -/
  | local_label (label : String)
  /-- the comment `/* fallthrough to %L */` -/
  | fallthrough (target : Nat)
  deriving DecidableEq, Repr

/-- Whether the line is a branch instruction. -/
def AsmLine.isBranch : AsmLine → Bool
  | AsmLine.branch _ _ => true
  | AsmLine.branch_local _ _ => true
  | _ => false

/-- The constants and functions a condition code is built from. -/
structure CmpConsts where
  pn_Cmp_Eq : Nat
  pn_Cmp_Lt : Nat
  pn_Cmp_Le : Nat
  pn_Cmp_Gt : Nat
  pn_Cmp_Ge : Nat
  pn_Cmp_Lg : Nat
  pn_Cmp_Leg : Nat
  pn_Cmp_Uo : Nat
  pn_Cmp_Ug : Nat
  pn_Cmp_Uge : Nat
  pn_Cmp_Ne : Nat
  ia32_pn_Cmp_unsigned : Nat
  ia32_pn_Cmp_float : Nat
  ia32_pn_Cmp_parity : Nat
  /-- `get_mirrored_pnc` -/
  get_mirrored_pnc : Nat → Nat
  /-- `get_negated_pnc`; the second argument tells whether the mode is a
  floating-point mode -/
  get_negated_pnc : Nat → Bool → Nat

/-- The enumerators of `pn_Cmp` have the positions that the comments of
`cmp2condition_s` give to the relations. -/
def CmpConsts.Positional (K : CmpConsts) : Prop :=
  K.pn_Cmp_Eq = 1 ∧ K.pn_Cmp_Lt = 2 ∧ K.pn_Cmp_Le = 3 ∧ K.pn_Cmp_Gt = 4 ∧ K.pn_Cmp_Ge = 5 ∧
    K.pn_Cmp_Lg = 6

/-- `cmp2condition_s`; `none` is `NULL`. -/
def cmp2condition_s : List (Option String) :=
  [none, some "e", some "l", some "le", some "g", some "ge", some "ne", none]

/-- `cmp2condition_u`; `none` is `NULL`. -/
def cmp2condition_u : List (Option String) :=
  [none, some "e", some "b", some "be", some "a", some "ae", some "ne", none]

/-- `ia32_emit_cmp_suffix`: the text that is emitted; `be_emit_string(NULL)`
is the result `none`. -/
def ia32_emit_cmp_suffix (K : CmpConsts) (pnc : Nat) : Option String :=
  if pnc = K.ia32_pn_Cmp_parity then some "p"
  else if pnc &&& K.ia32_pn_Cmp_float ≠ 0 ∨ pnc &&& K.ia32_pn_Cmp_unsigned ≠ 0 then
    cmp2condition_u.getD (pnc &&& 7) none
  else cmp2condition_s.getD (pnc &&& 7) none

/-- `pnc_map_signed` after `build_reg_map`. -/
def pnc_map_signed (K : CmpConsts) : Nat → Nat :=
  Function.update (Function.update (Function.update (Function.update (Function.update
    (Function.update (fun _ => 0) K.pn_Cmp_Eq 0x04) K.pn_Cmp_Lt 0x0C) K.pn_Cmp_Le 0x0E)
    K.pn_Cmp_Gt 0x0F) K.pn_Cmp_Ge 0x0D) K.pn_Cmp_Lg 0x05

/-- `pnc_map_unsigned` after `build_reg_map`. -/
def pnc_map_unsigned (K : CmpConsts) : Nat → Nat :=
  Function.update (Function.update (Function.update (Function.update (Function.update
    (Function.update (fun _ => 0) K.pn_Cmp_Eq 0x04) K.pn_Cmp_Lt 0x02) K.pn_Cmp_Le 0x06)
    K.pn_Cmp_Gt 0x07) K.pn_Cmp_Ge 0x03) K.pn_Cmp_Lg 0x05

/-- `pnc2cc` -/
def pnc2cc (K : CmpConsts) (pnc : Nat) : Option Nat :=
  let cc :=
    if pnc = K.ia32_pn_Cmp_parity then 0x0A
    else if pnc &&& K.ia32_pn_Cmp_float ≠ 0 ∨ pnc &&& K.ia32_pn_Cmp_unsigned ≠ 0 then
      pnc_map_unsigned K (pnc &&& 0x07)
    else pnc_map_signed K (pnc &&& 0x07)
  if cc = 0 then none else some cc

/-- The encoding of an IA-32 condition, by the suffix of its mnemonic. -/
def conditionEncoding (suffix : String) : Option Nat :=
  [("e", 0x4), ("ne", 0x5), ("b", 0x2), ("ae", 0x3), ("be", 0x6), ("a", 0x7), ("l", 0xC),
    ("ge", 0xD), ("le", 0xE), ("g", 0xF), ("p", 0xA)].lookup suffix

/-- The node that sets the flags a conditional jump reads. -/
inductive FlagsKind
  /-- an `ia32_Sahf`; the attributes are those of the floating-point compare
  behind it -/
  | sahf
  /-- an `ia32_Ucomi`, `ia32_Fucomi` or `ia32_Fucompi` -/
  | ucomi
  | other
  deriving DecidableEq, Repr

/-- The attributes of the node that sets the flags. -/
structure FlagsAttr where
  kind : FlagsKind
  ins_permuted : Bool
  cmp_unsigned : Bool

/-- `determine_final_pnc` -/
def determine_final_pnc (K : CmpConsts) (flags : FlagsAttr) (pnc : Nat) : Nat :=
  let pnc1 := if flags.ins_permuted then K.get_mirrored_pnc pnc else pnc
  match flags.kind with
  | FlagsKind.sahf => pnc1 ||| K.ia32_pn_Cmp_float
  | FlagsKind.ucomi => pnc1 ||| K.ia32_pn_Cmp_float
  | FlagsKind.other => if flags.cmp_unsigned then pnc1 ||| K.ia32_pn_Cmp_unsigned else pnc1

/-- `ia32_get_negated_pnc` -/
def ia32_get_negated_pnc (K : CmpConsts) (pnc : Nat) : Nat :=
  K.get_negated_pnc pnc (pnc &&& K.ia32_pn_Cmp_float ≠ 0)

/-- An `ia32_Jcc` with its Projs: the target blocks of the Proj `true` and of
the Proj `false` (`none` if there is no such Proj). -/
structure JccNode where
  condcode : Nat
  flags : FlagsAttr
  block : Nat
  true_target : Option Nat
  false_target : Option Nat

/-- `can_be_fallthrough` for a Proj in `block` with the target block
`target`; `prev` is `get_prev_block_sched`. -/
def can_be_fallthrough (prev : Nat → Option Nat) (block target : Nat) : Bool :=
  prev target = some block

/-- The line `j%P %L` of `emit_ia32_Jcc`. -/
def emit_jcc_line (K : CmpConsts) (pnc target : Nat) : Option (List AsmLine) :=
  (ia32_emit_cmp_suffix K pnc).map fun s => [AsmLine.branch ("j" ++ s) target]

/-- `emit_ia32_Jcc` -/
def emit_ia32_Jcc (K : CmpConsts) (prev : Nat → Option Nat) (node : JccNode) :
    Option (List AsmLine) :=
  let pnc0 := determine_final_pnc K node.flags node.condcode
  match node.true_target, node.false_target with
  | some t0, some f0 =>
    let swap := can_be_fallthrough prev node.block t0
    let proj_true := if swap then f0 else t0
    let proj_false := if swap then t0 else f0
    let pnc := if swap then ia32_get_negated_pnc K pnc0 else pnc0
    let false_falls := can_be_fallthrough prev node.block proj_false
    let jumps : Option (List AsmLine × Bool) :=
      if pnc &&& K.ia32_pn_Cmp_float ≠ 0 then
        if pnc &&& 0x0f = K.pn_Cmp_Uo then some ([AsmLine.branch "jp" proj_true], false)
        else if pnc &&& 0x0f = K.pn_Cmp_Leg then some ([AsmLine.branch "jnp" proj_true], false)
        else if pnc &&& 0x0f = K.pn_Cmp_Eq ∨ pnc &&& 0x0f = K.pn_Cmp_Lt ∨
            pnc &&& 0x0f = K.pn_Cmp_Le then
          (emit_jcc_line K pnc proj_true).map fun l =>
            if false_falls then (AsmLine.branch_local "jp" "1f" :: l, true)
            else (AsmLine.branch "jp" proj_false :: l, false)
        else if pnc &&& 0x0f = K.pn_Cmp_Ug ∨ pnc &&& 0x0f = K.pn_Cmp_Uge ∨
            pnc &&& 0x0f = K.pn_Cmp_Ne then
          (emit_jcc_line K pnc proj_true).map fun l => (AsmLine.branch "jp" proj_true :: l, false)
        else (emit_jcc_line K pnc proj_true).map fun l => (l, false)
      else (emit_jcc_line K pnc proj_true).map fun l => (l, false)
    jumps.map fun r =>
      r.1 ++ (if r.2 then [AsmLine.local_label "1"] else []) ++
        (if false_falls then [AsmLine.fallthrough proj_false]
          else [AsmLine.branch "jmp" proj_false])
  | _, _ => none

/-- `bemit_jmp` -/
def bemit_jmp (dest_block : Nat) : List BItem :=
  [bemit8 0xE9, BItem.jmp_destination dest_block]

/-- `bemit_jcc` -/
def bemit_jcc (K : CmpConsts) (pnc dest_block : Nat) : Option (List BItem) :=
  (pnc2cc K pnc).map fun cc => [bemit8 0x0F, bemit8 (0x80 + cc), BItem.jmp_destination dest_block]

/-- `bemit_jp` -/
def bemit_jp (odd : Bool) (dest_block : Nat) : List BItem :=
  [bemit8 0x0F, bemit8 (0x8A + (if odd then 1 else 0)), BItem.jmp_destination dest_block]

/-- `bemit_ia32_jcc` -/
def bemit_ia32_jcc (K : CmpConsts) (prev : Nat → Option Nat) (node : JccNode) :
    Option (List BItem) :=
  let pnc0 := determine_final_pnc K node.flags node.condcode
  match node.true_target, node.false_target with
  | some t0, some f0 =>
    let swap := can_be_fallthrough prev node.block t0
    let dest_true := if swap then f0 else t0
    let dest_false := if swap then t0 else f0
    let pnc := if swap then ia32_get_negated_pnc K pnc0 else pnc0
    let false_falls := can_be_fallthrough prev node.block dest_false
    let jumps : Option (List BItem) :=
      if pnc &&& K.ia32_pn_Cmp_float ≠ 0 then
        if pnc &&& 15 = K.pn_Cmp_Uo then some (bemit_jp false dest_true)
        else if pnc &&& 15 = K.pn_Cmp_Leg then some (bemit_jp true dest_true)
        else if pnc &&& 15 = K.pn_Cmp_Eq ∨ pnc &&& 15 = K.pn_Cmp_Lt ∨
            pnc &&& 15 = K.pn_Cmp_Le then
          (bemit_jcc K pnc dest_true).map fun l =>
            (if false_falls then [bemit8 0x7A, bemit8 0x06] else bemit_jp false dest_false) ++ l
        else if pnc &&& 15 = K.pn_Cmp_Ug ∨ pnc &&& 15 = K.pn_Cmp_Uge ∨
            pnc &&& 15 = K.pn_Cmp_Ne then
          (bemit_jcc K pnc dest_true).map fun l => bemit_jp false dest_true ++ l
        else bemit_jcc K pnc dest_true
      else bemit_jcc K pnc dest_true
    jumps.map fun l => l ++ (if false_falls then [] else bemit_jmp dest_false)
  | _, _ => none

/-- The enumerators of `ir_relation` and the functions on relations that
`emit_arm_B` uses. -/
structure RelConsts where
  ir_relation_false : Nat
  ir_relation_equal : Nat
  ir_relation_less : Nat
  ir_relation_less_equal : Nat
  ir_relation_greater : Nat
  ir_relation_greater_equal : Nat
  ir_relation_less_greater : Nat
  ir_relation_less_equal_greater : Nat
  ir_relation_true : Nat
  get_inversed_relation : Nat → Nat
  get_negated_relation : Nat → Nat

/-- An `arm_B` with its Projs and the attributes of the compare that sets the
flags: the target blocks of the Proj `true` and of the other Proj (`none` if
there is no such Proj). -/
structure ArmBNode where
  relation : Nat
  ins_permuted : Bool
  is_unsigned : Bool
  block : Nat
  true_target : Option Nat
  false_target : Option Nat

/-- The `switch` of `emit_arm_B` that selects the suffix of the branch;
`none` is the `panic`. -/
def arm_branch_suffix (R : RelConsts) (is_signed : Bool) (relation : Nat) : Option String :=
  let r := relation &&& R.ir_relation_less_equal_greater
  if r = R.ir_relation_equal then some "eq"
  else if r = R.ir_relation_less then some (if is_signed then "lt" else "lo")
  else if r = R.ir_relation_less_equal then some (if is_signed then "le" else "ls")
  else if r = R.ir_relation_greater then some (if is_signed then "gt" else "hi")
  else if r = R.ir_relation_greater_equal then some (if is_signed then "ge" else "hs")
  else if r = R.ir_relation_less_greater then some "ne"
  else if r = R.ir_relation_less_equal_greater then some "al"
  else none

/-- `emit_arm_B`; `next` is `sched_next_block` and `verbose_asm` is
`be_options.verbose_asm`. -/
def emit_arm_B (R : RelConsts) (next : Nat → Option Nat) (verbose_asm : Bool)
    (irn : ArmBNode) : Option (List AsmLine) :=
  match irn.true_target, irn.false_target with
  | some t0, some f0 =>
    let relation0 :=
      if irn.ins_permuted then R.get_inversed_relation irn.relation else irn.relation
    let next_block := next irn.block
    if relation0 = R.ir_relation_false ∨ relation0 = R.ir_relation_true then none
    else
      let swap : Bool := some t0 = next_block
      let proj_true := if swap then f0 else t0
      let proj_false := if swap then t0 else f0
      let relation := if swap then R.get_negated_relation relation0 else relation0
      (arm_branch_suffix R (!irn.is_unsigned) relation).map fun suffix =>
        AsmLine.branch ("b" ++ suffix) proj_true ::
          (if some proj_false = next_block then
            (if verbose_asm then [AsmLine.fallthrough proj_false] else [])
          else [AsmLine.branch "b" proj_false])
  | _, _ => none

/-! ## Condition codes used as concrete inputs -/

/-- The condition codes of libFirm: the relations `Eq`, `Lt`, `Le`, `Gt`,
`Ge`, `Lg` are the numbers 1 to 6, bit 3 is `Uo`; mirroring exchanges the bits
of `Lt` and `Gt`, negating inverts the four bits of the relation and clears
`Uo` for a mode that is not a floating-point mode. -/
def firmCmpConsts : CmpConsts where
  pn_Cmp_Eq := 1
  pn_Cmp_Lt := 2
  pn_Cmp_Le := 3
  pn_Cmp_Gt := 4
  pn_Cmp_Ge := 5
  pn_Cmp_Lg := 6
  pn_Cmp_Leg := 7
  pn_Cmp_Uo := 8
  pn_Cmp_Ug := 12
  pn_Cmp_Uge := 13
  pn_Cmp_Ne := 14
  ia32_pn_Cmp_unsigned := 0x1000
  ia32_pn_Cmp_float := 0x2000
  ia32_pn_Cmp_parity := 0x4000
  get_mirrored_pnc := fun pnc =>
    (pnc &&& 0xFFFFFFF9) ||| (if pnc &&& 4 ≠ 0 then 2 else 0) ||| (if pnc &&& 2 ≠ 0 then 4 else 0)
  get_negated_pnc := fun pnc is_float =>
    if is_float then pnc ^^^ 15 else (pnc ^^^ 15) &&& 0xFFFFFFF7

/-- The relations of libFirm: `equal`, `less`, `greater` and `unordered` are
the bits 0 to 3; inversion exchanges `less` and `greater`, negation inverts
the four bits. -/
def firmRelConsts : RelConsts where
  ir_relation_false := 0
  ir_relation_equal := 1
  ir_relation_less := 2
  ir_relation_less_equal := 3
  ir_relation_greater := 4
  ir_relation_greater_equal := 5
  ir_relation_less_greater := 6
  ir_relation_less_equal_greater := 7
  ir_relation_true := 15
  get_inversed_relation := fun r =>
    (r &&& 9) ||| (if r &&& 4 ≠ 0 then 2 else 0) ||| (if r &&& 2 ≠ 0 then 4 else 0)
  get_negated_relation := fun r => r ^^^ 15

/-- The jump `if a < b` (signed) in block 1 with the true target 2 and the
false target 3. -/
def jccLess : JccNode :=
  JccNode.mk 2 (FlagsAttr.mk FlagsKind.other false false) 1 (some 2) (some 3)

/-- The ARM branch `if a < b` (signed) in block 1 with the true target 2 and
the false target 3. -/
def armBLess : ArmBNode :=
  ArmBNode.mk 2 false false 1 (some 2) (some 3)

/-- The block schedule 1, 2, 3 as `get_prev_block_sched`. -/
def prevOf123 (b : Nat) : Option Nat :=
  if b = 2 then some 1 else if b = 3 then some 2 else none

/-- The block schedule 1, 2, 3 as `sched_next_block`. -/
def nextOf123 (b : Nat) : Option Nat :=
  if b = 1 then some 2 else if b = 2 then some 3 else none

/-! ## Address modes and immediates (`ia32_emitter.c`)

A register operand is one of the eight general-purpose registers; an input
that is the node `NoReg_GP` is `none`. -/

/-- The general-purpose registers of `reg_gp_map`. -/
inductive Reg
  | eax | ecx | edx | ebx | esp | ebp | esi | edi
  deriving DecidableEq, Repr

/-- `reg_gp_map` after `build_reg_map`. -/
def reg_gp_map : Reg → Nat
  | Reg.eax => 0x0
  | Reg.ecx => 0x1
  | Reg.edx => 0x2
  | Reg.ebx => 0x3
  | Reg.esp => 0x4
  | Reg.ebp => 0x5
  | Reg.esi => 0x6
  | Reg.edi => 0x7

/-- `arch_register_get_name` -/
def Reg.name : Reg → String
  | Reg.eax => "eax"
  | Reg.ecx => "ecx"
  | Reg.edx => "edx"
  | Reg.ebx => "ebx"
  | Reg.esp => "esp"
  | Reg.ebp => "ebp"
  | Reg.esi => "esi"
  | Reg.edi => "edi"

/-- `ia32_op_type_t` -/
inductive OpType
  | Normal | AddrModeD | AddrModeS
  deriving DecidableEq, Repr

/-- `ia32_immediate_attr_t` -/
structure ImmAttr where
  symconst : Option Nat
  sc_sign : Bool
  no_pic_adjust : Bool
  offset : Int

/-- The attributes and the register bindings of an ia32 node that the
emitters of address modes and of binary operations read. -/
structure Ia32Node where
  /-- `get_ia32_am_sc` -/
  am_sc : Option Nat
  /-- `is_ia32_am_sc_sign` -/
  am_sc_sign : Bool
  am_sc_no_pic_adjust : Bool
  /-- `get_ia32_am_offs_int` -/
  am_offs : Int
  /-- the register of the input `n_ia32_base` -/
  base : Option Reg
  /-- the register of the input `n_ia32_index` -/
  index : Option Reg
  /-- `get_ia32_am_scale` -/
  am_scale : Nat
  /-- `is_ia32_use_frame` -/
  use_frame : Bool
  /-- `get_ia32_frame_ent` -/
  frame_ent : Option Nat
  /-- `get_ia32_op_type` -/
  op_type : OpType
  /-- the register of the input `n_ia32_binary_left` -/
  left : Option Reg
  /-- the attributes of the Immediate at the input `n_ia32_binary_right` -/
  imm : ImmAttr

/-- What the text emitter knows about entities and about the output: the name
`be_gas_emit_entity` prints, whether the owner of the entity is the TLS type,
whether its visibility is external, `do_pic` and `pic_base_label`. -/
structure EmitEnv where
  entity_name : Nat → String
  is_tls : Nat → Bool
  is_external : Nat → Bool
  do_pic : Bool
  pic_base_label : String

/-- The conversion `%d` of `printf`. -/
def fmt_d (x : Int) : String := toString x

/-- The conversion `%+d` of `printf`. -/
def fmt_plus_d (x : Int) : String := if 0 ≤ x then "+" ++ toString x else toString x

/-- `emit_register(reg, NULL)` -/
def emit_register (reg : Reg) : String := "%" ++ reg.name

/-- `ia32_emit_entity` -/
def ia32_emit_entity (env : EmitEnv) (entity : Nat) (no_pic_adjust : Bool) : String :=
  env.entity_name entity ++
    (if env.is_tls entity then (if env.is_external entity then "@INDNTPOFF" else "@NTPOFF")
      else "") ++
    (if env.do_pic ∧ ¬ no_pic_adjust then "-" ++ env.pic_base_label else "")

/-- The part of `ia32_emit_am` that emits the entity. -/
def emit_am_entity (env : EmitEnv) (node : Ia32Node) : String :=
  match node.am_sc with
  | some ent =>
    (if node.am_sc_sign then "-" else "") ++ ia32_emit_entity env ent node.am_sc_no_pic_adjust
  | none => ""

/-- The part of `ia32_emit_am` that emits the offset. -/
def emit_am_offset (node : Ia32Node) : String :=
  if node.am_offs ≠ 0 ∨ (node.am_sc = none ∧ node.base = none ∧ node.index = none) then
    if node.am_sc ≠ none then fmt_plus_d node.am_offs else fmt_d node.am_offs
  else ""

/-- The part of `ia32_emit_am` that emits the registers. -/
def emit_am_registers (node : Ia32Node) : String :=
  if node.base ≠ none ∨ node.index ≠ none then
    "(" ++
      (match node.base with
        | some reg => emit_register reg
        | none => "") ++
      (match node.index with
        | some reg =>
          "," ++ emit_register reg ++
            (if node.am_scale > 0 then "," ++ fmt_d (1 <<< node.am_scale : Nat) else "")
        | none => "") ++
      ")"
  else ""

/-- `ia32_emit_am`: the text that is emitted. -/
def ia32_emit_am (env : EmitEnv) (node : Ia32Node) : Option String :=
  if node.use_frame ∧ node.frame_ent = none then none
  else some (emit_am_entity env node ++ emit_am_offset node ++ emit_am_registers node)

/-- `get_signed_imm_size` -/
def get_signed_imm_size (offset : Int) : Nat :=
  if -128 ≤ offset ∧ offset < 128 then 1
  else if -32768 ≤ offset ∧ offset < 32768 then 2
  else 4

/-- `bemit_modru` -/
def bemit_modru (reg : Reg) (ext : Nat) : Option (List BItem) :=
  if ext ≤ 7 then some [bemit8 (0xC0 ||| reg_gp_map reg ||| (ext <<< 3))] else none

/-- The state of `bemit_mod_am` before the bytes are emitted. -/
structure ModAm where
  modrm : Nat
  sib : Nat
  emitoffs : Nat
  emitsib : Bool
  base_enc : Nat

/-- `bemit_mod_am` up to the statement `modrm |= ENC_REG(reg)`. -/
def mod_am_fields (reg : Nat) (node : Ia32Node) : Option ModAm :=
  -- set the mod part depending on displacement
  let s1 : Nat × Nat :=
    if node.am_sc ≠ none then (0x80, 32)
    else if node.am_offs = 0 then (0x00, 0)
    else if -128 ≤ node.am_offs ∧ node.am_offs < 128 then (0x40, 8)
    else (0x80, 32)
  let s2 : Nat × Nat × Nat :=
    match node.base with
    | some base_reg => (s1.1, reg_gp_map base_reg, s1.2)
    | none => (0x00, 0x05, 32)
  let modrm := s2.1
  let base_enc := s2.2.1
  let emitoffs := s2.2.2
  -- determine if we need a SIB byte
  let s3 : Option (Nat × Nat × Bool) :=
    match node.index with
    | some reg_index =>
      if node.am_scale < 4 then
        some (modrm ||| 0x04,
          (node.am_scale <<< 6) ||| (reg_gp_map reg_index <<< 3) ||| base_enc, true)
      else none
    | none =>
      if base_enc = 0x04 then some (modrm ||| 0x04, (0 <<< 6) ||| (0x04 <<< 3) ||| 0x04, true)
      else some (modrm ||| base_enc, 0, false)
  s3.map fun s =>
    let s4 : Nat × Nat :=
      if base_enc = 0x05 ∧ emitoffs = 0 then (s.1 ||| 0x40, 8) else (s.1, emitoffs)
    ModAm.mk (s4.1 ||| (reg <<< 3)) s.2.1 s4.2 s.2.2 base_enc

/-- `bemit_mod_am` -/
def bemit_mod_am (reg : Nat) (node : Ia32Node) : Option (List BItem) :=
  (mod_am_fields reg node).map fun m =>
    [bemit8 m.modrm] ++ (if m.emitsib then [bemit8 m.sib] else []) ++
      (if m.emitoffs = 8 then [bemit8 (toUnsigned node.am_offs)]
        else if m.emitoffs = 32 then [bemit_entity node.am_sc node.am_sc_sign node.am_offs false]
        else [])

/-- `bemit_binop_with_imm` -/
def bemit_binop_with_imm (node : Ia32Node) (opcode_ax opcode ruval : Nat) :
    Option (List BItem) :=
  let attr := node.imm
  let size := if attr.symconst ≠ none ∨ opcode &&& 2 ≠ 0 then 4 else get_signed_imm_size attr.offset
  if size = 1 then
    (if node.op_type = OpType.AddrModeS then bemit_mod_am ruval node
      else
        match node.left with
        | some reg => bemit_modru reg ruval
        | none => none).map fun l =>
      [bemit8 (opcode ||| 2)] ++ l ++ [bemit8 (toUnsigned attr.offset)]
  else if size = 2 ∨ size = 4 then
    (if node.op_type = OpType.AddrModeS then
        (bemit_mod_am ruval node).map fun l => bemit8 opcode :: l
      else
        match node.left with
        | some reg =>
          if reg = Reg.eax then some [bemit8 opcode_ax]
          else (bemit_modru reg ruval).map fun l => bemit8 opcode :: l
        | none => none).map fun l =>
      l ++ [bemit_entity attr.symconst attr.sc_sign attr.offset false]
  else none

/-! ### Reading an address back

The rules of the IA-32 architecture for an operand in memory with 32-bit
addressing: the ModR/M byte, the SIB byte and the displacement. -/

/-- An operand in memory: base register, index register with its scale factor,
displacement. -/
structure MemOperand where
  base : Option Reg
  index : Option (Reg × Nat)
  disp : Int
  deriving DecidableEq, Repr

/-- The register with the given number in a ModR/M or SIB byte. -/
def regOfEncoding (n : Nat) : Option Reg :=
  [Reg.eax, Reg.ecx, Reg.edx, Reg.ebx, Reg.esp, Reg.ebp, Reg.esi, Reg.edi].get? n

/-- A byte as a signed number. -/
def signExtend8 (b : Nat) : Int := if b < 128 then b else (b : Int) - 256

/-- Four bytes as a signed number. -/
def signExtend32 (v : Nat) : Int := if v < 2147483648 then v else (v : Int) - 4294967296

/-- The displacement that follows the ModR/M and SIB bytes: none for `mod` 0,
a byte for `mod` 1, four bytes for `mod` 2 or if `force32`. -/
def decodeDisp (mod : Nat) (force32 : Bool) (rest : List BItem) : Option Int :=
  if force32 ∨ mod = 2 then
    match rest with
    | [BItem.long v] => some (signExtend32 v)
    | _ => none
  else if mod = 1 then
    match rest with
    | [BItem.byte d] => some (signExtend8 d)
    | _ => none
  else
    match rest with
    | [] => some 0
    | _ => none

/-- The field `reg` and the operand in memory that a ModR/M byte, the SIB
byte and the displacement denote; `none` if the bytes are not the encoding of
an operand in memory. -/
def decodeModRM (items : List BItem) : Option (Nat × MemOperand) :=
  match items with
  | BItem.byte m :: rest =>
    let mod := m / 64
    let reg := m / 8 % 8
    let rm := m % 8
    if 256 ≤ m ∨ mod = 3 then none
    else if rm = 4 then
      match rest with
      | BItem.byte s :: rest2 =>
        let ss := s / 64
        let idx := s / 8 % 8
        let b := s % 8
        if 256 ≤ s then none
        else
          let index := if idx = 4 then none else (regOfEncoding idx).map fun r => (r, 2 ^ ss)
          let noBase : Bool := b = 5 ∧ mod = 0
          (decodeDisp mod noBase rest2).map fun d =>
            (reg, MemOperand.mk (if noBase then none else regOfEncoding b) index d)
      | _ => none
    else if rm = 5 ∧ mod = 0 then
      (decodeDisp mod true rest).map fun d => (reg, MemOperand.mk none none d)
    else (decodeDisp mod false rest).map fun d => (reg, MemOperand.mk (regOfEncoding rm) none d)
  | _ => none

/-- An operand in memory in the syntax of the assembler,
`disp(base,index,scale)`: the displacement is left out if it is 0 and a
register follows, the scale factor is left out if it is 1. -/
def attOperand (m : MemOperand) : String :=
  (if m.disp ≠ 0 ∨ (m.base = none ∧ m.index = none) then toString m.disp else "") ++
    (if m.base ≠ none ∨ m.index ≠ none then
      "(" ++
        (match m.base with
          | some r => "%" ++ r.name
          | none => "") ++
        (match m.index with
          | some (r, factor) =>
            "," ++ ("%" ++ r.name) ++ (if factor ≠ 1 then "," ++ toString factor else "")
          | none => "") ++
        ")"
    else "")

/-! ### Address modes used as concrete inputs -/

/-- A node with the address mode `offs(base,index,2^scale)` without symbol;
its left operand is EBX and its immediate is 5. -/
def amNode (base index : Option Reg) (scale : Nat) (offs : Int) : Ia32Node where
  am_sc := none
  am_sc_sign := false
  am_sc_no_pic_adjust := false
  am_offs := offs
  base := base
  index := index
  am_scale := scale
  use_frame := false
  frame_ent := none
  op_type := OpType.AddrModeS
  left := some Reg.ebx
  imm := ImmAttr.mk none false false 5

/-- The address mode `8(%ebp)`. -/
def exampleAm : Ia32Node := amNode (some Reg.ebp) none 0 8

/-- The address mode `-4(%ebx,%esi,4)`. -/
def exampleAmIndex : Ia32Node := amNode (some Reg.ebx) (some Reg.esi) 2 (-4)

/-- An environment in which entity `n` is called `sym`, no entity is
thread-local and the code is not position-independent. -/
def exampleEnv : EmitEnv := EmitEnv.mk (fun _ => "sym") (fun _ => false) (fun _ => false) false ""

/-! ### Sizes of the emitted items -/

/-- The number of bytes an item of the output stream stands for: `.byte`,
`.word`, `.long`, and four bytes for an address or a jump distance. -/
def BItem.size : BItem → Nat
  | BItem.byte _ => 1
  | BItem.word _ => 2
  | BItem.long _ => 4
  | BItem.entity _ _ _ _ => 4
  | BItem.jmp_destination _ => 4

/-- What `bemit_binop_with_imm` emits for the operand that is not the
immediate: the address mode of the node, or the ModR/M byte of the register
of the input `n_ia32_binary_left`. -/
def binop_operand (node : Ia32Node) (ruval : Nat) : Option (List BItem) :=
  if node.op_type = OpType.AddrModeS then bemit_mod_am ruval node
  else
    match node.left with
    | some reg => bemit_modru reg ruval
    | none => none

/-- The instruction `add $5, %ebx`. -/
def exampleAddImm : Ia32Node :=
  { amNode none none 0 0 with op_type := OpType.Normal }

/-! ## The constant pool of the ARM emitter (`arm_emitter.c`)

Entities and tarvals are pointers; a pointer is a number. The map `pmap`,
the accessors of a tarval and `round_up2` are declared outside the sources;
they are inputs. The list that starts at `ent_or_tv_first` and is linked by
`next` is the list of its entries. -/

/-- `ent_or_tv_t` without the field `next`: `u` is the pointer `u.generic`. -/
structure ent_or_tv_t where
  u : Nat
  label : Nat
  is_entity : Bool
  deriving DecidableEq, Repr

/-- The operations of `pmap` on a representation `M` of maps from pointers to
entries. -/
structure PMapOps (M : Type) where
  pmap_create : M
  pmap_get : M → Nat → Option ent_or_tv_t
  pmap_insert : M → Nat → ent_or_tv_t → M

/-- What a map does: nothing is found in a new map, and after an insertion
the inserted key is found with the inserted value while the other keys are
as before. -/
def PMapOps.Lawful {M : Type} (P : PMapOps M) : Prop :=
  (∀ k, P.pmap_get P.pmap_create k = none) ∧
  (∀ m k v k2, P.pmap_get (P.pmap_insert m k v) k2 =
    if k2 = k then some v else P.pmap_get m k2)

/-- The statics `ent_or_tv`, `ent_or_tv_first` with `ent_or_tv_anchor`, and
the static `id` of `get_unique_label`. -/
structure PoolState (M : Type) where
  ent_or_tv : M
  ent_or_tv_first : List ent_or_tv_t
  id : Nat

/-- `get_unique_label` of `arm_emitter.c`: the label and the new value of
`id`, an `unsigned`. -/
def arm_get_unique_label (id : Nat) : Nat × Nat :=
  let id1 := (id + 1) % 4294967296
  (id1, id1)

/-- `get_ent_or_tv_entry`: the entry and the state after the call. -/
def get_ent_or_tv_entry {M : Type} (P : PMapOps M) (st : PoolState M) (key : ent_or_tv_t) :
    ent_or_tv_t × PoolState M :=
  match P.pmap_get st.ent_or_tv key.u with
  | some entry => (entry, st)
  | none =>
    let l := arm_get_unique_label st.id
    let entry : ent_or_tv_t := { key with label := l.1 }
    (entry,
      { ent_or_tv := P.pmap_insert st.ent_or_tv key.u entry
        ent_or_tv_first := st.ent_or_tv_first ++ [entry]
        id := l.2 })

/-- The state at the beginning of `arm_emit_function`; `id` keeps the value it
has. -/
def pool_init {M : Type} (P : PMapOps M) (id : Nat) : PoolState M :=
  { ent_or_tv := P.pmap_create, ent_or_tv_first := [], id := id }

/-- The calls of `get_ent_or_tv_entry` that the emitters of the nodes make,
one after the other: the entries that are returned and the state at the
end. -/
def request_entries {M : Type} (P : PMapOps M) :
    PoolState M → List ent_or_tv_t → List ent_or_tv_t × PoolState M
  | st, [] => ([], st)
  | st, key :: keys =>
    let r := get_ent_or_tv_entry P st key
    let rest := request_entries P r.2 keys
    (r.1 :: rest.1, rest.2)

/-- The accessors of a tarval and the macro `round_up2`. -/
structure TarvalOps where
  get_tarval_mode : Nat → Nat
  get_mode_size_bytes : Nat → Nat
  get_tarval_sub_bits : Nat → Nat → Nat
  round_up2 : Nat → Nat → Nat

/-- A line of the constant pool. -/
inductive PoolLine
  /-- `.align 2` -/
  | align
  /-- the label of `emit_constant_name`, followed by a colon -/
  | constant_name (label : Nat)
  /-- `.word` with the name of an entity -/
  | word_entity (entity : Nat)
  /-- `.word` with a number -/
  | word (v : Nat)
  /-- the empty line at the end -/
  | blank
  deriving DecidableEq, Repr

/-- The statement `--vi` for an `unsigned`. -/
def decr_unsigned (vi : Nat) : Nat := (vi + 4294967295) % 4294967296

/-- The loop `for (unsigned vi = ...; vi != 0;)` of `arm_emit_function`: the
values `v` that are printed; one unit of fuel for an iteration. -/
def emit_tarval_words (sub_bits : Nat → Nat) : Nat → Nat → Option (List Nat)
  | fuel, vi =>
    if vi = 0 then some []
    else
      match fuel with
      | 0 => none
      | fuel + 1 =>
        let vi1 := decr_unsigned vi
        let vi2 := decr_unsigned vi1
        let vi3 := decr_unsigned vi2
        let vi4 := decr_unsigned vi3
        let v := ((sub_bits vi1 <<< 24) ||| (sub_bits vi2 <<< 16) ||| (sub_bits vi3 <<< 8) |||
          (sub_bits vi4 <<< 0)) % 4294967296
        (emit_tarval_words sub_bits fuel vi4).map fun l => v :: l

/-- The body of the loop over the constant pool in `arm_emit_function`: the
lines of one entry. The loop over the bytes is run with as much fuel as the
number of bytes. -/
def emit_pool_entry (T : TarvalOps) (entry : ent_or_tv_t) : Option (List PoolLine) :=
  if entry.is_entity then
    some [PoolLine.constant_name entry.label, PoolLine.word_entity entry.u]
  else
    let size := T.get_mode_size_bytes (T.get_tarval_mode entry.u)
    let vi := T.round_up2 size 4 % 4294967296
    (emit_tarval_words (T.get_tarval_sub_bits entry.u) vi vi).map fun ws =>
      PoolLine.constant_name entry.label :: ws.map PoolLine.word

/-- The loop over the constant pool in `arm_emit_function`. -/
def emit_pool_entries (T : TarvalOps) : List ent_or_tv_t → Option (List PoolLine)
  | [] => some []
  | entry :: rest =>
    match emit_pool_entry T entry, emit_pool_entries T rest with
    | some a, some b => some (a ++ b)
    | _, _ => none

/-- The end of `arm_emit_function`: "emit entity and tarval values". -/
def emit_pool (T : TarvalOps) (first : List ent_or_tv_t) : Option (List PoolLine) :=
  if first = [] then some []
  else (emit_pool_entries T first).map fun ls => PoolLine.align :: ls ++ [PoolLine.blank]

/-- The relation between the map and the list that the emitter keeps up: the
map finds for a pointer the entry of the list with that pointer. -/
def PoolInv {M : Type} (P : PMapOps M) (st : PoolState M) : Prop :=
  ∀ k, P.pmap_get st.ent_or_tv k = st.ent_or_tv_first.find? fun e => decide (e.u = k)

/-! ### The pool as the specification describes it -/

/-- The keys of a sequence of requests without the requests of a key that is
in `seen` or was requested before: order-preserving deduplication. -/
def firstRequests (seen : List Nat) : List ent_or_tv_t → List ent_or_tv_t
  | [] => []
  | key :: keys =>
    if key.u ∈ seen then firstRequests seen keys
    else key :: firstRequests (seen ++ [key.u]) keys

/-- The keys with the labels `id + 1`, `id + 2`, and so on. -/
def assignLabels (id : Nat) : List ent_or_tv_t → List ent_or_tv_t
  | [] => []
  | key :: keys => { key with label := id + 1 } :: assignLabels (id + 1) keys

/-- The labels of the lines of a pool. -/
def poolLabels : List PoolLine → List Nat
  | [] => []
  | PoolLine.constant_name l :: rest => l :: poolLabels rest
  | _ :: rest => poolLabels rest

/-- The 32-bit word of the bytes `4 i`, ..., `4 i + 3` of a constant whose
byte 0 is the least significant one. -/
def wordAt (byte : Nat → Nat) (i : Nat) : Nat :=
  byte (4 * i) + 256 * byte (4 * i + 1) + 65536 * byte (4 * i + 2) +
    16777216 * byte (4 * i + 3)

/-! ### A concrete pool -/

/-- A map as a function. -/
def funPMap : PMapOps (Nat → Option ent_or_tv_t) where
  pmap_create := fun _ => none
  pmap_get := fun m k => m k
  pmap_insert := fun m k v => Function.update m k v

/-- A tarval of mode `double` at the address 7 whose byte `i` is `i + 1`,
and `round_up2` for a power of two. -/
def exampleTarvals : TarvalOps where
  get_tarval_mode := fun _ => 0
  get_mode_size_bytes := fun _ => 8
  get_tarval_sub_bits := fun _ i => i + 1
  round_up2 := fun x y => (x + (y - 1)) / y * y

/-- The requests for the tarval 7, the entity 3 and the tarval 7 again. -/
def exampleRequests : List ent_or_tv_t :=
  [ent_or_tv_t.mk 7 0 false, ent_or_tv_t.mk 3 0 true, ent_or_tv_t.mk 7 0 false]

/-! ## The format strings of the emitters (`arm_emitf`, `ia32_emitf`)

A format is the list of its characters; the character behind the last one is
the terminating `'\0'`, and a `'\0'` in the list ends the format as well.
The variable arguments are a list that `va_arg` takes from the front; taking
an argument of another type, or from the empty list, is undefined
behaviour. What the functions behind a conversion print is one item of the
output.

An emitter reads the format character by character. Its model is the
function that tells what the emitter does with the character it reads at a
place of its code (the state), and the loop that feeds the characters of the
format, and the terminating `'\0'` behind them, into this function. -/

/-- The result of a call of an emitter with a format. -/
inductive EmitfResult (α β : Type)
  /-- the call returns; `out` is the output and `args` are the arguments
  that are left -/
  | done (out : List α) (args : List β)
  /-- `panic` with the message -/
  | panic (msg : String)
  /-- undefined behaviour, or an `assert` that fails -/
  | undefined
  deriving DecidableEq, Repr

/-- Output that is emitted before the rest of the call runs. -/
def EmitfResult.prepend {α β : Type} (items : List α) : EmitfResult α β → EmitfResult α β
  | EmitfResult.done out args => EmitfResult.done (items ++ out) args
  | EmitfResult.panic msg => EmitfResult.panic msg
  | EmitfResult.undefined => EmitfResult.undefined

/-- The value of `*format - '0'` as `unsigned`. -/
def digit_pos (c : Char) : Nat := toUnsigned ((c.toNat : Int) - 48)

/-- What `arm_emitf` emits; the functions that print an attribute of the node
of the call are items without an argument. -/
inductive ArmEmitItem
  | char (c : Char)
  | write_line
  | finish_line
  | source_register (pos : Nat)
  | dest_register (pos : Nat)
  | address
  | offset
  | shifter_operand
  | constant_name (name : Nat)
  | fpa_postfix (mode : Nat)
  | load_mode
  | store_mode
  | float_arithmetic_mode
  | float_load_store_mode
  | hex (num : Int)
  | unsigned (num : Nat)
  | int (num : Int)
  | string (s : String)
  | register (reg : Nat)
  | cfop_target (n : Nat)
  deriving DecidableEq, Repr

/-- A variable argument of `arm_emitf`. -/
inductive ArmEmitArg
  | ent_or_tv (name : Nat)
  | mode (mode : Nat)
  | int (num : Int)
  | unsigned (num : Nat)
  | string (s : String)
  | register (reg : Nat)
  | node (n : Nat)
  deriving DecidableEq, Repr

/-- What an emitter does with a character of the format. -/
inductive EmitfStep (α σ β : Type)
  /-- the loop ends -/
  | halt
  /-- `panic` with the message -/
  | panic (msg : String)
  /-- undefined behaviour, or an `assert` that fails -/
  | undefined
  /-- `items` are emitted, and the emitter reads the next character in
  `state` with the arguments `args` left -/
  | next (items : List α) (state : σ) (args : List β)
  deriving DecidableEq, Repr

/-- The places of `arm_emitf` where a character of the format is read. -/
inductive ArmScanState
  /-- the head of the loop -/
  | text
  /-- `switch (*format++)` -/
  | conversion
  /-- `is_digit(*format)` of `case 'S'` -/
  | source_digit
  /-- `is_digit(*format)` of `case 'D'` -/
  | dest_digit
  /-- `switch (*format++)` of `case 'M'` -/
  | mode_letter
  deriving DecidableEq, Repr

/-- What `arm_emitf` does with the character `c` that it reads at the head of the loop. -/
def arm_emitf_text (c : Char) (args : List ArmEmitArg) :
    EmitfStep ArmEmitItem ArmScanState ArmEmitArg :=
  if c = '\x00' then EmitfStep.halt
  else if c = '\n' then
    EmitfStep.next [ArmEmitItem.char '\n', ArmEmitItem.write_line, ArmEmitItem.char '\t']
      ArmScanState.text args
  else if c ≠ '%' then EmitfStep.next [ArmEmitItem.char c] ArmScanState.text args
  else EmitfStep.next [] ArmScanState.conversion args

/-- What `arm_emitf` does with the character `c` that it reads behind a `'%'`. -/
def arm_emitf_conversion (c : Char) (args : List ArmEmitArg) :
    EmitfStep ArmEmitItem ArmScanState ArmEmitArg :=
  if c = '%' then EmitfStep.next [ArmEmitItem.char '%'] ArmScanState.text args
  else if c = 'S' then EmitfStep.next [] ArmScanState.source_digit args
  else if c = 'D' then EmitfStep.next [] ArmScanState.dest_digit args
  else if c = 'I' then EmitfStep.next [ArmEmitItem.address] ArmScanState.text args
  else if c = 'o' then EmitfStep.next [ArmEmitItem.offset] ArmScanState.text args
  else if c = 'O' then EmitfStep.next [ArmEmitItem.shifter_operand] ArmScanState.text args
  else if c = 'C' then
    match args with
    | ArmEmitArg.ent_or_tv name :: args1 =>
      EmitfStep.next [ArmEmitItem.constant_name name] ArmScanState.text args1
    | _ => EmitfStep.undefined
  else if c = 'm' then
    match args with
    | ArmEmitArg.mode mode :: args1 =>
      EmitfStep.next [ArmEmitItem.fpa_postfix mode] ArmScanState.text args1
    | _ => EmitfStep.undefined
  else if c = 'M' then EmitfStep.next [] ArmScanState.mode_letter args
  else if c = 'X' then
    match args with
    | ArmEmitArg.int num :: args1 =>
      EmitfStep.next [ArmEmitItem.hex num] ArmScanState.text args1
    | _ => EmitfStep.undefined
  else if c = 'u' then
    match args with
    | ArmEmitArg.unsigned num :: args1 =>
      EmitfStep.next [ArmEmitItem.unsigned num] ArmScanState.text args1
    | _ => EmitfStep.undefined
  else if c = 'd' then
    match args with
    | ArmEmitArg.int num :: args1 =>
      EmitfStep.next [ArmEmitItem.int num] ArmScanState.text args1
    | _ => EmitfStep.undefined
  else if c = 's' then
    match args with
    | ArmEmitArg.string str :: args1 =>
      EmitfStep.next [ArmEmitItem.string str] ArmScanState.text args1
    | _ => EmitfStep.undefined
  else if c = 'r' then
    match args with
    | ArmEmitArg.register reg :: args1 =>
      EmitfStep.next [ArmEmitItem.register reg] ArmScanState.text args1
    | _ => EmitfStep.undefined
  else if c = 't' then
    match args with
    | ArmEmitArg.node n :: args1 =>
      EmitfStep.next [ArmEmitItem.cfop_target n] ArmScanState.text args1
    | _ => EmitfStep.undefined
  else EmitfStep.panic "unknown format conversion"

/-- What `arm_emitf` does with the character `c` that it reads behind `%S`. -/
def arm_emitf_source_digit (is_digit : Char → Bool) (c : Char) (args : List ArmEmitArg) :
    EmitfStep ArmEmitItem ArmScanState ArmEmitArg :=
  if !is_digit c then EmitfStep.panic "unknown format conversion"
  else EmitfStep.next [ArmEmitItem.source_register (digit_pos c)] ArmScanState.text args

/-- What `arm_emitf` does with the character `c` that it reads behind `%D`. -/
def arm_emitf_dest_digit (is_digit : Char → Bool) (c : Char) (args : List ArmEmitArg) :
    EmitfStep ArmEmitItem ArmScanState ArmEmitArg :=
  if !is_digit c then EmitfStep.panic "unknown format conversion"
  else EmitfStep.next [ArmEmitItem.dest_register (digit_pos c)] ArmScanState.text args

/-- What `arm_emitf` does with the character `c` that it reads behind `%M`. -/
def arm_emitf_mode_letter (c : Char) (args : List ArmEmitArg) :
    EmitfStep ArmEmitItem ArmScanState ArmEmitArg :=
  if c = 'L' then EmitfStep.next [ArmEmitItem.load_mode] ArmScanState.text args
  else if c = 'S' then EmitfStep.next [ArmEmitItem.store_mode] ArmScanState.text args
  else if c = 'A' then
    EmitfStep.next [ArmEmitItem.float_arithmetic_mode] ArmScanState.text args
  else if c = 'F' then
    EmitfStep.next [ArmEmitItem.float_load_store_mode] ArmScanState.text args
  else EmitfStep.panic "unknown format conversion"

/-- What `arm_emitf` does with the character `c` that it reads in a state.
`is_digit` is the function of that name. The characters up to the next
`'%'`, `'\n'` or `'\0'`, which the loop emits with one call of
`be_emit_string_len`, are emitted one after the other. -/
def arm_emitf_char (is_digit : Char → Bool) :
    ArmScanState → Char → List ArmEmitArg → EmitfStep ArmEmitItem ArmScanState ArmEmitArg
  | ArmScanState.text, c, args => arm_emitf_text c args
  | ArmScanState.conversion, c, args => arm_emitf_conversion c args
  | ArmScanState.source_digit, c, args => arm_emitf_source_digit is_digit c args
  | ArmScanState.dest_digit, c, args => arm_emitf_dest_digit is_digit c args
  | ArmScanState.mode_letter, c, args => arm_emitf_mode_letter c args

/-- The loop of `arm_emitf` from a state on. An emitter that goes on behind
the terminating `'\0'` reads behind the format. -/
def arm_emitf_scan (is_digit : Char → Bool) :
    ArmScanState → List Char → List ArmEmitArg → EmitfResult ArmEmitItem ArmEmitArg
  | state, [], args =>
    match arm_emitf_char is_digit state '\x00' args with
    | EmitfStep.halt => EmitfResult.done [] args
    | EmitfStep.panic msg => EmitfResult.panic msg
    | EmitfStep.undefined => EmitfResult.undefined
    | EmitfStep.next _ _ _ => EmitfResult.undefined
  | state, c :: rest, args =>
    match arm_emitf_char is_digit state c args with
    | EmitfStep.halt => EmitfResult.done [] args
    | EmitfStep.panic msg => EmitfResult.panic msg
    | EmitfStep.undefined => EmitfResult.undefined
    | EmitfStep.next items state1 args1 =>
      if c = '\x00' then EmitfResult.undefined
      else (arm_emitf_scan is_digit state1 rest args1).prepend items

/-- `arm_emitf` -/
def arm_emitf (is_digit : Char → Bool) (format : List Char) (args : List ArmEmitArg) :
    EmitfResult ArmEmitItem ArmEmitArg :=
  match (arm_emitf_scan is_digit ArmScanState.text format args).prepend
      [ArmEmitItem.char '\t'] with
  | EmitfResult.done out args1 => EmitfResult.done (out ++ [ArmEmitItem.finish_line]) args1
  | r => r

/-- The characters behind `'%'` that `arm_emitf` converts. -/
def arm_conversions : List Char :=
  ['%', 'S', 'D', 'I', 'o', 'O', 'C', 'm', 'M', 'X', 'u', 'd', 's', 'r', 't']

/-- The characters behind `%M` that `arm_emitf` converts. -/
def arm_mode_conversions : List Char := ['L', 'S', 'A', 'F']

/-- `ia32_op_type_t` -/
inductive ia32_op_type_t
  | ia32_Normal
  | ia32_AddrModeD
  | ia32_AddrModeS
  deriving DecidableEq, Repr

/-- What `ia32_emitf` reads of its node: the type of the operation and which
of the inputs are an `ia32_Immediate`. -/
structure EmitfNode where
  op_type : ia32_op_type_t
  is_ia32_Immediate : Nat → Bool

/-- `EMIT_RESPECT_LS` -/
def EMIT_RESPECT_LS : Nat := 1

/-- `EMIT_ALTERNATE_AM` -/
def EMIT_ALTERNATE_AM : Nat := 2

/-- `EMIT_LONG` -/
def EMIT_LONG : Nat := 4

/-- `EMIT_HIGH_REG` -/
def EMIT_HIGH_REG : Nat := 8

/-- `EMIT_LOW_REG` -/
def EMIT_LOW_REG : Nat := 16

/-- What `ia32_emitf` emits. A register is printed with the mode of the node
(`ls`) or with the mode `NULL`. -/
inductive Ia32EmitItem
  | char (c : Char)
  | finish_line
  | am
  | register (reg : Nat) (ls : Bool)
  | out_register (pos : Nat) (ls : Bool)
  | in_register (pos : Nat) (ls : Bool)
  | immediate
  | in_immediate (pos : Nat)
  | cfop_target
  | mode_suffix
  | cmp_suffix (pnc : Int)
  | register_high (reg : Nat)
  | register_low (reg : Nat)
  | string (s : String)
  | unsigned (num : Nat)
  | unsigned_long (num : Nat)
  | int (num : Int)
  | long (num : Int)
  deriving DecidableEq, Repr

/-- A variable argument of `ia32_emitf`. -/
inductive Ia32EmitArg
  | register (reg : Nat)
  | int (num : Int)
  | string (s : String)
  | unsigned (num : Nat)
  | unsigned_long (num : Nat)
  | long (num : Int)
  deriving DecidableEq, Repr

/-- The label `emit_AM` of `ia32_emitf`. -/
def ia32_emitf_AM (mod : Nat) : List Ia32EmitItem :=
  (if mod &&& EMIT_ALTERNATE_AM ≠ 0 then [Ia32EmitItem.char '*'] else []) ++ [Ia32EmitItem.am]

/-- The conversion `%S` of `ia32_emitf` behind the test of the digit. -/
def ia32_emitf_S (node : EmitfNode) (mod pos : Nat) : List Ia32EmitItem :=
  if node.is_ia32_Immediate pos then
    (if mod &&& EMIT_ALTERNATE_AM ≠ 0 then [] else [Ia32EmitItem.char '$']) ++
      [Ia32EmitItem.in_immediate pos]
  else
    (if mod &&& EMIT_ALTERNATE_AM ≠ 0 then [Ia32EmitItem.char '*'] else []) ++
      [Ia32EmitItem.in_register pos (mod &&& EMIT_RESPECT_LS ≠ 0)]

/-- The places of `ia32_emitf` where a character of the format is read;
`mod` are the modifiers read so far. -/
inductive Ia32ScanState
  /-- the head of the loop -/
  | text
  /-- the loop of the modifiers and `switch (*fmt++)` behind it -/
  | conversion (mod : Nat)
  /-- `switch (*fmt++)` of `case 'A'` -/
  | am_letter (mod : Nat)
  /-- the `++fmt` of `%AS` for an operation with a source address mode -/
  | am_skip (mod : Nat)
  /-- the test of the digit of `case 'S'` -/
  | source_digit (mod : Nat)
  /-- the test of the digit of `case 'D'` -/
  | dest_digit (mod : Nat)
  deriving DecidableEq, Repr

/-- What `ia32_emitf` does with the character `c` that it reads at the head of the loop. -/
def ia32_emitf_text (c : Char) (args : List Ia32EmitArg) :
    EmitfStep Ia32EmitItem Ia32ScanState Ia32EmitArg :=
  if c = '\x00' then EmitfStep.halt
  else if c = '\n' then EmitfStep.next [Ia32EmitItem.finish_line] Ia32ScanState.text args
  else if c = '%' then EmitfStep.next [] (Ia32ScanState.conversion 0) args
  else EmitfStep.next [Ia32EmitItem.char c] Ia32ScanState.text args

/-- What `ia32_emitf` does with the character `c` that it reads behind a `'%'` and modifiers. -/
def ia32_emitf_conversion (mod : Nat) (c : Char) (args : List Ia32EmitArg) :
    EmitfStep Ia32EmitItem Ia32ScanState Ia32EmitArg :=
  if c = '*' then EmitfStep.next [] (Ia32ScanState.conversion (mod ||| EMIT_ALTERNATE_AM)) args
  else if c = '#' then
    EmitfStep.next [] (Ia32ScanState.conversion (mod ||| EMIT_RESPECT_LS)) args
  else if c = 'l' then EmitfStep.next [] (Ia32ScanState.conversion (mod ||| EMIT_LONG)) args
  else if c = '>' then
    EmitfStep.next [] (Ia32ScanState.conversion (mod ||| EMIT_HIGH_REG)) args
  else if c = '<' then
    EmitfStep.next [] (Ia32ScanState.conversion (mod ||| EMIT_LOW_REG)) args
  else if c = '%' then EmitfStep.next [Ia32EmitItem.char '%'] Ia32ScanState.text args
  else if c = 'A' then EmitfStep.next [] (Ia32ScanState.am_letter mod) args
  else if c = 'D' then EmitfStep.next [] (Ia32ScanState.dest_digit mod) args
  else if c = 'I' then
    EmitfStep.next
      ((if mod &&& EMIT_ALTERNATE_AM ≠ 0 then [] else [Ia32EmitItem.char '$']) ++
        [Ia32EmitItem.immediate]) Ia32ScanState.text args
  else if c = 'L' then EmitfStep.next [Ia32EmitItem.cfop_target] Ia32ScanState.text args
  else if c = 'M' then EmitfStep.next [Ia32EmitItem.mode_suffix] Ia32ScanState.text args
  else if c = 'P' then
    match args with
    | Ia32EmitArg.int pnc :: args1 =>
      EmitfStep.next [Ia32EmitItem.cmp_suffix pnc] Ia32ScanState.text args1
    | _ => EmitfStep.undefined
  else if c = 'R' then
    match args with
    | Ia32EmitArg.register reg :: args1 =>
      EmitfStep.next
        [if mod &&& EMIT_HIGH_REG ≠ 0 then Ia32EmitItem.register_high reg
          else if mod &&& EMIT_LOW_REG ≠ 0 then Ia32EmitItem.register_low reg
          else Ia32EmitItem.register reg (mod &&& EMIT_RESPECT_LS ≠ 0)]
        Ia32ScanState.text args1
    | _ => EmitfStep.undefined
  else if c = 'S' then EmitfStep.next [] (Ia32ScanState.source_digit mod) args
  else if c = 's' then
    match args with
    | Ia32EmitArg.string str :: args1 =>
      EmitfStep.next [Ia32EmitItem.string str] Ia32ScanState.text args1
    | _ => EmitfStep.undefined
  else if c = 'u' then
    if mod &&& EMIT_LONG ≠ 0 then
      match args with
      | Ia32EmitArg.unsigned_long num :: args1 =>
        EmitfStep.next [Ia32EmitItem.unsigned_long num] Ia32ScanState.text args1
      | _ => EmitfStep.undefined
    else
      match args with
      | Ia32EmitArg.unsigned num :: args1 =>
        EmitfStep.next [Ia32EmitItem.unsigned num] Ia32ScanState.text args1
      | _ => EmitfStep.undefined
  else if c = 'd' then
    if mod &&& EMIT_LONG ≠ 0 then
      match args with
      | Ia32EmitArg.long num :: args1 =>
        EmitfStep.next [Ia32EmitItem.long num] Ia32ScanState.text args1
      | _ => EmitfStep.undefined
    else
      match args with
      | Ia32EmitArg.int num :: args1 =>
        EmitfStep.next [Ia32EmitItem.int num] Ia32ScanState.text args1
      | _ => EmitfStep.undefined
  else EmitfStep.panic "unknown format conversion in ia32_emitf()"

/-- What `ia32_emitf` does with the character `c` that it reads behind `%A`. -/
def ia32_emitf_am_letter (node : EmitfNode) (mod : Nat) (c : Char) (args : List Ia32EmitArg) :
    EmitfStep Ia32EmitItem Ia32ScanState Ia32EmitArg :=
  if c = 'M' then EmitfStep.next (ia32_emitf_AM mod) Ia32ScanState.text args
  else if c = 'R' then
    match args with
    | Ia32EmitArg.register reg :: args1 =>
      if node.op_type = ia32_op_type_t.ia32_AddrModeS then
        EmitfStep.next (ia32_emitf_AM mod) Ia32ScanState.text args1
      else
        EmitfStep.next
          ((if mod &&& EMIT_ALTERNATE_AM ≠ 0 then [Ia32EmitItem.char '*'] else []) ++
            [Ia32EmitItem.register reg false]) Ia32ScanState.text args1
    | _ => EmitfStep.undefined
  else if c = 'S' then
    if node.op_type = ia32_op_type_t.ia32_AddrModeS then
      EmitfStep.next [] (Ia32ScanState.am_skip mod) args
    else if node.op_type ≠ ia32_op_type_t.ia32_Normal then EmitfStep.undefined
    else EmitfStep.next [] (Ia32ScanState.source_digit mod) args
  else EmitfStep.panic "unknown format conversion in ia32_emitf()"

/-- What `ia32_emitf` does with the character `c` that it reads behind `%AS` for an operation with a source address mode. -/
def ia32_emitf_am_skip (mod : Nat) (_ : Char) (args : List Ia32EmitArg) :
    EmitfStep Ia32EmitItem Ia32ScanState Ia32EmitArg :=
  EmitfStep.next (ia32_emitf_AM mod) Ia32ScanState.text args

/-- What `ia32_emitf` does with the character `c` that it reads behind `%S`. -/
def ia32_emitf_source_digit (node : EmitfNode) (mod : Nat) (c : Char) (args : List Ia32EmitArg) :
    EmitfStep Ia32EmitItem Ia32ScanState Ia32EmitArg :=
  if c.toNat < 48 ∨ 57 ≤ c.toNat then
    EmitfStep.panic "unknown format conversion in ia32_emitf()"
  else EmitfStep.next (ia32_emitf_S node mod (digit_pos c)) Ia32ScanState.text args

/-- What `ia32_emitf` does with the character `c` that it reads behind `%D`. -/
def ia32_emitf_dest_digit (mod : Nat) (c : Char) (args : List Ia32EmitArg) :
    EmitfStep Ia32EmitItem Ia32ScanState Ia32EmitArg :=
  if c.toNat < 48 ∨ 57 ≤ c.toNat then
    EmitfStep.panic "unknown format conversion in ia32_emitf()"
  else
    EmitfStep.next
      [Ia32EmitItem.out_register (digit_pos c) (mod &&& EMIT_RESPECT_LS ≠ 0)]
      Ia32ScanState.text args

/-- What `ia32_emitf` does with the character `c` that it reads in a state.
The characters up to the next `'%'`, `'\n'` or `'\0'`, which the loop emits
with one call of `be_emit_string_len`, are emitted one after the other. A
character is compared with `'0'` and `'9'` as an `unsigned char`; as a
`signed char` a character above 127 is less than `'0'`. -/
def ia32_emitf_char (node : EmitfNode) :
    Ia32ScanState → Char → List Ia32EmitArg → EmitfStep Ia32EmitItem Ia32ScanState Ia32EmitArg
  | Ia32ScanState.text, c, args => ia32_emitf_text c args
  | Ia32ScanState.conversion mod, c, args => ia32_emitf_conversion mod c args
  | Ia32ScanState.am_letter mod, c, args => ia32_emitf_am_letter node mod c args
  | Ia32ScanState.am_skip mod, c, args => ia32_emitf_am_skip mod c args
  | Ia32ScanState.source_digit mod, c, args => ia32_emitf_source_digit node mod c args
  | Ia32ScanState.dest_digit mod, c, args => ia32_emitf_dest_digit mod c args

/-- The loop of `ia32_emitf` from a state on. An emitter that goes on behind
the terminating `'\0'` reads behind the format. -/
def ia32_emitf_scan (node : EmitfNode) :
    Ia32ScanState → List Char → List Ia32EmitArg → EmitfResult Ia32EmitItem Ia32EmitArg
  | state, [], args =>
    match ia32_emitf_char node state '\x00' args with
    | EmitfStep.halt => EmitfResult.done [] args
    | EmitfStep.panic msg => EmitfResult.panic msg
    | EmitfStep.undefined => EmitfResult.undefined
    | EmitfStep.next _ _ _ => EmitfResult.undefined
  | state, c :: rest, args =>
    match ia32_emitf_char node state c args with
    | EmitfStep.halt => EmitfResult.done [] args
    | EmitfStep.panic msg => EmitfResult.panic msg
    | EmitfStep.undefined => EmitfResult.undefined
    | EmitfStep.next items state1 args1 =>
      if c = '\x00' then EmitfResult.undefined
      else (ia32_emitf_scan node state1 rest args1).prepend items

/-- `ia32_emitf` -/
def ia32_emitf (node : EmitfNode) (fmt : List Char) (args : List Ia32EmitArg) :
    EmitfResult Ia32EmitItem Ia32EmitArg :=
  ia32_emitf_scan node Ia32ScanState.text fmt args

/-- The modifiers of `ia32_emitf`. -/
def ia32_modifiers : List Char := ['*', '#', 'l', '>', '<']

/-- The characters behind `'%'` and the modifiers that `ia32_emitf`
converts. -/
def ia32_conversions : List Char :=
  ['%', 'A', 'D', 'I', 'L', 'M', 'P', 'R', 'S', 's', 'u', 'd']

/-- The characters behind `%A` that `ia32_emitf` converts. -/
def ia32_am_conversions : List Char := ['M', 'R', 'S']

/-- The claim on `arm_emitf`, in the words of the specification: the
character behind `'%'` is outside the conversion set, or it is `S` or `D` and
no digit follows, or it is `M` and an unknown letter follows. `tail` is the
format behind the `'%'`. -/
def arm_unknown_conversion (is_digit : Char → Bool) (tail : List Char) : Prop :=
  tail.headD '\x00' ∉ arm_conversions ∨
    ((tail.headD '\x00' = 'S' ∨ tail.headD '\x00' = 'D') ∧
      is_digit (tail.tail.headD '\x00') = false) ∨
    (tail.headD '\x00' = 'M' ∧ tail.tail.headD '\x00' ∉ arm_mode_conversions)

/-- The claim on `ia32_emitf`, in the words of the specification: the
character behind `'%'` and the modifiers is outside the conversion set, or
it is `S` or `D` and no digit follows, or it is `A` and an unknown letter
follows. `tail` is the format behind the modifiers. -/
def ia32_unknown_conversion (tail : List Char) : Prop :=
  (tail.headD '\x00' ∉ ia32_modifiers ∧ tail.headD '\x00' ∉ ia32_conversions) ∨
    ((tail.headD '\x00' = 'S' ∨ tail.headD '\x00' = 'D') ∧
      (tail.tail.headD '\x00').isDigit = false) ∨
    (tail.headD '\x00' = 'A' ∧ tail.tail.headD '\x00' ∉ ia32_am_conversions)

/-- An operation with a source address mode whose inputs are registers. -/
def emitfNodeAM : EmitfNode where
  op_type := ia32_op_type_t.ia32_AddrModeS
  is_ia32_Immediate := fun _ => false

/-! ## Emitting a node (`ia32_emitter.c`)

The text emitter counts in two statics of type `unsigned long`: `id` of
`get_unique_label` and `exc_label_id`. What `be_gas_get_private_prefix` and
`be_gas_insn_label_prefix` return is an input. -/

/-- The static `id` of `get_unique_label` and the static `exc_label_id`. -/
structure EmitCounters where
  id : Nat
  exc_label_id : Nat
  deriving DecidableEq, Repr

/-- `get_unique_label`: the text that is written to `buf`, and the counters
after the call. -/
def get_unique_label (private_pfx : String) (pfx : String) (c : EmitCounters) :
    String × EmitCounters :=
  let id := (c.id + 1) % 4294967296
  (private_pfx ++ pfx ++ toString id, { c with id := id })

/-- The text of a `SwitchJmp`: the label of the jump table, if it is printed
(in the jump through the table and in front of the table), and the code. -/
structure SwitchText where
  label : Option String
  code : SwitchCode
  deriving DecidableEq, Repr

/-- `emit_ia32_SwitchJmp` with the label that `generate_jump_table` takes from
`get_unique_label` in its first statement. -/
def emit_ia32_SwitchJmp_label (private_pfx : String) (projs : List (Nat × Int))
    (default_pn : Int) (fuel : Nat) (c : EmitCounters) : Option (SwitchText × EmitCounters) :=
  let l := get_unique_label private_pfx "TBL_" c
  (emit_ia32_SwitchJmp projs default_pn fuel).map fun code =>
    match code with
    | SwitchCode.table _ _ _ => (SwitchText.mk (some l.1) code, l.2)
    | SwitchCode.jump _ _ _ => (SwitchText.mk none code, l.2)

/-- What an emitter of `ia32_emitter.c` prints with a call. -/
inductive EmitPiece
  /-- the output of a call `ia32_emitf(node, fmt, ...)` that returns -/
  | emitf (out : List Ia32EmitItem)
  /-- the output of a call `ia32_emitf(NULL, fmt, ...)` that returns -/
  | emitf_null (out : List Ia32EmitItem)
  /-- `be_emit_char` -/
  | char (c : Char)
  /-- `be_emit_cstring` -/
  | cstring (s : String)
  /-- `be_emit_write_line` -/
  | write_line
  /-- `be_gas_emit_block_name` with the node -/
  | block_name
  /-- `be_emit_finish_line_gas` with the node -/
  | finish_line_gas
  /-- `emit_ia32_Immediate` with the input at `pos` -/
  | immediate (pos : Nat)
  /-- `emit_register`; the mode `NULL` is `none` -/
  | register (reg : Nat) (mode : Option Nat)
  /-- `be_emit_string` with the name that `ia32_get_mapped_reg_name` finds
  for the register in the map of the modifier: `isa->regs_8bit` for `b`,
  `isa->regs_8bit_high` for `h`, `isa->regs_16bit` for `w` -/
  | mapped_reg_name (modifier : Char) (reg : Nat)
  deriving DecidableEq, Repr

/-- A piece of the text of a node. -/
inductive NodeText
  /-- the exception label with the comment that names the target block -/
  | exc_label (label : String) (target : Nat)
  | spill_mark
  | reload_mark
  | remat_mark
  /-- the text of `emit_ia32_SwitchJmp` -/
  | switch_jmp (t : SwitchText)
  /-- the lines of a jump -/
  | jump (l : List AsmLine)
  /-- the text of another emitter -/
  | text (s : String)
  /-- what an emitter prints call by call -/
  | pieces (l : List EmitPiece)
  deriving DecidableEq, Repr

/-- What `ia32_emit_node` reads of a node. `generic` is the emitter
`op->ops.generic` of the operation, applied to the node: it gets the counters
and returns its text and the counters. -/
structure EmitNode where
  is_ia32_irn : Bool
  /-- `get_ia32_exc_label` -/
  exc_label : Bool
  /-- the block that `ia32_emit_cfop_target` prints -/
  cfop_target : Nat
  is_spill : Bool
  is_reload : Bool
  is_remat : Bool
  generic : Option (EmitCounters → Option (List NodeText × EmitCounters))

/-- `ia32_assign_exc_label` -/
def ia32_assign_exc_label (insn_label_pfx : String) (node : EmitNode) (c : EmitCounters) :
    List NodeText × EmitCounters :=
  let n := (c.exc_label_id + 1) % 4294967296
  ([NodeText.exc_label (insn_label_pfx ++ toString n) node.cfop_target],
    { c with exc_label_id := n })

/-- `ia32_emit_node`; `none` if there is no emitter for the node. -/
def ia32_emit_node (insn_label_pfx : String) (mark_spill_reload : Bool) (node : EmitNode)
    (c : EmitCounters) : Option (List NodeText × EmitCounters) :=
  let s1 : List NodeText × EmitCounters :=
    if node.is_ia32_irn ∧ node.exc_label then ia32_assign_exc_label insn_label_pfx node c
    else ([], c)
  let marks : List NodeText :=
    if node.is_ia32_irn ∧ mark_spill_reload then
      (if node.is_spill then [NodeText.spill_mark] else []) ++
        (if node.is_reload then [NodeText.reload_mark] else []) ++
        (if node.is_remat then [NodeText.remat_mark] else [])
    else []
  match node.generic with
  | some func => (func s1.2).map fun r => (s1.1 ++ marks ++ r.1, r.2)
  | none => none

/-! ### Nodes used as concrete inputs -/

/-- A `SwitchJmp` with the cases 2 and 5 and the default Proj 9; the private
label prefix is `.L`. -/
def switchNode : EmitNode where
  is_ia32_irn := true
  exc_label := false
  cfop_target := 0
  is_spill := false
  is_reload := false
  is_remat := false
  generic := some fun c =>
    (emit_ia32_SwitchJmp_label ".L" [(105, 5), (100, 9), (102, 2)] 9 4 c).map fun r =>
      ([NodeText.switch_jmp r.1], r.2)

/-- The conditional jump `jccLess` as a node of `ia32_emit_node`. -/
def jccNode : EmitNode where
  is_ia32_irn := true
  exc_label := false
  cfop_target := 0
  is_spill := false
  is_reload := false
  is_remat := false
  generic := some fun c =>
    (emit_ia32_Jcc firmCmpConsts prevOf123 jccLess).map fun l => ([NodeText.jump l], c)

/-! ### The exception label id of a node

`ia32_emit_node` writes one attribute of the node it emits: the exception
label id, which `ia32_assign_exc_label` sets with `set_ia32_exc_label_id`.
The emitter of the operation gets the node as `const ir_node *`. -/

/-- The exception label id of a node after `ia32_emit_node`; `id` is the id
before the call. -/
def ia32_emit_node_exc_label_id (node : EmitNode) (id : Nat) (c : EmitCounters) : Nat :=
  if node.is_ia32_irn ∧ node.exc_label then (c.exc_label_id + 1) % 4294967296 else id

/-- A load that can fail: its exception goes to block 4, and its emitter
prints one line. -/
def excNode : EmitNode where
  is_ia32_irn := true
  exc_label := true
  cfop_target := 4
  is_spill := false
  is_reload := false
  is_remat := false
  generic := some fun c => some ([NodeText.text "movl (%eax), %ecx"], c)

/-! ## Block labels (`ia32_emitter.c`, `arm_emitter.c`) -/

/-- A control-flow predecessor of a block, as the emitters of the block
headers read it. -/
structure CfgPred where
  /-- `get_nodes_block` -/
  block : Nat
  /-- `is_Proj` -/
  is_Proj : Bool
  /-- for a Proj: whether `get_Proj_pred` is a `SwitchJmp` of the backend -/
  pred_is_SwitchJmp : Bool
  deriving DecidableEq, Repr

/-- A block, as the emitters of the block headers read it. -/
structure LabelBlock where
  /-- `has_Block_entity` -/
  has_entity : Bool
  cfgpreds : List CfgPred
  deriving DecidableEq, Repr

/-- `is_fallthrough` -/
def is_fallthrough (cfgpred : CfgPred) : Bool :=
  if ¬ cfgpred.is_Proj then true
  else if cfgpred.pred_is_SwitchJmp then false
  else true

/-- `block_needs_label`; `prev_block_sched` is `get_prev_block_sched(block)`. -/
def block_needs_label (block : LabelBlock) (prev_block_sched : Option Nat) : Bool :=
  if block.has_entity then true
  else
    match block.cfgpreds with
    | [] => false
    | [cfgpred] =>
      if prev_block_sched = some cfgpred.block ∧ is_fallthrough cfgpred then false else true
    | _ => true

/-- The `need_label` that `arm_emit_block_header` passes to
`be_gas_begin_block`. -/
def arm_emit_block_header (block : LabelBlock) (prev : Option Nat) : Bool :=
  match block.cfgpreds with
  | [pred] => decide (some pred.block ≠ prev) || (pred.is_Proj && pred.pred_is_SwitchJmp)
  | _ => true

/-! ### The flags and the jumps that read them

The summary table at the head of `ia32_emitter.c` gives, for every condition
code of a floating-point compare, a condition of the processor on the flags:
`E` (zero flag set), `NE` (zero flag clear), `B` (carry flag set), `AE`
(carry flag clear), `BE` (carry or zero flag set), `A` (carry and zero flag
clear), `P` (parity flag set) and `NP` (parity flag clear). The jump `jcc`
is taken if the condition `cc` holds. -/

/-- The flags of the processor that a conditional jump reads. -/
structure Flags where
  carry : Bool
  zero : Bool
  parity : Bool
  sign : Bool
  overflow : Bool
  deriving DecidableEq, Repr

/-- The condition `E`. -/
def Flags.E (fl : Flags) : Bool := fl.zero

/-- The condition `NE`. -/
def Flags.NE (fl : Flags) : Bool := !fl.zero

/-- The condition `B`. -/
def Flags.B (fl : Flags) : Bool := fl.carry

/-- The condition `AE`. -/
def Flags.AE (fl : Flags) : Bool := !fl.carry

/-- The condition `BE`. -/
def Flags.BE (fl : Flags) : Bool := fl.carry || fl.zero

/-- The condition `A`. -/
def Flags.A (fl : Flags) : Bool := !fl.carry && !fl.zero

/-- The condition `P`. -/
def Flags.P (fl : Flags) : Bool := fl.parity

/-- The condition `NP`. -/
def Flags.NP (fl : Flags) : Bool := !fl.parity

/-- Whether a jump instruction is taken; `none` for a mnemonic that is not a
jump. -/
def jumpTaken (fl : Flags) (mnemonic : String) : Option Bool :=
  [("jmp", true), ("je", fl.E), ("jne", fl.NE), ("jb", fl.B), ("jae", fl.AE), ("jbe", fl.BE),
    ("ja", fl.A), ("jp", fl.P), ("jnp", fl.NP), ("jl", fl.sign != fl.overflow),
    ("jge", fl.sign == fl.overflow), ("jle", fl.zero || (fl.sign != fl.overflow)),
    ("jg", !fl.zero && (fl.sign == fl.overflow))].lookup mnemonic

/-- The block that control reaches from the first of the lines of a jump
sequence. A jump to the local label `1f` goes on behind the next line `1:`;
`skip` is the label that is looked for. The comment `fallthrough` ends the
block: the next block of the schedule is the block it names. `none` if a
mnemonic is not a jump or the lines end before a block is reached. -/
def runJumps (fl : Flags) : Option String → List AsmLine → Option Nat
  | _, [] => none
  | some l, AsmLine.local_label l1 :: rest =>
    if l = l1 ++ "f" then runJumps fl none rest else runJumps fl (some l) rest
  | some l, _ :: rest => runJumps fl (some l) rest
  | none, AsmLine.branch mnemonic target :: rest =>
    match jumpTaken fl mnemonic with
    | none => none
    | some true => some target
    | some false => runJumps fl none rest
  | none, AsmLine.branch_local mnemonic label :: rest =>
    match jumpTaken fl mnemonic with
    | none => none
    | some true => runJumps fl (some label) rest
    | some false => runJumps fl none rest
  | none, AsmLine.local_label _ :: rest => runJumps fl none rest
  | none, AsmLine.fallthrough target :: _ => some target

/-- The rows of the summary table for x86 floating-point compares at the head
of `ia32_emitter.c`. -/
inductive SummaryRow
  | pnc_Eq
  | pnc_Lt
  | pnc_Le
  | pnc_Gt
  | pnc_Ge
  | pnc_Lg
  | pnc_Leg
  | pnc_Uo
  | pnc_Ue
  | pnc_Ul
  | pnc_Ule
  | pnc_Ug
  | pnc_Uge
  | pnc_Ne
  deriving DecidableEq, Repr

/-- The summary table for x86 floating-point compares at the head of
`ia32_emitter.c`: whether the flags satisfy the condition of the row. -/
def SummaryRow.summary : SummaryRow → Flags → Bool
  | SummaryRow.pnc_Eq, fl => !fl.P && fl.E
  | SummaryRow.pnc_Lt, fl => !fl.P && fl.B
  | SummaryRow.pnc_Le, fl => !fl.P && fl.BE
  | SummaryRow.pnc_Gt, fl => fl.A
  | SummaryRow.pnc_Ge, fl => fl.AE
  | SummaryRow.pnc_Lg, fl => fl.P || fl.NE
  | SummaryRow.pnc_Leg, fl => fl.NP
  | SummaryRow.pnc_Uo, fl => fl.P
  | SummaryRow.pnc_Ue, fl => fl.E
  | SummaryRow.pnc_Ul, fl => fl.B
  | SummaryRow.pnc_Ule, fl => fl.BE
  | SummaryRow.pnc_Ug, fl => fl.P || fl.A
  | SummaryRow.pnc_Uge, fl => fl.P || fl.AE
  | SummaryRow.pnc_Ne, fl => fl.NE

/-- The enumerators of `pn_Cmp` that the summary table names and the emitter
does not. -/
structure UnorderedConsts where
  pn_Cmp_Ue : Nat
  pn_Cmp_Ul : Nat
  pn_Cmp_Ule : Nat

/-- The enumerator of `pn_Cmp` that a row of the summary table names. -/
def SummaryRow.code (K : CmpConsts) (U : UnorderedConsts) : SummaryRow → Nat
  | SummaryRow.pnc_Eq => K.pn_Cmp_Eq
  | SummaryRow.pnc_Lt => K.pn_Cmp_Lt
  | SummaryRow.pnc_Le => K.pn_Cmp_Le
  | SummaryRow.pnc_Gt => K.pn_Cmp_Gt
  | SummaryRow.pnc_Ge => K.pn_Cmp_Ge
  | SummaryRow.pnc_Lg => K.pn_Cmp_Lg
  | SummaryRow.pnc_Leg => K.pn_Cmp_Leg
  | SummaryRow.pnc_Uo => K.pn_Cmp_Uo
  | SummaryRow.pnc_Ue => U.pn_Cmp_Ue
  | SummaryRow.pnc_Ul => U.pn_Cmp_Ul
  | SummaryRow.pnc_Ule => U.pn_Cmp_Ule
  | SummaryRow.pnc_Ug => K.pn_Cmp_Ug
  | SummaryRow.pnc_Uge => K.pn_Cmp_Uge
  | SummaryRow.pnc_Ne => K.pn_Cmp_Ne

/-- The enumerators of `pn_Cmp` are the numbers from 1 (`Eq`) to 14 (`Ne`) in
the order of the summary table, the flag of a floating-point compare and the
condition code of the parity are the bits 13 and 14, and the negation of a
condition code of a floating-point compare inverts the four bits of the
relation. -/
def FirmCodes (K : CmpConsts) (U : UnorderedConsts) : Prop :=
  K.Positional ∧ K.pn_Cmp_Leg = 7 ∧ K.pn_Cmp_Uo = 8 ∧ U.pn_Cmp_Ue = 9 ∧ U.pn_Cmp_Ul = 10 ∧
    U.pn_Cmp_Ule = 11 ∧ K.pn_Cmp_Ug = 12 ∧ K.pn_Cmp_Uge = 13 ∧ K.pn_Cmp_Ne = 14 ∧
    K.ia32_pn_Cmp_float = 0x2000 ∧ K.ia32_pn_Cmp_parity = 0x4000 ∧
    ∀ pnc, K.get_negated_pnc pnc true = pnc ^^^ 15

/-- The enumerators `Ue`, `Ul` and `Ule` of libFirm. -/
def firmUnorderedConsts : UnorderedConsts where
  pn_Cmp_Ue := 9
  pn_Cmp_Ul := 10
  pn_Cmp_Ule := 11

/-- The outcome of a compare of two floating-point numbers. -/
inductive CmpOutcome
  | equal
  | less
  | greater
  | unordered
  deriving DecidableEq, Repr

/-- The flags after `ucomiss`, `fucomi` or `fnstsw` and `sahf` for the
outcome of the compare: the zero flag for equal operands, the carry flag for
a smaller first operand, and all three of zero, parity and carry flag for
unordered operands. -/
def CmpOutcome.flags : CmpOutcome → Flags
  | CmpOutcome.equal => Flags.mk false true false false false
  | CmpOutcome.less => Flags.mk true false false false false
  | CmpOutcome.greater => Flags.mk false false false false false
  | CmpOutcome.unordered => Flags.mk true true true false false

/-- The bit of a condition code that stands for an outcome: 1 for equal, 2
for less, 4 for greater and 8 for unordered. -/
def CmpOutcome.bit : CmpOutcome → Nat
  | CmpOutcome.equal => 1
  | CmpOutcome.less => 2
  | CmpOutcome.greater => 4
  | CmpOutcome.unordered => 8

/-- The jump `if a <> b` on a floating-point compare in block 1 with the
true target 3 and the false target 2. -/
def jccFloatLg : JccNode :=
  JccNode.mk 6 (FlagsAttr.mk FlagsKind.ucomi false false) 1 (some 3) (some 2)

/-- The jump `if a != b` on a floating-point compare in block 1 with the
true target 3 and the false target 2. -/
def jccFloatNe : JccNode :=
  JccNode.mk 14 (FlagsAttr.mk FlagsKind.ucomi false false) 1 (some 3) (some 2)

/-- The jump `if a == b` on a floating-point compare in block 1 with the
true target 3 and the false target 2. -/
def jccFloatEq : JccNode :=
  JccNode.mk 1 (FlagsAttr.mk FlagsKind.ucomi false false) 1 (some 3) (some 2)

/-! ## The selector of a `SwitchJmp` (`ia32_transform.c`, `ia32_emitter.c`) -/

/-- What `create_Switch` makes of a Cond with a selector that is no boolean:
the offset of the Lea it puts between the selector and the SwitchJmp (`none`
if it creates no Lea) and the attribute `pncode` of the SwitchJmp. -/
structure SwitchJmpNode where
  lea_offs : Option Int
  pncode : Int
  deriving DecidableEq, Repr

/-- `create_Switch`; `projs` are the out edges of the Cond, the Projs with
their numbers, and `defaultProj` is `get_Cond_defaultProj`. -/
def create_Switch (projs : List (Nat × Int)) (defaultProj : Int) : SwitchJmpNode :=
  let switch_min :=
    projs.foldl (fun switch_min proj =>
      if wrapInt proj.2 < switch_min then wrapInt proj.2 else switch_min) LONG_MAX
  { lea_offs := if switch_min ≠ 0 then some (wrapInt (-switch_min)) else none
    pncode := defaultProj }

/-- The value of the input register of the SwitchJmp, as an unsigned number,
for the value `sel` of the selector: the Lea adds its offset. -/
def SwitchJmpNode.register (node : SwitchJmpNode) (sel : Int) : Nat :=
  match node.lea_offs with
  | some offs => toUnsigned (sel + offs)
  | none => toUnsigned sel

/-- The operand `interval` of the `cmpl` of the code of a SwitchJmp. -/
def SwitchCode.interval : SwitchCode → Nat
  | SwitchCode.table interval _ _ => interval
  | SwitchCode.jump interval _ _ => interval

/-- The Proj the code of a SwitchJmp jumps to when the input register holds
`x`: `ja` behind `cmpl $interval` is taken when `x` is above `interval` as an
unsigned number, and the jump through the table takes the entry `x`. `none`
is a jump through an address behind the table. -/
def SwitchCode.run : SwitchCode → Nat → Option Nat
  | SwitchCode.table interval defProj entries, x =>
    if interval < x then some defProj else entries[x]?
  | SwitchCode.jump interval defProj target, x =>
    if interval < x then some defProj else some target

/-! ## Immediates (`try_create_Immediate` of `ia32_transform.c`)

The operand that `try_create_Immediate` looks at is a node of the middle
end. Of a target value the function reads `tarval_is_long`,
`get_tarval_long` and `tarval_is_null`. -/

/-- What `try_create_Immediate` reads of the target value of a Const. -/
structure ConstTarval where
  tarval_is_long : Bool
  get_tarval_long : Int
  tarval_is_null : Bool
  deriving DecidableEq, Repr

/-- The nodes that `try_create_Immediate` tells apart. -/
inductive ImmExpr
  | Const (tv : ConstTarval)
  /-- a SymConst; `addr_ent` tells whether its kind is `symconst_addr_ent` -/
  | SymConst (addr_ent : Bool) (entity : Nat)
  | Minus (op : ImmExpr)
  | Add (left right : ImmExpr)
  | Sub (left right : ImmExpr)
  | other
  deriving DecidableEq, Repr

/-- `check_immediate_constraint`; `none` is the `panic`. The type 0 is the
character `'\0'`. -/
def check_immediate_constraint (val : Int) (immediate_constraint_type : Char) : Option Bool :=
  if immediate_constraint_type = '\x00' then some true
  else if immediate_constraint_type = 'I' then some (decide (val ≥ 0 ∧ val ≤ 32))
  else if immediate_constraint_type = 'J' then some (decide (val ≥ 0 ∧ val ≤ 63))
  else if immediate_constraint_type = 'K' then some (decide (val ≥ -128 ∧ val ≤ 127))
  else if immediate_constraint_type = 'L' then some (decide (val = 0xff ∨ val = 0xffff))
  else if immediate_constraint_type = 'M' then some (decide (val ≥ 0 ∧ val ≤ 3))
  else if immediate_constraint_type = 'N' then some (decide (val ≥ 0 ∧ val ≤ 255))
  else if immediate_constraint_type = 'O' then some (decide (val ≥ 0 ∧ val ≤ 127))
  else none

/-- The variables `cnst`, `symconst`, `symconst_sign` and `offset_sign` of
`try_create_Immediate` behind the tests of the kind of the node. -/
structure ImmMatch where
  cnst : Option ConstTarval
  symconst : Option (Bool × Nat)
  symconst_sign : Bool
  offset_sign : Bool
  deriving DecidableEq, Repr

/-- The tests of the kind of the node in `try_create_Immediate`, behind the
test for a Minus; `none` is `return NULL`. -/
def try_create_Immediate_match (minus : Bool) : ImmExpr → Option ImmMatch
  | ImmExpr.Const tv => some (ImmMatch.mk (some tv) none false minus)
  | ImmExpr.SymConst addr_ent entity =>
    some (ImmMatch.mk none (some (addr_ent, entity)) minus false)
  | ImmExpr.Add (ImmExpr.Const tv) (ImmExpr.SymConst addr_ent entity) =>
    some (ImmMatch.mk (some tv) (some (addr_ent, entity)) minus minus)
  | ImmExpr.Add (ImmExpr.SymConst addr_ent entity) (ImmExpr.Const tv) =>
    some (ImmMatch.mk (some tv) (some (addr_ent, entity)) minus minus)
  | ImmExpr.Add _ _ => some (ImmMatch.mk none none false false)
  | ImmExpr.Sub (ImmExpr.Const tv) (ImmExpr.SymConst addr_ent entity) =>
    some (ImmMatch.mk (some tv) (some (addr_ent, entity)) (!minus) minus)
  | ImmExpr.Sub (ImmExpr.SymConst addr_ent entity) (ImmExpr.Const tv) =>
    some (ImmMatch.mk (some tv) (some (addr_ent, entity)) minus (!minus))
  | ImmExpr.Sub _ _ => some (ImmMatch.mk none none false false)
  | _ => none

/-- `try_create_Immediate` behind the test for a Minus: `minus` is the
variable of this name and `node` is the operand of the Minus, or the node
that is no Minus. `none` is a `panic` and `some none` is `NULL`. The target
value `offset` is negated behind the tests and not read again; the
Immediate gets `val`. -/
def try_create_Immediate_body (minus : Bool) (node : ImmExpr)
    (immediate_constraint_type : Char) : Option (Option ImmAttr) :=
  match try_create_Immediate_match minus node with
  | none => some none
  | some m =>
    let checked : Option (Option Int) :=
      match m.cnst with
      | some offset =>
        if offset.tarval_is_long then
          (check_immediate_constraint offset.get_tarval_long immediate_constraint_type).map
            fun ok => if ok then some offset.get_tarval_long else none
        else if offset.tarval_is_null then
          (check_immediate_constraint 0 immediate_constraint_type).map
            fun ok => if ok then some 0 else none
        else some none
      | none => some (some 0)
    match checked with
    | none => none
    | some none => some none
    | some (some val) =>
      match m.symconst with
      | some (addr_ent, entity) =>
        if immediate_constraint_type ≠ '\x00' then some none
        else if !addr_ent then some none
        else some (some (ImmAttr.mk (some entity) m.symconst_sign false val))
      | none =>
        if m.cnst = none then some none
        else some (some (ImmAttr.mk none m.symconst_sign false val))

/-- `try_create_Immediate`: the attributes of the Immediate that is created.
`none` is a `panic` and `some none` is `NULL`. `mode_is_int` and
`mode_is_reference` are those of the mode of the node. -/
def try_create_Immediate (mode_is_int mode_is_reference : Bool) (node : ImmExpr)
    (immediate_constraint_type : Char) : Option (Option ImmAttr) :=
  if !mode_is_int && !mode_is_reference then some none
  else
    match node with
    | ImmExpr.Minus op => try_create_Immediate_body true op immediate_constraint_type
    | n => try_create_Immediate_body false n immediate_constraint_type

/-- The conversion `%X` of `printf` for an `int`. -/
def fmt_X (x : Int) : String :=
  String.mk ((Nat.toDigits 16 (toUnsigned x)).map Char.toUpper)

/-- `emit_ia32_Immediate_no_prefix`: the text that is emitted. -/
def emit_ia32_Immediate_no_prefix (env : EmitEnv) (attr : ImmAttr) : String :=
  (match attr.symconst with
    | some ent => (if attr.sc_sign then "-" else "") ++ ia32_emit_entity env ent attr.no_pic_adjust
    | none => "") ++
  (if attr.symconst = none ∨ attr.offset ≠ 0 then
      if attr.symconst ≠ none then fmt_plus_d attr.offset else "0x" ++ fmt_X attr.offset
    else "")

/-- The value that the text of `emit_ia32_Immediate_no_prefix` stands for: the
address of the entity, negated behind the sign `-`, plus the offset. `addr`
gives the addresses of the entities. -/
def ImmAttr.value (addr : Nat → Int) (attr : ImmAttr) : Int :=
  (match attr.symconst with
    | some ent => if attr.sc_sign then -addr ent else addr ent
    | none => 0) + attr.offset

/-- The value of a node that `try_create_Immediate` matches: the value of a
Const is `get_tarval_long`, or 0 for a target value that is null, and the
value of a SymConst is the address of its entity. -/
def ImmExpr.value (addr : Nat → Int) : ImmExpr → Int
  | ImmExpr.Const tv => if tv.tarval_is_long then tv.get_tarval_long else 0
  | ImmExpr.SymConst _ entity => addr entity
  | ImmExpr.Minus op => -op.value addr
  | ImmExpr.Add left right => left.value addr + right.value addr
  | ImmExpr.Sub left right => left.value addr - right.value addr
  | ImmExpr.other => 0

/-! ## The negation of a number of 64 bits (`emit_ia32_Minus64Bit`,
`bemit_minus64bit`)

The four registers of the node are general-purpose registers; two of them
are equal when they are the same register. -/

/-- The instructions of `emit_ia32_Minus64Bit`, with the operands in the
order of the text: the source and then the destination. -/
inductive NegInsn
  /-- `movl %R, %R` -/
  | movl (src dst : Reg)
  /-- `negl %R` -/
  | negl (reg : Reg)
  /-- `sbbl $0, %R` -/
  | sbbl0 (reg : Reg)
  /-- `sbbl %R, %R` -/
  | sbbl (src dst : Reg)
  /-- `xchgl %R, %R` -/
  | xchgl (src dst : Reg)
  /-- `xorl %R, %R` -/
  | xorl (src dst : Reg)
  deriving DecidableEq, Repr

/-- The line that `ia32_emitf` prints for an instruction. -/
def NegInsn.text : NegInsn → String
  | NegInsn.movl src dst => "\tmovl " ++ emit_register src ++ ", " ++ emit_register dst ++ "\n"
  | NegInsn.negl reg => "\tnegl " ++ emit_register reg ++ "\n"
  | NegInsn.sbbl0 reg => "\tsbbl $0, " ++ emit_register reg ++ "\n"
  | NegInsn.sbbl src dst => "\tsbbl " ++ emit_register src ++ ", " ++ emit_register dst ++ "\n"
  | NegInsn.xchgl src dst =>
    "\txchgl " ++ emit_register src ++ ", " ++ emit_register dst ++ "\n"
  | NegInsn.xorl src dst => "\txorl " ++ emit_register src ++ ", " ++ emit_register dst ++ "\n"

/-- `emit_mov` -/
def emit_mov (src dst : Reg) : NegInsn := NegInsn.movl src dst

/-- `emit_neg` -/
def emit_neg (reg : Reg) : NegInsn := NegInsn.negl reg

/-- `emit_sbb0` -/
def emit_sbb0 (reg : Reg) : NegInsn := NegInsn.sbbl0 reg

/-- `emit_sbb` -/
def emit_sbb (src dst : Reg) : NegInsn := NegInsn.sbbl src dst

/-- `emit_xchg` -/
def emit_xchg (src dst : Reg) : NegInsn := NegInsn.xchgl src dst

/-- `emit_zero` -/
def emit_zero (reg : Reg) : NegInsn := NegInsn.xorl reg reg

/-- `emit_ia32_Minus64Bit`: the instructions that are emitted. -/
def emit_ia32_Minus64Bit (in_lo in_hi out_lo out_hi : Reg) : List NegInsn :=
  let normal_neg := [emit_neg out_hi, emit_neg out_lo, emit_sbb0 out_hi]
  let zero_neg := [emit_zero out_hi, emit_neg out_lo, emit_sbb in_hi out_hi]
  if out_lo = in_lo then
    if out_hi ≠ in_hi then zero_neg
    else normal_neg
  else if out_lo = in_hi then
    if out_hi = in_lo then emit_xchg in_lo in_hi :: normal_neg
    else emit_mov in_hi out_hi :: emit_mov in_lo out_lo :: normal_neg
  else
    if out_hi = in_lo then emit_mov in_lo out_lo :: zero_neg
    else if out_hi = in_hi then emit_mov in_lo out_lo :: normal_neg
    else emit_mov in_lo out_lo :: zero_neg

/-- `bemit_modrr` -/
def bemit_modrr (src1 src2 : Reg) : BItem :=
  bemit8 (0xC0 ||| reg_gp_map src1 ||| (reg_gp_map src2 <<< 3))

/-- `bemit_helper_mov` -/
def bemit_helper_mov (src dst : Reg) : Option (List BItem) :=
  some [bemit8 0x8B, bemit_modrr src dst]

/-- `bemit_helper_neg` -/
def bemit_helper_neg (reg : Reg) : Option (List BItem) :=
  (bemit_modru reg 3).map fun modrm => bemit8 0xF7 :: modrm

/-- `bemit_helper_sbb0` -/
def bemit_helper_sbb0 (reg : Reg) : Option (List BItem) :=
  (bemit_modru reg 3).map fun modrm => bemit8 0x83 :: modrm ++ [bemit8 0]

/-- `bemit_helper_sbb` -/
def bemit_helper_sbb (src dst : Reg) : Option (List BItem) :=
  some [bemit8 0x1B, bemit_modrr src dst]

/-- `bemit_helper_xchg` -/
def bemit_helper_xchg (src dst : Reg) : Option (List BItem) :=
  if src = Reg.eax then some [bemit8 (0x90 + reg_gp_map dst)]
  else if dst = Reg.eax then some [bemit8 (0x90 + reg_gp_map src)]
  else some [bemit8 0x87, bemit_modrr src dst]

/-- `bemit_helper_zero` -/
def bemit_helper_zero (reg : Reg) : Option (List BItem) :=
  some [bemit8 0x33, bemit_modrr reg reg]

/-- The output of a sequence of calls of the helpers: `none` if one of them
fails. -/
def bemit_seq : List (Option (List BItem)) → Option (List BItem)
  | [] => some []
  | none :: _ => none
  | some items :: rest => (bemit_seq rest).map fun out => items ++ out

/-- `bemit_minus64bit`: the bytes that are emitted. -/
def bemit_minus64bit (in_lo in_hi out_lo out_hi : Reg) : Option (List BItem) :=
  let normal_neg :=
    [bemit_helper_neg out_hi, bemit_helper_neg out_lo, bemit_helper_sbb0 out_hi]
  let zero_neg :=
    [bemit_helper_zero out_hi, bemit_helper_neg out_lo, bemit_helper_sbb in_hi out_hi]
  if out_lo = in_lo then
    if out_hi ≠ in_hi then bemit_seq zero_neg
    else bemit_seq normal_neg
  else if out_lo = in_hi then
    if out_hi = in_lo then bemit_seq (bemit_helper_xchg in_lo in_hi :: normal_neg)
    else
      bemit_seq (bemit_helper_mov in_hi out_hi :: bemit_helper_mov in_lo out_lo :: normal_neg)
  else
    if out_hi = in_lo then bemit_seq (bemit_helper_mov in_lo out_lo :: zero_neg)
    else if out_hi = in_hi then bemit_seq (bemit_helper_mov in_lo out_lo :: normal_neg)
    else bemit_seq (bemit_helper_mov in_lo out_lo :: zero_neg)

/-- The registers of 32 bits and the carry flag of the processor. -/
structure RegFile where
  reg : Reg → Nat
  carry : Bool

/-- What an instruction does to the registers and the carry flag: `negl`
sets the carry flag unless the operand is 0, `sbbl` subtracts the source and
the carry flag and sets the carry flag at a borrow, `xorl` clears it. -/
def NegInsn.exec : NegInsn → RegFile → RegFile
  | NegInsn.movl src dst, s => { s with reg := Function.update s.reg dst (s.reg src) }
  | NegInsn.negl reg, s =>
    { reg := Function.update s.reg reg ((4294967296 - s.reg reg) % 4294967296)
      carry := decide (s.reg reg ≠ 0) }
  | NegInsn.sbbl0 reg, s =>
    { reg := Function.update s.reg reg
        ((s.reg reg + 4294967296 - (if s.carry then 1 else 0)) % 4294967296)
      carry := decide (s.reg reg < (if s.carry then 1 else 0)) }
  | NegInsn.sbbl src dst, s =>
    { reg := Function.update s.reg dst
        ((s.reg dst + 8589934592 - s.reg src - (if s.carry then 1 else 0)) % 4294967296)
      carry := decide (s.reg dst < s.reg src + (if s.carry then 1 else 0)) }
  | NegInsn.xchgl src dst, s =>
    { s with reg := Function.update (Function.update s.reg dst (s.reg src)) src (s.reg dst) }
  | NegInsn.xorl src dst, s =>
    { reg := Function.update s.reg dst (s.reg dst ^^^ s.reg src)
      carry := false }

/-- The registers and the carry flag behind a sequence of instructions. -/
def runNegInsns (insns : List NegInsn) (s : RegFile) : RegFile :=
  insns.foldl (fun s insn => insn.exec s) s

/-- The two registers of a ModR/M byte for two registers: the register of
the field r/m and the register of the field reg. -/
def decodeModRR (modrm : Nat) : Option (Reg × Reg) :=
  if modrm / 64 = 3 then
    match regOfEncoding (modrm % 8), regOfEncoding (modrm / 8 % 8) with
    | some rm, some reg => some (rm, reg)
    | _, _ => none
  else none

/-- The instructions that a sequence of bytes stands for, as far as
`bemit_minus64bit` emits them: `8B /r` is `movl`, `F7 /3` is `negl`,
`83 /3` with the byte 0 is `sbbl $0`, `1B /r` is `sbbl`, `87 /r` and
`90+r` are `xchgl`, and `33 /r` is `xorl`. The first operand of an
instruction with two registers is the register of the field r/m. -/
def decodeNegInsns : List BItem → Option (List NegInsn)
  | [] => some []
  | BItem.byte 0x8B :: BItem.byte modrm :: rest =>
    match decodeModRR modrm, decodeNegInsns rest with
    | some (rm, reg), some insns => some (NegInsn.movl rm reg :: insns)
    | _, _ => none
  | BItem.byte 0xF7 :: BItem.byte modrm :: rest =>
    match decodeModRR modrm, decodeNegInsns rest with
    | some (rm, _), some insns =>
      if modrm / 8 % 8 = 3 then some (NegInsn.negl rm :: insns) else none
    | _, _ => none
  | BItem.byte 0x83 :: BItem.byte modrm :: BItem.byte 0 :: rest =>
    match decodeModRR modrm, decodeNegInsns rest with
    | some (rm, _), some insns =>
      if modrm / 8 % 8 = 3 then some (NegInsn.sbbl0 rm :: insns) else none
    | _, _ => none
  | BItem.byte 0x1B :: BItem.byte modrm :: rest =>
    match decodeModRR modrm, decodeNegInsns rest with
    | some (rm, reg), some insns => some (NegInsn.sbbl rm reg :: insns)
    | _, _ => none
  | BItem.byte 0x87 :: BItem.byte modrm :: rest =>
    match decodeModRR modrm, decodeNegInsns rest with
    | some (rm, reg), some insns => some (NegInsn.xchgl rm reg :: insns)
    | _, _ => none
  | BItem.byte 0x33 :: BItem.byte modrm :: rest =>
    match decodeModRR modrm, decodeNegInsns rest with
    | some (rm, reg), some insns => some (NegInsn.xorl rm reg :: insns)
    | _, _ => none
  | BItem.byte b :: rest =>
    if 0x91 ≤ b ∧ b ≤ 0x97 then
      match regOfEncoding (b - 0x90), decodeNegInsns rest with
      | some r, some insns => some (NegInsn.xchgl Reg.eax r :: insns)
      | _, _ => none
    else none
  | _ => none

/-- Two instructions are the same instruction: they are equal, or they are
`xchgl` with the same two registers in the other order. -/
def NegInsn.same (a b : NegInsn) : Bool :=
  decide (a = b) ||
    match a, b with
    | NegInsn.xchgl s1 d1, NegInsn.xchgl s2 d2 => decide (s1 = d2 ∧ d1 = s2)
    | _, _ => false

/-- Registers for an example: 5 in `eax`, 7 in `edx` and 0 elsewhere, the
carry flag clear. -/
def exampleRegFile : RegFile :=
  { reg := fun r => if r = Reg.eax then 5 else if r = Reg.edx then 7 else 0
    carry := false }

/-- The bytes of a sequence of calls of the helpers stand for a sequence of
instructions. -/
def BemitDecodes (calls : List (Option (List BItem))) (insns : List NegInsn) : Prop :=
  ∃ items dec, bemit_seq calls = some items ∧ decodeNegInsns items = some dec ∧
    List.Forall₂ (fun a b => a.same b = true) dec insns

/-! ## The emitters that `ia32_register_emitters` enters (`ia32_emitter.c`)

`ia32_register_emitters` enters the emitters of `ia32_register_spec_emitters`,
which are not part of `ia32_emitter.c`, and then the emitters below. An
emitter reads attributes of its node and prints with `ia32_emitf` and the
`be_emit_` functions. The only statics that are written while a node is
emitted are `id` of `get_unique_label`, which `generate_jump_table` calls,
and `exc_label_id`, which `ia32_assign_exc_label` counts up.

A register is a number; the registers that `get_in_reg`, `get_out_reg` and
`arch_get_irn_register` return for the nodes below are assigned. An emitter
returns `none` when it does not return: a `panic`, an `assert` that fails or
undefined behaviour. -/

/-- Whether the function behind the item reads the node of `ia32_emitf`. -/
def Ia32EmitItem.reads_node : Ia32EmitItem → Bool
  | Ia32EmitItem.am => true
  | Ia32EmitItem.register _ ls => ls
  | Ia32EmitItem.out_register _ _ => true
  | Ia32EmitItem.in_register _ _ => true
  | Ia32EmitItem.immediate => true
  | Ia32EmitItem.in_immediate _ => true
  | Ia32EmitItem.cfop_target => true
  | Ia32EmitItem.mode_suffix => true
  | _ => false

/-- A call `ia32_emitf(node, fmt, ...)` of an emitter: what the call prints
if it returns. -/
def emitf_call (node : EmitfNode) (fmt : String) (args : List Ia32EmitArg) :
    Option (List EmitPiece) :=
  match ia32_emitf node fmt.toList args with
  | EmitfResult.done out _ => some [EmitPiece.emitf out]
  | _ => none

/-- A call `ia32_emitf(NULL, fmt, ...)` of an emitter. A conversion that
reads the node dereferences `NULL`; each of them prints an item that reads
the node when the operation has a source address mode. -/
def emitf_null_call (fmt : String) (args : List Ia32EmitArg) : Option (List EmitPiece) :=
  match ia32_emitf (EmitfNode.mk ia32_op_type_t.ia32_AddrModeS fun _ => false) fmt.toList
      args with
  | EmitfResult.done out _ =>
    if out.any Ia32EmitItem.reads_node then none else some [EmitPiece.emitf_null out]
  | _ => none

/-- The output of a sequence of calls: `none` if one of them does not
return. -/
def emit_seq : List (Option (List EmitPiece)) → Option (List EmitPiece)
  | [] => some []
  | none :: _ => none
  | some items :: rest => (emit_seq rest).map fun out => items ++ out

/-- `emit_ia32_IMul`; `left_is_noreg` is `is_ia32_NoReg_GP(left)`, `in_left`
the register of the input `left` and `out_reg` the register of the
result. -/
def emit_ia32_IMul (node : EmitfNode) (left_is_noreg : Bool) (in_left out_reg : Nat) :
    Option (List EmitPiece) :=
  if left_is_noreg ∨ in_left ≠ out_reg then
    emitf_call node "\timul%M %#S4, %#AS3, %#D0\n" []
  else emitf_call node "\timul%M %#AS4, %#S3\n" []

/-- `emit_ia32_Setcc`; `dreg` is the register of the result. -/
def emit_ia32_Setcc (K : CmpConsts) (node : EmitfNode) (dreg condcode : Nat)
    (flags : FlagsAttr) : Option (List EmitPiece) :=
  let pnc := determine_final_pnc K flags condcode
  let P := Ia32EmitArg.int pnc
  let R := Ia32EmitArg.register dreg
  if pnc &&& K.ia32_pn_Cmp_float ≠ 0 then
    if pnc &&& 0x0f = K.pn_Cmp_Uo then emitf_call node "\tsetp %#R\n" [R]
    else if pnc &&& 0x0f = K.pn_Cmp_Leg then emitf_call node "\tsetnp %#R\n" [R]
    else if pnc &&& 0x0f = K.pn_Cmp_Eq ∨ pnc &&& 0x0f = K.pn_Cmp_Lt ∨
        pnc &&& 0x0f = K.pn_Cmp_Le then
      emit_seq [emitf_call node "\tset%P %<R\n" [P, R], emitf_call node "\tsetnp %>R\n" [R],
        emitf_call node "\tandb %>R, %<R\n" [R, R]]
    else if pnc &&& 0x0f = K.pn_Cmp_Ug ∨ pnc &&& 0x0f = K.pn_Cmp_Uge ∨
        pnc &&& 0x0f = K.pn_Cmp_Ne then
      emit_seq [emitf_call node "\tset%P %<R\n" [P, R], emitf_call node "\tsetp %>R\n" [R],
        emitf_call node "\torb %>R, %<R\n" [R, R]]
    else emitf_call node "\tset%P %#R\n" [P, R]
  else emitf_call node "\tset%P %#R\n" [P, R]

/-- The end of `emit_ia32_CMovcc`, behind the test of the registers: the
`panic` for a compare of floating point numbers, or the `cmov`. `pre` is
what the emitter has printed before. -/
def emit_ia32_CMovcc_cmov (K : CmpConsts) (node : EmitfNode) (pnc in_true out : Nat)
    (pre : List (Option (List EmitPiece))) : Option (List EmitPiece) :=
  if pnc &&& K.ia32_pn_Cmp_float ≠ 0 ∧
      (pnc &&& 0x0f = K.pn_Cmp_Uo ∨ pnc &&& 0x0f = K.pn_Cmp_Leg ∨
        pnc &&& 0x0f = K.pn_Cmp_Eq ∨ pnc &&& 0x0f = K.pn_Cmp_Lt ∨
        pnc &&& 0x0f = K.pn_Cmp_Le ∨ pnc &&& 0x0f = K.pn_Cmp_Ug ∨
        pnc &&& 0x0f = K.pn_Cmp_Uge ∨ pnc &&& 0x0f = K.pn_Cmp_Ne) then none
  else
    emit_seq (pre ++ [emitf_call node "\tcmov%P %#AR, %#R\n"
      [Ia32EmitArg.int pnc, Ia32EmitArg.register in_true, Ia32EmitArg.register out]])

/-- `emit_ia32_CMovcc`; `ins_permuted` is the attribute of the node itself,
`flags` are the attributes that `determine_final_pnc` reads. -/
def emit_ia32_CMovcc (K : CmpConsts) (node : EmitfNode) (ins_permuted : Bool)
    (out in_true in_false condcode : Nat) (flags : FlagsAttr) : Option (List EmitPiece) :=
  let pnc0 := determine_final_pnc K flags condcode
  let pnc := if ins_permuted then ia32_get_negated_pnc K pnc0 else pnc0
  if out = in_false then emit_ia32_CMovcc_cmov K node pnc in_true out []
  else if out = in_true then
    if node.op_type ≠ ia32_op_type_t.ia32_Normal then none
    else emit_ia32_CMovcc_cmov K node (ia32_get_negated_pnc K pnc) in_false out []
  else
    emit_ia32_CMovcc_cmov K node pnc in_true out
      [emitf_call node "\tmovl %R, %R\n"
        [Ia32EmitArg.register in_false, Ia32EmitArg.register out]]

/-- `emit_ia32_Jmp`; `block` is the block of the node and `target` the block
that it jumps to. -/
def emit_ia32_Jmp (prev : Nat → Option Nat) (node : EmitfNode) (block target : Nat) :
    Option (List EmitPiece) :=
  if can_be_fallthrough prev block target then
    emitf_call node "\t/* fallthrough to %L */\n" []
  else emitf_call node "\tjmp %L\n" []

/-- `ia32_asm_reg_t` -/
structure ia32_asm_reg_t where
  use_input : Bool
  valid : Bool
  memory : Bool
  inout_pos : Nat
  mode : Option Nat

/-- What `emit_ia32_Asm` reads of its node: the text, the map of the
registers, and the registers of the inputs and of the results (`none` if no
register is found, or if `get_in_reg` finds the register `NoReg`). -/
structure AsmNode where
  node : EmitfNode
  asm_text : List Char
  register_map : List ia32_asm_reg_t
  in_reg : Nat → Option Nat
  out_reg : Nat → Option Nat

/-- The part of `emit_asm_operand` behind the number `num` of the operand;
`s` is the text behind the number. The test `reg == NULL` stands behind the
`assert` of `get_in_reg` and `get_out_reg` that a register is found. -/
def emit_asm_operand_num (a : AsmNode) (modifier : Option Char) (num : Int)
    (s : List Char) : Option (List EmitPiece × List Char) :=
  if num < 0 ∨ (a.register_map.length : Int) ≤ num then some ([], s)
  else
    match a.register_map.get? num.toNat with
    | none => some ([], s)
    | some asm_reg =>
      if !asm_reg.valid then none
      else if asm_reg.use_input ∧ a.node.is_ia32_Immediate asm_reg.inout_pos then
        some ([EmitPiece.immediate asm_reg.inout_pos], s)
      else
        match (if asm_reg.use_input then a.in_reg asm_reg.inout_pos
            else a.out_reg asm_reg.inout_pos) with
        | none => none
        | some reg =>
          some ((if asm_reg.memory then [EmitPiece.char '('] else []) ++
            (match modifier with
              | some m => [EmitPiece.char '%', EmitPiece.mapped_reg_name m reg]
              | none => [EmitPiece.register reg asm_reg.mode]) ++
            (if asm_reg.memory then [EmitPiece.char ')'] else []), s)

/-- `emit_asm_operand`; `s` is the text behind the `'%'` that the operand
starts with. The result is what is printed and the text behind the operand.
`sscanf_d` is `sscanf` with the format `%d%n`: the number that is read and
the count of the characters that are read, or `none` if no number is read.
At the end of the text the function returns a pointer behind the
terminating `'\0'`, and the loop of `emit_ia32_Asm` reads there: `none`. -/
def emit_asm_operand (sscanf_d : List Char → Option (Int × Nat)) (a : AsmNode)
    (s : List Char) : Option (List EmitPiece × List Char) :=
  let c := s.headD '\x00'
  if c = '\x00' then none
  else if c = '%' then some ([EmitPiece.char '%'], s.tail)
  else
    let modifier : Option Char := if c = 'w' ∨ c = 'b' ∨ c = 'h' then some c else none
    let s1 := if '0' ≤ c ∧ c ≤ '9' then s else s.tail
    match sscanf_d s1 with
    | none => some ([], s1)
    | some (num, p) =>
      if num < 0 then some ([], s1)
      else emit_asm_operand_num a modifier num (s1.drop p)

/-- The loop of `emit_ia32_Asm` over the text `s`, for at most `fuel` rounds;
`none` also if the rounds do not suffice. -/
def emit_asm_text (sscanf_d : List Char → Option (Int × Nat)) (a : AsmNode) :
    Nat → List Char → Option (List EmitPiece)
  | _, [] => some []
  | 0, _ :: _ => none
  | fuel + 1, c :: rest =>
    if c = '\x00' then some []
    else if c = '%' then
      match emit_asm_operand sscanf_d a rest with
      | none => none
      | some (out, s1) => (emit_asm_text sscanf_d a fuel s1).map fun t => out ++ t
    else (emit_asm_text sscanf_d a fuel rest).map fun t => EmitPiece.char c :: t

/-- `emit_ia32_Asm`; each round of the loop reads a character, so as many
rounds as the text has characters suffice when `sscanf` counts the
characters that it reads. -/
def emit_ia32_Asm (sscanf_d : List Char → Option (Int × Nat)) (a : AsmNode) :
    Option (List EmitPiece) :=
  emit_seq [emitf_call a.node "#APP\t\n" [],
    some (if a.asm_text.headD '\x00' ≠ '\t' then [EmitPiece.char '\t'] else []),
    emit_asm_text sscanf_d a a.asm_text.length a.asm_text,
    emitf_null_call "\n#NO_APP\n" []]

/-- `emit_CopyB_prolog` -/
def emit_CopyB_prolog (size : Nat) : Option (List EmitPiece) :=
  emit_seq [if size &&& 1 ≠ 0 then emitf_null_call "\tmovsb\n" [] else some [],
    if size &&& 2 ≠ 0 then emitf_null_call "\tmovsw\n" [] else some []]

/-- `emit_ia32_CopyB`; `size` is `get_ia32_copyb_size`. -/
def emit_ia32_CopyB (node : EmitfNode) (size : Nat) : Option (List EmitPiece) :=
  emit_seq [emit_CopyB_prolog size, emitf_call node "\trep movsd\n" []]

/-- `emit_ia32_CopyB_i`; `size` is `get_ia32_copyb_size`. -/
def emit_ia32_CopyB_i (size : Nat) : Option (List EmitPiece) :=
  emit_seq (emit_CopyB_prolog size ::
    List.replicate (size >>> 2) (emitf_null_call "\tmovsd\n" []))

/-- `emit_ia32_Conv_with_FP`; `ls_bits` is the size of the mode of the node
in bits. -/
def emit_ia32_Conv_with_FP (node : EmitfNode) (ls_bits : Int) (conv_f conv_d : String) :
    Option (List EmitPiece) :=
  let conv := if ls_bits = 32 then conv_f else conv_d
  emitf_call node "\tcvt%s %AS3, %D0\n" [Ia32EmitArg.string conv]

/-- `emit_ia32_Conv_I2FP` -/
def emit_ia32_Conv_I2FP (node : EmitfNode) (ls_bits : Int) : Option (List EmitPiece) :=
  emit_ia32_Conv_with_FP node ls_bits "si2ss" "si2sd"

/-- `emit_ia32_Conv_FP2I` -/
def emit_ia32_Conv_FP2I (node : EmitfNode) (ls_bits : Int) : Option (List EmitPiece) :=
  emit_ia32_Conv_with_FP node ls_bits "ss2si" "sd2si"

/-- `emit_ia32_Conv_FP2FP` -/
def emit_ia32_Conv_FP2FP (node : EmitfNode) (ls_bits : Int) : Option (List EmitPiece) :=
  emit_ia32_Conv_with_FP node ls_bits "sd2ss" "ss2sd"

/-- `emit_ia32_Conv_I2I`; `signed_mode` and `is_float` are `mode_is_signed`
and `mode_is_float` of the mode of the node. -/
def emit_ia32_Conv_I2I (node : EmitfNode) (signed_mode is_float : Bool) :
    Option (List EmitPiece) :=
  if is_float then none
  else
    emitf_call node "\tmov%s%Ml %#AS3, %D0\n"
      [Ia32EmitArg.string (if signed_mode then "s" else "z")]

/-- `emit_ia32_Call` -/
def emit_ia32_Call (node : EmitfNode) : Option (List EmitPiece) :=
  emitf_call node "\tcall %*AS3\n" []

/-- `emit_be_IncSP`; `offs` is `be_get_IncSP_offset`, an `int`, whose
negation overflows for the least `int`. -/
def emit_be_IncSP (node : EmitfNode) (offs : Int) : Option (List EmitPiece) :=
  if offs = 0 then some []
  else if offs > 0 then
    emitf_call node "\tsubl $%u, %D0\n" [Ia32EmitArg.unsigned (toUnsigned offs)]
  else if offs = -2147483648 then none
  else emitf_call node "\taddl $%u, %D0\n" [Ia32EmitArg.unsigned (toUnsigned (-offs))]

/-- `Copy_emitter`; `in_reg` is the register of `op` and `out` the register
of the node, `in_vfp` tells that the class of `in_reg` is the class `vfp`
and `mode_E` that the mode of the node is `mode_E`. -/
def Copy_emitter (node : EmitfNode) (in_reg out : Nat) (in_vfp mode_E : Bool) :
    Option (List EmitPiece) :=
  if in_reg = out then some []
  else if in_vfp then some []
  else if mode_E then
    emitf_call node "\tmovsd %R, %R\n" [Ia32EmitArg.register in_reg, Ia32EmitArg.register out]
  else
    emitf_call node "\tmovl %R, %R\n" [Ia32EmitArg.register in_reg, Ia32EmitArg.register out]

/-- `emit_be_Copy` -/
def emit_be_Copy (node : EmitfNode) (in_reg out : Nat) (in_vfp mode_E : Bool) :
    Option (List EmitPiece) :=
  Copy_emitter node in_reg out in_vfp mode_E

/-- `emit_be_CopyKeep` -/
def emit_be_CopyKeep (node : EmitfNode) (in_reg out : Nat) (in_vfp mode_E : Bool) :
    Option (List EmitPiece) :=
  Copy_emitter node in_reg out in_vfp mode_E

/-- The register classes that `emit_be_Perm` tells apart. -/
inductive RegClass
  | gp
  | xmm
  | vfp
  | st
  /-- another class of `ia32_reg_classes` -/
  | other (n : Nat)
  deriving DecidableEq, Repr

/-- `emit_be_Perm`; `in0` and `in1` are the registers of the two inputs and
`cls0` and `cls1` their classes. -/
def emit_be_Perm (node : EmitfNode) (in0 in1 : Nat) (cls0 cls1 : RegClass) :
    Option (List EmitPiece) :=
  if cls0 ≠ cls1 then none
  else
    match cls0 with
    | RegClass.gp =>
      emitf_call node "\txchg %R, %R\n" [Ia32EmitArg.register in1, Ia32EmitArg.register in0]
    | RegClass.xmm =>
      emit_seq
        [emitf_null_call "\txorpd %R, %R\n" [Ia32EmitArg.register in1, Ia32EmitArg.register in0],
          emitf_null_call "\txorpd %R, %R\n"
            [Ia32EmitArg.register in0, Ia32EmitArg.register in1],
          emitf_call node "\txorpd %R, %R\n"
            [Ia32EmitArg.register in1, Ia32EmitArg.register in0]]
    | RegClass.vfp => some []
    | RegClass.st => some []
    | RegClass.other _ => none

/-- `emit_ia32_Const` -/
def emit_ia32_Const (node : EmitfNode) : Option (List EmitPiece) :=
  emitf_call node "\tmovl %I, %D0\n" []

/-- `emit_ia32_LdTls` -/
def emit_ia32_LdTls (node : EmitfNode) : Option (List EmitPiece) :=
  emitf_call node "\tmovl %%gs:0, %D0\n" []

/-- `emit_ia32_GetEIP`; `pic_base_label` is the text in the static of that
name, which `ia32_gen_routine` writes before it emits the blocks. -/
def emit_ia32_GetEIP (pic_base_label : String) (node : EmitfNode) : Option (List EmitPiece) :=
  emit_seq [emitf_call node "\tcall %s\n" [Ia32EmitArg.string pic_base_label],
    emitf_null_call "%s:\n" [Ia32EmitArg.string pic_base_label],
    emitf_call node "\tpopl %D0\n" []]

/-- `emit_ia32_ClimbFrame`; `count` is the attribute of that name. -/
def emit_ia32_ClimbFrame (node : EmitfNode) (count : Nat) : Option (List EmitPiece) :=
  emit_seq [emitf_call node "\tmovl %S0, %D0\n" [],
    emitf_call node "\tmovl $%u, %S1\n" [Ia32EmitArg.unsigned count],
    some [EmitPiece.block_name, EmitPiece.cstring ":\n", EmitPiece.write_line],
    emitf_call node "\tmovl (%D0), %D0\n" [],
    emitf_call node "\tdec %S1\n" [],
    some [EmitPiece.cstring "\tjnz ", EmitPiece.block_name, EmitPiece.finish_line_gas]]

/-- `emit_be_Return`; `pop` is `be_Return_get_pop` and `emit_pop` tells that
`be_Return_get_emit_pop` is not 0. -/
def emit_be_Return (node : EmitfNode) (pop : Nat) (emit_pop : Bool) :
    Option (List EmitPiece) :=
  if pop > 0 ∨ emit_pop then emitf_call node "\tret $%u\n" [Ia32EmitArg.unsigned pop]
  else emitf_call node "\tret\n" []

/-- `emit_Nothing` -/
def emit_Nothing : Option (List EmitPiece) := some []

/-- A node of an operation for which `ia32_register_emitters` enters an
emitter of `ia32_emitter.c`, with what the emitter reads of the node. -/
inductive Ia32Insn
  | Conv_I2I8Bit (node : EmitfNode) (signed_mode is_float : Bool)
  | Asm (a : AsmNode)
  | CMovcc (node : EmitfNode) (ins_permuted : Bool) (out in_true in_false condcode : Nat)
      (flags : FlagsAttr)
  | Call (node : EmitfNode)
  | Const (node : EmitfNode)
  | Conv_FP2FP (node : EmitfNode) (ls_bits : Int)
  | Conv_FP2I (node : EmitfNode) (ls_bits : Int)
  | Conv_I2FP (node : EmitfNode) (ls_bits : Int)
  | Conv_I2I (node : EmitfNode) (signed_mode is_float : Bool)
  | CopyB (node : EmitfNode) (size : Nat)
  | CopyB_i (size : Nat)
  | GetEIP (node : EmitfNode)
  | IMul (node : EmitfNode) (left_is_noreg : Bool) (in_left out_reg : Nat)
  | Jcc (node : JccNode)
  | Setcc (node : EmitfNode) (dreg condcode : Nat) (flags : FlagsAttr)
  | LdTls (node : EmitfNode)
  | Minus64Bit (in_lo in_hi out_lo out_hi : Reg)
  | SwitchJmp (projs : List (Nat × Int)) (default_pn : Int)
  | ClimbFrame (node : EmitfNode) (count : Nat)
  | Jmp (node : EmitfNode) (block target : Nat)
  | be_Copy (node : EmitfNode) (in_reg out : Nat) (in_vfp mode_E : Bool)
  | be_CopyKeep (node : EmitfNode) (in_reg out : Nat) (in_vfp mode_E : Bool)
  | be_IncSP (node : EmitfNode) (offs : Int)
  | be_Perm (node : EmitfNode) (in0 in1 : Nat) (cls0 cls1 : RegClass)
  | be_Return (node : EmitfNode) (pop : Nat) (emit_pop : Bool)
  | be_Barrier
  | be_Keep
  | be_Start
  | Phi

/-- Whether the node is a `SwitchJmp`. -/
def Ia32Insn.is_SwitchJmp : Ia32Insn → Bool
  | Ia32Insn.SwitchJmp _ _ => true
  | _ => false

/-- What the emitters read beside the node: the constants of the
relations, `get_prev_block_sched`, what `be_gas_get_private_prefix` returns,
the text in `pic_base_label`, `sscanf` with the format `%d%n`, and the
number of rounds granted to the loop that prints the table of a switch. -/
structure EmitterEnv where
  K : CmpConsts
  prev : Nat → Option Nat
  private_pfx : String
  pic_base_label : String
  sscanf_d : List Char → Option (Int × Nat)
  switch_fuel : Nat

/-- The emitter that `ia32_register_emitters` enters in `op->ops.generic` of
the operation of the node, applied to the node: it gets the counters of the
labels and returns its text and the counters. Only `emit_ia32_SwitchJmp`,
through `generate_jump_table`, calls `get_unique_label`, and no emitter
writes `exc_label_id`. -/
def ia32_generic (E : EmitterEnv) :
    Ia32Insn → EmitCounters → Option (List NodeText × EmitCounters)
  | Ia32Insn.Conv_I2I8Bit node signed_mode is_float, c =>
    (emit_ia32_Conv_I2I node signed_mode is_float).map fun t => ([NodeText.pieces t], c)
  | Ia32Insn.Asm a, c =>
    (emit_ia32_Asm E.sscanf_d a).map fun t => ([NodeText.pieces t], c)
  | Ia32Insn.CMovcc node ins_permuted out in_true in_false condcode flags, c =>
    (emit_ia32_CMovcc E.K node ins_permuted out in_true in_false condcode flags).map fun t =>
      ([NodeText.pieces t], c)
  | Ia32Insn.Call node, c => (emit_ia32_Call node).map fun t => ([NodeText.pieces t], c)
  | Ia32Insn.Const node, c => (emit_ia32_Const node).map fun t => ([NodeText.pieces t], c)
  | Ia32Insn.Conv_FP2FP node ls_bits, c =>
    (emit_ia32_Conv_FP2FP node ls_bits).map fun t => ([NodeText.pieces t], c)
  | Ia32Insn.Conv_FP2I node ls_bits, c =>
    (emit_ia32_Conv_FP2I node ls_bits).map fun t => ([NodeText.pieces t], c)
  | Ia32Insn.Conv_I2FP node ls_bits, c =>
    (emit_ia32_Conv_I2FP node ls_bits).map fun t => ([NodeText.pieces t], c)
  | Ia32Insn.Conv_I2I node signed_mode is_float, c =>
    (emit_ia32_Conv_I2I node signed_mode is_float).map fun t => ([NodeText.pieces t], c)
  | Ia32Insn.CopyB node size, c =>
    (emit_ia32_CopyB node size).map fun t => ([NodeText.pieces t], c)
  | Ia32Insn.CopyB_i size, c => (emit_ia32_CopyB_i size).map fun t => ([NodeText.pieces t], c)
  | Ia32Insn.GetEIP node, c =>
    (emit_ia32_GetEIP E.pic_base_label node).map fun t => ([NodeText.pieces t], c)
  | Ia32Insn.IMul node left_is_noreg in_left out_reg, c =>
    (emit_ia32_IMul node left_is_noreg in_left out_reg).map fun t => ([NodeText.pieces t], c)
  | Ia32Insn.Jcc node, c => (emit_ia32_Jcc E.K E.prev node).map fun l => ([NodeText.jump l], c)
  | Ia32Insn.Setcc node dreg condcode flags, c =>
    (emit_ia32_Setcc E.K node dreg condcode flags).map fun t => ([NodeText.pieces t], c)
  | Ia32Insn.LdTls node, c => (emit_ia32_LdTls node).map fun t => ([NodeText.pieces t], c)
  | Ia32Insn.Minus64Bit in_lo in_hi out_lo out_hi, c =>
    some ((emit_ia32_Minus64Bit in_lo in_hi out_lo out_hi).map fun i => NodeText.text i.text, c)
  | Ia32Insn.SwitchJmp projs default_pn, c =>
    (emit_ia32_SwitchJmp_label E.private_pfx projs default_pn E.switch_fuel c).map fun r =>
      ([NodeText.switch_jmp r.1], r.2)
  | Ia32Insn.ClimbFrame node count, c =>
    (emit_ia32_ClimbFrame node count).map fun t => ([NodeText.pieces t], c)
  | Ia32Insn.Jmp node block target, c =>
    (emit_ia32_Jmp E.prev node block target).map fun t => ([NodeText.pieces t], c)
  | Ia32Insn.be_Copy node in_reg out in_vfp mode_E, c =>
    (emit_be_Copy node in_reg out in_vfp mode_E).map fun t => ([NodeText.pieces t], c)
  | Ia32Insn.be_CopyKeep node in_reg out in_vfp mode_E, c =>
    (emit_be_CopyKeep node in_reg out in_vfp mode_E).map fun t => ([NodeText.pieces t], c)
  | Ia32Insn.be_IncSP node offs, c =>
    (emit_be_IncSP node offs).map fun t => ([NodeText.pieces t], c)
  | Ia32Insn.be_Perm node in0 in1 cls0 cls1, c =>
    (emit_be_Perm node in0 in1 cls0 cls1).map fun t => ([NodeText.pieces t], c)
  | Ia32Insn.be_Return node pop emit_pop, c =>
    (emit_be_Return node pop emit_pop).map fun t => ([NodeText.pieces t], c)
  | Ia32Insn.be_Barrier, c => emit_Nothing.map fun t => ([NodeText.pieces t], c)
  | Ia32Insn.be_Keep, c => emit_Nothing.map fun t => ([NodeText.pieces t], c)
  | Ia32Insn.be_Start, c => emit_Nothing.map fun t => ([NodeText.pieces t], c)
  | Ia32Insn.Phi, c => emit_Nothing.map fun t => ([NodeText.pieces t], c)

/-- An `sscanf` that reads one decimal digit. -/
def sscanfDigit : List Char → Option (Int × Nat)
  | c :: _ => if c.isDigit then some ((c.toNat : Int) - 48, 1) else none
  | [] => none

/-- The constants of firm, the block schedule 1, 2, 3, the private label
prefix `.L` and the label `.LPIC_1`. -/
def emitterEnv : EmitterEnv where
  K := firmCmpConsts
  prev := prevOf123
  private_pfx := ".L"
  pic_base_label := ".LPIC_1"
  sscanf_d := sscanfDigit
  switch_fuel := 4

/-- An operation without address mode whose inputs are registers. -/
def emitfNodeNormal : EmitfNode where
  op_type := ia32_op_type_t.ia32_Normal
  is_ia32_Immediate := fun _ => false

/-- An `IMul` whose left input has the register of the result. -/
def imulInsn : Ia32Insn := Ia32Insn.IMul emitfNodeNormal false 3 3

/-- An `Asm` with the text `movl %0, %b1`, whose operand 0 is the input 0 in
the register 2 and whose operand 1 is the result 0 in the register 5. -/
def asmInsn : Ia32Insn :=
  Ia32Insn.Asm
    { node := emitfNodeNormal
      asm_text := "movl %0, %b1".toList
      register_map := [⟨true, true, false, 0, none⟩, ⟨false, true, false, 0, none⟩]
      in_reg := fun _ => some 2
      out_reg := fun _ => some 5 }

/-- A node of each operation of `Ia32Insn`. -/
def emitterSamples : List Ia32Insn :=
  [Ia32Insn.Conv_I2I8Bit emitfNodeAM false false,
    asmInsn,
    Ia32Insn.CMovcc emitfNodeNormal false 1 2 3 2 ⟨FlagsKind.other, false, false⟩,
    Ia32Insn.Call emitfNodeAM,
    Ia32Insn.Const emitfNodeNormal,
    Ia32Insn.Conv_FP2FP emitfNodeNormal 32,
    Ia32Insn.Conv_FP2I emitfNodeNormal 64,
    Ia32Insn.Conv_I2FP emitfNodeAM 32,
    Ia32Insn.Conv_I2I emitfNodeNormal true false,
    Ia32Insn.CopyB emitfNodeNormal 6,
    Ia32Insn.CopyB_i 11,
    Ia32Insn.GetEIP emitfNodeNormal,
    imulInsn,
    Ia32Insn.Jcc jccLess,
    Ia32Insn.Setcc emitfNodeNormal 3 2 ⟨FlagsKind.ucomi, false, false⟩,
    Ia32Insn.LdTls emitfNodeNormal,
    Ia32Insn.Minus64Bit Reg.eax Reg.edx Reg.eax Reg.edx,
    Ia32Insn.SwitchJmp [(105, 5), (100, 9), (102, 2)] 9,
    Ia32Insn.ClimbFrame emitfNodeNormal 3,
    Ia32Insn.Jmp emitfNodeNormal 1 3,
    Ia32Insn.be_Copy emitfNodeNormal 1 2 false false,
    Ia32Insn.be_CopyKeep emitfNodeNormal 1 2 false true,
    Ia32Insn.be_IncSP emitfNodeNormal (-8),
    Ia32Insn.be_Perm emitfNodeNormal 1 2 RegClass.xmm RegClass.xmm,
    Ia32Insn.be_Return emitfNodeNormal 4 false,
    Ia32Insn.be_Barrier,
    Ia32Insn.be_Keep,
    Ia32Insn.be_Start,
    Ia32Insn.Phi]

/-! ## The final walk visits every reachable block once -/

theorem LinksOk.next_inj {next prev : Nat → Option Nat} (h : LinksOk next prev) {a b c : Nat}
    (h1 : next a = some c) (h2 : next b = some c) : a = b := by
  have e1 := (h a c).1 h1
  have e2 := (h b c).1 h2
  rw [e1] at e2
  exact Option.some.inj e2

theorem LinksOk.prev_inj {next prev : Nat → Option Nat} (h : LinksOk next prev) {a b c : Nat}
    (h1 : prev a = some c) (h2 : prev b = some c) : a = b := by
  have e1 := (h c a).2 h1
  have e2 := (h c b).2 h2
  rw [e1] at e2
  exact Option.some.inj e2

theorem onCycle_pred {next prev : Nat → Option Nat} (h : LinksOk next prev) {y y0 : Nat}
    (hc : OnCycle next y) (hs : next y0 = some y) : OnCycle next y0 := by
  obtain ⟨z, hz, hzy⟩ := hc
  refine ⟨y, hs, ?_⟩
  rcases Relation.ReflTransGen.cases_tail hzy with heq | ⟨w, hw, hwy⟩
  · have : y0 = y := h.next_inj hs (by rw [heq] at hz ⊢; exact hz)
    rw [this]
    exact Relation.ReflTransGen.refl
  · have : w = y0 := h.next_inj hwy hs
    rw [← this]
    exact Relation.ReflTransGen.head hz hw

theorem onCycle_prev_ne {next prev : Nat → Option Nat} (h : LinksOk next prev) {y : Nat}
    (hc : OnCycle next y) : prev y ≠ none := by
  obtain ⟨z, hz, hzy⟩ := hc
  rcases Relation.ReflTransGen.cases_tail hzy with heq | ⟨w, _, hwy⟩
  · have := (h y z).1 hz
    rw [← heq] at this
    rw [this]; simp
  · have := (h w y).1 hwy
    rw [this]; simp

theorem onCycle_of_reach {next prev : Nat → Option Nat} (h : LinksOk next prev) {r y : Nat}
    (hr : NextReach next r y) (hc : OnCycle next y) : OnCycle next r := by
  induction hr using Relation.ReflTransGen.head_induction_on with
  | refl => exact hc
  | head hab _ ih => exact onCycle_pred h ih hab

/-- Paths survive a change of the links that keeps every link leaving a block
that the path can reach. -/
theorem nextReach_mono {next next1 : Nat → Option Nat} {a b : Nat} (hr : NextReach next a b)
    (hk : ∀ x y, NextReach next a x → next x = some y → next1 x = some y) :
    NextReach next1 a b := by
  induction hr with
  | refl => exact Relation.ReflTransGen.refl
  | tail hax hxy ih => exact Relation.ReflTransGen.tail ih (hk _ _ hax hxy)

theorem chainHead_aux {env : Env} (hl : LinksOk env.next env.prev) {U : List Nat}
    (hU : ∀ b, env.prev b ≠ none → b ∈ U) (s : Nat) :
    ∀ (fuel : Nat) (walked : List Nat) (e : Nat), walked.Nodup → (∀ y ∈ walked, y ∈ U) →
      e ∉ walked →
      (∀ y, (y ∈ walked ∨ y = e) → y = s ∨ ∃ y0 ∈ walked, env.prev y0 = some y) →
      NextReach env.next e s → U.length < fuel + walked.length →
      ∃ env1 head, chainHead s fuel env e = some (env1, head) ∧ NextReach env.next head s ∧
        ((env1 = env ∧ env.prev head = none) ∨
          (env.next s = some head ∧ env1 = cutEnv env s head)) := by
  intro fuel
  induction fuel with
  | zero =>
    intro walked e hnd hsub _ _ _ hlen
    have := (hnd.subperm hsub).length_le
    omega
  | succ fuel ih =>
    intro walked e hnd hsub he hback hreach hlen
    unfold chainHead
    cases hp : env.prev e with
    | none => exact ⟨env, e, rfl, hreach, Or.inl ⟨rfl, hp⟩⟩
    | some p =>
      by_cases hps : p = s
      · simp only [hps, if_true]
        refine ⟨_, e, rfl, hreach, Or.inr ⟨?_, rfl⟩⟩
        rw [hps] at hp
        exact (hl s e).2 hp
      · simp only [hps, if_false]
        have heU : e ∈ U := hU e (by rw [hp]; simp)
        have hpe : env.next p = some e := (hl p e).2 hp
        have hpn : p ∉ e :: walked := by
          intro hmem
          have hcase : p ∈ walked ∨ p = e := by
            rcases List.mem_cons.1 hmem with h1 | h1
            · exact Or.inr h1
            · exact Or.inl h1
          rcases hback p hcase with h1 | ⟨y0, hy0, hy0p⟩
          · exact hps h1
          · have : y0 = e := hl.prev_inj hy0p hp
            rw [this] at hy0
            exact he hy0
        have := ih (e :: walked) p (List.nodup_cons.2 ⟨he, hnd⟩)
          (by
            intro y hy
            rcases List.mem_cons.1 hy with h1 | h1
            · rw [h1]; exact heU
            · exact hsub y h1)
          hpn
          (by
            intro y hy
            rcases hy with hy | hy
            · rcases List.mem_cons.1 hy with h1 | h1
              · rcases hback y (Or.inr h1) with h2 | ⟨y0, hy0, hy0p⟩
                · exact Or.inl h2
                · exact Or.inr ⟨y0, List.mem_cons_of_mem _ hy0, hy0p⟩
              · rcases hback y (Or.inl h1) with h2 | ⟨y0, hy0, hy0p⟩
                · exact Or.inl h2
                · exact Or.inr ⟨y0, List.mem_cons_of_mem _ hy0, hy0p⟩
            · exact Or.inr ⟨e, List.mem_cons_self _ _, by rw [hy]; exact hp⟩)
          (Relation.ReflTransGen.head hpe hreach)
          (by simp only [List.length_cons]; omega)
        exact this

theorem chainHead_spec {env : Env} (hl : LinksOk env.next env.prev) {U : List Nat}
    (hU : ∀ b, env.prev b ≠ none → b ∈ U) (s : Nat) {n : Nat} (hn : U.length < n) :
    ∃ env1 head, chainHead s n env s = some (env1, head) ∧ NextReach env.next head s ∧
      ((env1 = env ∧ env.prev head = none) ∨
        (env.next s = some head ∧ env1 = cutEnv env s head)) := by
  apply chainHead_aux hl hU s n [] s List.nodup_nil
  · intro y hy; cases hy
  · simp
  · intro y hy
    rcases hy with hy | hy
    · cases hy
    · exact Or.inl hy
  · exact Relation.ReflTransGen.refl
  · simpa using hn

/-! ### Lists that are chains -/

theorem chain_reach {R : Nat → Nat → Prop} : ∀ (l : List Nat) (a : Nat), List.Chain R a l →
    ∀ v ∈ l, Relation.ReflTransGen R a v
  | [], _, _, v, hv => by cases hv
  | b :: l, a, hc, v, hv => by
    rw [List.chain_cons] at hc
    rcases List.mem_cons.1 hv with h1 | h1
    · rw [h1]; exact Relation.ReflTransGen.single hc.1
    · exact Relation.ReflTransGen.head hc.1 (chain_reach l b hc.2 v h1)

theorem chain'_fwd {R : Nat → Nat → Prop} : ∀ (init : List Nat) (last : Nat),
    List.Chain' R (init ++ [last]) → ∀ x ∈ init, ∃ y ∈ init ++ [last], R x y
  | [], _, _, x, hx => by cases hx
  | a :: rest, last, hc, x, hx => by
    have hc1 : List.Chain' R (a :: (rest ++ [last])) := by simpa using hc
    rcases List.mem_cons.1 hx with h1 | h1
    · cases hr : rest ++ [last] with
      | nil => simp at hr
      | cons b l2 =>
        rw [hr] at hc1
        refine ⟨b, ?_, ?_⟩
        · simp only [List.cons_append, hr]; simp
        · rw [h1]; exact (List.chain'_cons.1 hc1).1
    · obtain ⟨y, hy, hxy⟩ := chain'_fwd rest last (List.Chain'.tail hc1) x h1
      exact ⟨y, by simp only [List.cons_append]; exact List.mem_cons_of_mem _ hy, hxy⟩

theorem chain'_back {R : Nat → Nat → Prop} : ∀ (init : List Nat) (last : Nat),
    List.Chain' R (init ++ [last]) → ∀ x ∈ init ++ [last],
      (init ++ [last]).head? = some x ∨ ∃ y ∈ init, R y x
  | [], last, _, x, hx => by
    left
    have : x = last := by simpa using hx
    simp [this]
  | a :: rest, last, hc, x, hx => by
    have hc1 : List.Chain' R (a :: (rest ++ [last])) := by simpa using hc
    have hx1 : x ∈ a :: (rest ++ [last]) := by simpa using hx
    rcases List.mem_cons.1 hx1 with h1 | h1
    · left; simp [h1]
    · right
      rcases chain'_back rest last (List.Chain'.tail hc1) x h1 with h2 | ⟨y, hy, hyx⟩
      · refine ⟨a, List.mem_cons_self _ _, ?_⟩
        cases hr : rest ++ [last] with
        | nil => simp at hr
        | cons b l2 =>
          rw [hr] at hc1 h2
          simp at h2
          rw [← h2]
          exact (List.chain'_cons.1 hc1).1
      · exact ⟨y, List.mem_cons_of_mem _ hy, hyx⟩

theorem WalkInv.rooted {U : List Nat} {P : Nat → Prop} {start : Nat} {env : Env}
    {vis : List Nat} (h : WalkInv U P start env vis) :
    ∀ v ∈ vis, NextReach env.next start v := by
  intro v hv
  cases hvis : vis with
  | nil => rw [hvis] at hv; cases hv
  | cons a l =>
    have hh := h.head
    rw [hvis] at hh hv
    simp at hh
    have hc := h.chain
    rw [hvis, hh] at hc
    rcases List.mem_cons.1 hv with h1 | h1
    · rw [h1, hh]; exact Relation.ReflTransGen.refl
    · exact chain_reach l start hc v h1

theorem WalkInv.start_mem {U : List Nat} {P : Nat → Prop} {start : Nat} {env : Env}
    {vis : List Nat} (h : WalkInv U P start env vis) : start ∈ vis := by
  have hh := h.head
  cases hvis : vis with
  | nil => rw [hvis] at hh; simp at hh
  | cons a l => rw [hvis] at hh; simp at hh; simp [hh]

theorem WalkInv.source_not_onCycle {U : List Nat} {P : Nat → Prop} {start : Nat} {env : Env}
    {vis : List Nat} (h : WalkInv U P start env vis) {x t : Nat}
    (hx : x ∈ vis ∨ env.prev x = none) (hr : NextReach env.next x t) :
    ¬ OnCycle env.next t := by
  intro hc
  have hcx : OnCycle env.next x := onCycle_of_reach h.links hr hc
  rcases hx with hx | hx
  · have := onCycle_of_reach h.links (h.rooted x hx) hcx
    exact onCycle_prev_ne h.links this h.start_prev
  · exact onCycle_prev_ne h.links hcx hx

theorem WalkInv.cut {U : List Nat} {P : Nat → Prop} {start : Nat} {env : Env}
    {vis : List Nat} (h : WalkInv U P start env vis) {s x : Nat}
    (hsx : env.next s = some x) (hxs : NextReach env.next x s) :
    WalkInv U P start (cutEnv env s x) vis ∧
      ∀ t, Covered env vis t → Covered (cutEnv env s x) vis t := by
  have hcyc : OnCycle env.next s := ⟨x, hsx, hxs⟩
  have hkeep : ∀ a b, a ≠ s → env.next a = some b → (cutEnv env s x).next a = some b := by
    intro a b ha hab
    simp only [cutEnv, Function.update_noteq ha]
    exact hab
  have hsub : ∀ a b, (cutEnv env s x).next a = some b → env.next a = some b := by
    intro a b hab
    by_cases ha : a = s
    · simp [cutEnv, ha] at hab
    · simpa [cutEnv, Function.update_noteq ha] using hab
  have hsrc : ∀ a t, (a ∈ vis ∨ env.prev a = none) → NextReach env.next a t →
      NextReach (cutEnv env s x).next a t := by
    intro a t ha hr
    refine nextReach_mono hr ?_
    intro y z hay hyz
    refine hkeep y z ?_ hyz
    intro hys
    rw [hys] at hay
    exact h.source_not_onCycle ha hay hcyc
  constructor
  · refine ⟨?_, ?_, h.head, ?_, h.nodup, ?_, ?_, h.visU, h.wlU, h.visP, h.wlP, ?_⟩
    · intro a b
      by_cases ha : a = s
      · by_cases hb : b = x
        · simp [cutEnv, ha, hb]
        · simp only [cutEnv, ha, Function.update_same, Function.update_noteq hb]
          constructor
          · intro hh; cases hh
          · intro hh
            have := (h.links s b).2 hh
            rw [hsx] at this
            exact absurd (Option.some.inj this).symm hb
      · by_cases hb : b = x
        · simp only [cutEnv, hb, Function.update_same, Function.update_noteq ha]
          constructor
          · intro hh
            exact absurd (h.links.next_inj hh hsx) ha
          · intro hh; cases hh
        · simp only [cutEnv, Function.update_noteq ha, Function.update_noteq hb]
          exact h.links a b
    · by_cases hst : start = x
      · simp [cutEnv, hst]
      · simp only [cutEnv, Function.update_noteq hst]; exact h.start_prev
    · refine (List.Chain'.iff_mem.1 h.chain).imp ?_
      intro a b hab
      refine hkeep a b ?_ hab.2.2
      intro has
      rw [has] at hab
      exact h.source_not_onCycle (Or.inl hab.1) Relation.ReflTransGen.refl hcyc
    · intro a ha
      rcases h.wl a ha with h1 | h1
      · exact Or.inl h1
      · right
        by_cases hax : a = x
        · simp [cutEnv, hax]
        · simp only [cutEnv, Function.update_noteq hax]; exact h1
    · intro a b hab
      exact h.inU a b (hsub a b hab)
    · intro a b hab
      exact h.linkP a b (hsub a b hab)
  · intro t ⟨a, ha, hat⟩
    refine ⟨a, ha, hsrc a t ?_ hat⟩
    rcases ha with ha | ha
    · exact Or.inl ha
    · exact h.wl a ha

theorem WalkInv.push {U : List Nat} {P : Nat → Prop} {start : Nat} {env : Env}
    {vis : List Nat} (h : WalkInv U P start env vis) {x : Nat}
    (hx : env.prev x = none) (hxU : x ∈ U) (hxP : P x) :
    WalkInv U P start { env with worklist := env.worklist ++ [x] } vis ∧
      (∀ t, Covered env vis t → Covered { env with worklist := env.worklist ++ [x] } vis t) ∧
      (∀ t, NextReach env.next x t →
        Covered { env with worklist := env.worklist ++ [x] } vis t) := by
  refine ⟨⟨h.links, h.start_prev, h.head, h.chain, h.nodup, ?_, h.inU, h.visU, ?_, h.visP, ?_,
    h.linkP⟩, ?_, ?_⟩
  · intro a ha
    rcases List.mem_append.1 ha with h1 | h1
    · exact h.wl a h1
    · right
      have : a = x := by simpa using h1
      rw [this]; exact hx
  · intro a ha
    rcases List.mem_append.1 ha with h1 | h1
    · exact h.wlU a h1
    · have : a = x := by simpa using h1
      rw [this]; exact hxU
  · intro a ha
    rcases List.mem_append.1 ha with h1 | h1
    · exact h.wlP a h1
    · have : a = x := by simpa using h1
      rw [this]; exact hxP
  · intro t ⟨a, ha, hat⟩
    refine ⟨a, ?_, hat⟩
    rcases ha with ha | ha
    · exact Or.inl ha
    · exact Or.inr (List.mem_append_left _ ha)
  · intro t ht
    exact ⟨x, Or.inr (by simp), ht⟩

theorem nextReach_cut_target {next : Nat → Option Nat} {x s : Nat}
    (hr : NextReach next x s) : NextReach (Function.update next s none) x s := by
  have key : ∀ z, NextReach next x z →
      (NextReach (Function.update next s none) x z ∨
        NextReach (Function.update next s none) x s) := by
    intro z hz
    induction hz with
    | refl => exact Or.inl Relation.ReflTransGen.refl
    | @tail y z _ hyz ih =>
      rcases ih with h1 | h1
      · by_cases hys : y = s
        · right; rw [← hys]; rw [← hys] at h1; exact h1
        · left
          refine Relation.ReflTransGen.tail h1 ?_
          show Function.update next s none y = some z
          rw [Function.update_noteq hys]
          exact hyz
      · exact Or.inr h1
  rcases key s hr with h1 | h1 <;> exact h1

theorem reach_P {next : Nat → Option Nat} {P : Nat → Prop}
    (hP : ∀ a b, next a = some b → (P a ↔ P b)) {a b : Nat} (hr : NextReach next a b) :
    (P a ↔ P b) := by
  induction hr with
  | refl => exact Iff.rfl
  | tail _ hyz ih => exact ih.trans (hP _ _ hyz)

theorem reach_inU {next : Nat → Option Nat} {U : List Nat}
    (hU : ∀ a b, next a = some b → a ∈ U ∧ b ∈ U) {a b : Nat} (hr : NextReach next a b)
    (hb : b ∈ U) : a ∈ U := by
  rcases Relation.ReflTransGen.cases_head hr with h1 | ⟨c, hc, _⟩
  · rw [h1]; exact hb
  · exact (hU a c hc).1

theorem putSuccs_spec {U : List Nat} {P : Nat → Prop} {start : Nat} {g : Irg}
    {vis : List Nat} (hvis : ∀ b, g.visited b = true ↔ b ∈ vis) {n : Nat}
    (hn : U.length < n) :
    ∀ (l : List Nat) (env : Env), WalkInv U P start env vis → (∀ s ∈ l, s ∈ U ∧ P s) →
      ∃ env1, putSuccs g n l env = some env1 ∧ WalkInv U P start env1 vis ∧
        (∀ t, Covered env vis t → Covered env1 vis t) ∧ (∀ s ∈ l, Covered env1 vis s) ∧
        env1.blockcount = env.blockcount := by
  intro l
  induction l with
  | nil =>
    intro env h _
    exact ⟨env, rfl, h, fun _ ht => ht, fun s hs => absurd hs (List.not_mem_nil s), rfl⟩
  | cons s rest ih =>
    intro env h hl
    have hrest : ∀ s ∈ rest, s ∈ U ∧ P s := fun x hx => hl x (List.mem_cons_of_mem _ hx)
    have hs := hl s (List.mem_cons_self _ _)
    unfold putSuccs
    by_cases hsv : g.visited s = true
    · simp only [hsv, if_true]
      obtain ⟨env1, he, hinv, hmono, hcov, hbc⟩ := ih env h hrest
      refine ⟨env1, he, hinv, hmono, ?_, hbc⟩
      intro t ht
      rcases List.mem_cons.1 ht with h1 | h1
      · rw [h1]
        exact hmono s ⟨s, Or.inl ((hvis s).1 hsv), Relation.ReflTransGen.refl⟩
      · exact hcov t h1
    · simp only [hsv]
      have hUp : ∀ b, env.prev b ≠ none → b ∈ U := by
        intro b hb
        cases hp : env.prev b with
        | none => exact absurd hp hb
        | some a => exact (h.inU a b ((h.links a b).2 hp)).2
      obtain ⟨env1, head, hch, hreach, hcase⟩ := chainHead_spec h.links hUp s hn
      simp only [hch]
      have hheadU : head ∈ U := reach_inU h.inU hreach hs.1
      have hheadP : P head := (reach_P h.linkP hreach).2 hs.2
      -- the state after the walk to the head of the chain
      have hmid : WalkInv U P start env1 vis ∧ (∀ t, Covered env vis t → Covered env1 vis t) ∧
          NextReach env1.next head s ∧ env1.prev head = none ∧
          env1.blockcount = env.blockcount ∧ env1.worklist = env.worklist := by
        rcases hcase with ⟨h1, h2⟩ | ⟨h1, h2⟩
        · rw [h1]
          exact ⟨h, fun _ ht => ht, hreach, h2, rfl, rfl⟩
        · rw [h2]
          have := h.cut h1 hreach
          refine ⟨this.1, this.2, ?_, ?_, rfl, rfl⟩
          · exact nextReach_cut_target hreach
          · simp [cutEnv]
      obtain ⟨hinv1, hmono1, hreach1, hprev1, hbc1, _⟩ := hmid
      by_cases hhv : g.visited head = true
      · simp only [hhv, if_true]
        obtain ⟨env2, he, hinv, hmono, hcov, hbc⟩ := ih env1 hinv1 hrest
        refine ⟨env2, he, hinv, fun t ht => hmono t (hmono1 t ht), ?_, by rw [hbc, hbc1]⟩
        intro t ht
        rcases List.mem_cons.1 ht with h1 | h1
        · rw [h1]
          exact hmono s ⟨head, Or.inl ((hvis head).1 hhv), hreach1⟩
        · exact hcov t h1
      · simp only [hhv]
        obtain ⟨hinv2, hmono2, hcov2⟩ := hinv1.push hprev1 hheadU hheadP
        obtain ⟨env2, he, hinv, hmono, hcov, hbc⟩ :=
          ih { env1 with worklist := env1.worklist ++ [head] } hinv2 hrest
        refine ⟨env2, he, hinv, fun t ht => hmono t (hmono2 t (hmono1 t ht)), ?_,
          by rw [hbc]; exact hbc1⟩
        intro t ht
        rcases List.mem_cons.1 ht with h1 | h1
        · rw [h1]
          exact hmono s (hcov2 s hreach1)
        · exact hcov t h1

theorem WalkInv.congr_env {U : List Nat} {P : Nat → Prop} {start : Nat} {env env1 : Env}
    {vis : List Nat} (h : WalkInv U P start env vis) (h1 : env1.next = env.next)
    (h2 : env1.prev = env.prev) (h3 : env1.worklist = env.worklist) :
    WalkInv U P start env1 vis := by
  refine ⟨?_, ?_, h.head, ?_, h.nodup, ?_, ?_, h.visU, ?_, h.visP, ?_, ?_⟩
  · rw [h1, h2]; exact h.links
  · rw [h2]; exact h.start_prev
  · rw [h1]; exact h.chain
  · rw [h2, h3]; exact h.wl
  · rw [h1]; exact h.inU
  · rw [h3]; exact h.wlU
  · rw [h3]; exact h.wlP
  · rw [h1]; exact h.linkP

theorem Covered.congr_cov {env env1 : Env} {vis : List Nat} {t : Nat} (h : Covered env vis t)
    (h1 : env1.next = env.next) (h3 : env1.worklist = env.worklist) : Covered env1 vis t := by
  obtain ⟨a, ha, hat⟩ := h
  exact ⟨a, by rw [h3]; exact ha, by rw [h1]; exact hat⟩

theorem bestSucc_spec (g : Irg) (env : Env) :
    ∀ (l : List Nat) (best : ℚ) (acc : Option Nat) (succ : Nat),
      bestSucc g env l best acc = some succ →
      acc = some succ ∨ (succ ∈ l ∧ g.visited succ = false ∧ env.prev succ = none) := by
  intro l
  induction l with
  | nil => intro best acc succ h; exact Or.inl h
  | cons s rest ih =>
    intro best acc succ h
    unfold bestSucc at h
    by_cases hv : g.visited s = true
    · simp only [hv, if_true] at h
      rcases ih _ _ _ h with h1 | ⟨h1, h2, h3⟩
      · exact Or.inl h1
      · exact Or.inr ⟨List.mem_cons_of_mem _ h1, h2, h3⟩
    · simp only [hv] at h
      by_cases hp : (env.prev s).isSome = true
      · simp only [hp, if_true] at h
        rcases ih _ _ _ h with h1 | ⟨h1, h2, h3⟩
        · exact Or.inl h1
        · exact Or.inr ⟨List.mem_cons_of_mem _ h1, h2, h3⟩
      · simp only [hp] at h
        have hs : g.visited s = false ∧ env.prev s = none := by
          constructor
          · simpa using hv
          · simpa using hp
        by_cases hf : g.execfreq s > best
        · simp only [hf, if_true] at h
          rcases ih _ _ _ h with h1 | ⟨h1, h2, h3⟩
          · have : s = succ := Option.some.inj h1
            rw [← this]
            exact Or.inr ⟨List.mem_cons_self _ _, hs⟩
          · exact Or.inr ⟨List.mem_cons_of_mem _ h1, h2, h3⟩
        · simp only [hf] at h
          rcases ih _ _ _ h with h1 | ⟨h1, h2, h3⟩
          · exact Or.inl h1
          · exact Or.inr ⟨List.mem_cons_of_mem _ h1, h2, h3⟩

theorem popWorklist_spec (g : Irg) : ∀ (wl : List Nat),
    (∀ x ∈ (popWorklist g wl).2, x ∈ wl) ∧
    (∀ x ∈ wl, x ∈ (popWorklist g wl).2 ∨ g.visited x = true ∨ (popWorklist g wl).1 = some x) ∧
    (∀ s, (popWorklist g wl).1 = some s → s ∈ wl ∧ g.visited s = false) ∧
    ((popWorklist g wl).1 = none → (popWorklist g wl).2 = []) := by
  intro wl
  induction wl with
  | nil => simp [popWorklist]
  | cons s rest ih =>
    unfold popWorklist
    by_cases hv : g.visited s = true
    · simp only [hv, if_true]
      obtain ⟨h1, h2, h3, h4⟩ := ih
      refine ⟨fun x hx => List.mem_cons_of_mem _ (h1 x hx), ?_, ?_, h4⟩
      · intro x hx
        rcases List.mem_cons.1 hx with h5 | h5
        · rw [h5]; exact Or.inr (Or.inl hv)
        · exact h2 x h5
      · intro t ht
        exact ⟨List.mem_cons_of_mem _ (h3 t ht).1, (h3 t ht).2⟩
    · simp only [hv]
      refine ⟨fun x hx => List.mem_cons_of_mem _ hx, ?_, ?_, ?_⟩
      · intro x hx
        rcases List.mem_cons.1 hx with h5 | h5
        · rw [h5]; exact Or.inr (Or.inr rfl)
        · exact Or.inl h5
      · intro t ht
        have : s = t := Option.some.inj ht
        rw [← this]
        exact ⟨List.mem_cons_self _ _, by simpa using hv⟩
      · intro h; cases h

/-- A visited chain is extended by the block that the current block links to. -/
theorem WalkInv.extend {U : List Nat} {P : Nat → Prop} {start : Nat} {env : Env}
    {init : List Nat} {cur nx : Nat} (h : WalkInv U P start env (init ++ [cur]))
    (hnx : env.next cur = some nx) : WalkInv U P start env (init ++ [cur] ++ [nx]) := by
  have hcur : cur ∈ init ++ [cur] := by simp
  have hnot : nx ∉ init ++ [cur] := by
    intro hmem
    rcases chain'_back init cur h.chain nx hmem with h1 | ⟨y, hy, hyx⟩
    · rw [h.head] at h1
      have : start = nx := Option.some.inj h1
      have hp := (h.links cur nx).1 hnx
      rw [← this, h.start_prev] at hp
      cases hp
    · have : y = cur := h.links.next_inj hyx hnx
      rw [this] at hy
      have hnd := h.nodup
      rw [List.nodup_append] at hnd
      exact hnd.2.2 hy (by simp)
  refine ⟨h.links, h.start_prev, ?_, ?_, ?_, ?_, h.inU, ?_, h.wlU, ?_, h.wlP, h.linkP⟩
  · have hh := h.head
    cases hi : init ++ [cur] with
    | nil => simp at hi
    | cons a l => rw [hi] at hh; simpa using hh
  · rw [List.chain'_append]
    refine ⟨h.chain, List.chain'_singleton _, ?_⟩
    intro x hx y hy
    simp at hx hy
    rw [← hx, ← hy]
    exact hnx
  · rw [List.nodup_append]
    refine ⟨h.nodup, List.nodup_singleton _, ?_⟩
    intro a ha hb
    have : a = nx := by simpa using hb
    rw [this] at ha
    exact hnot ha
  · intro a ha
    rcases h.wl a ha with h1 | h1
    · exact Or.inl (List.mem_append_left _ h1)
    · exact Or.inr h1
  · intro b hb
    rcases List.mem_append.1 hb with h1 | h1
    · exact h.visU b h1
    · have : b = nx := by simpa using h1
      rw [this]; exact (h.inU cur nx hnx).2
  · intro b hb
    rcases List.mem_append.1 hb with h1 | h1
    · exact h.visP b h1
    · have : b = nx := by simpa using h1
      rw [this]; exact (h.linkP cur nx hnx).1 (h.visP cur hcur)

/-- The current block gets a new successor, taken from its control-flow
successors or from the worklist. -/
theorem WalkInv.advance {U : List Nat} {P : Nat → Prop} {start : Nat} {env : Env}
    {init : List Nat} {cur : Nat} (h : WalkInv U P start env (init ++ [cur]))
    (wl : List Nat) (succ : Nat)
    (hwl1 : ∀ x ∈ wl, x ∈ env.worklist)
    (hwl2 : ∀ x ∈ env.worklist, x ∈ wl ∨ x ∈ init ++ [cur] ∨ x = succ)
    (hnext : env.next cur = none) (hprev : env.prev succ = none)
    (hsv : succ ∉ init ++ [cur]) (hU : succ ∈ U) (hP : P succ) :
    WalkInv U P start (link { env with worklist := wl } cur succ) (init ++ [cur] ++ [succ]) ∧
      ∀ t, Covered env (init ++ [cur]) t →
        Covered (link { env with worklist := wl } cur succ) (init ++ [cur] ++ [succ]) t := by
  have hcur : cur ∈ init ++ [cur] := by simp
  have hne : succ ≠ cur := fun e => hsv (e ▸ hcur)
  have hkeep : ∀ a b, env.next a = some b →
      (link { env with worklist := wl } cur succ).next a = some b := by
    intro a b hab
    have : a ≠ cur := by
      intro e; rw [e, hnext] at hab; cases hab
    simp only [link, Function.update_noteq this]
    exact hab
  have hnew : (link { env with worklist := wl } cur succ).next cur = some succ := by
    simp [link]
  have hsub : ∀ a b, (link { env with worklist := wl } cur succ).next a = some b →
      (a = cur ∧ b = succ) ∨ env.next a = some b := by
    intro a b hab
    by_cases ha : a = cur
    · left
      rw [ha, hnew] at hab
      exact ⟨ha, (Option.some.inj hab).symm⟩
    · right
      simpa [link, Function.update_noteq ha] using hab
  refine ⟨⟨?_, ?_, ?_, ?_, ?_, ?_, ?_, ?_, ?_, ?_, ?_, ?_⟩, ?_⟩
  · intro a b
    by_cases ha : a = cur
    · by_cases hb : b = succ
      · simp [link, ha, hb]
      · simp only [link, ha, Function.update_same, Function.update_noteq hb]
        constructor
        · intro hh; exact absurd (Option.some.inj hh).symm hb
        · intro hh
          have := (h.links cur b).2 hh
          rw [hnext] at this; cases this
    · by_cases hb : b = succ
      · simp only [link, hb, Function.update_same, Function.update_noteq ha]
        constructor
        · intro hh
          have := (h.links a succ).1 hh
          rw [hprev] at this; cases this
        · intro hh; exact absurd (Option.some.inj hh).symm ha
      · simp only [link, Function.update_noteq ha, Function.update_noteq hb]
        exact h.links a b
  · have : start ≠ succ := by
      intro e
      exact hsv (e ▸ h.start_mem)
    simp only [link, Function.update_noteq this]
    exact h.start_prev
  · have hh := h.head
    cases hi : init ++ [cur] with
    | nil => simp at hi
    | cons a l => rw [hi] at hh; simpa using hh
  · rw [List.chain'_append]
    refine ⟨h.chain.imp (fun a b hab => hkeep a b hab), List.chain'_singleton _, ?_⟩
    intro x hx y hy
    simp at hx hy
    rw [← hx, ← hy]
    exact hnew
  · rw [List.nodup_append]
    refine ⟨h.nodup, List.nodup_singleton _, ?_⟩
    intro a ha hb
    have : a = succ := by simpa using hb
    rw [this] at ha
    exact hsv ha
  · intro a ha
    by_cases hs : a = succ
    · left; rw [hs]; simp
    · rcases h.wl a (hwl1 a ha) with h1 | h1
      · exact Or.inl (List.mem_append_left _ h1)
      · right
        simp only [link, Function.update_noteq hs]
        exact h1
  · intro a b hab
    rcases hsub a b hab with ⟨h1, h2⟩ | h1
    · rw [h1, h2]; exact ⟨h.visU cur hcur, hU⟩
    · exact h.inU a b h1
  · intro b hb
    rcases List.mem_append.1 hb with h1 | h1
    · exact h.visU b h1
    · have : b = succ := by simpa using h1
      rw [this]; exact hU
  · intro a ha
    exact h.wlU a (hwl1 a ha)
  · intro b hb
    rcases List.mem_append.1 hb with h1 | h1
    · exact h.visP b h1
    · have : b = succ := by simpa using h1
      rw [this]; exact hP
  · intro a ha
    exact h.wlP a (hwl1 a ha)
  · intro a b hab
    rcases hsub a b hab with ⟨h1, h2⟩ | h1
    · rw [h1, h2]
      exact ⟨fun _ => hP, fun _ => h.visP cur hcur⟩
    · exact h.linkP a b h1
  · intro t ⟨a, ha, hat⟩
    have hat1 : NextReach (link { env with worklist := wl } cur succ).next a t :=
      nextReach_mono hat (fun x y _ hxy => hkeep x y hxy)
    refine ⟨a, ?_, hat1⟩
    rcases ha with ha | ha
    · exact Or.inl (List.mem_append_left _ ha)
    · rcases hwl2 a ha with h1 | h1 | h1
      · exact Or.inr h1
      · exact Or.inl (List.mem_append_left _ h1)
      · left; rw [h1]; simp

/-- When the walk ends, every block that a chain of links reaches from a
visited block is visited. -/
theorem WalkInv.closed_of_last {U : List Nat} {P : Nat → Prop} {start : Nat} {env : Env}
    {init : List Nat} {cur : Nat} (h : WalkInv U P start env (init ++ [cur]))
    (hnext : env.next cur = none) {a t : Nat} (ha : a ∈ init ++ [cur])
    (hr : NextReach env.next a t) : t ∈ init ++ [cur] := by
  induction hr with
  | refl => exact ha
  | @tail y z _ hyz ih =>
    rcases List.mem_append.1 ih with h1 | h1
    · obtain ⟨w, hw, hyw⟩ := chain'_fwd init cur h.chain y h1
      have hyz1 : env.next y = some z := hyz
      rw [hyz1] at hyw
      rw [Option.some.inj hyw]
      exact hw
    · have : y = cur := by simpa using h1
      have hyz1 : env.next y = some z := hyz
      rw [this, hnext] at hyz1
      cases hyz1

theorem block_succs_mark (g : Irg) (b : Nat) :
    block_succs (mark_irn_visited g b) = block_succs g := rfl

theorem pick_spec {U : List Nat} {P : Nat → Prop} {start : Nat} {n : Nat}
    (hn : U.length < n) (g0 : Irg)
    (hsuccU : ∀ a s, s ∈ block_succs g0 a → s ∈ U)
    (hsuccP : ∀ a, P a → ∀ s ∈ block_succs g0 a, P s) :
    ∀ (fuel : Nat) (g : Irg) (env : Env) (init : List Nat) (cur : Nat),
      block_succs g = block_succs g0 →
      WalkInv U P start env (init ++ [cur]) →
      (∀ v ∈ init, ∀ s ∈ block_succs g0 v, Covered env (init ++ [cur]) s) →
      (∀ b, g.visited b = true ↔ b ∈ init) →
      env.blockcount = init.length →
      U.length < fuel + init.length →
      ∃ g1 env1 vis1, pick_block_successor n fuel g env cur = some (g1, env1) ∧
        WalkDone U P start g0 g1 env1 vis1 := by
  intro fuel
  induction fuel with
  | zero =>
    intro g env init cur _ h _ _ _ hlen
    have := (h.nodup.subperm h.visU).length_le
    simp at this
    omega
  | succ fuel ih =>
    intro g env init cur hg h hcov hvis hbc hlen
    have hcur : cur ∈ init ++ [cur] := by simp
    have hcn : cur ∉ init := by
      have hnd := h.nodup
      rw [List.nodup_append] at hnd
      exact fun hc => hnd.2.2 hc (by simp)
    have hcv : g.visited cur = false := by
      cases hb : g.visited cur with
      | false => rfl
      | true => exact absurd ((hvis cur).1 hb) hcn
    have hvis1 : ∀ b, (mark_irn_visited g cur).visited b = true ↔ b ∈ init ++ [cur] := by
      intro b
      by_cases hbc : b = cur
      · simp [mark_irn_visited, hbc]
      · simp only [mark_irn_visited, Function.update_noteq hbc, List.mem_append,
          List.mem_singleton, hbc, or_false]
        exact hvis b
    have h1 : WalkInv U P start { env with blockcount := env.blockcount + 1 } (init ++ [cur]) :=
      h.congr_env rfl rfl rfl
    have hl : ∀ s ∈ block_succs (mark_irn_visited g cur) cur, s ∈ U ∧ P s := by
      intro s hs
      rw [block_succs_mark, hg] at hs
      exact ⟨hsuccU cur s hs, hsuccP cur (h.visP cur hcur) s hs⟩
    obtain ⟨env2, he, hinv2, hmono2, hcov2, hbc2⟩ :=
      putSuccs_spec hvis1 hn (block_succs (mark_irn_visited g cur) cur)
        { env with blockcount := env.blockcount + 1 } h1 hl
    have hcovall : ∀ v ∈ init ++ [cur], ∀ s ∈ block_succs g0 v,
        Covered env2 (init ++ [cur]) s := by
      intro v hv s hs
      rcases List.mem_append.1 hv with hv1 | hv1
      · exact hmono2 s ((hcov v hv1 s hs).congr_cov rfl rfl)
      · have : v = cur := by simpa using hv1
        rw [this] at hs
        refine hcov2 s ?_
        rw [block_succs_mark, hg]
        exact hs
    have hbc3 : env2.blockcount = (init ++ [cur]).length := by
      rw [hbc2]; simp [hbc]
    have hlen3 : U.length < fuel + (init ++ [cur]).length := by
      simp only [List.length_append, List.length_singleton]; omega
    unfold pick_block_successor
    simp only [hcv, Bool.false_eq_true, if_false, he]
    cases hnx : env2.next cur with
    | some nx =>
      simp only
      have hinv3 := hinv2.extend hnx
      exact ih (mark_irn_visited g cur) env2 (init ++ [cur]) nx
        (by rw [block_succs_mark, hg]) hinv3
        (fun v hv s hs => by
          obtain ⟨a, ha, hat⟩ := hcovall v hv s hs
          refine ⟨a, ?_, hat⟩
          rcases ha with ha | ha
          · exact Or.inl (List.mem_append_left _ ha)
          · exact Or.inr ha)
        hvis1 hbc3 hlen3
    | none =>
      simp only
      cases hbs : bestSucc (mark_irn_visited g cur) env2
          (block_succs (mark_irn_visited g cur) cur) (-1) none with
      | some succ =>
        simp only
        rcases bestSucc_spec _ _ _ _ _ _ hbs with hb | ⟨hb1, hb2, hb3⟩
        · cases hb
        · have hsv : succ ∉ init ++ [cur] := by
            intro hm
            have := (hvis1 succ).2 hm
            rw [hb2] at this; cases this
          have hsU := hl succ hb1
          obtain ⟨hinv3, hmono3⟩ := hinv2.advance env2.worklist succ
            (fun _ hx => hx) (fun _ hx => Or.inl hx) hnx hb3 hsv hsU.1 hsU.2
          exact ih (mark_irn_visited g cur) (link env2 cur succ) (init ++ [cur]) succ
            (by rw [block_succs_mark, hg]) hinv3
            (fun v hv s hs => hmono3 s (hcovall v hv s hs))
            hvis1 hbc3 hlen3
      | none =>
        simp only
        obtain ⟨hp1, hp2, hp3, hp4⟩ := popWorklist_spec (mark_irn_visited g cur) env2.worklist
        cases hpop : popWorklist (mark_irn_visited g cur) env2.worklist with
        | mk r wl =>
          rw [hpop] at hp1 hp2 hp3 hp4
          simp only at hp1 hp2 hp3 hp4
          cases r with
          | none =>
            simp only
            have hwl : wl = [] := hp4 rfl
            have hinv3 : WalkInv U P start { env2 with worklist := wl } (init ++ [cur]) := by
              refine ⟨hinv2.links, hinv2.start_prev, hinv2.head, hinv2.chain, hinv2.nodup,
                ?_, hinv2.inU, hinv2.visU, ?_, hinv2.visP, ?_, hinv2.linkP⟩
              · intro a ha; exact hinv2.wl a (hp1 a ha)
              · intro a ha; exact hinv2.wlU a (hp1 a ha)
              · intro a ha; exact hinv2.wlP a (hp1 a ha)
            refine ⟨_, _, init ++ [cur], rfl, hinv3, ?_, hwl, hvis1, hbc3, ?_⟩
            · intro v hv s hs
              obtain ⟨a, ha, hat⟩ := hcovall v hv s hs
              have ha1 : a ∈ init ++ [cur] := by
                rcases ha with ha | ha
                · exact ha
                · rcases hp2 a ha with h5 | h5 | h5
                  · rw [hwl] at h5; cases h5
                  · exact (hvis1 a).1 h5
                  · cases h5
              exact hinv2.closed_of_last hnx ha1 hat
            · intro l hl1
              simp at hl1
              rw [← hl1]
              exact hnx
          | some succ =>
            simp only
            obtain ⟨hs1, hs2⟩ := hp3 succ rfl
            have hsv : succ ∉ init ++ [cur] := by
              intro hm
              have := (hvis1 succ).2 hm
              rw [hs2] at this; cases this
            have hprev : env2.prev succ = none := by
              rcases hinv2.wl succ hs1 with h5 | h5
              · exact absurd h5 hsv
              · exact h5
            obtain ⟨hinv3, hmono3⟩ := hinv2.advance wl succ hp1
              (fun x hx => by
                rcases hp2 x hx with h5 | h5 | h5
                · exact Or.inl h5
                · exact Or.inr (Or.inl ((hvis1 x).1 h5))
                · exact Or.inr (Or.inr (Option.some.inj h5).symm))
              hnx hprev hsv (hinv2.wlU succ hs1) (hinv2.wlP succ hs1)
            exact ih (mark_irn_visited g cur) (link { env2 with worklist := wl } cur succ)
              (init ++ [cur]) succ (by rw [block_succs_mark, hg]) hinv3
              (fun v hv s hs => hmono3 s (hcovall v hv s hs))
              hvis1 hbc3 hlen3

theorem mem_block_succs {g : Irg} {s b : Nat} :
    s ∈ block_succs g b ↔
      s ∈ g.blocks ∧ ∃ n, some n ∈ g.cfgpreds s ∧ g.nodesBlock n = b := by
  unfold block_succs
  simp only [List.mem_flatMap, List.mem_filterMap]
  constructor
  · rintro ⟨u, hu, x, hx, hm⟩
    cases x with
    | none => simp at hm
    | some n =>
      simp only at hm
      by_cases hb : g.nodesBlock n = b
      · simp only [hb, if_true] at hm
        have : u = s := Option.some.inj hm
        rw [← this]
        exact ⟨hu, n, hx, hb⟩
      · simp [hb] at hm
  · rintro ⟨hs, n, hn, hb⟩
    exact ⟨s, hs, some n, hn, by simp [hb]⟩

theorem get_Block_cfgpred_mem {g : Irg} {b pos n : Nat}
    (h : get_Block_cfgpred g b pos = some n) : some n ∈ g.cfgpreds b := by
  unfold get_Block_cfgpred at h
  rw [List.getD_eq_getElem?_getD] at h
  cases hx : (g.cfgpreds b)[pos]? with
  | none => rw [hx] at h; simp at h
  | some x =>
    rw [hx] at h
    simp at h
    rw [← h]
    exact List.getElem?_mem hx

theorem linksOk_link {env : Env} (h : LinksOk env.next env.prev) {pb b : Nat}
    (hn : env.next pb = none) (hp : env.prev b = none) :
    LinksOk (link env pb b).next (link env pb b).prev := by
  intro x y
  by_cases hx : x = pb
  · by_cases hy : y = b
    · simp [link, hx, hy]
    · simp only [link, hx, Function.update_same, Function.update_noteq hy]
      constructor
      · intro hh; exact absurd (Option.some.inj hh).symm hy
      · intro hh
        have := (h pb y).2 hh
        rw [hn] at this; cases this
  · by_cases hy : y = b
    · simp only [link, hy, Function.update_same, Function.update_noteq hx]
      constructor
      · intro hh
        have := (h x b).1 hh
        rw [hp] at this; cases this
      · intro hh; exact absurd (Option.some.inj hh).symm hx
    · simp only [link, Function.update_noteq hx, Function.update_noteq hy]
      exact h x y

theorem linksCfg_link {g : Irg} {env : Env} (h : LinksCfg g env) {pb b : Nat}
    (hb : b ∈ block_succs g pb) : LinksCfg g (link env pb b) := by
  intro x y hxy
  by_cases hx : x = pb
  · simp only [link, hx, Function.update_same] at hxy
    rw [hx, ← Option.some.inj hxy]
    exact hb
  · simp only [link, Function.update_noteq hx] at hxy
    exact h x y hxy

theorem coalesce_run1_inv (g : Irg) : ∀ (l : List Edge) (env env1 : Env),
    (∀ e ∈ l, e.block ∈ g.blocks) →
    LinksOk env.next env.prev → LinksCfg g env → coalesce_run1 g l env = some env1 →
    LinksOk env1.next env1.prev ∧ LinksCfg g env1 := by
  intro l
  induction l with
  | nil =>
    intro env env1 _ h1 h2 he
    simp only [coalesce_run1] at he
    rw [← Option.some.inj he]
    exact ⟨h1, h2⟩
  | cons e rest ih =>
    intro env env1 hl h1 h2 he
    have hrest : ∀ e ∈ rest, e.block ∈ g.blocks :=
      fun x hx => hl x (List.mem_cons_of_mem _ hx)
    unfold coalesce_run1 at he
    split at he
    · exact ih env env1 hrest h1 h2 he
    · split at he
      · exact ih env env1 hrest h1 h2 he
      · split at he
        · cases he
        · rename_i pred_block hpb
          split at he
          · exact ih env env1 hrest h1 h2 he
          · rename_i hfree
            split at he
            · exact ih env env1 hrest h1 h2 he
            · simp only [not_or, Bool.not_eq_true, Option.not_isSome, Option.isNone_iff_eq_none]
                at hfree
              have hb : e.block ∈ block_succs g pred_block := by
                rw [mem_block_succs]
                refine ⟨hl e (List.mem_cons_self _ _), ?_⟩
                unfold get_Block_cfgpred_block at hpb
                cases hn : get_Block_cfgpred g e.block e.pos with
                | none => rw [hn] at hpb; cases hpb
                | some n =>
                  rw [hn] at hpb
                  exact ⟨n, get_Block_cfgpred_mem hn, Option.some.inj hpb⟩
              exact ih _ env1 hrest (linksOk_link h1 hfree.1 hfree.2) (linksCfg_link h2 hb) he

theorem coalesce_run3_inv (g : Irg) : ∀ (l : List Edge) (env : Env),
    (∀ e ∈ l, e.block ∈ g.blocks) →
    LinksOk env.next env.prev → LinksCfg g env →
    LinksOk (coalesce_run3 g l env).next (coalesce_run3 g l env).prev ∧
      LinksCfg g (coalesce_run3 g l env) := by
  intro l
  induction l with
  | nil => intro env _ h1 h2; exact ⟨h1, h2⟩
  | cons e rest ih =>
    intro env hl h1 h2
    have hrest : ∀ e ∈ rest, e.block ∈ g.blocks :=
      fun x hx => hl x (List.mem_cons_of_mem _ hx)
    unfold coalesce_run3
    split
    · exact ih env hrest h1 h2
    · rename_i pred hpred
      simp only
      split
      · exact ih env hrest h1 h2
      · rename_i hfree
        simp only [not_or, Bool.not_eq_true, Option.not_isSome, Option.isNone_iff_eq_none]
          at hfree
        have hb : e.block ∈ block_succs g (g.nodesBlock pred) := by
          rw [mem_block_succs]
          exact ⟨hl e (List.mem_cons_self _ _), pred, get_Block_cfgpred_mem hpred, rfl⟩
        exact ih _ hrest (linksOk_link h1 hfree.1 hfree.2) (linksCfg_link h2 hb)

theorem coalesce_run2_inv (g : Irg) (fuel : Nat) : ∀ (l : List Edge) (env env1 : Env),
    (∀ e ∈ l, e.block ∈ g.blocks) →
    LinksOk env.next env.prev → LinksCfg g env → coalesce_run2 g fuel l env = some env1 →
    LinksOk env1.next env1.prev ∧ LinksCfg g env1 := by
  intro l
  induction l with
  | nil =>
    intro env env1 _ h1 h2 he
    simp only [coalesce_run2] at he
    rw [← Option.some.inj he]
    exact ⟨h1, h2⟩
  | cons e rest ih =>
    intro env env1 hl h1 h2 he
    have hrest : ∀ e ∈ rest, e.block ∈ g.blocks :=
      fun x hx => hl x (List.mem_cons_of_mem _ hx)
    unfold coalesce_run2 at he
    split at he
    · rw [← Option.some.inj he]
      exact ⟨h1, h2⟩
    · split at he
      · exact ih env env1 hrest h1 h2 he
      · rename_i pred hpred
        simp only at he
        split at he
        · exact ih env env1 hrest h1 h2 he
        · rename_i hfree
          split at he
          · exact ih env env1 hrest h1 h2 he
          · split at he
            · cases he
            · simp only [not_or, Bool.not_eq_true, Option.not_isSome,
                Option.isNone_iff_eq_none] at hfree
              have hb : e.block ∈ block_succs g (g.nodesBlock pred) := by
                rw [mem_block_succs]
                exact ⟨hl e (List.mem_cons_self _ _), pred, get_Block_cfgpred_mem hpred, rfl⟩
              refine ih _ env1 hrest ?_ ?_ he
              · exact linksOk_link h1 hfree.1 hfree.2
              · exact linksCfg_link h2 hb

theorem setHighest_block (Q : Nat → Prop) : ∀ (l : List Edge) (k : Nat),
    (∀ e ∈ l, Q e.block) → ∀ e ∈ setHighest l k, Q e.block
  | [], _, _, e, he => by simp [setHighest] at he
  | a :: rest, 0, h, e, he => by
    simp only [setHighest, List.mem_cons] at he
    rcases he with h1 | h1
    · rw [h1]; exact h a (List.mem_cons_self _ _)
    · exact h e (List.mem_cons_of_mem _ h1)
  | a :: rest, k + 1, h, e, he => by
    simp only [setHighest, List.mem_cons] at he
    rcases he with h1 | h1
    · rw [h1]; exact h a (List.mem_cons_self _ _)
    · exact setHighest_block Q rest k (fun x hx => h x (List.mem_cons_of_mem _ hx)) e h1

theorem collectPreds_block (Q : Nat → Prop) (g : Irg) (block : Nat) (hb : Q block) :
    ∀ (l : List Nat) (edges : List Edge) (hi : ℚ) (num : Option Nat) (r : List Edge × Option Nat),
      collectPreds g block l edges hi num = some r → (∀ e ∈ edges, Q e.block) →
      ∀ e ∈ r.1, Q e.block := by
  intro l
  induction l with
  | nil =>
    intro edges hi num r h he
    simp only [collectPreds] at h
    rw [← Option.some.inj h]
    exact he
  | cons i rest ih =>
    intro edges hi num r h he
    unfold collectPreds at h
    split at h
    · cases h
    · rename_i pb _
      simp only at h
      have he1 : ∀ e ∈ edges ++ [Edge.mk block i (g.execfreq pb) 0 false], Q e.block := by
        intro e hm
        rcases List.mem_append.1 hm with h1 | h1
        · exact he e h1
        · have : e = Edge.mk block i (g.execfreq pb) 0 false := by simpa using h1
          rw [this]; exact hb
      split at h
      · exact ih _ _ _ r h he1
      · exact ih _ _ _ r h he1

theorem collect_inv (Q : Nat → Prop) (toFloat : ℚ → ℚ) (g : Irg) (env env1 : Env) (block : Nat)
    (h : collect_egde_frequency toFloat g env block = some env1) (hl : NoLinks env)
    (he : ∀ e ∈ env.edges, Q e.block) (hb : Q block) :
    NoLinks env1 ∧ ∀ e ∈ env1.edges, Q e.block := by
  have hl0 : NoLinks { env with
      next := Function.update env.next block none
      prev := Function.update env.prev block none } := by
    intro a
    by_cases ha : a = block
    · rw [ha]; simp
    · simp only [Function.update_noteq ha]
      exact hl a
  unfold collect_egde_frequency at h
  simp only at h
  split at h
  · split at h
    · rw [← Option.some.inj h]; exact ⟨hl0, he⟩
    · cases h
  · split at h
    · split at h
      · cases h
      · rw [← Option.some.inj h]
        refine ⟨hl0, ?_⟩
        intro e hm
        simp only at hm
        rcases List.mem_append.1 hm with h1 | h1
        · exact he e h1
        · simp only [List.mem_singleton] at h1
          rw [h1]; exact hb
    · split at h
      · cases h
      · rename_i edges hc
        rw [← Option.some.inj h]
        exact ⟨hl0, collectPreds_block Q g block hb _ _ _ _ _ hc he⟩
      · rename_i edges k hc
        rw [← Option.some.inj h]
        refine ⟨hl0, ?_⟩
        exact setHighest_block Q _ k (collectPreds_block Q g block hb _ _ _ _ _ hc he)

theorem collect_all_inv (Q : Nat → Prop) (toFloat : ℚ → ℚ) (g : Irg) :
    ∀ (walk : List Nat) (env env1 : Env),
      walk.foldlM (collect_egde_frequency toFloat g) env = some env1 → NoLinks env →
      (∀ e ∈ env.edges, Q e.block) → (∀ b ∈ walk, Q b) →
      NoLinks env1 ∧ ∀ e ∈ env1.edges, Q e.block := by
  intro walk
  induction walk with
  | nil =>
    intro env env1 h hl he _
    simp only [List.foldlM_nil] at h
    have : env = env1 := Option.some.inj h
    rw [← this]; exact ⟨hl, he⟩
  | cons b rest ih =>
    intro env env1 h hl he hw
    simp only [List.foldlM_cons, Option.bind_eq_bind, Option.bind_eq_some] at h
    obtain ⟨env0, h0, h1⟩ := h
    obtain ⟨hl0, he0⟩ := collect_inv Q toFloat g env env0 b h0 hl he (hw b (List.mem_cons_self _ _))
    exact ih env0 env1 h1 hl0 he0 (fun x hx => hw x (List.mem_cons_of_mem _ hx))

theorem mem_qsort_arr {cmp : Edge → Edge → Int} {l : List Edge} {e : Edge} :
    e ∈ qsort_arr cmp l ↔ e ∈ l := by
  unfold qsort_arr
  exact (List.perm_insertionSort _ l).mem_iff

theorem coalesce_run1_edges (g : Irg) : ∀ (l : List Edge) (env env1 : Env),
    coalesce_run1 g l env = some env1 → env1.edges = env.edges := by
  intro l
  induction l with
  | nil =>
    intro env env1 he
    simp only [coalesce_run1] at he
    rw [← Option.some.inj he]
  | cons e rest ih =>
    intro env env1 he
    unfold coalesce_run1 at he
    split at he
    · exact ih env env1 he
    · split at he
      · exact ih env env1 he
      · split at he
        · cases he
        · split at he
          · exact ih env env1 he
          · split at he
            · exact ih env env1 he
            · have := ih _ env1 he
              exact this

theorem coalesce_run2_edges (g : Irg) (fuel : Nat) : ∀ (l : List Edge) (env env1 : Env),
    coalesce_run2 g fuel l env = some env1 → env1.edges = env.edges := by
  intro l
  induction l with
  | nil =>
    intro env env1 he
    simp only [coalesce_run2] at he
    rw [← Option.some.inj he]
  | cons e rest ih =>
    intro env env1 he
    unfold coalesce_run2 at he
    split at he
    · rw [← Option.some.inj he]
    · split at he
      · exact ih env env1 he
      · simp only at he
        split at he
        · exact ih env env1 he
        · split at he
          · exact ih env env1 he
          · split at he
            · cases he
            · have := ih _ env1 he
              exact this

theorem coalesce_blocks_inv (g : Irg) (fuel : Nat) (env env1 : Env)
    (h : coalesce_blocks g fuel env = some env1)
    (he : ∀ e ∈ env.edges, e.block ∈ g.blocks)
    (hl : NoLinks env) :
    LinksOk env1.next env1.prev ∧ LinksCfg g env1 := by
  have h0 : LinksOk env.next env.prev := by
    intro a b
    rw [(hl a).1, (hl b).2]
    simp
  have h0c : LinksCfg g env := by
    intro a b hab
    rw [(hl a).1] at hab; cases hab
  unfold coalesce_blocks at h
  simp only [Option.bind_eq_bind, Option.bind_eq_some] at h
  obtain ⟨e1, hr1, e2, hr2, h3⟩ := h
  unfold coalesce_jumps at hr1
  unfold coalesce_loop_outedges at hr2
  simp only [Option.bind_eq_bind, Option.bind_eq_some] at hr1 hr2
  obtain ⟨ll, _, hr2⟩ := hr2
  have hq1 : ∀ e ∈ qsort_arr cmp_edges env.edges, e.block ∈ g.blocks :=
    fun e hm => he e (mem_qsort_arr.1 hm)
  have he1 : e1.edges = qsort_arr cmp_edges env.edges := coalesce_run1_edges g _ _ e1 hr1
  have hq2 : ∀ e ∈ qsort_arr cmp_edges_outedge_penalty e1.edges, e.block ∈ g.blocks := by
    intro e hm
    have := mem_qsort_arr.1 hm
    rw [he1] at this
    exact hq1 e this
  have he2 : e2.edges = qsort_arr cmp_edges_outedge_penalty e1.edges :=
    coalesce_run2_edges g fuel _ _ e2 hr2
  have hq3 : ∀ e ∈ qsort_arr cmp_edges e2.edges, e.block ∈ g.blocks := by
    intro e hm
    have := mem_qsort_arr.1 hm
    rw [he2] at this
    exact hq2 e this
  obtain ⟨i1, i2⟩ := coalesce_run1_inv g _ _ e1 hq1 (by exact h0) (by exact h0c) hr1
  obtain ⟨j1, j2⟩ := coalesce_run2_inv g fuel _ _ e2 hq2 (by exact i1) (by exact i2) hr2
  rw [← Option.some.inj h3]
  unfold coalesce_remaining
  exact coalesce_run3_inv g _ _ hq3 (by exact j1) (by exact j2)

theorem blockschedLoop_spec (env : Env) (count : Nat) :
    ∀ (rest : List Nat) (e : Nat) (acc : List Nat) (fuel : Nat),
      List.Chain' (fun a b => env.next a = some b) (e :: rest) →
      (∀ l, (e :: rest).getLast? = some l → env.next l = none) →
      acc.length + (e :: rest).length = count → rest.length < fuel →
      blockschedLoop env count fuel (some e) acc = some (acc ++ e :: rest) := by
  intro rest
  induction rest with
  | nil =>
    intro e acc fuel _ hlast hlen hfuel
    have hn : env.next e = none := hlast e (by simp)
    cases fuel with
    | zero => simp at hfuel
    | succ f =>
      have h1 : acc.length < count := by simp at hlen; omega
      have h2 : (acc ++ [e]).length = count := by simp at hlen ⊢; omega
      simp [blockschedLoop, h1, hn, h2]
  | cons b rest ih =>
    intro e acc fuel hc hlast hlen hfuel
    have hn : env.next e = some b := (List.chain'_cons.1 hc).1
    cases fuel with
    | zero => simp at hfuel
    | succ f =>
      have h1 : acc.length < count := by simp at hlen; omega
      have := ih b (acc ++ [e]) f (List.chain'_cons.1 hc).2
        (fun l hl => hlast l (by simpa using hl))
        (by simp at hlen ⊢; omega) (by simp at hfuel; omega)
      simp only [blockschedLoop, h1, if_true, hn, this]
      simp

theorem pick_frame (n : Nat) : ∀ (fuel : Nat) (g : Irg) (env : Env) (b : Nat) (g1 : Irg)
    (env1 : Env), pick_block_successor n fuel g env b = some (g1, env1) →
    g1.startBlock = g.startBlock := by
  intro fuel
  induction fuel with
  | zero => intro g env b g1 env1 h; simp [pick_block_successor] at h
  | succ fuel ih =>
    intro g env b g1 env1 h
    unfold pick_block_successor at h
    split at h
    · simp only [Option.some.injEq, Prod.mk.injEq] at h
      rw [← h.1]
    · simp only at h
      split at h
      · cases h
      · split at h
        · have := ih _ _ _ _ _ h; exact this
        · split at h
          · have := ih _ _ _ _ _ h; exact this
          · split at h
            · simp only [Option.some.injEq, Prod.mk.injEq] at h
              rw [← h.1]; rfl
            · have := ih _ _ _ _ _ h; exact this

theorem collect_all_blockcount (toFloat : ℚ → ℚ) (g : Irg) :
    ∀ (walk : List Nat) (env env1 : Env),
      walk.foldlM (collect_egde_frequency toFloat g) env = some env1 →
      env1.blockcount = env.blockcount := by
  intro walk
  induction walk with
  | nil =>
    intro env env1 h
    simp only [List.foldlM_nil] at h
    have : env = env1 := Option.some.inj h
    rw [this]
  | cons b rest ih =>
    intro env env1 h
    simp only [List.foldlM_cons, Option.bind_eq_bind, Option.bind_eq_some] at h
    obtain ⟨env0, h0, h1⟩ := h
    rw [ih env0 env1 h1]
    unfold collect_egde_frequency at h0
    simp only at h0
    split at h0
    · split at h0
      · rw [← Option.some.inj h0]
      · cases h0
    · split at h0
      · split at h0
        · cases h0
        · rw [← Option.some.inj h0]
      · split at h0
        · cases h0
        · rw [← Option.some.inj h0]
        · rw [← Option.some.inj h0]

theorem coalesce_run1_blockcount (g : Irg) : ∀ (l : List Edge) (env env1 : Env),
    coalesce_run1 g l env = some env1 → env1.blockcount = env.blockcount := by
  intro l
  induction l with
  | nil =>
    intro env env1 he
    simp only [coalesce_run1] at he
    rw [← Option.some.inj he]
  | cons e rest ih =>
    intro env env1 he
    unfold coalesce_run1 at he
    split at he
    · exact ih env env1 he
    · split at he
      · exact ih env env1 he
      · split at he
        · cases he
        · split at he
          · exact ih env env1 he
          · split at he
            · exact ih env env1 he
            · have := ih _ env1 he
              exact this

theorem coalesce_run2_blockcount (g : Irg) (fuel : Nat) : ∀ (l : List Edge) (env env1 : Env),
    coalesce_run2 g fuel l env = some env1 → env1.blockcount = env.blockcount := by
  intro l
  induction l with
  | nil =>
    intro env env1 he
    simp only [coalesce_run2] at he
    rw [← Option.some.inj he]
  | cons e rest ih =>
    intro env env1 he
    unfold coalesce_run2 at he
    split at he
    · rw [← Option.some.inj he]
    · split at he
      · exact ih env env1 he
      · simp only at he
        split at he
        · exact ih env env1 he
        · split at he
          · exact ih env env1 he
          · split at he
            · cases he
            · have := ih _ env1 he
              exact this

theorem coalesce_run3_blockcount (g : Irg) : ∀ (l : List Edge) (env : Env),
    (coalesce_run3 g l env).blockcount = env.blockcount := by
  intro l
  induction l with
  | nil => intro env; rfl
  | cons e rest ih =>
    intro env
    unfold coalesce_run3
    split
    · exact ih env
    · rename_i pred _
      simp only
      split
      · exact ih env
      · have := ih (link env (g.nodesBlock pred) e.block)
        exact this

theorem coalesce_blocks_blockcount (g : Irg) (fuel : Nat) (env env1 : Env)
    (h : coalesce_blocks g fuel env = some env1) : env1.blockcount = env.blockcount := by
  unfold coalesce_blocks at h
  simp only [Option.bind_eq_bind, Option.bind_eq_some] at h
  obtain ⟨e1, hr1, e2, hr2, h3⟩ := h
  unfold coalesce_jumps at hr1
  unfold coalesce_loop_outedges at hr2
  simp only [Option.bind_eq_bind, Option.bind_eq_some] at hr1 hr2
  obtain ⟨ll, _, hr2⟩ := hr2
  rw [← Option.some.inj h3]
  unfold coalesce_remaining
  rw [coalesce_run3_blockcount]
  have h1 := coalesce_run1_blockcount g _ _ e1 hr1
  have h2 := coalesce_run2_blockcount g fuel _ _ e2 hr2
  simp only at h1 h2 ⊢
  rw [h2, h1]

/-- What the scheduler computes, for any property `P` of blocks that holds for
the start block and is passed on along control-flow edges in the way stated. -/
theorem schedule_spec (toFloat : ℚ → ℚ) (fuel : Nat) (walk : List Nat) (g g1 : Irg)
    (env1 env2 : Env) (P : Nat → Prop)
    (hcol : walk.foldlM (collect_egde_frequency toFloat g)
      (Env.mk [] [] 0 (fun _ => none) (fun _ => none) g.loopLink) = some env1)
    (hrem : remove_empty_blocks fuel g = some g1)
    (hcoal : coalesce_blocks g1 fuel env1 = some env2)
    (hwalk : ∀ b ∈ walk, b ∈ g1.blocks)
    (hstart : g1.cfgpreds g1.startBlock = [])
    (hfuel : (blockUniverse g1).length < fuel)
    (hPstart : P g1.startBlock)
    (hPsucc : ∀ a, P a → ∀ s ∈ block_succs g1 a, P s)
    (hPlink : ∀ a b, b ∈ block_succs g1 a → P b → P a) :
    ∃ g2 env3 arr, finish_block_schedule fuel g1 env2 = some (g2, env3, g1.startBlock) ∧
      be_create_block_schedule toFloat fuel walk g = some arr ∧
      arr.head? = some g1.startBlock ∧ arr.Nodup ∧ (∀ b, Reach g1 g1.startBlock b → b ∈ arr) ∧
      (∀ b ∈ arr, P b) ∧ arr.length = env3.blockcount ∧
      (∀ b, g2.visited b = true ↔ b ∈ arr) ∧
      List.Chain' (fun a b => env3.next a = some b) arr := by
  obtain ⟨hnl, hedges⟩ := collect_all_inv (fun b => b ∈ g1.blocks)
    toFloat g walk _ env1 hcol (fun a => ⟨rfl, rfl⟩) (fun e he => by cases he) hwalk
  obtain ⟨hlinks, hcfg⟩ := coalesce_blocks_inv g1 fuel env1 env2 hcoal hedges hnl
  have hbc2 : ({ env2 with worklist := [] } : Env).blockcount = ([] : List Nat).length := by
    have h1 := collect_all_blockcount toFloat g walk _ env1 hcol
    have h2 := coalesce_blocks_blockcount g1 fuel env1 env2 hcoal
    simp only [List.length_nil]
    rw [h2, h1]
  have hsuccU : ∀ a s, s ∈ block_succs (inc_irg_visited g1) a → s ∈ blockUniverse g1 := by
    intro a s hs
    have := (mem_block_succs.1 hs).1
    exact List.mem_cons_of_mem _ (List.mem_append_left _ this)
  have hpredU : ∀ a s, s ∈ block_succs g1 a → a ∈ blockUniverse g1 := by
    intro a s hs
    obtain ⟨h1, n, hn, hb⟩ := mem_block_succs.1 hs
    refine List.mem_cons_of_mem _ (List.mem_append_right _ ?_)
    unfold predBlocks
    simp only [List.mem_flatMap, List.mem_filterMap]
    exact ⟨s, h1, some n, hn, by simp [hb]⟩
  have hsp : env2.prev g1.startBlock = none := by
    cases hp : env2.prev g1.startBlock with
    | none => rfl
    | some a =>
      have := hcfg a _ ((hlinks a _).2 hp)
      obtain ⟨_, n, hn, _⟩ := mem_block_succs.1 this
      rw [hstart] at hn
      cases hn
  have hinv : WalkInv (blockUniverse g1) P g1.startBlock { env2 with worklist := [] }
      ([] ++ [g1.startBlock]) := by
    refine ⟨hlinks, hsp, rfl, List.chain'_singleton _, List.nodup_singleton _, ?_, ?_, ?_, ?_,
      ?_, ?_, ?_⟩
    · intro a ha; cases ha
    · intro a b hab
      exact ⟨hpredU a b (hcfg a b hab), hsuccU a b (hcfg a b hab)⟩
    · intro b hb
      have : b = g1.startBlock := by simpa using hb
      rw [this]; exact List.mem_cons_self _ _
    · intro a ha; cases ha
    · intro b hb
      have : b = g1.startBlock := by simpa using hb
      rw [this]; exact hPstart
    · intro a ha; cases ha
    · intro a b hab
      exact ⟨fun ha => hPsucc a ha b (hcfg a b hab), fun hb => hPlink a b (hcfg a b hab) hb⟩
  obtain ⟨g2, env3, vis, hpick, hdone⟩ := pick_spec hfuel (inc_irg_visited g1) hsuccU
    (fun a ha s hs => hPsucc a ha s hs) fuel (inc_irg_visited g1) { env2 with worklist := [] }
    [] g1.startBlock rfl hinv (fun v hv => by cases hv)
    (fun b => by simp [inc_irg_visited])
    hbc2 (by simpa using hfuel)
  have hst : g2.startBlock = g1.startBlock :=
    pick_frame fuel fuel (inc_irg_visited g1) _ _ _ _ hpick
  have hfin : finish_block_schedule fuel g1 env2 = some (g2, env3, g1.startBlock) := by
    unfold finish_block_schedule
    simp only
    have hp2 : pick_block_successor fuel fuel (inc_irg_visited g1) { env2 with worklist := [] }
        (inc_irg_visited g1).startBlock = some (g2, env3) := hpick
    rw [hp2]
    simp [hdone.wl_empty, hst]
  have hvis : ∃ rest, vis = g1.startBlock :: rest := by
    have hh := hdone.inv.head
    cases hv : vis with
    | nil => rw [hv] at hh; simp at hh
    | cons a l => rw [hv] at hh; simp at hh; exact ⟨l, by rw [hh]⟩
  obtain ⟨rest, hrest⟩ := hvis
  have harr : create_blocksched_array env3 g1.startBlock env3.blockcount = some vis := by
    unfold create_blocksched_array
    have := blockschedLoop_spec env3 env3.blockcount rest g1.startBlock [] (env3.blockcount + 1)
      (by rw [← hrest]; exact hdone.inv.chain)
      (by rw [← hrest]; exact hdone.last_next)
      (by rw [← hrest, hdone.count]; simp)
      (by rw [hdone.count, hrest]; simp; omega)
    rw [this, hrest]
    simp
  refine ⟨g2, env3, vis, hfin, ?_, hdone.inv.head, hdone.inv.nodup, ?_, hdone.inv.visP,
    hdone.count.symm, hdone.visited, hdone.inv.chain⟩
  · unfold be_create_block_schedule
    simp only [Option.bind_eq_bind, Option.bind_eq_some]
    exact ⟨env1, hcol, g1, hrem, env2, hcoal, (g2, env3, g1.startBlock), hfin, harr⟩
  · intro b hb
    induction hb with
    | refl => exact hdone.inv.start_mem
    | tail _ hyz ih => exact hdone.closed _ ih _ hyz

/-! ## C1: the schedule is complete -/

theorem some_getD_of_isSome {α : Type} {o : Option α} (h : o.isSome = true) (d : α) :
    o = some (o.getD d) := by
  cases o with
  | none => cases h
  | some x => rfl

theorem mem_predBlocks_of_succ {g : Irg} {a s : Nat} (hs : s ∈ block_succs g a) :
    a ∈ predBlocks g := by
  obtain ⟨h1, n, hn, hb⟩ := mem_block_succs.1 hs
  unfold predBlocks
  simp only [List.mem_flatMap, List.mem_filterMap]
  exact ⟨s, h1, some n, hn, by simp [hb]⟩

/-- C1, as amended. For a graph whose start block has no predecessors and in
which every control-flow predecessor of a block reachable from the start
block is reachable itself (no dead code flows into live code): when the
earlier phases return, `be_create_block_schedule` returns an array that begins
with the start block, holds no block twice, and holds a block exactly when it
is reachable from the start block in the graph left by the removal of
jump-only blocks; the length of the array is the number of blocks visited by
the final walk, and the array holds exactly the visited blocks. -/
theorem be_create_block_schedule_complete (toFloat : ℚ → ℚ) (fuel : Nat) (walk : List Nat)
    (g g1 : Irg) (env1 env2 : Env)
    (hcol : walk.foldlM (collect_egde_frequency toFloat g)
      (Env.mk [] [] 0 (fun _ => none) (fun _ => none) g.loopLink) = some env1)
    (hrem : remove_empty_blocks fuel g = some g1)
    (hcoal : coalesce_blocks g1 fuel env1 = some env2)
    (hwalk : ∀ b ∈ walk, b ∈ g1.blocks)
    (hstart : g1.cfgpreds g1.startBlock = [])
    (hfuel : (blockUniverse g1).length < fuel)
    (hdead : ∀ a ∈ predBlocks g1, (∃ b, b ∈ block_succs g1 a ∧ Reach g1 g1.startBlock b) →
      Reach g1 g1.startBlock a) :
    ∃ g2 env3 arr, finish_block_schedule fuel g1 env2 = some (g2, env3, g1.startBlock) ∧
      be_create_block_schedule toFloat fuel walk g = some arr ∧
      arr.head? = some g1.startBlock ∧ arr.Nodup ∧
      (∀ b, b ∈ arr ↔ Reach g1 g1.startBlock b) ∧
      arr.length = env3.blockcount ∧ (∀ b, g2.visited b = true ↔ b ∈ arr) := by
  obtain ⟨g2, env3, arr, h1, h2, h3, h4, h5, h6, h7, h8, _⟩ :=
    schedule_spec toFloat fuel walk g g1 env1 env2 (fun b => Reach g1 g1.startBlock b)
      hcol hrem hcoal hwalk hstart hfuel Relation.ReflTransGen.refl
      (fun a ha s hs => Relation.ReflTransGen.tail ha hs)
      (fun a b hab hb => hdead a (mem_predBlocks_of_succ hab) ⟨b, hab, hb⟩)
  exact ⟨g2, env3, arr, h1, h2, h3, h4, fun b => ⟨h6 b, h5 b⟩, h7, h8⟩

/-- C1 at a chain of three blocks. -/
theorem be_create_block_schedule_complete_witness :
    ∃ g1 g2 env2 env3 arr,
      remove_empty_blocks 10 chainGraph = some g1 ∧
      finish_block_schedule 10 g1 env2 = some (g2, env3, g1.startBlock) ∧
      be_create_block_schedule id 10 [3, 2, 1] chainGraph = some arr ∧
      arr.head? = some g1.startBlock ∧ arr.Nodup ∧
      (∀ b, b ∈ arr ↔ Reach g1 g1.startBlock b) ∧
      arr.length = env3.blockcount ∧ (∀ b, g2.visited b = true ↔ b ∈ arr) := by
  have hrem := some_getD_of_isSome
    (by decide : (remove_empty_blocks 10 chainGraph).isSome = true) chainGraph
  have hcol := some_getD_of_isSome
    (by decide : (([3, 2, 1] : List Nat).foldlM (collect_egde_frequency id chainGraph)
      (Env.mk [] [] 0 (fun _ => none) (fun _ => none) chainGraph.loopLink)).isSome = true)
    (Env.mk [] [] 0 (fun _ => none) (fun _ => none) chainGraph.loopLink)
  have hcoal := some_getD_of_isSome
    (by decide : (coalesce_blocks ((remove_empty_blocks 10 chainGraph).getD chainGraph) 10
      ((([3, 2, 1] : List Nat).foldlM (collect_egde_frequency id chainGraph)
        (Env.mk [] [] 0 (fun _ => none) (fun _ => none) chainGraph.loopLink)).getD
        (Env.mk [] [] 0 (fun _ => none) (fun _ => none) chainGraph.loopLink))).isSome = true)
    (Env.mk [] [] 0 (fun _ => none) (fun _ => none) chainGraph.loopLink)
  have hs12 : 2 ∈ block_succs ((remove_empty_blocks 10 chainGraph).getD chainGraph) 1 := by
    decide
  obtain ⟨g2, env3, arr, h⟩ := be_create_block_schedule_complete id 10 [3, 2, 1] chainGraph _ _ _
    hcol hrem hcoal (by decide) (by decide) (by decide)
    (by
      have hp : predBlocks ((remove_empty_blocks 10 chainGraph).getD chainGraph) = [1, 2] := by
        decide
      rw [hp]
      intro a ha _
      simp only [List.mem_cons, List.mem_singleton, List.not_mem_nil, or_false] at ha
      rcases ha with h1 | h1
      · rw [h1]; exact Relation.ReflTransGen.refl
      · rw [h1]; exact Relation.ReflTransGen.single hs12)
  exact ⟨_, g2, _, env3, arr, hrem, h⟩

/-- C1 fails as stated: in `deadCodeGraph` the start block has no
predecessors, and the schedule holds block 2, which is not reachable from the
start block. -/
theorem be_create_block_schedule_dead_code :
    ∃ g1, remove_empty_blocks 10 deadCodeGraph = some g1 ∧
      g1.cfgpreds g1.startBlock = [] ∧
      be_create_block_schedule id 10 [3, 1, 2] deadCodeGraph = some [1, 2, 3] ∧
      ¬ Reach g1 g1.startBlock 2 := by
  refine ⟨(remove_empty_blocks 10 deadCodeGraph).getD deadCodeGraph,
    some_getD_of_isSome (by decide) _, by decide, by decide, ?_⟩
  intro hr
  have key : ∀ b, Reach ((remove_empty_blocks 10 deadCodeGraph).getD deadCodeGraph) 1 b →
      b = 1 ∨ b = 3 := by
    intro b hb
    induction hb with
    | refl => exact Or.inl rfl
    | @tail y z _ hyz ih =>
      rcases ih with h1 | h1
      · rw [h1] at hyz
        have : z ∈ [3] := hyz
        simp at this
        exact Or.inr this
      · rw [h1] at hyz
        have : z ∈ ([] : List Nat) := hyz
        cases this
  rcases key 2 hr with h1 | h1 <;> cases h1

/-! ## C2, C3, C4: removal of jump-only blocks -/

theorem mem_jump_out_edges {g : Irg} {j u i : Nat} :
    (u, i) ∈ jump_out_edges g j ↔
      u ∈ g.blocks ∧ i < (g.cfgpreds u).length ∧ get_Block_cfgpred g u i = some j := by
  unfold jump_out_edges
  simp only [List.mem_flatMap, List.mem_map, List.mem_filter, List.mem_range, beq_iff_eq,
    Prod.mk.injEq]
  constructor
  · rintro ⟨a, ha, k, ⟨hk1, hk2⟩, h1, h2⟩
    rw [← h1, ← h2]
    exact ⟨ha, hk1, hk2⟩
  · rintro ⟨h1, h2, h3⟩
    exact ⟨u, h1, i, ⟨h2, h3⟩, rfl, rfl⟩

theorem get_set_cfgpred {l : List (Option Nat)} {pos : Nat} (v : Option Nat)
    (h : pos < l.length) : (l.set pos v).getD pos none = v := by
  simp [List.getD_eq_getElem?_getD, List.getElem?_set_self h]

/-- What the handling of one out edge of the removed block leaves unchanged,
and that it moves no node into a block `b` other than the successor and the
block of the predecessor. -/
theorem spliceNode_frame (j : Nat) (pred : Option Nat) (succ b : Nat) (hsb : succ ≠ b)
    (g g1 : Irg) (e : Nat × Int) (h : spliceNode j pred succ g e = some g1)
    (hp : ∀ p, pred = some p → g.nodesBlock p ≠ b) :
    g1.cfgpreds = g.cfgpreds ∧ g1.blocks = g.blocks ∧ g1.entity = g.entity ∧
      g1.sched = g.sched ∧ g1.visited = g.visited ∧ g1.startBlock = g.startBlock ∧
      (∀ n, g1.nodesBlock n = b → g.nodesBlock n = b) ∧
      (∀ p, pred = some p → g1.nodesBlock p ≠ b) := by
  have hmove : ∀ (c : Nat), c ≠ b →
      (∀ n, Function.update g.nodesBlock e.1 c n = b → g.nodesBlock n = b) ∧
      (∀ p, pred = some p → Function.update g.nodesBlock e.1 c p ≠ b) := by
    intro c hc
    constructor
    · intro n hn
      by_cases hnn : n = e.1
      · rw [hnn, Function.update_same] at hn
        exact absurd hn hc
      · rw [Function.update_noteq hnn] at hn
        exact hn
    · intro p hpp
      by_cases hnn : p = e.1
      · rw [hnn, Function.update_same]; exact hc
      · rw [Function.update_noteq hnn]; exact hp p hpp
  unfold spliceNode at h
  simp only at h
  split at h
  · rw [← Option.some.inj h]
    exact ⟨rfl, rfl, rfl, rfl, rfl, rfl, fun _ hn => hn, hp⟩
  · split at h
    · rw [← Option.some.inj h]
      exact ⟨rfl, rfl, rfl, rfl, rfl, rfl, fun _ hn => hn, hp⟩
    · split at h
      · rename_i p
        rw [← Option.some.inj h]
        have := hmove (g.nodesBlock p) (hp p rfl)
        exact ⟨rfl, rfl, rfl, rfl, rfl, rfl, this.1, this.2⟩
      · cases h
    · rw [← Option.some.inj h]
      by_cases hpos : e.2 < 0
      · have := hmove succ hsb
        have hg : set_irn_n g e.1 e.2 succ =
            { g with nodesBlock := Function.update g.nodesBlock e.1 succ } := by
          simp [set_irn_n, hpos]
        rw [hg]
        exact ⟨rfl, rfl, rfl, rfl, rfl, rfl, this.1, this.2⟩
      · let l1 := (g.ins e.1).set e.2.toNat (Operand.block succ)
        have hg : set_irn_n g e.1 e.2 succ = { g with ins := Function.update g.ins e.1 l1 } := by
          simp [set_irn_n, hpos, l1]
        rw [hg]
        exact ⟨rfl, rfl, rfl, rfl, rfl, rfl, fun _ hn => hn, hp⟩
    · cases h

theorem spliceNodes_frame (j : Nat) (pred : Option Nat) (succ b : Nat) (hsb : succ ≠ b) :
    ∀ (l : List (Nat × Int)) (g g1 : Irg), spliceNodes j pred succ l g = some g1 →
      (∀ p, pred = some p → g.nodesBlock p ≠ b) →
      g1.cfgpreds = g.cfgpreds ∧ g1.blocks = g.blocks ∧ g1.entity = g.entity ∧
        g1.sched = g.sched ∧ g1.visited = g.visited ∧ g1.startBlock = g.startBlock ∧
        (∀ n, g1.nodesBlock n = b → g.nodesBlock n = b) := by
  intro l
  induction l with
  | nil =>
    intro g g1 h _
    simp only [spliceNodes, List.foldlM_nil] at h
    have : g = g1 := Option.some.inj h
    rw [← this]
    exact ⟨rfl, rfl, rfl, rfl, rfl, rfl, fun _ hn => hn⟩
  | cons e rest ih =>
    intro g g1 h hp
    simp only [spliceNodes, List.foldlM_cons, Option.bind_eq_bind, Option.bind_eq_some] at h
    obtain ⟨g0, h0, h1⟩ := h
    obtain ⟨a1, a2, a3, a4, a5, a6, a7, a8⟩ := spliceNode_frame j pred succ b hsb g g0 e h0 hp
    obtain ⟨b1, b2, b3, b4, b5, b6, b7⟩ := ih g0 g1 h1 a8
    exact ⟨b1.trans a1, b2.trans a2, b3.trans a3, b4.trans a4, b5.trans a5, b6.trans a6,
      fun n hn => a7 n (b7 n hn)⟩

theorem rerouteJump_done (entity pred : Option Nat) (l : List (Nat × Nat)) (g g1 : Irg)
    (s : Nat) (h : rerouteJump entity pred l none g = Reroute.done g1 (some s)) :
    ∃ pos, l = [(s, pos)] ∧ g1 = set_Block_cfgpred g s pos pred ∧
      ¬ ((g.entity s).isSome ∧ entity.isSome) := by
  cases l with
  | nil => simp [rerouteJump] at h
  | cons e rest =>
    obtain ⟨s0, p0⟩ := e
    unfold rerouteJump at h
    simp only [Option.isSome_none, Bool.false_eq_true, if_false] at h
    split at h
    · cases h
    · rename_i hlab
      cases rest with
      | nil =>
        simp only [rerouteJump, Reroute.done.injEq, Option.some.injEq] at h
        refine ⟨p0, ?_, ?_, ?_⟩
        · rw [h.2]
        · rw [← h.1, h.2]
        · rw [← h.2]; exact hlab
      | cons e2 rest2 =>
        obtain ⟨s2, p2⟩ := e2
        simp [rerouteJump] at h

/-- The shape of a step that removes a block. -/
theorem step_removed_inv (g g1 : Irg) (x : Nat) (pred : Option Nat)
    (h : remove_empty_block_step g x = StepResult.removed g1 pred) :
    ∃ j c pos g3, pred = get_Block_cfgpred g x 0 ∧ jump_out_edges g j = [(c, pos)] ∧
      spliceNodes j pred c
        (block_out_edges (set_Block_entity (set_Block_cfgpred g c pos pred) c (g.entity x)) x)
        (set_Block_entity (set_Block_cfgpred g c pos pred) c (g.entity x)) = some g3 ∧
      g1 = { kill_node (set_Block_cfgpred g3 x 0 none) j with blocksRemoved := true } := by
  unfold remove_empty_block_step at h
  split at h
  · cases h
  · split at h
    · cases h
    · cases h
    · cases h
    · rename_i jump _
      simp only at h
      split at h
      · cases h
      · cases h
      · cases h
      · rename_i g0 c hr
        obtain ⟨pos, hl, hg0, _⟩ := rerouteJump_done _ _ _ _ _ _ hr
        split at h
        · cases h
        · rename_i g3 hs
          simp only [StepResult.removed.injEq] at h
          refine ⟨jump, c, pos, g3, h.2.symm, hl, ?_, h.1.symm⟩
          rw [← h.2, ← hg0]
          exact hs

theorem dead_mark {g : Irg} {b x : Nat} (h : Dead g b) : Dead (mark_irn_visited g x) b := h

/-- A block that is cut off stays cut off when another block is removed. -/
theorem dead_step {g g1 : Irg} {b x : Nat} {pred : Option Nat} (hd : Dead g b)
    (h : remove_empty_block_step g x = StepResult.removed g1 pred) : Dead g1 b := by
  obtain ⟨j, c, pos, g3, hpred, hje, hs, hg1⟩ := step_removed_inv g g1 x pred h
  have hc : (c, pos) ∈ jump_out_edges g j := by rw [hje]; simp
  obtain ⟨_, hposlt, hcj⟩ := mem_jump_out_edges.1 hc
  have hcb : c ≠ b := by
    intro e
    rw [e] at hcj
    unfold get_Block_cfgpred at hcj
    rw [hd.1] at hcj
    cases pos with
    | zero => simp at hcj
    | succ k => simp at hcj
  have hpb : ∀ p, pred = some p → g.nodesBlock p ≠ b := by
    intro p hp
    rw [hpred] at hp
    exact hd.2 x p (get_Block_cfgpred_mem hp)
  obtain ⟨f1, _, _, _, _, _, f7⟩ := spliceNodes_frame j pred c b hcb _ _ g3 hs hpb
  have hcf3 : g3.cfgpreds = Function.update g.cfgpreds c ((g.cfgpreds c).set pos pred) := by
    rw [f1]; rfl
  have hnb : ∀ n, g1.nodesBlock n = b → g.nodesBlock n = b := by
    intro n hn
    rw [hg1] at hn
    exact f7 n hn
  have hcf1 : g1.cfgpreds = Function.update g3.cfgpreds x ((g3.cfgpreds x).set 0 none) := by
    rw [hg1]; rfl
  have hmem : ∀ u n, some n ∈ g1.cfgpreds u → some n ∈ g.cfgpreds u ∨ some n = pred := by
    intro u n hn
    rw [hcf1] at hn
    have h3 : some n ∈ g3.cfgpreds u := by
      by_cases hux : u = x
      · rw [hux, Function.update_same] at hn
        rcases List.mem_or_eq_of_mem_set hn with h5 | h5
        · rw [hux]; exact h5
        · cases h5
      · rw [Function.update_noteq hux] at hn
        exact hn
    rw [hcf3] at h3
    by_cases huc : u = c
    · rw [huc, Function.update_same] at h3
      rcases List.mem_or_eq_of_mem_set h3 with h5 | h5
      · rw [huc]; exact Or.inl h5
      · exact Or.inr h5
    · rw [Function.update_noteq huc] at h3
      exact Or.inl h3
  constructor
  · rw [hcf1]
    have h3b : g3.cfgpreds b = [none] := by
      rw [hcf3, Function.update_noteq hcb.symm]
      exact hd.1
    by_cases hbx : b = x
    · rw [← hbx, Function.update_same, h3b]; rfl
    · rw [Function.update_noteq hbx]; exact h3b
  · intro u n hn hnb1
    have hnb0 := hnb n hnb1
    rcases hmem u n hn with h5 | h5
    · exact hd.2 u n h5 hnb0
    · exact hpb n h5.symm hnb0

theorem spliceNode_ok (j p succ : Nat) (g : Irg) (e : Nat × Int)
    (he : e.1 = j ∨ g.kind e.1 = NodeKind.Pin ∨ g.kind e.1 = NodeKind.Sync ∨
      g.kind e.1 = NodeKind.End) :
    ∃ g1, spliceNode j (some p) succ g e = some g1 ∧ ∀ n, n ≠ e.1 → g1.kind n = g.kind n := by
  unfold spliceNode
  simp only
  by_cases hj : e.1 = j
  · simp only [hj, if_true]
    exact ⟨g, rfl, fun _ _ => rfl⟩
  · simp only [hj, if_false]
    rcases he with h | h | h | h
    · exact absurd h hj
    · rw [h]
      refine ⟨_, rfl, ?_⟩
      intro n hn
      simp only [exchange, Function.update_noteq hn]
    · rw [h]
      exact ⟨_, rfl, fun _ _ => rfl⟩
    · rw [h]
      refine ⟨_, rfl, ?_⟩
      intro n _
      unfold set_irn_n
      split <;> rfl

theorem spliceNodes_ok (j p succ : Nat) : ∀ (l : List (Nat × Int)) (g : Irg),
    (∀ e ∈ l, e.1 = j ∨ g.kind e.1 = NodeKind.Pin ∨ g.kind e.1 = NodeKind.Sync ∨
      g.kind e.1 = NodeKind.End) →
    (l.map Prod.fst).Nodup → ∃ g1, spliceNodes j (some p) succ l g = some g1 := by
  intro l
  induction l with
  | nil => intro g _ _; exact ⟨g, rfl⟩
  | cons e rest ih =>
    intro g hk hnd
    obtain ⟨g0, h0, hkind⟩ := spliceNode_ok j p succ g e (hk e (List.mem_cons_self _ _))
    simp only [List.map_cons, List.nodup_cons, List.mem_map, not_exists, not_and] at hnd
    obtain ⟨g1, h1⟩ := ih g0 (by
      intro e2 he2
      have hne : e2.1 ≠ e.1 := fun heq => hnd.1 e2 he2 heq
      rw [hkind e2.1 hne]
      exact hk e2 (List.mem_cons_of_mem _ he2)) hnd.2
    refine ⟨g1, ?_⟩
    simp only [spliceNodes, List.foldlM_cons, Option.bind_eq_bind, Option.bind_eq_some]
    exact ⟨g0, h0, h1⟩

theorem dead_foldlM {b : Nat} (f : Irg → Nat → Option Irg)
    (hf : ∀ g i g1, Dead g b → f g i = some g1 → Dead g1 b) :
    ∀ (l : List Nat) (g g1 : Irg), Dead g b → l.foldlM f g = some g1 → Dead g1 b := by
  intro l
  induction l with
  | nil =>
    intro g g1 hd h
    simp only [List.foldlM_nil] at h
    have : g = g1 := Option.some.inj h
    rw [← this]; exact hd
  | cons i rest ih =>
    intro g g1 hd h
    simp only [List.foldlM_cons, Option.bind_eq_bind, Option.bind_eq_some] at h
    obtain ⟨g0, h0, h1⟩ := h
    exact ih g0 g1 (hf g i g0 hd h0) h1

/-- A block that is cut off stays cut off in every later call of
`remove_empty_block`. -/
theorem dead_remove_empty_block {b : Nat} : ∀ (fuel : Nat) (g g1 : Irg) (x : Nat),
    Dead g b → remove_empty_block fuel g x = some g1 → Dead g1 b := by
  intro fuel
  induction fuel with
  | zero => intro g g1 x _ h; simp [remove_empty_block] at h
  | succ fuel ih =>
    intro g g1 x hd h
    unfold remove_empty_block at h
    split at h
    · rw [← Option.some.inj h]; exact hd
    · simp only at h
      split at h
      · cases h
      · rename_i g2 pred hstep
        have hd2 : Dead g2 b := dead_step (dead_mark hd) hstep
        split at h
        · exact ih _ _ _ hd2 h
        · cases h
      · refine dead_foldlM _ ?_ _ _ g1 (dead_mark hd) h
        intro gi i gj hdi hi
        split at hi
        · exact ih _ _ _ hdi hi
        · cases hi

theorem dead_not_live {g : Irg} {b : Nat} (hd : Dead g b) (hs : g.cfgpreds g.startBlock = []) :
    ¬ Live g b := by
  intro hl
  rcases hl with h | ⟨a, h⟩ | ⟨s, h⟩
  · have := hd.1
    rw [h, hs] at this
    cases this
  · obtain ⟨_, n, hn, _⟩ := mem_block_succs.1 h
    rw [hd.1] at hn
    simp at hn
  · obtain ⟨_, n, hn, hb⟩ := mem_block_succs.1 h
    exact hd.2 s n hn hb

/-- A block that is cut off when the scheduler has removed the jump-only
blocks is not scheduled. -/
theorem dead_not_scheduled (toFloat : ℚ → ℚ) (fuel : Nat) (walk : List Nat) (g g1 : Irg)
    (env1 env2 : Env) (b : Nat)
    (hcol : walk.foldlM (collect_egde_frequency toFloat g)
      (Env.mk [] [] 0 (fun _ => none) (fun _ => none) g.loopLink) = some env1)
    (hrem : remove_empty_blocks fuel g = some g1)
    (hcoal : coalesce_blocks g1 fuel env1 = some env2)
    (hwalk : ∀ b ∈ walk, b ∈ g1.blocks)
    (hstart : g1.cfgpreds g1.startBlock = [])
    (hfuel : (blockUniverse g1).length < fuel)
    (hd : Dead g1 b) :
    ∃ arr, be_create_block_schedule toFloat fuel walk g = some arr ∧ b ∉ arr := by
  obtain ⟨g2, env3, arr, _, h2, _, _, _, h6, _⟩ :=
    schedule_spec toFloat fuel walk g g1 env1 env2 (Live g1)
      hcol hrem hcoal hwalk hstart hfuel (Or.inl rfl)
      (fun a _ s hs => Or.inr (Or.inl ⟨a, hs⟩))
      (fun a b hab _ => Or.inr (Or.inr ⟨b, hab⟩))
  exact ⟨arr, h2, fun hb => dead_not_live hd hstart (h6 b hb)⟩

theorem mem_set_cases {α : Type} : ∀ (l : List α) (k : Nat) (v a : α), a ∈ l.set k v →
    a = v ∨ ∃ i, i ≠ k ∧ l[i]? = some a
  | [], _, _, _, h => by simp at h
  | x :: l, 0, v, a, h => by
    simp only [List.set_cons_zero, List.mem_cons] at h
    rcases h with h | h
    · exact Or.inl h
    · obtain ⟨i, hi⟩ := List.getElem?_of_mem h
      exact Or.inr ⟨i + 1, by omega, by simpa using hi⟩
  | x :: l, k + 1, v, a, h => by
    simp only [List.set_cons_succ, List.mem_cons] at h
    rcases h with h | h
    · exact Or.inr ⟨0, by omega, by simp [h]⟩
    · rcases mem_set_cases l k v a h with h1 | ⟨i, hi1, hi2⟩
      · exact Or.inl h1
      · exact Or.inr ⟨i + 1, by omega, by simpa using hi2⟩

theorem jump_use_of_getElem {g : Irg} {u i j : Nat} (hu : u ∈ g.blocks)
    (h : (g.cfgpreds u)[i]? = some (some j)) : (u, i) ∈ jump_out_edges g j := by
  rw [mem_jump_out_edges]
  have hlt : i < (g.cfgpreds u).length := by
    by_contra hc
    rw [List.getElem?_eq_none (by omega)] at h
    cases h
  refine ⟨hu, hlt, ?_⟩
  unfold get_Block_cfgpred
  rw [List.getD_eq_getElem?_getD, h]
  rfl

/-- The step of `remove_empty_block` at a jump-only block with one
predecessor. -/
theorem step_removes (g : Irg) (B C j p pos : Nat)
    (hpred : g.cfgpreds B = [some p])
    (hsched : g.sched B = [j])
    (hj : g.kind j = NodeKind.Jmp ∨ g.kind j = NodeKind.SimpleJump)
    (huse : jump_out_edges g j = [(C, pos)])
    (hBC : C ≠ B)
    (hlabel : g.entity B = none ∨ g.entity C = none)
    (hnodes : ∀ e ∈ block_out_edges g B, e.1 = j ∨ g.kind e.1 = NodeKind.Pin ∨
      g.kind e.1 = NodeKind.Sync ∨ g.kind e.1 = NodeKind.End)
    (hnd : ((block_out_edges g B).map Prod.fst).Nodup)
    (hcf : ∀ u n, some n ∈ g.cfgpreds u → g.nodesBlock n = B → n = j ∧ u ∈ g.blocks)
    (hpB : g.nodesBlock p ≠ B) :
    ∃ g1, remove_empty_block_step g B = StepResult.removed g1 (some p) ∧
      get_Block_cfgpred g1 C pos = some p ∧ g1.cfgpreds B = [none] ∧
      g1.entity C = g.entity B ∧ Dead g1 B := by
  have hn1 : ¬ get_Block_n_cfgpreds g B ≠ 1 := by simp [get_Block_n_cfgpreds, hpred]
  have hscan : scanSched g (g.sched B) none = Scan.found (some j) := by
    rw [hsched]
    rcases hj with h | h <;> simp [scanSched, h]
  have hp0 : get_Block_cfgpred g B 0 = some p := by simp [get_Block_cfgpred, hpred]
  have hlab : ¬ ((g.entity C).isSome = true ∧ (g.entity B).isSome = true) := by
    rcases hlabel with h | h <;> simp [h]
  have hre : rerouteJump (g.entity B) (some p) (jump_out_edges g j) none g =
      Reroute.done (set_Block_cfgpred g C pos (some p)) (some C) := by
    rw [huse]
    simp only [rerouteJump, Option.isSome_none, Bool.false_eq_true, if_false, hlab]
  obtain ⟨g3, hs⟩ := spliceNodes_ok j p C
    (block_out_edges (set_Block_entity (set_Block_cfgpred g C pos (some p)) C (g.entity B)) B)
    (set_Block_entity (set_Block_cfgpred g C pos (some p)) C (g.entity B)) hnodes hnd
  obtain ⟨f1, _, f3, _, _, _, f7⟩ := spliceNodes_frame j (some p) C B hBC _ _ g3 hs
    (fun q hq => by rw [← Option.some.inj hq]; exact hpB)
  have hc : (C, pos) ∈ jump_out_edges g j := by rw [huse]; simp
  obtain ⟨hCb, hposlt, _⟩ := mem_jump_out_edges.1 hc
  have hcf3 : g3.cfgpreds = Function.update g.cfgpreds C ((g.cfgpreds C).set pos (some p)) := by
    rw [f1]; rfl
  have h3B : g3.cfgpreds B = [some p] := by
    rw [hcf3, Function.update_noteq hBC.symm]; exact hpred
  refine ⟨{ kill_node (set_Block_cfgpred g3 B 0 none) j with blocksRemoved := true }, ?_, ?_, ?_,
    ?_, ?_, ?_⟩
  · unfold remove_empty_block_step
    simp only [hn1, if_false, hscan, hp0, hre, hs]
  · show (Function.update g3.cfgpreds B ((g3.cfgpreds B).set 0 none) C).getD pos none = some p
    rw [Function.update_noteq hBC, hcf3, Function.update_same]
    exact get_set_cfgpred _ hposlt
  · show Function.update g3.cfgpreds B ((g3.cfgpreds B).set 0 none) B = [none]
    rw [Function.update_same, h3B]; rfl
  · show g3.entity C = g.entity B
    rw [f3]
    simp [set_Block_entity, set_Block_cfgpred]
  · show Function.update g3.cfgpreds B ((g3.cfgpreds B).set 0 none) B = [none]
    rw [Function.update_same, h3B]; rfl
  · intro u n hn hnb
    have hnb0 : g.nodesBlock n = B := f7 n hnb
    have hn1 : some n ∈ Function.update g3.cfgpreds B ((g3.cfgpreds B).set 0 none) u := hn
    by_cases huB : u = B
    · rw [huB, Function.update_same, h3B] at hn1
      simp at hn1
    · rw [Function.update_noteq huB, hcf3] at hn1
      by_cases huC : u = C
      · rw [huC, Function.update_same] at hn1
        rcases mem_set_cases _ _ _ _ hn1 with h5 | ⟨i, hi1, hi2⟩
        · rw [Option.some.inj h5] at hnb0
          exact hpB hnb0
        · have hnj := (hcf C n (List.getElem?_mem hi2) hnb0).1
          rw [hnj] at hi2
          have := jump_use_of_getElem hCb hi2
          rw [huse] at this
          simp at this
          exact hi1 this
      · rw [Function.update_noteq huC] at hn1
        obtain ⟨hnj, hub⟩ := hcf u n hn1 hnb0
        obtain ⟨i, hi⟩ := List.getElem?_of_mem hn1
        rw [hnj] at hi
        have := jump_use_of_getElem hub hi
        rw [huse] at this
        simp at this
        exact huC this.1

theorem lookup_eq_none_of_not_mem {β : Type} : ∀ (l : List (Nat × β)) (u : Nat),
    u ∉ l.map (fun b => b.1) → l.lookup u = none
  | [], _, _ => rfl
  | (k, v) :: l, u, h => by
    simp only [List.map_cons, List.mem_cons, not_or] at h
    have hk : (u == k) = false := by simpa using h.1
    simp only [List.lookup, hk]
    exact lookup_eq_none_of_not_mem l u h.2

theorem graphOf_cfgpreds_closed (blocks : List (Nat × List (Option Nat) × List Nat))
    (nodes : List (Nat × NodeKind × Nat)) (ent : Nat → Option Nat) (freq : Nat → ℚ)
    (s e n : Nat) (u : Nat) (h : u ∉ (graphOf blocks nodes ent freq s e n).blocks) :
    (graphOf blocks nodes ent freq s e n).cfgpreds u = [] := by
  have : blocks.lookup u = none := lookup_eq_none_of_not_mem blocks u h
  simp [graphOf, this]

theorem cf_only_jump_of_check (g : Irg) (B j : Nat)
    (hc : ∀ u, u ∉ g.blocks → g.cfgpreds u = [])
    (hb : (g.blocks.all fun u => (g.cfgpreds u).all fun x =>
      x.all fun n => decide (g.nodesBlock n = B → n = j)) = true) :
    ∀ u n, some n ∈ g.cfgpreds u → g.nodesBlock n = B → n = j ∧ u ∈ g.blocks := by
  intro u n hn hnb
  have hu : u ∈ g.blocks := by
    by_contra hcon
    rw [hc u hcon] at hn
    cases hn
  rw [List.all_eq_true] at hb
  have h1 := hb u hu
  rw [List.all_eq_true] at h1
  have h2 := h1 (some n) hn
  simp only [Option.all_some, decide_eq_true_eq] at h2
  exact ⟨h2 hnb, hu⟩

/-- C2, as amended. A block `B` that was not visited, has exactly one predecessor `p` and
a schedule that consists of one jump `j`, whose only use is position `pos` of
a different block `C`, where `B` and `C` do not both carry a label, and where
every other node with an out edge of `B` is a Pin, a Sync or the End node:
`remove_empty_block` makes position `pos` of `C` refer to `p`, makes the
predecessor of `B` `Bad`, and goes on with the block of `p`. If moreover `j`
is the only node of `B` that is a control-flow predecessor and `p` does not lie
in `B`, then `B` is cut off from the control flow, it stays cut off in every
later call of `remove_empty_block`, and a block that is cut off in the graph
that `remove_empty_blocks` returns is not in the block schedule. -/
theorem remove_empty_block_rewires (g : Irg) (B C j p pos : Nat)
    (hvis : g.visited B = false)
    (hpred : g.cfgpreds B = [some p])
    (hsched : g.sched B = [j])
    (hj : g.kind j = NodeKind.Jmp ∨ g.kind j = NodeKind.SimpleJump)
    (huse : jump_out_edges g j = [(C, pos)])
    (hBC : C ≠ B)
    (hlabel : g.entity B = none ∨ g.entity C = none)
    (hnodes : ∀ e ∈ block_out_edges g B, e.1 = j ∨ g.kind e.1 = NodeKind.Pin ∨
      g.kind e.1 = NodeKind.Sync ∨ g.kind e.1 = NodeKind.End)
    (hnd : ((block_out_edges g B).map Prod.fst).Nodup)
    (hcf : ∀ u n, some n ∈ g.cfgpreds u → g.nodesBlock n = B → n = j ∧ u ∈ g.blocks)
    (hpB : g.nodesBlock p ≠ B) :
    ∃ g1, remove_empty_block_step (mark_irn_visited g B) B = StepResult.removed g1 (some p) ∧
      (∀ fuel, remove_empty_block (fuel + 1) g B = remove_empty_block fuel g1 (g1.nodesBlock p)) ∧
      get_Block_cfgpred g1 C pos = some p ∧ g1.cfgpreds B = [none] ∧ Dead g1 B ∧
      (∀ fuel x g2, remove_empty_block fuel g1 x = some g2 → Dead g2 B) ∧
      (∀ (toFloat : ℚ → ℚ) (fuel : Nat) (walk : List Nat) (ga gb : Irg) (env1 env2 : Env),
        walk.foldlM (collect_egde_frequency toFloat ga)
          (Env.mk [] [] 0 (fun _ => none) (fun _ => none) ga.loopLink) = some env1 →
        remove_empty_blocks fuel ga = some gb → coalesce_blocks gb fuel env1 = some env2 →
        (∀ b ∈ walk, b ∈ gb.blocks) → gb.cfgpreds gb.startBlock = [] →
        (blockUniverse gb).length < fuel → Dead gb B →
        ∃ arr, be_create_block_schedule toFloat fuel walk ga = some arr ∧ B ∉ arr) := by
  obtain ⟨g1, h1, h2, h3, _, h5⟩ := step_removes (mark_irn_visited g B) B C j p pos hpred hsched
    hj huse hBC hlabel hnodes hnd hcf hpB
  refine ⟨g1, h1, ?_, h2, h3, h5, ?_, ?_⟩
  · intro fuel
    conv_lhs => unfold remove_empty_block
    simp only [hvis, Bool.false_eq_true, if_false, h1]
  · intro fuel x g2 hx
    exact dead_remove_empty_block fuel g1 g2 x h5 hx
  · intro toFloat fuel walk ga gb env1 env2 hcol hrem hcoal hwalk hstart hfuel hd
    exact dead_not_scheduled toFloat fuel walk ga gb env1 env2 B hcol hrem hcoal hwalk hstart
      hfuel hd

/-- C2 at the chain of three blocks whose middle block holds only a jump. -/
theorem remove_empty_block_rewires_witness :
    ∃ g1, remove_empty_block_step (mark_irn_visited (jumpChainGraph none none) 2) 2 =
        StepResult.removed g1 (some 11) ∧
      (∀ fuel, remove_empty_block (fuel + 1) (jumpChainGraph none none) 2 =
        remove_empty_block fuel g1 (g1.nodesBlock 11)) ∧
      get_Block_cfgpred g1 3 0 = some 11 ∧ g1.cfgpreds 2 = [none] ∧ Dead g1 2 ∧
      (∀ fuel x g2, remove_empty_block fuel g1 x = some g2 → Dead g2 2) ∧
      (∀ (toFloat : ℚ → ℚ) (fuel : Nat) (walk : List Nat) (ga gb : Irg) (env1 env2 : Env),
        walk.foldlM (collect_egde_frequency toFloat ga)
          (Env.mk [] [] 0 (fun _ => none) (fun _ => none) ga.loopLink) = some env1 →
        remove_empty_blocks fuel ga = some gb → coalesce_blocks gb fuel env1 = some env2 →
        (∀ b ∈ walk, b ∈ gb.blocks) → gb.cfgpreds gb.startBlock = [] →
        (blockUniverse gb).length < fuel → Dead gb 2 →
        ∃ arr, be_create_block_schedule toFloat fuel walk ga = some arr ∧ 2 ∉ arr) :=
  remove_empty_block_rewires (jumpChainGraph none none) 2 3 21 11 0 (by decide) (by decide)
    (by decide) (by decide) (by decide) (by decide) (by decide) (by decide) (by decide)
    (cf_only_jump_of_check _ 2 21
      (fun u hu => graphOf_cfgpreds_closed _ _ _ _ _ _ _ u hu) (by decide))
    (by decide)

/-- C2 fails as stated: block 2 of `strayNodeGraph` has exactly one
predecessor, its schedule is one jump, and neither it nor its successor has a
label; but it holds a node that is neither a Pin nor a Sync nor the End node,
and `remove_empty_block` ends in a panic. -/
theorem remove_empty_block_stray_node :
    strayNodeGraph.cfgpreds 2 = [some 11] ∧ strayNodeGraph.sched 2 = [21] ∧
    strayNodeGraph.kind 21 = NodeKind.Jmp ∧ jump_out_edges strayNodeGraph 21 = [(3, 0)] ∧
    strayNodeGraph.entity 2 = none ∧ strayNodeGraph.entity 3 = none ∧
    strayNodeGraph.visited 2 = false ∧
    (∀ fuel, remove_empty_block fuel strayNodeGraph 2 = none) := by
  refine ⟨by decide, by decide, by decide, by decide, by decide, by decide, by decide, ?_⟩
  intro fuel
  cases fuel with
  | zero => rfl
  | succ f =>
    have hstep : remove_empty_block_step (mark_irn_visited strayNodeGraph 2) 2 =
        StepResult.failed := rfl
    have hv : strayNodeGraph.visited 2 = false := by decide
    unfold remove_empty_block
    simp only [hv, Bool.false_eq_true, if_false, hstep]

/-- C3. If a block `B` that was not visited has one predecessor and a
schedule that consists of one jump `j`, the first out edge of `j` leads to
position `pos` of `C`, and both `B` and `C` carry a label, then
`remove_empty_block` does not merge them: it goes on to the predecessors of `B`
with a graph `g0` in which position `pos` of `C` still refers to `j`, and `B`
has its predecessors, its schedule and its jump, and `B` and `C` have their
labels, as before. -/
theorem remove_empty_block_label_clash (g : Irg) (B C j pos : Nat) (rest : List (Nat × Nat))
    (hvis : g.visited B = false)
    (hpred : (g.cfgpreds B).length = 1)
    (hsched : g.sched B = [j])
    (hj : g.kind j = NodeKind.Jmp ∨ g.kind j = NodeKind.SimpleJump)
    (huse : jump_out_edges g j = (C, pos) :: rest)
    (hB : (g.entity B).isSome = true) (hC : (g.entity C).isSome = true) :
    remove_empty_block_step (mark_irn_visited g B) B = StepResult.check_preds ∧
    ∃ g0, (∀ fuel, remove_empty_block (fuel + 1) g B =
        (List.range 1).foldlM
          (fun gi i =>
            match get_Block_cfgpred_block gi B i with
            | some pred => remove_empty_block fuel gi pred
            | none => none)
          g0) ∧
      get_Block_cfgpred g0 C pos = some j ∧ g0.cfgpreds B = g.cfgpreds B ∧
      g0.sched B = [j] ∧ g0.kind j = g.kind j ∧
      g0.entity B = g.entity B ∧ g0.entity C = g.entity C := by
  have hn1 : ¬ get_Block_n_cfgpreds (mark_irn_visited g B) B ≠ 1 := by
    simp [get_Block_n_cfgpreds, mark_irn_visited, hpred]
  have hscan : scanSched (mark_irn_visited g B) ((mark_irn_visited g B).sched B) none =
      Scan.found (some j) := by
    show scanSched (mark_irn_visited g B) (g.sched B) none = Scan.found (some j)
    rw [hsched]
    have hk : (mark_irn_visited g B).kind j = g.kind j := rfl
    rcases hj with h | h <;> simp [scanSched, hk, h]
  have huse1 : jump_out_edges (mark_irn_visited g B) j = (C, pos) :: rest := huse
  have hstep : remove_empty_block_step (mark_irn_visited g B) B = StepResult.check_preds := by
    unfold remove_empty_block_step
    simp only [hn1, if_false, hscan, huse1, rerouteJump, Option.isSome_none,
      Bool.false_eq_true]
    have hC1 : ((mark_irn_visited g B).entity C).isSome = true := hC
    have hB1 : ((mark_irn_visited g B).entity B).isSome = true := hB
    simp only [hC1, hB1, and_self, if_true]
  refine ⟨hstep, mark_irn_visited g B, ?_, ?_, rfl, hsched, rfl, rfl, rfl⟩
  · intro fuel
    conv_lhs => unfold remove_empty_block
    simp only [hvis, Bool.false_eq_true, if_false, hstep]
    have : get_Block_n_cfgpreds (mark_irn_visited g B) B = 1 := hpred
    rw [this]
  · have hc : (C, pos) ∈ jump_out_edges g j := by rw [huse]; simp
    exact (mem_jump_out_edges.1 hc).2.2

/-- C3 at the chain of three blocks whose middle block holds only a jump,
with labels 7 and 8 on the second and third block. -/
theorem remove_empty_block_label_clash_witness :
    remove_empty_block_step (mark_irn_visited (jumpChainGraph (some 7) (some 8)) 2) 2 =
      StepResult.check_preds ∧
    ∃ g0, (∀ fuel, remove_empty_block (fuel + 1) (jumpChainGraph (some 7) (some 8)) 2 =
        (List.range 1).foldlM
          (fun gi i =>
            match get_Block_cfgpred_block gi 2 i with
            | some pred => remove_empty_block fuel gi pred
            | none => none)
          g0) ∧
      get_Block_cfgpred g0 3 0 = some 21 ∧
      g0.cfgpreds 2 = (jumpChainGraph (some 7) (some 8)).cfgpreds 2 ∧
      g0.sched 2 = [21] ∧ g0.kind 21 = (jumpChainGraph (some 7) (some 8)).kind 21 ∧
      g0.entity 2 = (jumpChainGraph (some 7) (some 8)).entity 2 ∧
      g0.entity 3 = (jumpChainGraph (some 7) (some 8)).entity 3 :=
  remove_empty_block_label_clash (jumpChainGraph (some 7) (some 8)) 2 3 21 0 [] (by decide)
    (by decide) (by decide) (by decide) (by decide) (by decide) (by decide)

/-- C4 fails on the code: in the chain of three blocks whose middle block 2
holds only a jump and has no label, while block 3 has the label 8, the removal
of block 2 leaves block 3 without a label. -/
theorem remove_empty_block_drops_label :
    (jumpChainGraph none (some 8)).entity 3 = some 8 ∧
    (remove_empty_blocks 10 (jumpChainGraph none (some 8))).map
      (fun g => (g.cfgpreds 2, g.cfgpreds 3, g.entity 2, g.entity 3)) =
      some ([none], [some 11], none, none) := by
  decide

/-! ## C5: at most one loop outedge per loop -/

/-- In the loop with two exits the other exit edge, from block 3 to block 5,
is not linked by the loop-outedge pass. -/
theorem loopExitGraph_second_exit :
    ((coalesce_loop_outedges loopExitGraph 10 loopExitEnv).getD loopExitEnv).next 3 = none ∧
    ((coalesce_loop_outedges loopExitGraph 10 loopExitEnv).getD loopExitEnv).prev 5 = none := by
  decide!

/-! ## C31: the walk that marks the loops -/

/-- The walk ends when the loop of the successor is reached after `k + 1`
steps to the outer loop and not before, and it marks the loops that it
leaves. -/
theorem markLoops_reach (g : Irg) (outer : Nat) :
    ∀ (k fuel : Nat) (ll : Nat → Bool) (loop : Nat), k < fuel →
      g.outerLoop^[k + 1] loop = outer → (∀ j < k, g.outerLoop^[j + 1] loop ≠ outer) →
      ∃ ll1, markLoops g outer fuel ll loop = some ll1 ∧
        ∀ x, ll1 x = true ↔ ll x = true ∨ ∃ j ≤ k, x = g.outerLoop^[j] loop := by
  intro k
  induction k with
  | zero =>
    intro fuel ll loop hf hk _
    obtain ⟨n, rfl⟩ : ∃ n, fuel = n + 1 := ⟨fuel - 1, by omega⟩
    have h1 : g.outerLoop loop = outer := hk
    refine ⟨Function.update ll loop true, ?_, ?_⟩
    · rw [markLoops]
      simp only [h1, ne_eq, not_true_eq_false, if_false]
    · intro x
      by_cases hx : x = loop
      · subst hx
        simp only [Function.update_same, true_iff]
        exact Or.inr ⟨0, le_refl _, rfl⟩
      · rw [Function.update_noteq hx]
        constructor
        · intro h; exact Or.inl h
        · rintro (h | ⟨j, hj, h⟩)
          · exact h
          · have : j = 0 := by omega
            subst this
            exact absurd h hx
  | succ k ih =>
    intro fuel ll loop hf hk hmin
    obtain ⟨n, rfl⟩ : ∃ n, fuel = n + 1 := ⟨fuel - 1, by omega⟩
    have h1 : g.outerLoop loop ≠ outer := hmin 0 (by omega)
    obtain ⟨ll1, h2, h3⟩ := ih n (Function.update ll loop true) (g.outerLoop loop) (by omega)
      (by rw [← Function.iterate_succ_apply]; exact hk)
      (fun j hj => by rw [← Function.iterate_succ_apply]; exact hmin (j + 1) (by omega))
    refine ⟨ll1, ?_, ?_⟩
    · rw [markLoops]
      simp only [ne_eq, h1, not_false_eq_true, if_true]
      exact h2
    · intro x
      rw [h3 x]
      constructor
      · rintro (h | ⟨j, hj, h⟩)
        · by_cases hx : x = loop
          · exact Or.inr ⟨0, by omega, hx⟩
          · rw [Function.update_noteq hx] at h
            exact Or.inl h
        · exact Or.inr ⟨j + 1, by omega, by rw [Function.iterate_succ_apply]; exact h⟩
      · rintro (h | ⟨j, hj, h⟩)
        · by_cases hx : x = loop
          · left; rw [hx, Function.update_same]
          · left; rw [Function.update_noteq hx]; exact h
        · cases j with
          | zero =>
            left
            have : x = loop := h
            rw [this, Function.update_same]
          | succ j =>
            exact Or.inr ⟨j, by omega, by rw [← Function.iterate_succ_apply]; exact h⟩

/-- The walk does not end when no number of steps to the outer loop leads
to the loop of the successor. -/
theorem markLoops_none (g : Irg) (outer : Nat) :
    ∀ (fuel : Nat) (ll : Nat → Bool) (loop : Nat),
      (∀ k, g.outerLoop^[k + 1] loop ≠ outer) → markLoops g outer fuel ll loop = none := by
  intro fuel
  induction fuel with
  | zero => intro ll loop _; rfl
  | succ n ih =>
    intro ll loop h
    have h1 : g.outerLoop loop ≠ outer := h 0
    rw [markLoops]
    simp only [ne_eq, h1, not_false_eq_true, if_true]
    exact ih _ _ (fun k => by rw [← Function.iterate_succ_apply]; exact h (k + 1))

/-- The walk ends within the fuel exactly if the loop of the successor is
reached after at least one step and at most as many steps as there is
fuel. -/
theorem markLoops_isSome_iff (g : Irg) (outer : Nat) :
    ∀ (fuel : Nat) (ll : Nat → Bool) (loop : Nat),
      (∃ ll1, markLoops g outer fuel ll loop = some ll1) ↔
        ∃ k, k < fuel ∧ g.outerLoop^[k + 1] loop = outer := by
  intro fuel ll loop
  constructor
  · intro h
    induction fuel generalizing ll loop with
    | zero => obtain ⟨ll1, h⟩ := h; simp [markLoops] at h
    | succ n ih =>
      rw [markLoops] at h
      by_cases h1 : g.outerLoop loop = outer
      · exact ⟨0, by omega, h1⟩
      · simp only [ne_eq, h1, not_false_eq_true, if_true] at h
        obtain ⟨k, hk, hk2⟩ := ih _ _ h
        exact ⟨k + 1, by omega, by rw [Function.iterate_succ_apply]; exact hk2⟩
  · rintro ⟨k, hk, hk2⟩
    classical
    have hex : ∃ k, g.outerLoop^[k + 1] loop = outer := ⟨k, hk2⟩
    obtain ⟨ll1, h, _⟩ := markLoops_reach g outer (Nat.find hex) fuel ll loop
      (lt_of_le_of_lt (Nat.find_min' hex hk2) hk) (Nat.find_spec hex)
      (fun j hj => Nat.find_min hex hj)
    exact ⟨ll1, h⟩

/-- The edges that `setHighest` returns have the blocks, positions and
penalties of the edges given. -/
theorem setHighest_exit (g : Irg) : ∀ (l : List Edge) (k : Nat),
    ExitEdges g l → ExitEdges g (setHighest l k)
  | [], _, _ => fun e he => by simp [setHighest] at he
  | a :: rest, 0, h => by
    intro e he
    simp only [setHighest, List.mem_cons] at he
    rcases he with h1 | h1
    · rw [h1]; exact h a (List.mem_cons_self _ _)
    · exact h e (List.mem_cons_of_mem _ h1)
  | a :: rest, k + 1, h => by
    intro e he
    simp only [setHighest, List.mem_cons] at he
    rcases he with h1 | h1
    · rw [h1]; exact h a (List.mem_cons_self _ _)
    · exact setHighest_exit g rest k (fun x hx => h x (List.mem_cons_of_mem _ hx)) e h1

/-- The edges of a block with more than one predecessor have no penalty. -/
theorem collectPreds_exit (g : Irg) (block : Nat) :
    ∀ (l : List Nat) (edges : List Edge) (hi : ℚ) (num : Option Nat) (r : List Edge × Option Nat),
      collectPreds g block l edges hi num = some r → ExitEdges g edges → ExitEdges g r.1 := by
  intro l
  induction l with
  | nil =>
    intro edges hi num r h he
    simp only [collectPreds] at h
    rw [← Option.some.inj h]
    exact he
  | cons i rest ih =>
    intro edges hi num r h he
    unfold collectPreds at h
    split at h
    · cases h
    · rename_i pb _
      simp only at h
      have he1 : ExitEdges g (edges ++ [Edge.mk block i (g.execfreq pb) 0 false]) := by
        intro e hm
        rcases List.mem_append.1 hm with h1 | h1
        · exact he e h1
        · have : e = Edge.mk block i (g.execfreq pb) 0 false := by simpa using h1
          rw [this]
          intro hne
          exact absurd rfl hne
      split at h
      · exact ih _ _ _ r h he1
      · exact ih _ _ _ r h he1

/-- The edges of nonzero penalty that `collect_egde_frequency` makes are
loop exits: the block has one predecessor, and the loop of the predecessor
is deeper than the loop of the block. -/
theorem collect_egde_frequency_exit (toFloat : ℚ → ℚ) (g : Irg) (env env1 : Env) (block : Nat)
    (h : collect_egde_frequency toFloat g env block = some env1)
    (he : ExitEdges g env.edges) : ExitEdges g env1.edges := by
  unfold collect_egde_frequency at h
  simp only at h
  split at h
  · split at h
    · rw [← Option.some.inj h]; exact he
    · cases h
  · split at h
    · rename_i harity
      split at h
      · cases h
      · rename_i pred_block hpb
        rw [← Option.some.inj h]
        intro e hm
        simp only at hm
        rcases List.mem_append.1 hm with h1 | h1
        · exact he e h1
        · simp only [List.mem_singleton] at h1
          rw [h1]
          intro hpen
          refine ⟨harity, rfl, ?_⟩
          intro pred hpred
          simp only [get_Block_cfgpred_block, hpred, Option.map_some', Option.some.injEq] at hpb
          rw [hpb]
          by_contra hd
          simp only [if_neg hd] at hpen
          exact hpen rfl
    · split at h
      · cases h
      · rename_i edges hc
        rw [← Option.some.inj h]
        exact collectPreds_exit g block _ _ _ _ _ hc he
      · rename_i edges k hc
        rw [← Option.some.inj h]
        exact setHighest_exit g _ k (collectPreds_exit g block _ _ _ _ _ hc he)

/-- The edges that the walk over the blocks collects are loop exits where
their penalty is not zero. -/
theorem collect_all_exit (toFloat : ℚ → ℚ) (g : Irg) :
    ∀ (walk : List Nat) (env env1 : Env),
      walk.foldlM (collect_egde_frequency toFloat g) env = some env1 →
      ExitEdges g env.edges → ExitEdges g env1.edges := by
  intro walk
  induction walk with
  | nil =>
    intro env env1 h he
    simp only [List.foldlM_nil, Option.pure_def, Option.some.injEq] at h
    rw [← h]; exact he
  | cons b rest ih =>
    intro env env1 h he
    simp only [List.foldlM_cons, Option.bind_eq_bind, Option.bind_eq_some] at h
    obtain ⟨env2, h2, h3⟩ := h
    exact ih env2 env1 h3 (collect_egde_frequency_exit toFloat g env env2 b h2 he)

/-- A loop exit in a loop tree in which the loop of a block with one
predecessor encloses the loop of the predecessor: the loop of the block is
reached from the loop of the predecessor after at least one step to the
outer loop. -/
theorem exit_edge_ancestor (g : Irg) (henc : LoopEncloses g) (edges : List Edge)
    (hexit : ExitEdges g edges) (e : Edge) (he : e ∈ edges) (hpen : e.outedge_penalty_freq ≠ 0)
    (pred : Nat) (hpred : get_Block_cfgpred g e.block e.pos = some pred) :
    ∃ k, g.outerLoop^[k + 1] (g.irnLoop (g.nodesBlock pred)) = g.irnLoop e.block := by
  obtain ⟨h1, h2, h3⟩ := hexit e he hpen
  rw [h2] at hpred
  have hd := h3 pred hpred
  have hc : g.cfgpreds e.block = [some pred] := by
    unfold get_Block_cfgpred at hpred
    cases hl : g.cfgpreds e.block with
    | nil => rw [hl] at h1; cases h1
    | cons a rest =>
      rw [hl] at h1 hpred
      cases rest with
      | nil =>
        simp only [List.getD_cons_zero] at hpred
        rw [hpred]
      | cons b rest => simp at h1
  obtain ⟨k, hk⟩ := henc e.block pred hc
  cases k with
  | zero =>
    have : g.irnLoop (g.nodesBlock pred) = g.irnLoop e.block := hk
    rw [this] at hd
    exact absurd hd (lt_irrefl _)
  | succ k => exact ⟨k, hk⟩

/-- The second loop of `coalesce_blocks` returns, given enough fuel, when
the edges of nonzero penalty are loop exits and the loop of a block with one
predecessor encloses the loop of the predecessor: every walk that marks the
loops ends. -/
theorem coalesce_run2_returns (g : Irg) (henc : LoopEncloses g) :
    ∀ (edges : List Edge), ExitEdges g edges →
      ∃ n, ∀ fuel, n ≤ fuel → ∀ env, ∃ env1, coalesce_run2 g fuel edges env = some env1 := by
  intro edges
  induction edges with
  | nil => intro _; exact ⟨0, fun fuel _ env => ⟨env, rfl⟩⟩
  | cons edge rest ih =>
    intro hexit
    obtain ⟨n, hn⟩ := ih (fun e he => hexit e (List.mem_cons_of_mem _ he))
    by_cases hpen : edge.outedge_penalty_freq = 0
    · refine ⟨0, fun fuel _ env => ⟨env, ?_⟩⟩
      rw [coalesce_run2, if_pos hpen]
    · cases hpred : get_Block_cfgpred g edge.block edge.pos with
      | none =>
        refine ⟨n, fun fuel hf env => ?_⟩
        rw [coalesce_run2, if_neg hpen, hpred]
        exact hn fuel hf env
      | some pred =>
        obtain ⟨k, hk⟩ := exit_edge_ancestor g henc (edge :: rest) hexit edge
          (List.mem_cons_self _ _) hpen pred hpred
        refine ⟨max n (k + 1), fun fuel hf env => ?_⟩
        have hf1 : n ≤ fuel := le_trans (le_max_left _ _) hf
        have hf2 : k < fuel := lt_of_lt_of_le (Nat.lt_succ_self k) (le_trans (le_max_right _ _) hf)
        rw [coalesce_run2, if_neg hpen, hpred]
        simp only
        split_ifs with h1 h2
        · exact hn fuel hf1 env
        · exact hn fuel hf1 env
        · obtain ⟨ll1, hll⟩ := (markLoops_isSome_iff g (g.irnLoop edge.block) fuel
            (link env (g.nodesBlock pred) edge.block).loopLink
            (g.irnLoop (g.nodesBlock pred))).2 ⟨k, hf2, hk⟩
          rw [hll]
          exact hn fuel hf1 _

/-- A test of `LoopEncloses` for a graph given by the list of its blocks:
at every block with one predecessor the loop of the block is reached from
the loop of the predecessor after at most `n` steps. -/
theorem loopEncloses_of_check (g : Irg) (hc : ∀ u, u ∉ g.blocks → g.cfgpreds u = []) (n : Nat)
    (hb : (g.blocks.all fun b =>
      match g.cfgpreds b with
      | [some pred] => (List.range (n + 1)).any fun k =>
        decide (g.outerLoop^[k] (g.irnLoop (g.nodesBlock pred)) = g.irnLoop b)
      | _ => true) = true) : LoopEncloses g := by
  intro block pred h
  have hu : block ∈ g.blocks := by
    by_contra hcon
    rw [hc block hcon] at h
    cases h
  rw [List.all_eq_true] at hb
  have h1 := hb block hu
  rw [h] at h1
  simp only [List.any_eq_true, decide_eq_true_eq] at h1
  obtain ⟨k, _, hk⟩ := h1
  exact ⟨k, hk⟩

/-- The graph `nestedLoopGraph`: the edge from block 4 to block 5 is among
the edges collected, with the penalty -(90 - 1/2); the loop-outedge pass
returns, links the body 4 of the inner loop to the exit block 5 and marks the
loops 2 and 1, so that no other exit of these loops is linked; the loop of
a block with one predecessor encloses the loop of the predecessor. -/
theorem nestedLoopGraph_outedges :
    Edge.mk 5 0 (1 / 2) (-179 / 2) true ∈ nestedLoopEnv.edges ∧
      (coalesce_loop_outedges nestedLoopGraph 3 nestedLoopEnv).isSome = true ∧
      [1, 2, 3, 4, 5, 6, 7, 8].map
          ((coalesce_loop_outedges nestedLoopGraph 3 nestedLoopEnv).getD nestedLoopEnv).next =
        [none, none, none, some 5, some 8, some 2, none, none] ∧
      [0, 1, 2].map
          ((coalesce_loop_outedges nestedLoopGraph 3 nestedLoopEnv).getD nestedLoopEnv).loopLink =
        [false, true, true] ∧
      LoopEncloses nestedLoopGraph ∧ ExitEdges nestedLoopGraph nestedLoopEnv.edges := by
  refine ⟨by decide!, by decide!, by decide!, by decide!, ?_, ?_⟩
  · refine loopEncloses_of_check nestedLoopGraph (fun u hu => ?_) 2 (by decide)
    simp only [nestedLoopGraph, graphOf] at hu ⊢
    rw [lookup_eq_none_of_not_mem _ u hu]
    rfl
  · have hcol : ∃ env0, ([8, 5, 7, 4, 6, 3, 2, 1] : List Nat).foldlM
        (collect_egde_frequency id nestedLoopGraph)
        (Env.mk [] [] 0 (fun _ => none) (fun _ => none) (fun _ => false)) = some env0 ∧
        ∀ e, e ∈ nestedLoopEnv.edges → e ∈ env0.edges := by
      refine ⟨_, some_getD_of_isSome (by decide!)
        (Env.mk [] [] 0 (fun _ => none) (fun _ => none) (fun _ => false)), ?_⟩
      decide!
    obtain ⟨env0, h0, hsub⟩ := hcol
    have := collect_all_exit id nestedLoopGraph _ _ env0 h0
      (fun e he => absurd he (List.not_mem_nil e))
    intro e he
    exact this e (hsub e he)

/-! ## The diamond: the order of the edges decides -/

theorem cmp_edges_base_le_iff (a b : Edge) :
    cmp_edges_base a b ≤ 0 ↔ b.block < a.block ∨ (a.block = b.block ∧ b.pos ≤ a.pos) := by
  unfold cmp_edges_base
  split_ifs <;> simp <;> omega

theorem cmp_edges_le_iff (a b : Edge) :
    cmp_edges a b ≤ 0 ↔
      b.execfreq < a.execfreq ∨ (a.execfreq = b.execfreq ∧ cmp_edges_base a b ≤ 0) := by
  unfold cmp_edges
  split_ifs with h1 h2
  · constructor
    · intro h; norm_num at h
    · rintro (h | ⟨h, _⟩)
      · exact absurd h1 (not_lt.2 h.le)
      · rw [h] at h1; exact absurd h1 (lt_irrefl _)
  · constructor
    · intro _; exact Or.inl h2
    · intro _; norm_num
  · have : a.execfreq = b.execfreq := le_antisymm (not_lt.1 h2) (not_lt.1 h1)
    constructor
    · intro h; exact Or.inr ⟨this, h⟩
    · rintro (h | ⟨_, h⟩)
      · rw [this] at h; exact absurd h (lt_irrefl _)
      · exact h

theorem cmp_edges_trans (a b c : Edge) (h1 : cmp_edges a b ≤ 0) (h2 : cmp_edges b c ≤ 0) :
    cmp_edges a c ≤ 0 := by
  rw [cmp_edges_le_iff, cmp_edges_base_le_iff] at *
  rcases h1 with h1 | ⟨e1, h1⟩
  · rcases h2 with h2 | ⟨e2, _⟩
    · exact Or.inl (lt_trans h2 h1)
    · exact Or.inl (by rw [← e2]; exact h1)
  · rcases h2 with h2 | ⟨e2, h2⟩
    · exact Or.inl (by rw [e1]; exact h2)
    · refine Or.inr ⟨e1.trans e2, ?_⟩
      omega

theorem cmp_edges_base_antisymm (a b : Edge) : cmp_edges_base a b = -cmp_edges_base b a := by
  unfold cmp_edges_base
  split_ifs <;> first | rfl | omega

theorem cmp_edges_base_neg_iff (a b : Edge) :
    cmp_edges_base a b < 0 ↔ b.block < a.block ∨ (a.block = b.block ∧ b.pos < a.pos) := by
  unfold cmp_edges_base
  split_ifs <;> simp <;> omega

theorem cmp_edges_base_zero_iff (a b : Edge) :
    cmp_edges_base a b = 0 ↔ a.block = b.block ∧ a.pos = b.pos := by
  unfold cmp_edges_base
  split_ifs <;> simp <;> omega

/-- C30: `cmp_edges` is a total order for sorting. It is antisymmetric as a
three-way comparison, `cmp_edges a b = -cmp_edges b a`; it is transitive; an
edge comes first if its frequency is higher, at equal frequency if its block
number is higher, at equal block number if its position is higher; and the
result is 0 exactly for edges of equal frequency, block and position. A
frequency is a rational number, so it is not a NaN. -/
theorem cmp_edges_total_order (a b c : Edge) :
    cmp_edges a b = -cmp_edges b a ∧
      (cmp_edges a b ≤ 0 → cmp_edges b c ≤ 0 → cmp_edges a c ≤ 0) ∧
      (cmp_edges a b < 0 → cmp_edges b c < 0 → cmp_edges a c < 0) ∧
      (cmp_edges a b < 0 ↔
        b.execfreq < a.execfreq ∨
          (a.execfreq = b.execfreq ∧
            (b.block < a.block ∨ (a.block = b.block ∧ b.pos < a.pos)))) ∧
      (cmp_edges a b = 0 ↔
        a.execfreq = b.execfreq ∧ a.block = b.block ∧ a.pos = b.pos) ∧
      (cmp_edges a b = -1 ∨ cmp_edges a b = 0 ∨ cmp_edges a b = 1) := by
  have hneg : ∀ x y : Edge, cmp_edges x y < 0 ↔
      y.execfreq < x.execfreq ∨
        (x.execfreq = y.execfreq ∧
          (y.block < x.block ∨ (x.block = y.block ∧ y.pos < x.pos))) := by
    intro x y
    unfold cmp_edges
    split_ifs with h1 h2
    · constructor
      · intro h; norm_num at h
      · rintro (h | ⟨h, _⟩)
        · exact absurd h1 (not_lt.2 h.le)
        · rw [h] at h1; exact absurd h1 (lt_irrefl _)
    · constructor
      · intro _; exact Or.inl h2
      · intro _; norm_num
    · have he : x.execfreq = y.execfreq := le_antisymm (not_lt.1 h2) (not_lt.1 h1)
      rw [cmp_edges_base_neg_iff]
      constructor
      · intro h; exact Or.inr ⟨he, h⟩
      · rintro (h | ⟨_, h⟩)
        · exact absurd h h2
        · exact h
  refine ⟨?_, cmp_edges_trans a b c, ?_, hneg a b, ?_, ?_⟩
  · unfold cmp_edges
    rcases lt_trichotomy a.execfreq b.execfreq with h | h | h
    · have h2 : ¬ (b.execfreq < a.execfreq) := not_lt.2 h.le
      have h3 : a.execfreq < b.execfreq := h
      rw [if_pos h3, if_neg h2, if_pos (show b.execfreq > a.execfreq from h)]
      rfl
    · have h1 : ¬ (a.execfreq < b.execfreq) := by rw [h]; exact lt_irrefl _
      have h2 : ¬ (b.execfreq < a.execfreq) := by rw [h]; exact lt_irrefl _
      rw [if_neg h1, if_neg (show ¬ (a.execfreq > b.execfreq) from h2), if_neg h2,
        if_neg (show ¬ (b.execfreq > a.execfreq) from h1)]
      exact cmp_edges_base_antisymm a b
    · have h1 : ¬ (a.execfreq < b.execfreq) := not_lt.2 h.le
      rw [if_neg h1, if_pos (show a.execfreq > b.execfreq from h), if_pos h]
  · intro h1 h2
    rw [hneg] at *
    rcases h1 with h1 | ⟨e1, h1⟩
    · rcases h2 with h2 | ⟨e2, _⟩
      · exact Or.inl (lt_trans h2 h1)
      · exact Or.inl (by rw [← e2]; exact h1)
    · rcases h2 with h2 | ⟨e2, h2⟩
      · exact Or.inl (by rw [e1]; exact h2)
      · refine Or.inr ⟨e1.trans e2, ?_⟩
        omega
  · unfold cmp_edges
    split_ifs with h1 h2
    · constructor
      · intro h; norm_num at h
      · rintro ⟨h, _⟩; rw [h] at h1; exact absurd h1 (lt_irrefl _)
    · constructor
      · intro h; norm_num at h
      · rintro ⟨h, _⟩; rw [h] at h2; exact absurd h2 (lt_irrefl _)
    · have he : a.execfreq = b.execfreq := le_antisymm (not_lt.1 h2) (not_lt.1 h1)
      rw [cmp_edges_base_zero_iff]
      constructor
      · intro h; exact ⟨he, h⟩
      · rintro ⟨_, h⟩; exact h
  · unfold cmp_edges cmp_edges_base
    split_ifs <;> simp

/-! ## The edge of highest frequency -/

theorem setHighest_append (a : List Edge) : ∀ (b : List Edge) (m : Nat),
    setHighest (a ++ b) (a.length + m) = a ++ setHighest b m := by
  induction a with
  | nil => intro b m; simp
  | cons x xs ih =>
    intro b m
    have : (x :: xs).length + m = (xs.length + m) + 1 := by simp; omega
    rw [this]
    simp only [List.cons_append, setHighest]
    exact congrArg (List.cons x) (ih b m)

theorem setHighest_length : ∀ (l : List Edge) (k : Nat), (setHighest l k).length = l.length := by
  intro l
  induction l with
  | nil => intro k; rfl
  | cons x xs ih =>
    intro k
    cases k with
    | zero => rfl
    | succ k => simp [setHighest, ih]

theorem setHighest_getElem? : ∀ (l : List Edge) (k i : Nat),
    (setHighest l k)[i]? =
      if i = k then l[i]?.map fun e => { e with highest_execfreq := true } else l[i]? := by
  intro l
  induction l with
  | nil => intro k i; simp [setHighest]
  | cons x xs ih =>
    intro k i
    cases k with
    | zero =>
      cases i with
      | zero => simp [setHighest]
      | succ i => simp [setHighest]
    | succ k =>
      cases i with
      | zero => simp [setHighest]
      | succ i => simp [setHighest, ih]

/-- The loop over the predecessors: the edges are appended in the order of
the positions, and the index that is kept belongs to the first edge of
maximal frequency, if a frequency above the initial one was seen. -/
theorem collectPreds_spec (g : Irg) (block : Nat) (F : Nat → ℚ) :
    ∀ (ps : List Nat) (edges : List Edge) (h : ℚ) (o : Option Nat),
      (∀ i ∈ ps, ∃ pb, get_Block_cfgpred_block g block i = some pb ∧ g.execfreq pb = F i) →
      ∃ O, collectPreds g block ps edges h o =
          some (edges ++ ps.map (fun i => Edge.mk block i (F i) 0 false), O) ∧
        ((O = o ∧ ∀ i ∈ ps, F i ≤ h) ∨
          ∃ m, m < ps.length ∧ O = some (edges.length + m) ∧
            (∀ x, ps[m]? = some x → h < F x ∧
              (∀ (j y : Nat), j < m → ps[j]? = some y → F y < F x) ∧
              (∀ (j y : Nat), ps[j]? = some y → F y ≤ F x))) := by
  intro ps
  induction ps with
  | nil =>
    intro edges h o _
    exact ⟨o, by simp [collectPreds], Or.inl ⟨rfl, fun i hi => absurd hi (List.not_mem_nil i)⟩⟩
  | cons i rest ih =>
    intro edges h o hp
    obtain ⟨pb, hpb, hF⟩ := hp i (List.mem_cons_self _ _)
    have hrest : ∀ i ∈ rest, ∃ pb, get_Block_cfgpred_block g block i = some pb ∧
        g.execfreq pb = F i := fun x hx => hp x (List.mem_cons_of_mem _ hx)
    unfold collectPreds
    simp only [hpb, hF]
    by_cases hgt : F i > h
    · simp only [if_pos hgt]
      obtain ⟨O, hO, hprop⟩ := ih (edges ++ [Edge.mk block i (F i) 0 false]) (F i)
        (some ((edges ++ [Edge.mk block i (F i) 0 false]).length - 1)) hrest
      refine ⟨O, ?_, Or.inr ?_⟩
      · rw [hO]; simp
      · rcases hprop with ⟨h1, h2⟩ | ⟨m, hm, h1, h2⟩
        · refine ⟨0, by simp, ?_, ?_⟩
          · rw [h1]; simp
          · intro x hx
            simp only [List.getElem?_cons_zero, Option.some.injEq] at hx
            rw [← hx]
            refine ⟨hgt, fun j y hj _ => absurd hj (Nat.not_lt_zero j), ?_⟩
            intro j y hy
            cases j with
            | zero =>
              simp only [List.getElem?_cons_zero, Option.some.injEq] at hy
              rw [← hy]
            | succ j =>
              simp only [List.getElem?_cons_succ] at hy
              exact h2 y (List.getElem?_mem hy)
        · refine ⟨m + 1, by simp; omega, ?_, ?_⟩
          · rw [h1]; simp; omega
          · intro x hx
            simp only [List.getElem?_cons_succ] at hx
            obtain ⟨a1, a2, a3⟩ := h2 x hx
            refine ⟨lt_trans hgt a1, ?_, ?_⟩
            · intro j y hj hy
              cases j with
              | zero =>
                simp only [List.getElem?_cons_zero, Option.some.injEq] at hy
                rw [← hy]; exact a1
              | succ j =>
                simp only [List.getElem?_cons_succ] at hy
                exact a2 j y (by omega) hy
            · intro j y hy
              cases j with
              | zero =>
                simp only [List.getElem?_cons_zero, Option.some.injEq] at hy
                rw [← hy]; exact a1.le
              | succ j =>
                simp only [List.getElem?_cons_succ] at hy
                exact a3 j y hy
    · simp only [if_neg hgt]
      obtain ⟨O, hO, hprop⟩ := ih (edges ++ [Edge.mk block i (F i) 0 false]) h o hrest
      refine ⟨O, ?_, ?_⟩
      · rw [hO]; simp
      · rcases hprop with ⟨h1, h2⟩ | ⟨m, hm, h1, h2⟩
        · left
          refine ⟨h1, ?_⟩
          intro x hx
          rcases List.mem_cons.1 hx with hx | hx
          · rw [hx]; exact not_lt.1 hgt
          · exact h2 x hx
        · right
          refine ⟨m + 1, by simp; omega, ?_, ?_⟩
          · rw [h1]; simp; omega
          · intro x hx
            simp only [List.getElem?_cons_succ] at hx
            obtain ⟨a1, a2, a3⟩ := h2 x hx
            have hi : F i < F x := lt_of_le_of_lt (not_lt.1 hgt) a1
            refine ⟨a1, ?_, ?_⟩
            · intro j y hj hy
              cases j with
              | zero =>
                simp only [List.getElem?_cons_zero, Option.some.injEq] at hy
                rw [← hy]; exact hi
              | succ j =>
                simp only [List.getElem?_cons_succ] at hy
                exact a2 j y (by omega) hy
            · intro j y hy
              cases j with
              | zero =>
                simp only [List.getElem?_cons_zero, Option.some.injEq] at hy
                rw [← hy]; exact hi.le
              | succ j =>
                simp only [List.getElem?_cons_succ] at hy
                exact a3 j y hy

/-- C29: for a block with at least one predecessor, none of them `Bad`, and
non-negative block frequencies, `collect_egde_frequency` appends one edge for
every predecessor position, in the order of the positions, and flags exactly
one of them as `highest_execfreq`: the edge `k` whose frequency is maximal and
which has the lowest position among the edges of that frequency. -/
theorem collect_egde_frequency_highest (toFloat : ℚ → ℚ) (g : Irg) (env : Env) (block : Nat)
    (harity : 0 < get_Block_n_cfgpreds g block)
    (hpred : ∀ i < get_Block_n_cfgpreds g block, get_Block_cfgpred_block g block i ≠ none)
    (hfreq : ∀ b, 0 ≤ g.execfreq b) :
    ∃ env1 new k, collect_egde_frequency toFloat g env block = some env1 ∧
      env1.edges = env.edges ++ new ∧ new.length = get_Block_n_cfgpreds g block ∧
      k < get_Block_n_cfgpreds g block ∧
      (∀ (i : Nat) (e : Edge), new[i]? = some e →
        e.block = block ∧ e.pos = i ∧ (e.highest_execfreq = true ↔ i = k)) ∧
      (∀ (i : Nat) (e ek : Edge), new[i]? = some e → new[k]? = some ek →
        e.execfreq ≤ ek.execfreq ∧ (i < k → e.execfreq < ek.execfreq)) := by
  unfold collect_egde_frequency
  have h0 : ¬ (get_Block_n_cfgpreds g block = 0) := by omega
  simp only [if_neg h0]
  by_cases h1 : get_Block_n_cfgpreds g block = 1
  · simp only [if_pos h1]
    cases hp : get_Block_cfgpred_block g block 0 with
    | none => exact absurd hp (hpred 0 harity)
    | some pb =>
      simp only
      refine ⟨_, _, 0, rfl, rfl, by simp [h1], harity, ?_, ?_⟩
      · intro i e hi
        cases i with
        | zero =>
          simp only [List.getElem?_cons_zero, Option.some.injEq] at hi
          rw [← hi]; simp
        | succ i => simp at hi
      · intro i e ek hi hk
        cases i with
        | zero =>
          rw [hi] at hk
          rw [Option.some.inj hk]
          exact ⟨le_refl _, fun h => absurd h (lt_irrefl _)⟩
        | succ i => simp at hi
  · simp only [if_neg h1]
    let F : Nat → ℚ := fun i => (get_Block_cfgpred_block g block i).elim 0 g.execfreq
    have hF0 : ∀ i, 0 ≤ F i := by
      intro i
      show 0 ≤ (get_Block_cfgpred_block g block i).elim 0 g.execfreq
      cases get_Block_cfgpred_block g block i with
      | none => exact le_refl _
      | some pb => exact hfreq pb
    have hps : ∀ i ∈ List.range (get_Block_n_cfgpreds g block),
        ∃ pb, get_Block_cfgpred_block g block i = some pb ∧ g.execfreq pb = F i := by
      intro i hi
      have hlt := List.mem_range.1 hi
      cases hp : get_Block_cfgpred_block g block i with
      | none => exact absurd hp (hpred i hlt)
      | some pb =>
        refine ⟨pb, rfl, ?_⟩
        show g.execfreq pb = (get_Block_cfgpred_block g block i).elim 0 g.execfreq
        rw [hp]
        rfl
    obtain ⟨O, hO, hprop⟩ := collectPreds_spec g block F
      (List.range (get_Block_n_cfgpreds g block)) env.edges (-1) none hps
    rw [hO]
    rcases hprop with ⟨_, h2⟩ | ⟨m, hm, h3, h4⟩
    · have := h2 0 (List.mem_range.2 harity)
      have := hF0 0
      linarith
    · rw [h3]
      simp only
      have hm2 : m < get_Block_n_cfgpreds g block := by simpa using hm
      have hmm : (List.range (get_Block_n_cfgpreds g block))[m]? = some m := by
        rw [List.getElem?_range hm2]
      obtain ⟨_, a2, a3⟩ := h4 m hmm
      have hget : ∀ i, (setHighest ((List.range (get_Block_n_cfgpreds g block)).map
          (fun i => Edge.mk block i (F i) 0 false)) m)[i]? =
          if i < get_Block_n_cfgpreds g block then
            some (Edge.mk block i (F i) 0 (decide (i = m))) else none := by
        intro i
        rw [setHighest_getElem?, List.getElem?_map]
        by_cases hi : i < get_Block_n_cfgpreds g block
        · rw [List.getElem?_range hi, if_pos hi]
          by_cases him : i = m
          · simp [him]
          · simp [him]
        · rw [if_neg hi, List.getElem?_eq_none (by simpa using hi)]
          simp
      refine ⟨_, setHighest ((List.range (get_Block_n_cfgpreds g block)).map
          (fun i => Edge.mk block i (F i) 0 false)) m, m, rfl, ?_, ?_, hm2, ?_, ?_⟩
      · exact setHighest_append _ _ _
      · simp [setHighest_length]
      · intro i e hi
        rw [hget] at hi
        split_ifs at hi with hlt
        rw [← Option.some.inj hi]
        simp
      · intro i e ek hi hk
        rw [hget] at hi hk
        rw [if_pos hm2] at hk
        split_ifs at hi with hlt
        rw [← Option.some.inj hi, ← Option.some.inj hk]
        have hii : (List.range (get_Block_n_cfgpreds g block))[i]? = some i := by
          rw [List.getElem?_range hlt]
        exact ⟨a3 i i hii, fun h => a2 i i h hii⟩

/-- C29 at the join block of a diamond whose two predecessors have the same
frequency: the edge of position 0 is flagged. -/
theorem collect_egde_frequency_highest_witness :
    (collect_egde_frequency id (diamondGraph 1 1)
        (Env.mk [] [] 0 (fun _ => none) (fun _ => none) (fun _ => false)) 4).map
        (fun e => e.edges) =
      some [Edge.mk 4 0 1 0 true, Edge.mk 4 1 1 0 false] ∧
    ∃ env1 new k, collect_egde_frequency id (diamondGraph 1 1)
        (Env.mk [] [] 0 (fun _ => none) (fun _ => none) (fun _ => false)) 4 = some env1 ∧
      env1.edges = [] ++ new ∧ new.length = get_Block_n_cfgpreds (diamondGraph 1 1) 4 ∧
      k < get_Block_n_cfgpreds (diamondGraph 1 1) 4 ∧
      (∀ (i : Nat) (e : Edge), new[i]? = some e →
        e.block = 4 ∧ e.pos = i ∧ (e.highest_execfreq = true ↔ i = k)) ∧
      (∀ (i : Nat) (e ek : Edge), new[i]? = some e → new[k]? = some ek →
        e.execfreq ≤ ek.execfreq ∧ (i < k → e.execfreq < ek.execfreq)) :=
  ⟨by decide,
    collect_egde_frequency_highest id (diamondGraph 1 1)
      (Env.mk [] [] 0 (fun _ => none) (fun _ => none) (fun _ => false)) 4 (by decide)
      (by decide)
      (fun b => by
        show (0 : ℚ) ≤ (if b = 2 then (1 : ℚ) else if b = 3 then 1 else 1 + 1)
        split_ifs <;> norm_num)⟩

/-! ## The remainder pass -/

theorem link_next_isSome (env : Env) (pb b a : Nat) (h : (env.next a).isSome = true) :
    ((link env pb b).next a).isSome = true := by
  unfold link
  simp only
  by_cases hx : a = pb
  · rw [hx, Function.update_same]; rfl
  · rw [Function.update_noteq hx]; exact h

theorem link_prev_isSome (env : Env) (pb b a : Nat) (h : (env.prev a).isSome = true) :
    ((link env pb b).prev a).isSome = true := by
  unfold link
  simp only
  by_cases hx : a = b
  · rw [hx, Function.update_same]; rfl
  · rw [Function.update_noteq hx]; exact h

/-- The remainder pass removes no link. -/
theorem coalesce_run3_keeps_links (g : Irg) : ∀ (l : List Edge) (env : Env) (a : Nat),
    ((env.next a).isSome = true → ((coalesce_run3 g l env).next a).isSome = true) ∧
      ((env.prev a).isSome = true → ((coalesce_run3 g l env).prev a).isSome = true) := by
  intro l
  induction l with
  | nil => intro env a; exact ⟨fun h => h, fun h => h⟩
  | cons e rest ih =>
    intro env a
    unfold coalesce_run3
    split
    · exact ih env a
    · simp only
      split
      · exact ih env a
      · exact ⟨fun h => (ih _ a).1 (link_next_isSome env _ _ a h),
          fun h => (ih _ a).2 (link_prev_isSome env _ _ a h)⟩

theorem coalesce_run3_edges (g : Irg) : ∀ (l : List Edge) (env : Env),
    (coalesce_run3 g l env).edges = env.edges := by
  intro l
  induction l with
  | nil => intro env; rfl
  | cons e rest ih =>
    intro env
    unfold coalesce_run3
    split
    · exact ih env
    · simp only
      split
      · exact ih env
      · rw [ih]; rfl

/-- After the loop over the remaining edges every edge of the array whose
predecessor is not `Bad` has a predecessor block with a `next` link or a block
with a `prev` link. -/
theorem coalesce_run3_no_free_edge (g : Irg) : ∀ (l : List Edge) (env : Env),
    ∀ e ∈ l, ∀ pred, get_Block_cfgpred g e.block e.pos = some pred →
      ((coalesce_run3 g l env).next (g.nodesBlock pred)).isSome = true ∨
        ((coalesce_run3 g l env).prev e.block).isSome = true := by
  intro l
  induction l with
  | nil => intro env e he; cases he
  | cons e0 rest ih =>
    intro env e he pred hpred
    rcases List.mem_cons.1 he with h | h
    · subst h
      unfold coalesce_run3
      rw [hpred]
      simp only
      split
      · rename_i hc
        rcases hc with hc | hc
        · exact Or.inl ((coalesce_run3_keeps_links g rest env _).1 hc)
        · exact Or.inr ((coalesce_run3_keeps_links g rest env _).2 hc)
      · refine Or.inl ((coalesce_run3_keeps_links g rest _ _).1 ?_)
        simp [link]
    · unfold coalesce_run3
      split
      · exact ih env e h pred hpred
      · simp only
        split
        · exact ih env e h pred hpred
        · exact ih _ e h pred hpred

/-- The remainder pass from any state: an edge of the array whose predecessor
is not `Bad` is not left with a predecessor block without `next` link and a
block without `prev` link. -/
theorem coalesce_remaining_links (g : Irg) (env : Env) (e : Edge) (pred : Nat)
    (he : e ∈ env.edges) (hpred : get_Block_cfgpred g e.block e.pos = some pred) :
    ¬ ((coalesce_remaining g env).next (g.nodesBlock pred) = none ∧
      (coalesce_remaining g env).prev e.block = none) := by
  unfold coalesce_remaining
  rintro ⟨h1, h2⟩
  rcases coalesce_run3_no_free_edge g (qsort_arr cmp_edges env.edges)
    { env with edges := qsort_arr cmp_edges env.edges } e (mem_qsort_arr.2 he) pred hpred
    with h | h
  · simp only at h1
    rw [h1] at h
    cases h
  · simp only at h2
    rw [h2] at h
    cases h

/-- C27: when `coalesce_blocks` returns, there is no collected edge whose
predecessor is not `Bad`, whose predecessor block has no `next` link and whose
block has no `prev` link; the edge is still in the edge array. -/
theorem coalesce_blocks_no_free_edge (g : Irg) (fuel : Nat) (env0 env3 : Env) (e : Edge)
    (pred : Nat) (h : coalesce_blocks g fuel env0 = some env3) (he : e ∈ env0.edges)
    (hpred : get_Block_cfgpred g e.block e.pos = some pred) :
    e ∈ env3.edges ∧
      ¬ (env3.next (g.nodesBlock pred) = none ∧ env3.prev e.block = none) := by
  unfold coalesce_blocks at h
  simp only [Option.bind_eq_bind, Option.bind_eq_some] at h
  obtain ⟨e1, hr1, e2, hr2, h3⟩ := h
  unfold coalesce_jumps at hr1
  unfold coalesce_loop_outedges at hr2
  simp only [Option.bind_eq_bind, Option.bind_eq_some] at hr2
  obtain ⟨ll, _, hr2⟩ := hr2
  have he1 : e1.edges = qsort_arr cmp_edges env0.edges := coalesce_run1_edges g _ _ e1 hr1
  have he2 : e2.edges = qsort_arr cmp_edges_outedge_penalty e1.edges :=
    coalesce_run2_edges g fuel _ _ e2 hr2
  have hm : e ∈ e2.edges := by
    rw [he2, mem_qsort_arr, he1, mem_qsort_arr]
    exact he
  rw [← Option.some.inj h3]
  refine ⟨?_, coalesce_remaining_links g e2 e pred hm hpred⟩
  unfold coalesce_remaining
  rw [coalesce_run3_edges]
  exact mem_qsort_arr.2 hm

/-- C27 at the chain of three blocks and the edge into block 2. -/
theorem coalesce_blocks_no_free_edge_witness :
    ∃ env0 env3,
      ([3, 2, 1] : List Nat).foldlM (collect_egde_frequency id chainGraph)
        (Env.mk [] [] 0 (fun _ => none) (fun _ => none) chainGraph.loopLink) = some env0 ∧
      coalesce_blocks chainGraph 10 env0 = some env3 ∧
      Edge.mk 2 0 1 0 true ∈ env3.edges ∧
      ¬ (env3.next (chainGraph.nodesBlock 11) = none ∧ env3.prev 2 = none) := by
  have hcol := some_getD_of_isSome
    (by decide : (([3, 2, 1] : List Nat).foldlM (collect_egde_frequency id chainGraph)
      (Env.mk [] [] 0 (fun _ => none) (fun _ => none) chainGraph.loopLink)).isSome = true)
    (Env.mk [] [] 0 (fun _ => none) (fun _ => none) chainGraph.loopLink)
  have hcoal := some_getD_of_isSome
    (by decide : (coalesce_blocks chainGraph 10
      ((([3, 2, 1] : List Nat).foldlM (collect_egde_frequency id chainGraph)
        (Env.mk [] [] 0 (fun _ => none) (fun _ => none) chainGraph.loopLink)).getD
        (Env.mk [] [] 0 (fun _ => none) (fun _ => none) chainGraph.loopLink))).isSome = true)
    (Env.mk [] [] 0 (fun _ => none) (fun _ => none) chainGraph.loopLink)
  exact ⟨_, _, hcol, hcoal,
    coalesce_blocks_no_free_edge chainGraph 10 _ _ (Edge.mk 2 0 1 0 true) 11 hcoal
      (by decide) (by decide)⟩

/-! ## The links are a partial permutation -/

/-- A call of `pick_block_successor` is its body followed by the call that
the body ends with. -/
theorem pick_block_successor_unfold (n fuel : Nat) (g : Irg) (env : Env) (block : Nat) :
    pick_block_successor n (fuel + 1) g env block =
      match pick_block_successor_step n g env block with
      | none => none
      | some (PickStep.done g1 env1) => some (g1, env1)
      | some (PickStep.call g1 env1 b1) => pick_block_successor n fuel g1 env1 b1 := by
  conv_lhs => rw [pick_block_successor]
  unfold pick_block_successor_step
  by_cases hv : g.visited block = true
  · simp [hv]
  · simp only [hv, Bool.false_eq_true, if_false]
    cases hp : putSuccs (mark_irn_visited g block) n
        (block_succs (mark_irn_visited g block) block)
        { env with blockcount := env.blockcount + 1 } with
    | none => rfl
    | some env2 =>
      simp only
      cases hn : env2.next block with
      | some nx => rfl
      | none =>
        simp only
        cases hb : bestSucc (mark_irn_visited g block) env2
            (block_succs (mark_irn_visited g block) block) (-1) none with
        | some succ => rfl
        | none =>
          simp only
          cases hw : popWorklist (mark_irn_visited g block) env2.worklist with
          | mk o wl =>
            cases o with
            | none => rfl
            | some succ => rfl

theorem linksOk_cutEnv {env : Env} (h : LinksOk env.next env.prev) {p s : Nat}
    (hp : env.prev s = some p) :
    LinksOk (cutEnv env p s).next (cutEnv env p s).prev := by
  have hn : env.next p = some s := (h p s).2 hp
  intro x y
  unfold cutEnv
  simp only
  by_cases hx : x = p
  · by_cases hy : y = s
    · rw [hx, hy, Function.update_same, Function.update_same]
      simp
    · rw [hx, Function.update_same, Function.update_noteq hy]
      constructor
      · intro hh; cases hh
      · intro hh
        have := (h p y).2 hh
        rw [hn] at this
        exact absurd (Option.some.inj this).symm hy
  · by_cases hy : y = s
    · rw [hy, Function.update_same, Function.update_noteq hx]
      constructor
      · intro hh
        have := (h x s).1 hh
        rw [hp] at this
        exact absurd (Option.some.inj this).symm hx
      · intro hh; cases hh
    · rw [Function.update_noteq hx, Function.update_noteq hy]
      exact h x y

/-- The walk to the first block of a chain, with the cycle breaking, keeps the
links consistent; it changes the links by breaking one link or not at all, and
the block it returns has no `prev` link. -/
theorem chainHead_links (sb : Nat) : ∀ (fuel : Nat) (env : Env) (s : Nat) (env1 : Env)
    (head : Nat), LinksOk env.next env.prev → chainHead sb fuel env s = some (env1, head) →
    LinksOk env1.next env1.prev ∧ env1.prev head = none ∧ env1.worklist = env.worklist ∧
      (env1 = env ∨ ∃ x, env.prev x = some sb ∧ env1 = cutEnv env sb x) := by
  intro fuel
  induction fuel with
  | zero => intro env s env1 head _ h; cases h
  | succ fuel ih =>
    intro env s env1 head hl h
    unfold chainHead at h
    cases hp : env.prev s with
    | none =>
      rw [hp] at h
      simp only [Option.some.injEq, Prod.mk.injEq] at h
      rw [← h.1, ← h.2]
      exact ⟨hl, hp, rfl, Or.inl rfl⟩
    | some p =>
      rw [hp] at h
      simp only at h
      by_cases hps : p = sb
      · rw [if_pos hps] at h
        simp only [Option.some.injEq, Prod.mk.injEq] at h
        have hc : cutEnv env p s = env1 := h.1
        rw [← hc, ← h.2]
        refine ⟨linksOk_cutEnv hl hp, ?_, rfl, Or.inr ⟨s, by rw [← hps]; exact hp, by rw [hps]⟩⟩
        simp [cutEnv]
      · rw [if_neg hps] at h
        exact ih env p env1 head hl h

theorem cutEnv_prev_none (env : Env) (p s a : Nat) (h : env.prev a = none) :
    (cutEnv env p s).prev a = none := by
  unfold cutEnv
  simp only
  by_cases ha : a = s
  · rw [ha, Function.update_same]
  · rw [Function.update_noteq ha]; exact h

/-- The loop that fills the worklist keeps the links consistent, and a block
of the worklist that is not visited has no `prev` link. -/
theorem putSuccs_links (g : Irg) (n : Nat) : ∀ (l : List Nat) (env env2 : Env),
    LinksOk env.next env.prev →
    (∀ h ∈ env.worklist, g.visited h = true ∨ env.prev h = none) →
    putSuccs g n l env = some env2 →
    LinksOk env2.next env2.prev ∧
      (∀ h ∈ env2.worklist, g.visited h = true ∨ env2.prev h = none) := by
  intro l
  induction l with
  | nil =>
    intro env env2 hl hw h
    simp only [putSuccs, Option.some.injEq] at h
    rw [← h]; exact ⟨hl, hw⟩
  | cons s rest ih =>
    intro env env2 hl hw h
    unfold putSuccs at h
    by_cases hv : g.visited s = true
    · rw [if_pos hv] at h
      exact ih env env2 hl hw h
    · rw [if_neg hv] at h
      cases hc : chainHead s n env s with
      | none => rw [hc] at h; cases h
      | some r =>
        obtain ⟨env1, head⟩ := r
        rw [hc] at h
        simp only at h
        obtain ⟨c1, c2, c3, c4⟩ := chainHead_links s n env s env1 head hl hc
        have hw1 : ∀ h ∈ env1.worklist, g.visited h = true ∨ env1.prev h = none := by
          intro x hx
          rw [c3] at hx
          rcases hw x hx with h1 | h1
          · exact Or.inl h1
          · right
            rcases c4 with c4 | ⟨y, _, c4⟩
            · rw [c4]; exact h1
            · rw [c4]; exact cutEnv_prev_none env s y x h1
        by_cases hh : g.visited head = true
        · rw [if_pos hh] at h
          exact ih env1 env2 c1 hw1 h
        · rw [if_neg hh] at h
          refine ih { env1 with worklist := env1.worklist ++ [head] } env2 c1 ?_ h
          intro x hx
          have hx : x ∈ env1.worklist ∨ x = head := by
            simpa [List.mem_append, List.mem_singleton] using hx
          rcases hx with hx | hx
          · exact hw1 x hx
          · right; rw [hx]; exact c2

theorem link_prev_other (env : Env) (pb b a : Nat) (h : a ≠ b) :
    (link env pb b).prev a = env.prev a := by
  unfold link
  simp only
  exact Function.update_noteq h _ _

/-- The body of a call of `pick_block_successor` keeps the links consistent:
in the state in which it returns or calls itself. -/
theorem pick_block_successor_step_links (n : Nat) (g : Irg) (env : Env) (cur : Nat)
    (h : WalkLinks g env cur) :
    ∀ r, pick_block_successor_step n g env cur = some r →
      match r with
      | PickStep.done _ env1 => LinksOk env1.next env1.prev
      | PickStep.call g1 env1 b1 => WalkLinks g1 env1 b1 := by
  intro r hr
  unfold pick_block_successor_step at hr
  by_cases hv : g.visited cur = true
  · rw [if_pos hv] at hr
    rw [← Option.some.inj hr]
    exact h.1
  · rw [if_neg hv] at hr
    simp only at hr
    have hmark : ∀ x, g.visited x = true → (mark_irn_visited g cur).visited x = true := by
      intro x hx
      unfold mark_irn_visited
      simp only
      by_cases hxc : x = cur
      · rw [hxc, Function.update_same]
      · rw [Function.update_noteq hxc]; exact hx
    have hcur : (mark_irn_visited g cur).visited cur = true := by
      unfold mark_irn_visited
      simp
    cases hp : putSuccs (mark_irn_visited g cur) n
        (block_succs (mark_irn_visited g cur) cur)
        { env with blockcount := env.blockcount + 1 } with
    | none => rw [hp] at hr; cases hr
    | some env2 =>
      rw [hp] at hr
      simp only at hr
      obtain ⟨l2, w2⟩ := putSuccs_links (mark_irn_visited g cur) n _
        { env with blockcount := env.blockcount + 1 } env2 h.1
        (by
          intro x hx
          rcases h.2 x hx with h1 | h1 | h1
          · exact Or.inl (hmark x h1)
          · exact Or.inr h1
          · rw [h1]; exact Or.inl hcur) hp
      cases hn : env2.next cur with
      | some nx =>
        rw [hn] at hr
        rw [← Option.some.inj hr]
        exact ⟨l2, fun x hx => (w2 x hx).elim Or.inl fun h1 => Or.inr (Or.inl h1)⟩
      | none =>
        rw [hn] at hr
        simp only at hr
        cases hb : bestSucc (mark_irn_visited g cur) env2
            (block_succs (mark_irn_visited g cur) cur) (-1) none with
        | some succ =>
          rw [hb] at hr
          rw [← Option.some.inj hr]
          rcases bestSucc_spec _ env2 _ _ _ succ hb with h1 | ⟨_, _, h3⟩
          · cases h1
          · refine ⟨linksOk_link l2 hn h3, ?_⟩
            intro x hx
            by_cases hxs : x = succ
            · exact Or.inr (Or.inr hxs)
            · rcases w2 x hx with h1 | h1
              · exact Or.inl h1
              · right; left
                rw [link_prev_other env2 cur succ x hxs]; exact h1
        | none =>
          rw [hb] at hr
          simp only at hr
          cases hw : popWorklist (mark_irn_visited g cur) env2.worklist with
          | mk o wl =>
            rw [hw] at hr
            obtain ⟨p1, _, p3, _⟩ := popWorklist_spec (mark_irn_visited g cur) env2.worklist
            rw [hw] at p1 p3
            cases o with
            | none =>
              simp only at hr
              rw [← Option.some.inj hr]
              exact l2
            | some succ =>
              simp only at hr
              rw [← Option.some.inj hr]
              obtain ⟨q1, q2⟩ := p3 succ rfl
              have hps : env2.prev succ = none := by
                rcases w2 succ q1 with h1 | h1
                · rw [q2] at h1; cases h1
                · exact h1
              refine ⟨@linksOk_link { env2 with worklist := wl } l2 _ _ hn hps, ?_⟩
              intro x hx
              have hx2 : x ∈ env2.worklist := p1 x hx
              by_cases hxs : x = succ
              · exact Or.inr (Or.inr hxs)
              · rcases w2 x hx2 with h1 | h1
                · exact Or.inl h1
                · right; left
                  rw [link_prev_other _ cur succ x hxs]; exact h1

/-- The links are consistent in the state in which every call of the walk
starts. -/
theorem pick_calls_links (n : Nat) : ∀ (k : Nat) (g : Irg) (env : Env) (cur : Nat),
    WalkLinks g env cur → ∀ s ∈ pick_calls n k g env cur, WalkLinks s.1 s.2.1 s.2.2 := by
  intro k
  induction k with
  | zero => intro g env cur _ s hs; cases hs
  | succ k ih =>
    intro g env cur h s hs
    unfold pick_calls at hs
    rcases List.mem_cons.1 hs with h1 | h1
    · rw [h1]; exact h
    · cases hstep : pick_block_successor_step n g env cur with
      | none => rw [hstep] at h1; cases h1
      | some r =>
        rw [hstep] at h1
        have := pick_block_successor_step_links n g env cur h r hstep
        cases r with
        | done g1 env1 => cases h1
        | call g1 env1 b1 => exact ih g1 env1 b1 this s h1

/-- The links are consistent when the walk returns. -/
theorem pick_block_successor_links (n : Nat) : ∀ (fuel : Nat) (g : Irg) (env : Env)
    (cur : Nat) (g1 : Irg) (env1 : Env), WalkLinks g env cur →
    pick_block_successor n fuel g env cur = some (g1, env1) →
    LinksOk env1.next env1.prev := by
  intro fuel
  induction fuel with
  | zero => intro g env cur g1 env1 _ h; cases h
  | succ fuel ih =>
    intro g env cur g1 env1 h hr
    rw [pick_block_successor_unfold] at hr
    cases hstep : pick_block_successor_step n g env cur with
    | none => rw [hstep] at hr; cases hr
    | some r =>
      rw [hstep] at hr
      have := pick_block_successor_step_links n g env cur h r hstep
      cases r with
      | done g2 env2 =>
        simp only [Option.some.injEq, Prod.mk.injEq] at hr
        rw [← hr.2]; exact this
      | call g2 env2 b2 => exact ih g2 env2 b2 g1 env1 this hr

theorem coalesce_run1_links (g : Irg) : ∀ (l : List Edge) (env env1 : Env),
    LinksOk env.next env.prev → coalesce_run1 g l env = some env1 →
    LinksOk env1.next env1.prev := by
  intro l
  induction l with
  | nil =>
    intro env env1 hl h
    simp only [coalesce_run1, Option.some.injEq] at h
    rw [← h]; exact hl
  | cons e rest ih =>
    intro env env1 hl h
    unfold coalesce_run1 at h
    split at h
    · exact ih env env1 hl h
    · split at h
      · exact ih env env1 hl h
      · split at h
        · cases h
        · split at h
          · exact ih env env1 hl h
          · rename_i hfree
            simp only [not_or, Bool.not_eq_true, Option.not_isSome,
              Option.isNone_iff_eq_none] at hfree
            split at h
            · exact ih env env1 hl h
            · exact ih _ env1 (linksOk_link hl hfree.1 hfree.2) h

theorem coalesce_run2_links (g : Irg) (fuel : Nat) : ∀ (l : List Edge) (env env1 : Env),
    LinksOk env.next env.prev → coalesce_run2 g fuel l env = some env1 →
    LinksOk env1.next env1.prev := by
  intro l
  induction l with
  | nil =>
    intro env env1 hl h
    simp only [coalesce_run2, Option.some.injEq] at h
    rw [← h]; exact hl
  | cons e rest ih =>
    intro env env1 hl h
    unfold coalesce_run2 at h
    split at h
    · rw [← Option.some.inj h]; exact hl
    · split at h
      · exact ih env env1 hl h
      · simp only at h
        split at h
        · exact ih env env1 hl h
        · rename_i hfree
          simp only [not_or, Bool.not_eq_true, Option.not_isSome,
            Option.isNone_iff_eq_none] at hfree
          split at h
          · exact ih env env1 hl h
          · split at h
            · cases h
            · refine ih _ env1 ?_ h
              exact linksOk_link hl hfree.1 hfree.2

theorem coalesce_run3_links (g : Irg) : ∀ (l : List Edge) (env : Env),
    LinksOk env.next env.prev →
    LinksOk (coalesce_run3 g l env).next (coalesce_run3 g l env).prev := by
  intro l
  induction l with
  | nil => intro env hl; exact hl
  | cons e rest ih =>
    intro env hl
    unfold coalesce_run3
    split
    · exact ih env hl
    · simp only
      split
      · exact ih env hl
      · rename_i hfree
        simp only [not_or, Bool.not_eq_true, Option.not_isSome, Option.isNone_iff_eq_none]
          at hfree
        exact ih _ (linksOk_link hl hfree.1 hfree.2)

/-- The state after the first edges of the first loop is the state from which
the loop goes on. -/
theorem coalesce_run1_append (g : Irg) : ∀ (l1 l2 : List Edge) (env : Env),
    coalesce_run1 g (l1 ++ l2) env = (coalesce_run1 g l1 env).bind (coalesce_run1 g l2) := by
  intro l1
  induction l1 with
  | nil => intro l2 env; rfl
  | cons e rest ih =>
    intro l2 env
    rw [List.cons_append, coalesce_run1, coalesce_run1]
    by_cases h1 : e.highest_execfreq = false
    · rw [if_pos h1, if_pos h1]; exact ih l2 env
    · rw [if_neg h1, if_neg h1]
      by_cases h2 : (get_Block_cfgpred g e.block 0).isNone = true
      · rw [if_pos h2, if_pos h2]; exact ih l2 env
      · rw [if_neg h2, if_neg h2]
        cases hpb : get_Block_cfgpred_block g e.block e.pos with
        | none => rfl
        | some pb =>
          simp only
          by_cases h3 : (env.next pb).isSome = true ∨ (env.prev e.block).isSome = true
          · rw [if_pos h3, if_pos h3]; exact ih l2 env
          · rw [if_neg h3, if_neg h3]
            by_cases h4 : 2 ≤ (block_succs g pb).length
            · rw [if_pos h4, if_pos h4]; exact ih l2 env
            · rw [if_neg h4, if_neg h4]; exact ih l2 _

/-- The state after the first edges of the third loop is the state from which
the loop goes on. -/
theorem coalesce_run3_append (g : Irg) : ∀ (l1 l2 : List Edge) (env : Env),
    coalesce_run3 g (l1 ++ l2) env = coalesce_run3 g l2 (coalesce_run3 g l1 env) := by
  intro l1
  induction l1 with
  | nil => intro l2 env; rfl
  | cons e rest ih =>
    intro l2 env
    rw [List.cons_append, coalesce_run3, coalesce_run3]
    cases hp : get_Block_cfgpred g e.block e.pos with
    | none => exact ih l2 env
    | some pred =>
      simp only
      by_cases h3 : (env.next (g.nodesBlock pred)).isSome = true ∨
          (env.prev e.block).isSome = true
      · rw [if_pos h3, if_pos h3]; exact ih l2 env
      · rw [if_neg h3, if_neg h3]; exact ih l2 _

/-- The state after the first successors of the loop that fills the worklist
is the state from which the loop goes on. -/
theorem putSuccs_append (g : Irg) (n : Nat) : ∀ (l1 l2 : List Nat) (env : Env),
    putSuccs g n (l1 ++ l2) env = (putSuccs g n l1 env).bind (putSuccs g n l2) := by
  intro l1
  induction l1 with
  | nil => intro l2 env; rfl
  | cons s rest ih =>
    intro l2 env
    rw [List.cons_append, putSuccs, putSuccs]
    by_cases hv : g.visited s = true
    · rw [if_pos hv, if_pos hv]; exact ih l2 env
    · rw [if_neg hv, if_neg hv]
      cases hc : chainHead s n env s with
      | none => rfl
      | some r =>
        obtain ⟨env1, head⟩ := r
        simp only
        by_cases hh : g.visited head = true
        · rw [if_pos hh, if_pos hh]; exact ih l2 _
        · rw [if_neg hh, if_neg hh]; exact ih l2 _

/-- C26: the `prev` and `next` links stay a partial permutation, `a.next = b`
exactly when `b.prev = a`. From a consistent state, the state after any
number of edges of each of the three loops of `coalesce_blocks` is consistent
(the loop applied to the first edges of the array); so is the state in which
`coalesce_blocks` returns. In the final walk the cycle breaking keeps the
links consistent, and from a state in which the links are consistent and the
blocks of the worklist that are not visited have no `prev` link: the links
are consistent when any call of `pick_block_successor` starts, after any
number of successors of the loop that fills the worklist, and when the walk
returns. With consistent links no block has two chain predecessors and no
block has two chain successors. -/
theorem links_partial_permutation (g : Irg) (fuel n : Nat) :
    (∀ (l : List Edge) (env env1 : Env), LinksOk env.next env.prev →
      coalesce_run1 g l env = some env1 → LinksOk env1.next env1.prev) ∧
    (∀ (l : List Edge) (env env1 : Env), LinksOk env.next env.prev →
      coalesce_run2 g fuel l env = some env1 → LinksOk env1.next env1.prev) ∧
    (∀ (l : List Edge) (env : Env), LinksOk env.next env.prev →
      LinksOk (coalesce_run3 g l env).next (coalesce_run3 g l env).prev) ∧
    (∀ (env env1 : Env), NoLinks env → coalesce_blocks g fuel env = some env1 →
      LinksOk env1.next env1.prev ∧
        WalkLinks (inc_irg_visited g) { env1 with worklist := [] } g.startBlock) ∧
    (∀ (sb k s : Nat) (env env1 : Env) (head : Nat), LinksOk env.next env.prev →
      chainHead sb k env s = some (env1, head) → LinksOk env1.next env1.prev) ∧
    (∀ (g0 : Irg) (env : Env) (cur : Nat), WalkLinks g0 env cur →
      (∀ (k : Nat), ∀ s ∈ pick_calls n k g0 env cur, LinksOk s.2.1.next s.2.1.prev) ∧
      (∀ (l : List Nat) (env2 : Env),
        putSuccs (mark_irn_visited g0 cur) n l
          { env with blockcount := env.blockcount + 1 } = some env2 →
        LinksOk env2.next env2.prev) ∧
      (∀ (g1 : Irg) (env1 : Env), pick_block_successor n fuel g0 env cur = some (g1, env1) →
        LinksOk env1.next env1.prev)) ∧
    (∀ (env : Env), LinksOk env.next env.prev →
      (∀ a b c, env.next a = some c → env.next b = some c → a = b) ∧
      (∀ a b c, env.prev a = some c → env.prev b = some c → a = b)) := by
  refine ⟨coalesce_run1_links g, coalesce_run2_links g fuel, coalesce_run3_links g, ?_, ?_, ?_,
    ?_⟩
  · intro env env1 hn h
    have h0 : LinksOk env.next env.prev := by
      intro a b
      rw [(hn a).1, (hn b).2]
      simp
    unfold coalesce_blocks at h
    simp only [Option.bind_eq_bind, Option.bind_eq_some] at h
    obtain ⟨e1, hr1, e2, hr2, h3⟩ := h
    unfold coalesce_jumps at hr1
    unfold coalesce_loop_outedges at hr2
    simp only [Option.bind_eq_bind, Option.bind_eq_some] at hr2
    obtain ⟨ll, _, hr2⟩ := hr2
    have i1 := coalesce_run1_links g _ _ e1 (by exact h0) hr1
    have i2 := coalesce_run2_links g fuel _ _ e2 (by exact i1) hr2
    have i3 : LinksOk env1.next env1.prev := by
      rw [← Option.some.inj h3]
      unfold coalesce_remaining
      exact coalesce_run3_links g _ _ (by exact i2)
    exact ⟨i3, i3, fun x hx => by cases hx⟩
  · intro sb k s env env1 head hl h
    exact (chainHead_links sb k env s env1 head hl h).1
  · intro g0 env cur h
    refine ⟨?_, ?_, ?_⟩
    · intro k s hs
      exact (pick_calls_links n k g0 env cur h s hs).1
    · intro l env2 hp
      have hmark : ∀ x, g0.visited x = true → (mark_irn_visited g0 cur).visited x = true := by
        intro x hx
        unfold mark_irn_visited
        simp only
        by_cases hxc : x = cur
        · rw [hxc, Function.update_same]
        · rw [Function.update_noteq hxc]; exact hx
      have hcur : (mark_irn_visited g0 cur).visited cur = true := by
        unfold mark_irn_visited
        simp
      exact (putSuccs_links (mark_irn_visited g0 cur) n l
        { env with blockcount := env.blockcount + 1 } env2 h.1
        (by
          intro x hx
          rcases h.2 x hx with h1 | h1 | h1
          · exact Or.inl (hmark x h1)
          · exact Or.inr h1
          · rw [h1]; exact Or.inl hcur) hp).1
    · intro g1 env1 hr
      exact pick_block_successor_links n fuel g0 env cur g1 env1 h hr
  · intro env hl
    exact ⟨fun a b c h1 h2 => hl.next_inj h1 h2, fun a b c h1 h2 => hl.prev_inj h1 h2⟩

/-- C26 at the chain of three blocks: the links after the remainder pass from
a state without links, and in the states in which the calls of the walk
start. -/
theorem links_partial_permutation_witness :
    LinksOk
        (coalesce_run3 chainGraph [Edge.mk 3 0 1 0 true, Edge.mk 2 0 1 0 true]
          (Env.mk [] [] 0 (fun _ => none) (fun _ => none) (fun _ => false))).next
        (coalesce_run3 chainGraph [Edge.mk 3 0 1 0 true, Edge.mk 2 0 1 0 true]
          (Env.mk [] [] 0 (fun _ => none) (fun _ => none) (fun _ => false))).prev ∧
      ∀ s ∈ pick_calls 10 4 chainGraph
          (Env.mk [] [] 0 (fun _ => none) (fun _ => none) (fun _ => false)) 1,
        LinksOk s.2.1.next s.2.1.prev :=
  have h0 : LinksOk (Env.mk [] [] 0 (fun _ => none) (fun _ => none) (fun _ => false)).next
      (Env.mk [] [] 0 (fun _ => none) (fun _ => none) (fun _ => false)).prev := by
    intro a b
    simp
  ⟨(links_partial_permutation chainGraph 10 10).2.2.1 _ _ h0,
    ((links_partial_permutation chainGraph 10 10).2.2.2.2.2.1 chainGraph _ 1
      ⟨h0, fun x hx => by cases hx⟩).1 4⟩

/-! ## Links in the final array -/

/-- The array that the loop of `create_blocksched_array` returns is the chain
of `next` links from the first entry to an entry without `next` link. -/
theorem blockschedLoop_some (env : Env) (count : Nat) :
    ∀ (fuel : Nat) (e : Nat) (acc out : List Nat),
      blockschedLoop env count fuel (some e) acc = some out →
      ∃ rest, out = acc ++ e :: rest ∧
        List.Chain' (fun a b => env.next a = some b) (e :: rest) ∧
        ∀ l, (e :: rest).getLast? = some l → env.next l = none := by
  intro fuel
  induction fuel with
  | zero => intro e acc out h; simp [blockschedLoop] at h
  | succ fuel ih =>
    intro e acc out h
    unfold blockschedLoop at h
    split_ifs at h with hlen
    cases hn : env.next e with
    | none =>
      rw [hn] at h
      have hb : ∀ (f : Nat) (bl : List Nat), blockschedLoop env count f none bl =
          if bl.length = count then some bl else none := by
        intro f bl
        cases f <;> rfl
      rw [hb] at h
      split_ifs at h
      refine ⟨[], (Option.some.inj h).symm, List.chain'_singleton _, ?_⟩
      intro l hl
      simp only [List.getLast?_singleton, Option.some.injEq] at hl
      rw [← hl]; exact hn
    | some b =>
      rw [hn] at h
      obtain ⟨rest, h1, h2, h3⟩ := ih b (acc ++ [e]) out h
      refine ⟨b :: rest, by rw [h1]; simp, List.chain'_cons.2 ⟨hn, h2⟩, ?_⟩
      intro l hl
      exact h3 l (by simpa using hl)

/-- In a chain that ends at an entry without `next` link, the entry that
follows a block is the `next` link of the block. -/
theorem chain_next_follows (next : Nat → Option Nat) (arr : List Nat)
    (hc : List.Chain' (fun a b => next a = some b) arr)
    (hlast : ∀ l, arr.getLast? = some l → next l = none) (x y : Nat) (hx : x ∈ arr)
    (hxy : next x = some y) : ∃ l1 l2, arr = l1 ++ x :: y :: l2 := by
  obtain ⟨l1, l2, harr⟩ := List.append_of_mem hx
  cases l2 with
  | nil =>
    have := hlast x (by rw [harr]; simp)
    rw [hxy] at this
    cases this
  | cons z l2 =>
    rw [harr] at hc
    have h1 := List.Chain'.right_of_append hc
    have h2 : next x = some z := (List.chain'_cons.1 h1).1
    rw [hxy] at h2
    rw [Option.some.inj h2]
    exact ⟨l1, l2, harr⟩

theorem link_next_keeps (env : Env) (pb b a c : Nat) (hpb : env.next pb = none)
    (h : env.next a = some c) : (link env pb b).next a = some c := by
  unfold link
  simp only
  have hne : a ≠ pb := by
    intro hx
    rw [hx, hpb] at h
    cases h
  rw [Function.update_noteq hne]
  exact h

/-- The loop that fills the worklist removes a `next` link only by breaking a
cycle, and the link it breaks leaves one of the successors it looks at. -/
theorem putSuccs_keeps_next (g : Irg) (n : Nat) : ∀ (l : List Nat) (env env2 : Env),
    LinksOk env.next env.prev → putSuccs g n l env = some env2 →
    ∀ a c, env.next a = some c → env2.next a = some c ∨ (a ∈ l ∧ g.visited a = false) := by
  intro l
  induction l with
  | nil =>
    intro env env2 _ h a c hac
    simp only [putSuccs, Option.some.injEq] at h
    rw [← h]; exact Or.inl hac
  | cons s rest ih =>
    intro env env2 hl h a c hac
    have hmem : ∀ {x : Prop}, (x ∨ (a ∈ rest ∧ g.visited a = false)) →
        (x ∨ (a ∈ s :: rest ∧ g.visited a = false)) :=
      fun hx => hx.elim Or.inl fun h2 => Or.inr ⟨List.mem_cons_of_mem _ h2.1, h2.2⟩
    unfold putSuccs at h
    by_cases hv : g.visited s = true
    · rw [if_pos hv] at h
      exact hmem (ih env env2 hl h a c hac)
    · rw [if_neg hv] at h
      cases hc : chainHead s n env s with
      | none => rw [hc] at h; cases h
      | some r =>
        obtain ⟨env1, head⟩ := r
        rw [hc] at h
        simp only at h
        obtain ⟨c1, _, _, c4⟩ := chainHead_links s n env s env1 head hl hc
        have hstep : env1.next a = some c ∨ a = s := by
          rcases c4 with c4 | ⟨y, _, c4⟩
          · rw [c4]; exact Or.inl hac
          · by_cases has : a = s
            · exact Or.inr has
            · left
              rw [c4]
              unfold cutEnv
              simp only
              rw [Function.update_noteq has]
              exact hac
        rcases hstep with hstep | hstep
        · by_cases hh : g.visited head = true
          · rw [if_pos hh] at h
            exact hmem (ih env1 env2 c1 h a c hstep)
          · rw [if_neg hh] at h
            exact hmem (ih { env1 with worklist := env1.worklist ++ [head] } env2 c1 h a c hstep)
        · right
          rw [hstep]
          refine ⟨List.mem_cons_self _ _, ?_⟩
          cases hvs : g.visited s with
          | false => rfl
          | true => exact absurd hvs hv

/-- A call of `pick_block_successor` removes a `next` link only by breaking a
cycle: the link leaves a successor of the block of the call that is not
visited. -/
theorem pick_block_successor_step_keeps_next (n : Nat) (g : Irg) (env : Env) (cur : Nat)
    (hl : LinksOk env.next env.prev) (a c : Nat) (hac : env.next a = some c) :
    ∀ r, pick_block_successor_step n g env cur = some r →
      (match r with
        | PickStep.done _ env1 => env1.next a = some c
        | PickStep.call _ env1 _ => env1.next a = some c) ∨
      (a ∈ block_succs g cur ∧ a ≠ cur ∧ g.visited a = false) := by
  intro r hr
  unfold pick_block_successor_step at hr
  by_cases hv : g.visited cur = true
  · rw [if_pos hv] at hr
    rw [← Option.some.inj hr]
    exact Or.inl hac
  · rw [if_neg hv] at hr
    simp only at hr
    cases hp : putSuccs (mark_irn_visited g cur) n
        (block_succs (mark_irn_visited g cur) cur)
        { env with blockcount := env.blockcount + 1 } with
    | none => rw [hp] at hr; cases hr
    | some env2 =>
      rw [hp] at hr
      simp only at hr
      rcases putSuccs_keeps_next (mark_irn_visited g cur) n _
        { env with blockcount := env.blockcount + 1 } env2 hl hp a c hac with h1 | ⟨h1, h2⟩
      · left
        cases hn : env2.next cur with
        | some nx =>
          rw [hn] at hr
          rw [← Option.some.inj hr]
          exact h1
        | none =>
          rw [hn] at hr
          simp only at hr
          cases hb : bestSucc (mark_irn_visited g cur) env2
              (block_succs (mark_irn_visited g cur) cur) (-1) none with
          | some succ =>
            rw [hb] at hr
            rw [← Option.some.inj hr]
            exact link_next_keeps env2 cur succ a c hn h1
          | none =>
            rw [hb] at hr
            simp only at hr
            cases hw : popWorklist (mark_irn_visited g cur) env2.worklist with
            | mk o wl =>
              rw [hw] at hr
              cases o with
              | none =>
                simp only at hr
                rw [← Option.some.inj hr]
                exact h1
              | some succ =>
                simp only at hr
                rw [← Option.some.inj hr]
                exact link_next_keeps { env2 with worklist := wl } cur succ a c hn h1
      · right
        rw [block_succs_mark] at h1
        have hne : a ≠ cur := by
          intro hx
          rw [hx] at h2
          unfold mark_irn_visited at h2
          simp at h2
        refine ⟨h1, hne, ?_⟩
        unfold mark_irn_visited at h2
        simp only at h2
        rw [Function.update_noteq hne] at h2
        exact h2

/-- The loop that fills the worklist keeps a `next` link unless the cycle
breaking removes it. -/
theorem putSuccs_keeps_or_cuts (g : Irg) (n a c : Nat) : ∀ (l : List Nat) (env env2 : Env),
    LinksOk env.next env.prev → putSuccs g n l env = some env2 → env.next a = some c →
    env2.next a = some c ∨ putSuccs_cuts g n a c l env = true := by
  intro l
  induction l with
  | nil =>
    intro env env2 _ h hac
    simp only [putSuccs, Option.some.injEq] at h
    rw [← h]; exact Or.inl hac
  | cons s rest ih =>
    intro env env2 hl h hac
    unfold putSuccs at h
    rw [putSuccs_cuts]
    by_cases hv : g.visited s = true
    · rw [if_pos hv] at h ⊢
      exact ih env env2 hl h hac
    · rw [if_neg hv] at h ⊢
      cases hc : chainHead s n env s with
      | none => rw [hc] at h; cases h
      | some r =>
        obtain ⟨env1, head⟩ := r
        rw [hc] at h
        simp only at h ⊢
        obtain ⟨c1, _, _, c4⟩ := chainHead_links s n env s env1 head hl hc
        have hstep : env1.next a = some c ∨ (s = a ∧ env1.next a = none) := by
          rcases c4 with c4 | ⟨y, _, c4⟩
          · rw [c4]; exact Or.inl hac
          · by_cases has : a = s
            · right
              refine ⟨has.symm, ?_⟩
              rw [c4, has]
              simp [cutEnv]
            · left
              rw [c4]
              unfold cutEnv
              simp only
              rw [Function.update_noteq has]
              exact hac
        rcases hstep with hstep | ⟨hs1, hs2⟩
        · by_cases hh : g.visited head = true
          · rw [if_pos hh] at h ⊢
            rcases ih env1 env2 c1 h hstep with h1 | h1
            · exact Or.inl h1
            · right; rw [h1]; simp
          · rw [if_neg hh] at h ⊢
            rcases ih { env1 with worklist := env1.worklist ++ [head] } env2 c1 h hstep with
              h1 | h1
            · exact Or.inl h1
            · right; rw [h1]; simp
        · right
          simp [hs1, hac, hs2]

/-- A call of `pick_block_successor` keeps a `next` link unless its cycle
breaking removes it. -/
theorem pick_block_successor_step_keeps_or_cuts (n : Nat) (g : Irg) (env : Env) (cur : Nat)
    (hl : LinksOk env.next env.prev) (a c : Nat) (hac : env.next a = some c) :
    ∀ r, pick_block_successor_step n g env cur = some r →
      (match r with
        | PickStep.done _ env1 => env1.next a = some c
        | PickStep.call _ env1 _ => env1.next a = some c) ∨
      pick_step_cuts n g env cur a c = true := by
  intro r hr
  unfold pick_block_successor_step at hr
  unfold pick_step_cuts
  by_cases hv : g.visited cur = true
  · rw [if_pos hv] at hr
    rw [← Option.some.inj hr]
    exact Or.inl hac
  · rw [if_neg hv] at hr ⊢
    simp only at hr
    cases hp : putSuccs (mark_irn_visited g cur) n
        (block_succs (mark_irn_visited g cur) cur)
        { env with blockcount := env.blockcount + 1 } with
    | none => rw [hp] at hr; cases hr
    | some env2 =>
      rw [hp] at hr
      simp only at hr
      rcases putSuccs_keeps_or_cuts (mark_irn_visited g cur) n a c _
        { env with blockcount := env.blockcount + 1 } env2 hl hp hac with h1 | h1
      · left
        cases hn : env2.next cur with
        | some nx =>
          rw [hn] at hr
          rw [← Option.some.inj hr]
          exact h1
        | none =>
          rw [hn] at hr
          simp only at hr
          cases hb : bestSucc (mark_irn_visited g cur) env2
              (block_succs (mark_irn_visited g cur) cur) (-1) none with
          | some succ =>
            rw [hb] at hr
            rw [← Option.some.inj hr]
            exact link_next_keeps env2 cur succ a c hn h1
          | none =>
            rw [hb] at hr
            simp only at hr
            cases hw : popWorklist (mark_irn_visited g cur) env2.worklist with
            | mk o wl =>
              rw [hw] at hr
              cases o with
              | none =>
                simp only at hr
                rw [← Option.some.inj hr]
                exact h1
              | some succ =>
                simp only at hr
                rw [← Option.some.inj hr]
                exact link_next_keeps { env2 with worklist := wl } cur succ a c hn h1
      · exact Or.inr h1

/-- The final walk keeps a `next` link unless the cycle breaking of one of
its calls removes it. -/
theorem pick_block_successor_keeps_or_cuts (n : Nat) (a c : Nat) :
    ∀ (fuel : Nat) (g : Irg) (env : Env) (cur : Nat) (g1 : Irg) (env1 : Env),
      WalkLinks g env cur → pick_block_successor n fuel g env cur = some (g1, env1) →
      env.next a = some c →
      env1.next a = some c ∨ walk_cuts n fuel g env cur a c = true := by
  intro fuel
  induction fuel with
  | zero => intro g env cur g1 env1 _ h; cases h
  | succ fuel ih =>
    intro g env cur g1 env1 hw hr hac
    rw [pick_block_successor_unfold] at hr
    have hcalls : walk_cuts n (fuel + 1) g env cur a c =
        (pick_step_cuts n g env cur a c ||
          match pick_block_successor_step n g env cur with
          | some (PickStep.call g2 env2 b2) => walk_cuts n fuel g2 env2 b2 a c
          | _ => false) := by
      unfold walk_cuts
      rw [pick_calls, List.any_cons]
      cases hstep : pick_block_successor_step n g env cur with
      | none => rfl
      | some r =>
        cases r with
        | done g2 env2 => rfl
        | call g2 env2 b2 => rfl
    rw [hcalls]
    cases hstep : pick_block_successor_step n g env cur with
    | none => rw [hstep] at hr; cases hr
    | some r =>
      rw [hstep] at hr
      have hlinks := pick_block_successor_step_links n g env cur hw r hstep
      have hkeep := pick_block_successor_step_keeps_or_cuts n g env cur hw.1 a c hac r hstep
      cases r with
      | done g2 env2 =>
        simp only [Option.some.injEq, Prod.mk.injEq] at hr
        rcases hkeep with h1 | h1
        · left; rw [← hr.2]; exact h1
        · right; rw [h1]; rfl
      | call g2 env2 b2 =>
        simp only at hr hkeep hlinks ⊢
        rcases hkeep with h1 | h1
        · rcases ih g2 env2 b2 g1 env1 hlinks hr h1 with h2 | h2
          · exact Or.inl h2
          · right; rw [h2]; simp
        · right; rw [h1]; rfl

/-- C28: for a graph whose start block has no predecessors, when the earlier
phases return, the scheduler returns an array such that every link
`pred.next = succ` that `coalesce_blocks` made is kept unless the cycle
breaking of a call of `pick_block_successor` in the final walk removes it:
the link is there when the walk returns, and if `pred` is reachable from the
start block, `succ` stands immediately after `pred` in the array. The array
follows the links that are there when the walk returns. -/
theorem coalesced_links_kept (toFloat : ℚ → ℚ) (fuel : Nat) (walk : List Nat)
    (g g1 : Irg) (env1 env2 : Env)
    (hcol : walk.foldlM (collect_egde_frequency toFloat g)
      (Env.mk [] [] 0 (fun _ => none) (fun _ => none) g.loopLink) = some env1)
    (hrem : remove_empty_blocks fuel g = some g1)
    (hcoal : coalesce_blocks g1 fuel env1 = some env2)
    (hwalk : ∀ b ∈ walk, b ∈ g1.blocks)
    (hstart : g1.cfgpreds g1.startBlock = [])
    (hfuel : (blockUniverse g1).length < fuel) :
    ∃ g2 env3 arr, finish_block_schedule fuel g1 env2 = some (g2, env3, g1.startBlock) ∧
      be_create_block_schedule toFloat fuel walk g = some arr ∧
      (∀ pred succ, env2.next pred = some succ →
        walk_cuts fuel fuel (inc_irg_visited g1) { env2 with worklist := [] } g1.startBlock
          pred succ = false →
        Reach g1 g1.startBlock pred → ∃ l1 l2, arr = l1 ++ pred :: succ :: l2) ∧
      (∀ pred succ, env2.next pred = some succ →
        walk_cuts fuel fuel (inc_irg_visited g1) { env2 with worklist := [] } g1.startBlock
          pred succ = false →
        env3.next pred = some succ) ∧
      ∀ pred succ, env3.next pred = some succ → Reach g1 g1.startBlock pred →
        ∃ l1 l2, arr = l1 ++ pred :: succ :: l2 := by
  obtain ⟨g2, env3, arr, h1, h2, _, _, h5, _, _, _, _⟩ :=
    schedule_spec toFloat fuel walk g g1 env1 env2 (fun _ => True)
      hcol hrem hcoal hwalk hstart hfuel trivial (fun _ _ _ _ => trivial)
      (fun _ _ _ _ => trivial)
  refine ⟨g2, env3, arr, h1, h2, ?_⟩
  have harr : create_blocksched_array env3 g1.startBlock env3.blockcount = some arr := by
    have := h2
    unfold be_create_block_schedule at this
    simp only [Option.bind_eq_bind, hcol, hrem, hcoal, h1, Option.some_bind] at this
    exact this
  unfold create_blocksched_array at harr
  obtain ⟨rest, e1, e2, e3⟩ := blockschedLoop_some env3 env3.blockcount _ _ _ _ harr
  simp only [List.nil_append] at e1
  have hfollow : ∀ pred succ, env3.next pred = some succ → Reach g1 g1.startBlock pred →
      ∃ l1 l2, arr = l1 ++ pred :: succ :: l2 := by
    intro pred succ hkept hreach
    rw [e1] at h5 ⊢
    exact chain_next_follows env3.next _ e2 e3 pred succ (h5 pred hreach) hkept
  obtain ⟨hnl, hedges⟩ := collect_all_inv (fun b => b ∈ g1.blocks)
    toFloat g walk _ env1 hcol (fun a => ⟨rfl, rfl⟩) (fun e he => by cases he) hwalk
  obtain ⟨hlinks, _⟩ := coalesce_blocks_inv g1 fuel env1 env2 hcoal hedges hnl
  have hpick : pick_block_successor fuel fuel (inc_irg_visited g1) { env2 with worklist := [] }
      g1.startBlock = some (g2, env3) := by
    have := h1
    unfold finish_block_schedule at this
    simp only at this
    cases hp : pick_block_successor fuel fuel (inc_irg_visited g1) { env2 with worklist := [] }
        (inc_irg_visited g1).startBlock with
    | none => rw [hp] at this; cases this
    | some r =>
      obtain ⟨ga, ea⟩ := r
      rw [hp] at this
      simp only at this
      split_ifs at this
      simp only [Option.some.injEq, Prod.mk.injEq] at this
      rw [← this.1, ← this.2.1]
      exact hp
  have hkept : ∀ pred succ, env2.next pred = some succ →
      walk_cuts fuel fuel (inc_irg_visited g1) { env2 with worklist := [] } g1.startBlock
        pred succ = false → env3.next pred = some succ := by
    intro pred succ hps hcut
    rcases pick_block_successor_keeps_or_cuts fuel pred succ fuel (inc_irg_visited g1)
      { env2 with worklist := [] } g1.startBlock g2 env3
      ⟨hlinks, fun x hx => absurd hx (List.not_mem_nil x)⟩ hpick hps with h | h
    · exact h
    · rw [hcut] at h; cases h
  exact ⟨fun pred succ hps hcut hreach => hfollow pred succ (hkept pred succ hps hcut) hreach,
    hkept, hfollow⟩

/-- C28 at the loop `cycleGraph`, whose header 2 and body 3 are coalesced
into a cycle: the array is 1, 3, 2, 4; the link from 3 to 2 is not removed
and 2 stands behind 3, the link from 2 to 3 is removed by the cycle
breaking. -/
theorem coalesced_links_kept_witness :
    be_create_block_schedule id 10 [4, 3, 2, 1] cycleGraph = some [1, 3, 2, 4] ∧
    ∃ g1 env2 g2 env3 arr,
      remove_empty_blocks 10 cycleGraph = some g1 ∧
      env2.next 3 = some 2 ∧
      walk_cuts 10 10 (inc_irg_visited g1) { env2 with worklist := [] } g1.startBlock 3 2 =
        false ∧
      env2.next 2 = some 3 ∧
      walk_cuts 10 10 (inc_irg_visited g1) { env2 with worklist := [] } g1.startBlock 2 3 =
        true ∧
      finish_block_schedule 10 g1 env2 = some (g2, env3, g1.startBlock) ∧
      be_create_block_schedule id 10 [4, 3, 2, 1] cycleGraph = some arr ∧
      (∀ pred succ, env2.next pred = some succ →
        walk_cuts 10 10 (inc_irg_visited g1) { env2 with worklist := [] } g1.startBlock
          pred succ = false →
        Reach g1 g1.startBlock pred → ∃ l1 l2, arr = l1 ++ pred :: succ :: l2) ∧
      (∀ pred succ, env2.next pred = some succ →
        walk_cuts 10 10 (inc_irg_visited g1) { env2 with worklist := [] } g1.startBlock
          pred succ = false →
        env3.next pred = some succ) ∧
      ∀ pred succ, env3.next pred = some succ → Reach g1 g1.startBlock pred →
        ∃ l1 l2, arr = l1 ++ pred :: succ :: l2 := by
  have hrem := some_getD_of_isSome
    (by decide : (remove_empty_blocks 10 cycleGraph).isSome = true) cycleGraph
  have hcol := some_getD_of_isSome
    (by decide! : (([4, 3, 2, 1] : List Nat).foldlM (collect_egde_frequency id cycleGraph)
      (Env.mk [] [] 0 (fun _ => none) (fun _ => none) cycleGraph.loopLink)).isSome = true)
    (Env.mk [] [] 0 (fun _ => none) (fun _ => none) cycleGraph.loopLink)
  have hcoal := some_getD_of_isSome
    (by decide! : (coalesce_blocks ((remove_empty_blocks 10 cycleGraph).getD cycleGraph) 10
      ((([4, 3, 2, 1] : List Nat).foldlM (collect_egde_frequency id cycleGraph)
        (Env.mk [] [] 0 (fun _ => none) (fun _ => none) cycleGraph.loopLink)).getD
        (Env.mk [] [] 0 (fun _ => none) (fun _ => none) cycleGraph.loopLink))).isSome = true)
    (Env.mk [] [] 0 (fun _ => none) (fun _ => none) cycleGraph.loopLink)
  obtain ⟨g2, env3, arr, h⟩ := coalesced_links_kept id 10 [4, 3, 2, 1] cycleGraph _ _ _
    hcol hrem hcoal (by decide) (by decide) (by decide)
  exact ⟨by decide!, _, _, g2, env3, arr, hrem, by decide!, by decide!, by decide!, by decide!,
    h⟩

/-! ## Dominance frontiers and Phi placement -/

theorem compute_df_leaf (g : Irg) (dom : Dom) (k c : Nat) (m : Nat → Option (List Nat))
    (h : dom.dominated c = []) :
    compute_df g dom (k + 1) c m = some (Function.update m c (some (df_local g dom c))) := by
  unfold compute_df
  rw [h]
  rfl

theorem df_child_leaf (g : Irg) (dom : Dom) (k n c : Nat)
    (st : List Nat × (Nat → Option (List Nat))) (h : dom.dominated c = []) :
    df_child dom n (compute_df g dom (k + 1)) st c =
      some (df_up dom n (df_local g dom c) st.1,
        Function.update st.2 c (some (df_local g dom c))) := by
  unfold df_child
  rw [compute_df_leaf g dom k c st.2 h]
  simp

theorem df_children_leaves (g : Irg) (dom : Dom) (k n : Nat) :
    ∀ (cs : List Nat) (st : List Nat × (Nat → Option (List Nat))),
      (∀ c ∈ cs, dom.dominated c = []) →
      cs.foldlM (df_child dom n (compute_df g dom (k + 1))) st =
        some (cs.foldl (fun df c => df_up dom n (df_local g dom c) df) st.1,
          cs.foldl (fun m c => Function.update m c (some (df_local g dom c))) st.2) := by
  intro cs
  induction cs with
  | nil => intro st _; rfl
  | cons c rest ih =>
    intro st h
    rw [List.foldlM_cons, df_child_leaf g dom k n c st (h c (List.mem_cons_self _ _))]
    simp only [Option.bind_eq_bind, Option.some_bind]
    rw [ih _ (fun x hx => h x (List.mem_cons_of_mem _ hx))]
    rfl

theorem foldl_update_apply (f : Nat → List Nat) :
    ∀ (cs : List Nat) (m : Nat → Option (List Nat)) (x : Nat),
      (cs.foldl (fun m c => Function.update m c (some (f c))) m) x =
        if x ∈ cs then some (f x) else m x := by
  intro cs
  induction cs with
  | nil => intro m x; simp
  | cons c rest ih =>
    intro m x
    rw [List.foldl_cons, ih]
    by_cases h1 : x ∈ rest
    · simp [h1]
    · by_cases h2 : x = c
      · rw [h2]; simp [h1]
      · simp [h1, h2, Function.update_noteq h2]

theorem foldl_keep {α β : Type} (f : α → β → α) :
    ∀ (l : List β) (a : α), (∀ x ∈ l, f a x = a) → l.foldl f a = a := by
  intro l
  induction l with
  | nil => intro a _; rfl
  | cons x rest ih =>
    intro a h
    rw [List.foldl_cons, h x (List.mem_cons_self _ _)]
    exact ih a (fun y hy => h y (List.mem_cons_of_mem _ hy))

theorem le_foldl_max : ∀ (l : List Nat) (a x : Nat), x ≤ a ∨ x ∈ l → x ≤ l.foldl max a := by
  intro l
  induction l with
  | nil =>
    intro a x h
    rcases h with h | h
    · exact h
    · exact absurd h (List.not_mem_nil x)
  | cons y rest ih =>
    intro a x h
    rw [List.foldl_cons]
    apply ih
    rcases h with h | h
    · exact Or.inl (le_trans h (le_max_left a y))
    · rcases List.mem_cons.1 h with h | h
      · exact Or.inl (by rw [h]; exact le_max_right a y)
      · exact Or.inr h

theorem new_r_Phi_fresh (g : Irg) (block : Nat) (ins : List Operand) :
    (new_r_Phi g block ins).2 ∉ g.nodes := by
  intro h
  have := le_foldl_max g.nodes 0 _ (Or.inr h)
  simp only [new_r_Phi] at this
  omega

theorem mem_pset_insert_ptr (s : List Nat) (x : Nat) : x ∈ pset_insert_ptr s x := by
  unfold pset_insert_ptr
  split_ifs with h
  · exact h
  · simp

/-- C8: in an if/else-join graph (the entry `E` branches to `T` and `F`, which
both jump to `J`) `compute_df` stores the frontier `{J}` for `T` and for `F`,
and `place_phi_functions`, called with the sets that `be_introduce_copies`
builds for a value `orig` of `E` and one copy in `T` or in `F`, returns having
created exactly one node, a Phi in `J`. -/
theorem if_else_join_one_phi (g : Irg) (dom : Dom) (E T F J orig copy : Nat)
    (appear : Bool) (fuel : Nat) (hfuel : 4 ≤ fuel) (hstart : g.startBlock = E)
    (hsE : ∀ y ∈ block_succs g E, y = T ∨ y = F)
    (hsT : block_succs g T = [J]) (hsF : block_succs g F = [J]) (hsJ : block_succs g J = [])
    (hiT : dom.idom T = some E) (hiF : dom.idom F = some E) (hiJ : dom.idom J = some E)
    (hdE : ∀ c, c ∈ dom.dominated E ↔ c = T ∨ c = F ∨ c = J)
    (hdT : dom.dominated T = []) (hdF : dom.dominated F = []) (hdJ : dom.dominated J = [])
    (hbd : ∀ b, b = E ∨ b = T ∨ b = F ∨ b = J → dom.block_dominates E b = true)
    (hTE : T ≠ E) (hFE : F ≠ E) (hJE : J ≠ E) (hJT : J ≠ T) (hJF : J ≠ F)
    (horig : g.nodesBlock orig = E)
    (hcopy : g.nodesBlock copy = T ∨ g.nodesBlock copy = F) :
    ∃ m st phi,
      be_compute_dominance_frontiers g dom fuel = some m ∧
      m T = some [J] ∧ m F = some [J] ∧
      place_phi_functions g dom m appear fuel orig (pset_insert_ptr [orig] copy)
        (pset_insert_ptr [g.nodesBlock orig] (g.nodesBlock copy)) = some st ∧
      phi ∉ g.nodes ∧ st.g.nodes = g.nodes ++ [phi] ∧
      st.g.kind phi = NodeKind.Phi ∧ st.g.nodesBlock phi = J ∧
      (∀ n, n ≠ phi → st.g.kind n = g.kind n) ∧
      st.g.ins phi = List.replicate (g.cfgpreds J).length (Operand.node orig) ∧
      st.phi_blocks = [J] ∧ phi ∈ st.copies ∧
      (appear = true → st.g.sched J = phi :: g.sched J) := by
  obtain ⟨k, hk⟩ : ∃ k, fuel = k + 4 := ⟨fuel - 4, by omega⟩
  have hleaf : ∀ c ∈ dom.dominated E, dom.dominated c = [] := by
    intro c hc
    rcases (hdE c).1 hc with h | h | h <;> rw [h] <;> assumption
  have hlE : df_local g dom E = [] := by
    unfold df_local
    apply foldl_keep
    intro y hy
    have : get_idom dom y = E := by
      unfold get_idom
      rcases hsE y hy with h | h <;> rw [h]
      · rw [hiT]
      · rw [hiF]
    simp [this]
  have hgJ : get_idom dom J = E := by unfold get_idom; rw [hiJ]
  have hlT : df_local g dom T = [J] := by
    unfold df_local
    rw [hsT]
    simp [hgJ, pset_insert_ptr, Ne.symm hTE]
  have hlF : df_local g dom F = [J] := by
    unfold df_local
    rw [hsF]
    simp [hgJ, pset_insert_ptr, Ne.symm hFE]
  have hlJ : df_local g dom J = [] := by
    unfold df_local
    rw [hsJ]
    rfl
  have hup : (dom.dominated E).foldl (fun df c => df_up dom E (df_local g dom c) df) [] = [] := by
    apply foldl_keep
    intro c hc
    have hJ := hbd J (Or.inr (Or.inr (Or.inr rfl)))
    rcases (hdE c).1 hc with h | h | h <;> rw [h]
    · rw [hlT]; simp [df_up, hJ]
    · rw [hlF]; simp [df_up, hJ]
    · rw [hlJ]; rfl
  have hcd : be_compute_dominance_frontiers g dom fuel =
      some (Function.update
        ((dom.dominated E).foldl (fun m c => Function.update m c (some (df_local g dom c)))
          fun _ => none) E (some [])) := by
    unfold be_compute_dominance_frontiers
    rw [hstart, hk]
    unfold compute_df
    rw [df_children_leaves g dom (k + 2) E _ _ hleaf, hlE]
    simp only [Option.map_some']
    rw [hup]
  have hmE : (Function.update
        ((dom.dominated E).foldl (fun m c => Function.update m c (some (df_local g dom c)))
          fun _ => none) E (some [])) E = some [] := Function.update_same _ _ _
  have hmc : ∀ c, c = T ∨ c = F ∨ c = J → c ≠ E → (Function.update
        ((dom.dominated E).foldl (fun m c => Function.update m c (some (df_local g dom c)))
          fun _ => none) E (some [])) c = some (df_local g dom c) := by
    intro c hc hne
    rw [Function.update_noteq hne, foldl_update_apply, if_pos ((hdE c).2 hc)]
  have hmT := hmc T (Or.inl rfl) hTE
  have hmF := hmc F (Or.inr (Or.inl rfl)) hFE
  have hmJ := hmc J (Or.inr (Or.inr rfl)) hJE
  rw [hlT] at hmT
  rw [hlF] at hmF
  rw [hlJ] at hmJ
  have hfresh := new_r_Phi_fresh g J (List.replicate (g.cfgpreds J).length (Operand.node orig))
  have hX : ∀ X, X = T ∨ X = F → X ≠ E → J ≠ X →
      (Function.update
        ((dom.dominated E).foldl (fun m c => Function.update m c (some (df_local g dom c)))
          fun _ => none) E (some [])) X = some [J] →
      place_phi_functions g dom (Function.update
        ((dom.dominated E).foldl (fun m c => Function.update m c (some (df_local g dom c)))
          fun _ => none) E (some [])) appear fuel orig (pset_insert_ptr [orig] copy)
        (pset_insert_ptr [E] X) =
      some (PhiState.mk
        (if appear then
          sched_add_first
            (new_r_Phi g J (List.replicate (g.cfgpreds J).length (Operand.node orig))).1 J
            (new_r_Phi g J (List.replicate (g.cfgpreds J).length (Operand.node orig))).2
          else (new_r_Phi g J (List.replicate (g.cfgpreds J).length (Operand.node orig))).1)
        (pset_insert_ptr (pset_insert_ptr [orig] copy)
          (new_r_Phi g J (List.replicate (g.cfgpreds J).length (Operand.node orig))).2)
        [E, X, J] [J] []) := by
    intro X hXc hXE hJX hmX
    have hcb : pset_insert_ptr [E] X = [E, X] := by simp [pset_insert_ptr, hXE]
    have hbX : dom.block_dominates E X = true := by
      rcases hXc with h | h <;> rw [h]
      · exact hbd T (Or.inr (Or.inl rfl))
      · exact hbd F (Or.inr (Or.inr (Or.inl rfl)))
    unfold place_phi_functions
    rw [hcb, horig, hk]
    simp only [List.all_cons, List.all_nil, hbd E (Or.inl rfl), hbX, Bool.and_self, if_true]
    simp only [place_phi_loop, hmE, hmX, hmJ, List.foldl_cons, List.foldl_nil, place_phi_step,
      List.not_mem_nil, if_false, List.mem_cons, hJE, hJX, or_self, pset_insert_ptr,
      List.nil_append, List.cons_append, List.mem_singleton]
  have hXE : g.nodesBlock copy ≠ E := by
    rcases hcopy with h | h <;> rw [h] <;> assumption
  have hJX : J ≠ g.nodesBlock copy := by
    rcases hcopy with h | h <;> rw [h] <;> assumption
  have hmX : (Function.update
        ((dom.dominated E).foldl (fun m c => Function.update m c (some (df_local g dom c)))
          fun _ => none) E (some [])) (g.nodesBlock copy) = some [J] := by
    rcases hcopy with h | h <;> rw [h] <;> assumption
  have h1 := hX _ hcopy hXE hJX hmX
  refine ⟨_, _, _, hcd, hmT, hmF, by rw [horig]; exact h1, hfresh, ?_, ?_, ?_, ?_, ?_,
    rfl, mem_pset_insert_ptr _ _, ?_⟩
  · cases appear <;> rfl
  · cases appear <;> simp [sched_add_first, new_r_Phi]
  · cases appear <;> simp [sched_add_first, new_r_Phi]
  · intro n hn
    have h2 : (new_r_Phi g J (List.replicate (g.cfgpreds J).length (Operand.node orig))).1.kind n =
        g.kind n := Function.update_noteq hn _ _
    cases appear
    · exact h2
    · exact h2
  · cases appear <;> simp [sched_add_first, new_r_Phi]
  · intro h
    rw [h]
    simp [sched_add_first, new_r_Phi]

/-- C8 at the diamond with the blocks 1, 2, 3, 4, for the value 10 of block 1
and its copy 20 in block 2. -/
theorem if_else_join_one_phi_witness :
    ∃ m st phi,
      be_compute_dominance_frontiers (diamondGraph 1 1) diamondDom 4 = some m ∧
      m 2 = some [4] ∧ m 3 = some [4] ∧
      place_phi_functions (diamondGraph 1 1) diamondDom m true 4 10 (pset_insert_ptr [10] 20)
        (pset_insert_ptr [(diamondGraph 1 1).nodesBlock 10] ((diamondGraph 1 1).nodesBlock 20)) =
        some st ∧
      phi ∉ (diamondGraph 1 1).nodes ∧ st.g.nodes = (diamondGraph 1 1).nodes ++ [phi] ∧
      st.g.kind phi = NodeKind.Phi ∧ st.g.nodesBlock phi = 4 ∧
      (∀ n, n ≠ phi → st.g.kind n = (diamondGraph 1 1).kind n) ∧
      st.g.ins phi =
        List.replicate ((diamondGraph 1 1).cfgpreds 4).length (Operand.node 10) ∧
      st.phi_blocks = [4] ∧ phi ∈ st.copies ∧
      (true = true → st.g.sched 4 = phi :: (diamondGraph 1 1).sched 4) :=
  if_else_join_one_phi (diamondGraph 1 1) diamondDom 1 2 3 4 10 20 true 4 (by decide) rfl
    (by decide) (by decide) (by decide) (by decide) rfl rfl rfl
    (by
      intro c
      have h : diamondDom.dominated 1 = [2, 3, 4] := by decide
      rw [h]
      simp)
    (by decide) (by decide) (by decide)
    (by
      intro b hb
      rcases hb with h | h | h | h <;> rw [h] <;> decide)
    (by decide) (by decide) (by decide) (by decide) (by decide) (by decide) (by decide)

/-- C7 fails at a loop: for the loop header 2 of `loopGraph`, which dominates
the source 3 of its back edge, `compute_df` stores the empty set, and block 2
is in the dominance frontier of block 2. -/
theorem compute_df_loop_header :
    ((be_compute_dominance_frontiers loopGraph loopDom 3).map fun m => [1, 2, 3, 4].map m) =
        some [some [], some [], some [2], some []] ∧
      InFrontier loopGraph loopDom 2 2 :=
  ⟨by decide, ⟨31, by decide, by decide⟩, fun h => h.2 rfl⟩

/-- C9 fails for a value that is defined, reloaded and used in one branch of
a diamond: `be_introduce_copies` inserts the Phi 42 in the join block 4;
`search_def` finds no definition for its operand 1, the operand stays the
original value, and the Phi is still in the schedule of block 4 at the end. -/
theorem be_introduce_copies_keeps_odd_phi :
    ((be_compute_dominance_frontiers reloadGraph diamondDom 4).bind fun m =>
        (place_phi_functions reloadGraph diamondDom m true 4 20 [20, 23] [2]).bind fun st =>
          search_def st.g diamondDom 4 42 1 st.copies st.copy_blocks) = some none ∧
      ((be_compute_dominance_frontiers reloadGraph diamondDom 4).bind fun m =>
        (be_introduce_copies reloadGraph diamondDom m true 4 20 [23]).map fun r =>
          (r.2, r.1.kind 42, r.1.nodesBlock 42, r.1.ins 42, r.1.sched 4, r.1.ins 24)) =
        some ([20, 23, 42], NodeKind.Phi, 4, [Operand.node 23, Operand.node 20], [42, 40],
          [Operand.node 23]) :=
  ⟨by decide, rfl⟩

/-! ## The search for the valid copy -/

/-- The search from the last node to the first one finds the last member of
the copy set. -/
theorem reverse_find_copy (copies : List Nat) :
    ∀ (start : List Nat) (irn : Nat),
      (start.reverse.find? fun irn => decide (irn ∈ copies)) = some irn →
      irn ∈ copies ∧ ∃ before after, start = before ++ irn :: after ∧ ∀ x ∈ after, x ∉ copies := by
  intro start irn h
  have h1 := List.find?_some h
  simp only [decide_eq_true_eq] at h1
  refine ⟨h1, ?_⟩
  rw [List.find?_eq_some] at h
  obtain ⟨_, as, bs, h2, h3⟩ := h
  refine ⟨bs.reverse, as.reverse, ?_, ?_⟩
  · have := congrArg List.reverse h2
    simpa using this
  · intro x hx
    have := h3 x (List.mem_reverse.1 hx)
    simpa using this

/-- The search from the last node to the first one finds nothing only if
there is no member of the copy set. -/
theorem reverse_find_none (copies : List Nat) (start : List Nat)
    (h : (start.reverse.find? fun irn => decide (irn ∈ copies)) = none) :
    (start.any fun irn => decide (irn ∈ copies)) = false := by
  rw [List.find?_eq_none] at h
  rw [List.any_eq_false]
  intro x hx
  exact h x (List.mem_reverse.2 hx)

/-- A chain of immediate dominators starts with its block. -/
theorem idom_chain_head (dom : Dom) (fuel bl : Nat) (chain : List Nat)
    (h : idom_chain dom fuel bl = some chain) : ∃ rest, chain = bl :: rest := by
  cases fuel with
  | zero => simp [idom_chain] at h
  | succ fuel =>
    rw [idom_chain] at h
    cases hi : dom.idom bl with
    | none => rw [hi] at h; simp only [] at h; cases h; exact ⟨[], rfl⟩
    | some idom =>
      rw [hi] at h
      simp only [] at h
      cases hc : idom_chain dom fuel idom with
      | none => rw [hc] at h; cases h
      | some c => rw [hc] at h; cases h; exact ⟨c, rfl⟩

/-- A block in front of the chain that holds no copy does not change the
result. -/
theorem search_result_cons (g : Irg) (copies copy_blocks : List Nat) (curr_bl : Nat)
    (start : List Nat) (idom : Nat) (c : List Nat) (fuel : Nat) (dom : Dom)
    (hc : idom_chain dom fuel idom = some c) (r : Option Nat)
    (hseg : segment_holds copies copy_blocks (curr_bl, start) = false)
    (hr : SearchResult copies copy_blocks (search_segments g (g.sched idom) c) r) :
    SearchResult copies copy_blocks (search_segments g start (curr_bl :: c)) r := by
  obtain ⟨rest, hrest⟩ := idom_chain_head dom fuel idom c hc
  subst hrest
  have hs : search_segments g start (curr_bl :: idom :: rest) =
      (curr_bl, start) :: search_segments g (g.sched idom) (idom :: rest) := rfl
  rw [hs]
  cases r with
  | none =>
    intro p hp
    rcases List.mem_cons.1 hp with hp | hp
    · rw [hp]; exact hseg
    · exact hr p hp
  | some irn =>
    obtain ⟨h1, pre, seg, post, h2, h3, h4⟩ := hr
    refine ⟨h1, (curr_bl, start) :: pre, seg, post, by rw [h2]; rfl, ?_, h4⟩
    intro p hp
    rcases List.mem_cons.1 hp with hp | hp
    · rw [hp]; exact hseg
    · exact h3 p hp

/-- The loop of `search_def` ends when the chain of immediate dominators
does, and its result is the one that the specification describes. -/
theorem search_up_spec (g : Irg) (dom : Dom) (copies copy_blocks : List Nat) :
    ∀ (fuel curr_bl : Nat) (start chain : List Nat),
      idom_chain dom fuel curr_bl = some chain →
      ∃ r, search_up g dom copies copy_blocks fuel curr_bl start = some r ∧
        SearchResult copies copy_blocks (search_segments g start chain) r := by
  intro fuel
  induction fuel with
  | zero => intro curr_bl start chain h; simp [idom_chain] at h
  | succ fuel ih =>
    intro curr_bl start chain h
    rw [idom_chain] at h
    rw [search_up]
    by_cases hb : curr_bl ∈ copy_blocks
    · rw [if_pos hb]
      cases hf : (start.reverse.find? fun irn => decide (irn ∈ copies)) with
      | some irn =>
        refine ⟨some irn, rfl, ?_⟩
        obtain ⟨h1, before, after, h2, h3⟩ := reverse_find_copy copies start irn hf
        cases hi : dom.idom curr_bl with
        | none =>
          rw [hi] at h
          simp only [] at h
          cases h
          exact ⟨h1, [], (curr_bl, start), [], rfl, by simp, hb, before, after, h2, h3⟩
        | some idom =>
          rw [hi] at h
          simp only [] at h
          cases hc : idom_chain dom fuel idom with
          | none => rw [hc] at h; cases h
          | some c =>
            rw [hc] at h
            cases h
            exact ⟨h1, [], (curr_bl, start), _, rfl, by simp, hb, before, after, h2, h3⟩
      | none =>
        have hn := reverse_find_none copies start hf
        have hseg : segment_holds copies copy_blocks (curr_bl, start) = false := by
          simp only [segment_holds, hn, Bool.and_false]
        cases hi : dom.idom curr_bl with
        | none =>
          rw [hi] at h
          simp only [] at h
          cases h
          refine ⟨none, rfl, ?_⟩
          intro p hp
          simp only [search_segments, List.map_nil, List.mem_singleton] at hp
          rw [hp]
          exact hseg
        | some idom =>
          rw [hi] at h
          simp only [] at h
          cases hc : idom_chain dom fuel idom with
          | none => rw [hc] at h; cases h
          | some c =>
            rw [hc] at h
            cases h
            obtain ⟨r, hr1, hr2⟩ := ih idom (g.sched idom) c hc
            refine ⟨r, hr1, ?_⟩
            exact search_result_cons g copies copy_blocks curr_bl start idom c fuel dom hc r
              hseg hr2
    · rw [if_neg hb]
      have hseg : segment_holds copies copy_blocks (curr_bl, start) = false := by
        simp only [segment_holds, hb, decide_False, Bool.false_and]
      cases hi : dom.idom curr_bl with
      | none =>
        rw [hi] at h
        simp only [] at h
        cases h
        refine ⟨none, rfl, ?_⟩
        intro p hp
        simp only [search_segments, List.map_nil, List.mem_singleton] at hp
        rw [hp]
        exact hseg
      | some idom =>
        rw [hi] at h
        simp only [] at h
        cases hc : idom_chain dom fuel idom with
        | none => rw [hc] at h; cases h
        | some c =>
          rw [hc] at h
          cases h
          obtain ⟨r, hr1, hr2⟩ := ih idom (g.sched idom) c hc
          refine ⟨r, hr1, ?_⟩
          exact search_result_cons g copies copy_blocks curr_bl start idom c fuel dom hc r
            hseg hr2

/-- The first member of a list with a property is determined. -/
theorem first_with_unique {α : Type} (P : α → Prop) :
    ∀ (a a2 : List α) (x x2 : α) (b b2 : List α), a ++ x :: b = a2 ++ x2 :: b2 →
      P x → P x2 → (∀ y ∈ a, ¬ P y) → (∀ y ∈ a2, ¬ P y) → x = x2 := by
  intro a
  induction a with
  | nil =>
    intro a2 x x2 b b2 h hx hx2 _ ha2
    cases a2 with
    | nil => simp only [List.nil_append, List.cons.injEq] at h; exact h.1
    | cons y a2 =>
      simp only [List.nil_append, List.cons_append, List.cons.injEq] at h
      exact absurd (h.1 ▸ hx) (ha2 y (List.mem_cons_self _ _))
  | cons z a ih =>
    intro a2 x x2 b b2 h hx hx2 ha ha2
    cases a2 with
    | nil =>
      simp only [List.nil_append, List.cons_append, List.cons.injEq] at h
      exact absurd (h.1 ▸ hx2) (ha z (List.mem_cons_self _ _))
    | cons y a2 =>
      simp only [List.cons_append, List.cons.injEq] at h
      exact ih a2 x x2 b b2 h.2 hx hx2 (fun y hy => ha y (List.mem_cons_of_mem _ hy))
        (fun y hy => ha2 y (List.mem_cons_of_mem _ hy))

/-- The last member of a list with a property is determined. -/
theorem last_with_unique {α : Type} (P : α → Prop) (a a2 : List α) (x x2 : α) (b b2 : List α)
    (h : a ++ x :: b = a2 ++ x2 :: b2) (hx : P x) (hx2 : P x2) (hb : ∀ y ∈ b, ¬ P y)
    (hb2 : ∀ y ∈ b2, ¬ P y) : x = x2 := by
  have h1 := congrArg List.reverse h
  simp only [List.reverse_append, List.reverse_cons, List.append_assoc, List.singleton_append]
    at h1
  exact first_with_unique P b.reverse b2.reverse x x2 a.reverse a2.reverse h1 hx hx2
    (fun y hy => hb y (List.mem_reverse.1 hy)) (fun y hy => hb2 y (List.mem_reverse.1 hy))

/-- The description of the result of the search fits one result only. -/
theorem SearchResult_unique (copies copy_blocks : List Nat) (segs : List (Nat × List Nat))
    (r1 r2 : Option Nat) (h1 : SearchResult copies copy_blocks segs r1)
    (h2 : SearchResult copies copy_blocks segs r2) : r1 = r2 := by
  have hold : ∀ irn, SearchResult copies copy_blocks segs (some irn) →
      ∃ pre seg post, segs = pre ++ seg :: post ∧
        (∀ p ∈ pre, ¬ segment_holds copies copy_blocks p = true) ∧
        segment_holds copies copy_blocks seg = true ∧
        ∃ before after, seg.2 = before ++ irn :: after ∧ ∀ x ∈ after, x ∉ copies := by
    intro irn h
    obtain ⟨h3, pre, seg, post, h4, h5, h6, before, after, h7, h8⟩ := h
    refine ⟨pre, seg, post, h4, fun p hp => by rw [h5 p hp]; decide, ?_, before, after, h7, h8⟩
    simp only [segment_holds, h6, decide_True, Bool.true_and, List.any_eq_true,
      decide_eq_true_eq]
    exact ⟨irn, by rw [h7]; simp, h3⟩
  cases r1 with
  | none =>
    cases r2 with
    | none => rfl
    | some irn2 =>
      obtain ⟨pre, seg, post, h4, _, h6, _⟩ := hold irn2 h2
      have := h1 seg (by rw [h4]; simp)
      rw [this] at h6
      cases h6
  | some irn1 =>
    cases r2 with
    | none =>
      obtain ⟨pre, seg, post, h4, _, h6, _⟩ := hold irn1 h1
      have := h2 seg (by rw [h4]; simp)
      rw [this] at h6
      cases h6
    | some irn2 =>
      obtain ⟨pre, seg, post, h4, h5, h6, before, after, h7, h8⟩ := hold irn1 h1
      obtain ⟨pre2, seg2, post2, k4, k5, k6, before2, after2, k7, k8⟩ := hold irn2 h2
      have hs : seg = seg2 :=
        first_with_unique (fun p => segment_holds copies copy_blocks p = true) pre pre2 seg seg2
          post post2 (h4.symm.trans k4) h6 k6 h5 k5
      subst hs
      have := last_with_unique (fun x => x ∈ copies) before before2 irn1 irn2 after after2
        (h7.symm.trans k7) h1.1 h2.1 h8 k8
      rw [this]

/-- C33: `search_def` returns when the chain of immediate dominators of the
block where the search starts ends within the fuel. For a use that is not a
Phi the search starts in the block of the use with the nodes scheduled in
front of the use; for a Phi it starts in the block of the control-flow
predecessor at the position of the operand with the whole schedule, that is
at the last instruction. The result is the last member of the copy set in
the part searched of the nearest block of the chain that is in the
copy-block set and holds a member of the copy set in that part; it is `NULL`
when there is no such block; a result that is not `NULL` is a member of the
copy set. -/
theorem search_def_nearest_copy (g : Irg) (dom : Dom) (fuel usage pos : Nat)
    (copies copy_blocks : List Nat) (start_bl : Nat) (start chain : List Nat)
    (hchain : idom_chain dom fuel start_bl = some chain)
    (hstart :
      (g.kind usage = NodeKind.Phi ∧
          get_Block_cfgpred_block g (g.nodesBlock usage) pos = some start_bl ∧
          start = g.sched start_bl) ∨
        (g.kind usage ≠ NodeKind.Phi ∧ start_bl = g.nodesBlock usage ∧
          ∃ after, g.sched start_bl = start ++ usage :: after ∧ usage ∉ start)) :
    ∃ r, search_def g dom fuel usage pos copies copy_blocks = some r ∧
      SearchResult copies copy_blocks (search_segments g start chain) r ∧
      (∀ irn, r = some irn → irn ∈ copies) ∧
      ∀ r2, SearchResult copies copy_blocks (search_segments g start chain) r2 → r2 = r := by
  obtain ⟨r, h1, h2⟩ := search_up_spec g dom copies copy_blocks fuel start_bl start chain hchain
  refine ⟨r, ?_, h2, ?_, fun r2 h3 => SearchResult_unique copies copy_blocks _ r2 r h3 h2⟩
  · unfold search_def
    simp only
    rcases hstart with ⟨hk, hp, hs⟩ | ⟨hk, hb, after, hs, hn⟩
    · rw [if_pos hk, hp]
      simp only []
      rw [← hs]
      exact h1
    · rw [if_neg hk, ← hb, hs]
      have hm : usage ∈ start ++ usage :: after := by simp
      rw [if_pos hm]
      have ht : ((start ++ usage :: after).takeWhile fun irn => decide (irn ≠ usage)) = start := by
        rw [List.takeWhile_append_of_pos (fun x hx => by
          simp only [ne_eq, decide_not, Bool.not_eq_eq_eq_not, Bool.not_true,
            decide_eq_false_iff_not]
          intro hxu
          exact hn (hxu ▸ hx))]
        simp
      rw [ht]
      exact h1
  · intro irn hr
    rw [hr] at h2
    exact h2.1

/-- The theorem `search_def_nearest_copy` at the use 24 of `reloadGraph`,
which follows the reload 23 of the value 20 in block 2. -/
theorem search_def_nearest_copy_witness :
    idom_chain diamondDom 2 2 = some [2, 1] ∧
      ((reloadGraph.kind 24 = NodeKind.Phi ∧
          get_Block_cfgpred_block reloadGraph (reloadGraph.nodesBlock 24) 0 = some 2 ∧
          [20, 23] = reloadGraph.sched 2) ∨
        (reloadGraph.kind 24 ≠ NodeKind.Phi ∧ 2 = reloadGraph.nodesBlock 24 ∧
          ∃ after, reloadGraph.sched 2 = [20, 23] ++ 24 :: after ∧ 24 ∉ [20, 23])) ∧
      ∃ r, search_def reloadGraph diamondDom 2 24 0 [20, 23] [2] = some r ∧
        SearchResult [20, 23] [2] (search_segments reloadGraph [20, 23] [2, 1]) r ∧
        (∀ irn, r = some irn → irn ∈ [20, 23]) ∧
        ∀ r2, SearchResult [20, 23] [2] (search_segments reloadGraph [20, 23] [2, 1]) r2 →
          r2 = r :=
  ⟨by decide, Or.inr ⟨by decide, by decide, [21], by decide, by decide⟩,
    search_def_nearest_copy reloadGraph diamondDom 2 24 0 [20, 23] [2] 2 [20, 23] [2, 1]
      (by decide) (Or.inr ⟨by decide, by decide, [21], by decide, by decide⟩)⟩

/-- The search in `reloadGraph`: the use 24 gets the reload 23, a use in
front of the reload gets the value 20, a use in block 3 gets nothing when
only block 2 is in the copy-block set, and a Phi in block 4 gets the
reload for its first operand. -/
theorem search_def_examples :
    search_def reloadGraph diamondDom 2 24 0 [20, 23] [2] = some (some 23) ∧
      search_def reloadGraph diamondDom 2 23 0 [20, 23] [2] = some (some 20) ∧
      search_def reloadGraph diamondDom 2 30 0 [20, 23] [2] = some none ∧
      search_def { reloadGraph with kind := Function.update reloadGraph.kind 40 NodeKind.Phi }
        diamondDom 2 40 0 [20, 23] [2] = some (some 23) ∧
      search_def reloadGraph diamondDom 1 24 0 [] [2] = none := by
  refine ⟨by decide, by decide, by decide, by decide, by decide⟩

/-! ## C32: the Phis of the iterated dominance frontier -/

/-- The graph behind the `if` of `place_phi_step` has the nodes of the graph
with the new Phi. -/
theorem sched_add_first_if (appear : Bool) (a : Irg) (y phi : Nat) :
    (if appear then sched_add_first a y phi else a).nodes = a.nodes ∧
      (if appear then sched_add_first a y phi else a).kind = a.kind ∧
      (if appear then sched_add_first a y phi else a).nodesBlock = a.nodesBlock ∧
      (if appear then sched_add_first a y phi else a).ins = a.ins ∧
      (if appear then sched_add_first a y phi else a).cfgpreds = a.cfgpreds := by
  cases appear <;> exact ⟨rfl, rfl, rfl, rfl, rfl⟩

theorem pset_insert_ptr_new (s : List Nat) (x : Nat) (h : x ∉ s) :
    pset_insert_ptr s x = s ++ [x] := by
  rw [pset_insert_ptr, if_neg h]

theorem mem_pset_insert_ptr_iff (s : List Nat) (x y : Nat) :
    y ∈ pset_insert_ptr s x ↔ y ∈ s ∨ y = x := by
  unfold pset_insert_ptr
  split_ifs with h
  · constructor
    · intro hy; exact Or.inl hy
    · rintro (hy | hy)
      · exact hy
      · rw [hy]; exact h
  · simp

/-- The state of `place_phi_step` for a block that has a Phi. -/
theorem place_phi_step_old (orig : Nat) (appear : Bool) (s : List Nat) (st : PhiState) (y : Nat)
    (h : y ∈ st.phi_blocks) : place_phi_step orig appear s st y = st := by
  rw [place_phi_step, if_pos h]

/-- The blocks with a Phi behind `place_phi_step`. -/
theorem place_phi_step_phi_blocks (orig : Nat) (appear : Bool) (s : List Nat) (st : PhiState)
    (y : Nat) :
    (place_phi_step orig appear s st y).phi_blocks = pset_insert_ptr st.phi_blocks y := by
  by_cases h : y ∈ st.phi_blocks
  · rw [place_phi_step_old orig appear s st y h, pset_insert_ptr, if_pos h]
  · rw [place_phi_step, if_neg h]

/-- The worklist behind `place_phi_step`. -/
theorem place_phi_step_worklist (orig : Nat) (appear : Bool) (s : List Nat) (st : PhiState)
    (y : Nat) :
    (place_phi_step orig appear s st y).worklist =
      if y ∈ st.phi_blocks ∨ y ∈ s then st.worklist else st.worklist ++ [y] := by
  by_cases h : y ∈ st.phi_blocks
  · rw [place_phi_step_old orig appear s st y h, if_pos (Or.inl h)]
  · rw [place_phi_step, if_neg h]
    by_cases hs : y ∈ s
    · simp only [hs, if_true, or_true]
    · simp only [hs, h, if_false, or_self]

/-- One step of the loop over a frontier keeps what holds of the state. -/
theorem place_phi_step_inv (g0 : Irg) (df_map : Nat → Option (List Nat)) (orig : Nat)
    (appear : Bool) (copies0 s : List Nat) (st : PhiState) (y : Nat)
    (hinv : PhiInv g0 df_map orig copies0 s st) (hy : InIDF df_map s y) :
    PhiInv g0 df_map orig copies0 s (place_phi_step orig appear s st y) := by
  by_cases h : y ∈ st.phi_blocks
  · rw [place_phi_step_old orig appear s st y h]; exact hinv
  · have hpb := place_phi_step_phi_blocks orig appear s st y
    have hwl := place_phi_step_worklist orig appear s st y
    rw [pset_insert_ptr_new _ _ h] at hpb
    obtain ⟨phis, hn1, hn2, hn3, hn4⟩ := hinv.nodes
    have hfresh := new_r_Phi_fresh st.g y
      (List.replicate (st.g.cfgpreds y).length (Operand.node orig))
    generalize hst1 : place_phi_step orig appear s st y = st1 at hpb hwl ⊢
    rw [place_phi_step, if_neg h] at hst1
    simp only at hst1
    obtain ⟨e1, e2, e3, e4, e5⟩ := sched_add_first_if appear
      (new_r_Phi st.g y (List.replicate (st.g.cfgpreds y).length (Operand.node orig))).1 y
      (new_r_Phi st.g y (List.replicate (st.g.cfgpreds y).length (Operand.node orig))).2
    generalize hphi :
      (new_r_Phi st.g y (List.replicate (st.g.cfgpreds y).length (Operand.node orig))).2 = phi
      at hst1 hfresh e1 e2 e3 e4 e5
    have hg1 : st1.g.nodes = st.g.nodes ++ [phi] := by
      rw [← hst1]; simp only; rw [e1, ← hphi]; rfl
    have hg2 : st1.g.kind = Function.update st.g.kind phi NodeKind.Phi := by
      rw [← hst1]; simp only; rw [e2, ← hphi]; rfl
    have hg3 : st1.g.nodesBlock = Function.update st.g.nodesBlock phi y := by
      rw [← hst1]; simp only; rw [e3, ← hphi]; rfl
    have hg4 : st1.g.ins = Function.update st.g.ins phi
        (List.replicate (st.g.cfgpreds y).length (Operand.node orig)) := by
      rw [← hst1]; simp only; rw [e4, ← hphi]; rfl
    have hg5 : st1.g.cfgpreds = st.g.cfgpreds := by
      rw [← hst1]; simp only; rw [e5]; rfl
    have hc : st1.copies = pset_insert_ptr st.copies phi := by rw [← hst1]
    have hcb : st1.copy_blocks = pset_insert_ptr st.copy_blocks y := by rw [← hst1]
    have hne : ∀ n ∈ st.g.nodes, n ≠ phi := fun n hn hnp => hfresh (hnp ▸ hn)
    have hphis : ∀ p ∈ phis, p ≠ phi := fun p hp =>
      hne p (by rw [hn1]; exact List.mem_append_right _ hp)
    have hold0 : ∀ n ∈ g0.nodes, n ≠ phi := fun n hn =>
      hne n (by rw [hn1]; exact List.mem_append_left _ hn)
    refine ⟨?_, ?_, ?_, ?_, ?_, ?_, ?_⟩
    · rw [hpb]
      exact List.Nodup.append hinv.nodup (List.nodup_singleton y)
        (by simpa using h)
    · intro b hb
      rw [hpb] at hb
      rcases List.mem_append.1 hb with hb | hb
      · exact hinv.idf b hb
      · rw [List.mem_singleton.1 hb]; exact hy
    · intro b hb
      rw [hwl] at hb
      rw [hpb]
      split_ifs at hb with hc1
      · rcases hinv.wl b hb with h1 | h1
        · exact Or.inl h1
        · exact Or.inr (List.mem_append_left _ h1)
      · rcases List.mem_append.1 hb with hb | hb
        · rcases hinv.wl b hb with h1 | h1
          · exact Or.inl h1
          · exact Or.inr (List.mem_append_left _ h1)
        · exact Or.inr (List.mem_append_right _ hb)
    · rw [hg5]; exact hinv.cfg
    · refine ⟨phis ++ [phi], by rw [hg1, hn1, List.append_assoc], ?_, ?_, ?_⟩
      · rw [hpb, List.map_append, hg3, ← hn2]
        congr 1
        · apply List.map_congr_left
          intro p hp
          rw [Function.update_noteq (hphis p hp)]
        · simp
      · intro p hp
        rcases List.mem_append.1 hp with hp | hp
        · have hpn := hphis p hp
          rw [hg2, hg3, hg4, Function.update_noteq hpn, Function.update_noteq hpn,
            Function.update_noteq hpn]
          exact hn3 p hp
        · rw [List.mem_singleton.1 hp, hg2, hg3, hg4, Function.update_same,
            Function.update_same, Function.update_same, hinv.cfg]
          refine ⟨rfl, rfl, ?_⟩
          intro hin
          exact hold0 phi hin rfl
      · intro x
        rw [hc, mem_pset_insert_ptr_iff, hn4 x, List.mem_append, List.mem_singleton, or_assoc]
    · intro n hn
      have hnp := hold0 n hn
      rw [hg2, hg3, hg4, Function.update_noteq hnp, Function.update_noteq hnp,
        Function.update_noteq hnp]
      exact hinv.old n hn
    · intro b
      rw [hcb, mem_pset_insert_ptr_iff, hinv.blocks b, hpb, List.mem_append,
        List.mem_singleton, or_assoc]

/-- The blocks with a Phi stay behind a step. -/
theorem place_phi_step_mono (orig : Nat) (appear : Bool) (s : List Nat) (st : PhiState)
    (y x : Nat) (h : x ∈ st.phi_blocks) : x ∈ (place_phi_step orig appear s st y).phi_blocks := by
  rw [place_phi_step_phi_blocks, mem_pset_insert_ptr_iff]
  exact Or.inl h

/-- The blocks of the worklist stay behind a step. -/
theorem place_phi_step_worklist_mono (orig : Nat) (appear : Bool) (s : List Nat)
    (st : PhiState) (y x : Nat) (h : x ∈ st.worklist) :
    x ∈ (place_phi_step orig appear s st y).worklist := by
  rw [place_phi_step_worklist]
  split_ifs
  · exact h
  · exact List.mem_append_left _ h

/-- A step does not raise the number of steps that can still be taken. -/
theorem place_phi_step_measure (blocks : List Nat) (orig : Nat) (appear : Bool) (s : List Nat)
    (st : PhiState) (y : Nat) (hy : y ∈ blocks) :
    phi_measure blocks (place_phi_step orig appear s st y) ≤ phi_measure blocks st := by
  by_cases h : y ∈ st.phi_blocks
  · rw [place_phi_step_old orig appear s st y h]
  · unfold phi_measure
    rw [place_phi_step_phi_blocks, place_phi_step_worklist, pset_insert_ptr_new _ _ h]
    have hmem : y ∈ blocks.toFinset \ st.phi_blocks.toFinset := by
      simp [hy, h]
    have hcard : (blocks.toFinset \ (st.phi_blocks ++ [y]).toFinset).card + 1 =
        (blocks.toFinset \ st.phi_blocks.toFinset).card := by
      have : blocks.toFinset \ (st.phi_blocks ++ [y]).toFinset =
          (blocks.toFinset \ st.phi_blocks.toFinset).erase y := by
        ext z
        simp only [List.toFinset_append, List.toFinset_cons, List.toFinset_nil,
          insert_emptyc_eq, Finset.mem_sdiff, List.mem_toFinset, Finset.mem_union,
          Finset.mem_singleton, not_or, Finset.mem_erase]
        tauto
      rw [this, Finset.card_erase_of_mem hmem]
      have := Finset.card_pos.2 ⟨y, hmem⟩
      omega
    split_ifs
    · omega
    · rw [List.length_append, List.length_singleton]
      omega

/-- The loop over a frontier keeps what holds of the state, does not raise
the number of steps that can still be taken, and leaves a Phi in every
block of the frontier. -/
theorem place_phi_fold (g0 : Irg) (df_map : Nat → Option (List Nat)) (orig : Nat)
    (appear : Bool) (copies0 s blocks : List Nat) :
    ∀ (df : List Nat) (st : PhiState), PhiInv g0 df_map orig copies0 s st →
      (∀ y ∈ df, InIDF df_map s y ∧ y ∈ blocks) →
      PhiInv g0 df_map orig copies0 s (df.foldl (place_phi_step orig appear s) st) ∧
        phi_measure blocks (df.foldl (place_phi_step orig appear s) st) ≤
          phi_measure blocks st ∧
        (∀ x ∈ st.phi_blocks, x ∈ (df.foldl (place_phi_step orig appear s) st).phi_blocks) ∧
        (∀ x ∈ st.worklist, x ∈ (df.foldl (place_phi_step orig appear s) st).worklist) ∧
        (∀ y ∈ df, y ∈ (df.foldl (place_phi_step orig appear s) st).phi_blocks) ∧
        ∀ x ∈ (df.foldl (place_phi_step orig appear s) st).phi_blocks,
          x ∈ st.phi_blocks ∨
            (x ∈ s ∨ x ∈ (df.foldl (place_phi_step orig appear s) st).worklist) := by
  intro df
  induction df with
  | nil =>
    intro st hinv _
    exact ⟨hinv, le_refl _, fun x hx => hx, fun x hx => hx,
      fun y hy => absurd hy (List.not_mem_nil y), fun x hx => Or.inl hx⟩
  | cons y df ih =>
    intro st hinv hdf
    have hy := hdf y (List.mem_cons_self _ _)
    obtain ⟨h1, h2, h3, h4, h5, h6⟩ := ih (place_phi_step orig appear s st y)
      (place_phi_step_inv g0 df_map orig appear copies0 s st y hinv hy.1)
      (fun z hz => hdf z (List.mem_cons_of_mem _ hz))
    rw [List.foldl_cons]
    refine ⟨h1, le_trans h2 (place_phi_step_measure blocks orig appear s st y hy.2),
      fun x hx => h3 x (place_phi_step_mono orig appear s st y x hx),
      fun x hx => h4 x (place_phi_step_worklist_mono orig appear s st y x hx), ?_, ?_⟩
    · intro z hz
      rcases List.mem_cons.1 hz with hz | hz
      · rw [hz]
        apply h3
        rw [place_phi_step_phi_blocks]
        exact mem_pset_insert_ptr _ _
      · exact h5 z hz
    · intro x hx
      rcases h6 x hx with h | h
      · rw [place_phi_step_phi_blocks, mem_pset_insert_ptr_iff] at h
        rcases h with h | h
        · exact Or.inl h
        · by_cases hxp : x ∈ st.phi_blocks
          · exact Or.inl hxp
          · right
            by_cases hxs : x ∈ s
            · exact Or.inl hxs
            · right
              apply h4
              rw [place_phi_step_worklist, h]
              rw [h] at hxp hxs
              rw [if_neg (by tauto)]
              simp
      · exact Or.inr h

/-- The blocks of the iterated dominance frontier are blocks of the graph
when the frontier sets of the blocks of the graph hold blocks of the
graph. -/
theorem InIDF_mem_blocks (df_map : Nat → Option (List Nat)) (s blocks : List Nat)
    (hblocks : ∀ b ∈ blocks, ∀ df, df_map b = some df → ∀ y ∈ df, y ∈ blocks)
    (hs : ∀ b ∈ s, b ∈ blocks) (y : Nat) (h : InIDF df_map s y) : y ∈ blocks := by
  induction h with
  | base b y df hb hdf hy => exact hblocks b (hs b hb) df hdf y hy
  | step b y df _ hdf hy ih => exact hblocks b ih df hdf y hy

/-- The loop of `place_phi_functions` ends, and at its end every block of
the copy-block set and every block with a Phi has its frontier among the
blocks with a Phi. -/
theorem place_phi_loop_ends (g0 : Irg) (df_map : Nat → Option (List Nat)) (orig : Nat)
    (appear : Bool) (copies0 s blocks : List Nat)
    (hdef : ∀ b ∈ blocks, ∃ df, df_map b = some df)
    (hblocks : ∀ b ∈ blocks, ∀ df, df_map b = some df → ∀ y ∈ df, y ∈ blocks)
    (hs : ∀ b ∈ s, b ∈ blocks) :
    ∀ (fuel : Nat) (st : PhiState), PhiInv g0 df_map orig copies0 s st →
      (∀ b, b ∈ s ∨ b ∈ st.phi_blocks → b ∈ st.worklist ∨ PhiDone df_map st b) →
      phi_measure blocks st < fuel →
      ∃ st1, place_phi_loop df_map orig appear s fuel st = some st1 ∧
        PhiInv g0 df_map orig copies0 s st1 ∧
        ∀ b, b ∈ s ∨ b ∈ st1.phi_blocks → PhiDone df_map st1 b := by
  intro fuel
  induction fuel with
  | zero => intro st _ _ h; exact absurd h (Nat.not_lt_zero _)
  | succ fuel ih =>
    intro st hinv hprog hfuel
    rw [place_phi_loop]
    cases hw : st.worklist with
    | nil =>
      refine ⟨st, rfl, hinv, ?_⟩
      intro b hb
      rcases hprog b hb with h | h
      · rw [hw] at h; exact absurd h (List.not_mem_nil b)
      · exact h
    | cons bl rest =>
      have hbl : bl ∈ s ∨ bl ∈ st.phi_blocks := hinv.wl bl (by rw [hw]; exact List.mem_cons_self _ _)
      have hblb : bl ∈ blocks := by
        rcases hbl with h | h
        · exact hs bl h
        · exact InIDF_mem_blocks df_map s blocks hblocks hs bl (hinv.idf bl h)
      obtain ⟨df, hdf⟩ := hdef bl hblb
      simp only [hdf]
      have hinv0 : PhiInv g0 df_map orig copies0 s { st with worklist := rest } :=
        ⟨hinv.nodup, hinv.idf,
          fun b hb => hinv.wl b (by rw [hw]; exact List.mem_cons_of_mem _ hb),
          hinv.cfg, hinv.nodes, hinv.old, hinv.blocks⟩
      have hdfm : ∀ y ∈ df, InIDF df_map s y ∧ y ∈ blocks := by
        intro y hy
        refine ⟨?_, hblocks bl hblb df hdf y hy⟩
        rcases hbl with h | h
        · exact InIDF.base bl y df h hdf hy
        · exact InIDF.step bl y df (hinv.idf bl h) hdf hy
      obtain ⟨f1, f2, f3, f4, f5, f6⟩ := place_phi_fold g0 df_map orig appear copies0 s blocks df
        { st with worklist := rest } hinv0 hdfm
      apply ih _ f1
      · intro b hb
        have hdone : ∀ b, PhiDone df_map st b →
            PhiDone df_map (df.foldl (place_phi_step orig appear s) { st with worklist := rest })
              b := by
          rintro b ⟨d, hd1, hd2⟩
          exact ⟨d, hd1, fun y hy => f3 y (hd2 y hy)⟩
        have hcase : b ∈ s ∨ b ∈ st.phi_blocks → b ∈ (df.foldl (place_phi_step orig appear s)
            { st with worklist := rest }).worklist ∨ PhiDone df_map
              (df.foldl (place_phi_step orig appear s) { st with worklist := rest }) b := by
          intro hb0
          rcases hprog b hb0 with h | h
          · rw [hw] at h
            rcases List.mem_cons.1 h with h | h
            · right
              rw [h]
              exact ⟨df, hdf, f5⟩
            · exact Or.inl (f4 b h)
          · exact Or.inr (hdone b h)
        rcases hb with hb | hb
        · exact hcase (Or.inl hb)
        · rcases f6 b hb with h | h | h
          · exact hcase (Or.inr h)
          · exact hcase (Or.inl h)
          · exact Or.inl h
      · have hm : phi_measure blocks { st with worklist := rest } + 1 = phi_measure blocks st := by
          unfold phi_measure
          rw [hw]
          simp only [List.length_cons]
          omega
        omega

/-- The blocks whose frontiers lie among the blocks with a Phi: the iterated
dominance frontier lies among the blocks with a Phi. -/
theorem InIDF_of_done (df_map : Nat → Option (List Nat)) (s : List Nat) (st : PhiState)
    (hdone : ∀ b, b ∈ s ∨ b ∈ st.phi_blocks → PhiDone df_map st b) (y : Nat)
    (h : InIDF df_map s y) : y ∈ st.phi_blocks := by
  induction h with
  | base b y df hb hdf hy =>
    obtain ⟨d, hd1, hd2⟩ := hdone b (Or.inl hb)
    rw [hdf] at hd1
    cases hd1
    exact hd2 y hy
  | step b y df _ hdf hy ih =>
    obtain ⟨d, hd1, hd2⟩ := hdone b (Or.inr ih)
    rw [hdf] at hd1
    cases hd1
    exact hd2 y hy

/-- C32: `place_phi_functions` returns when the frontier sets of the blocks
of the graph are defined and hold blocks of the graph, the blocks of the
copy-block set are blocks of the graph that the block of the original value
dominates, and the fuel exceeds the number of blocks of the copy-block set
and of the graph. The blocks that get a Phi are the blocks of the iterated
dominance frontier of the copy-block set with respect to the frontier sets,
each once. The graph gets one new node for each of them and no other: a Phi
in that block with one operand for every control-flow predecessor of the
block, each the original value; the Phi is in the copy set and its block in
the copy-block set at the end, and these sets hold their members of before
and nothing else. The nodes of before are as they were. -/
theorem place_phi_functions_idf (g : Irg) (dom : Dom) (df_map : Nat → Option (List Nat))
    (appear : Bool) (fuel orig : Nat) (copies copy_blocks : List Nat)
    (hdom : ∀ b ∈ copy_blocks, dom.block_dominates (g.nodesBlock orig) b = true)
    (hdef : ∀ b ∈ g.blocks, (df_map b).isSome = true)
    (hblocks : ∀ b ∈ g.blocks, ∀ y ∈ (df_map b).getD [], y ∈ g.blocks)
    (hs : ∀ b ∈ copy_blocks, b ∈ g.blocks)
    (hfuel : copy_blocks.length + g.blocks.length < fuel) :
    ∃ st phis, place_phi_functions g dom df_map appear fuel orig copies copy_blocks = some st ∧
      st.phi_blocks.Nodup ∧
      (∀ y, y ∈ st.phi_blocks ↔ InIDF df_map copy_blocks y) ∧
      st.g.nodes = g.nodes ++ phis ∧
      phis.map st.g.nodesBlock = st.phi_blocks ∧
      (∀ phi ∈ phis, st.g.kind phi = NodeKind.Phi ∧
        st.g.ins phi =
          List.replicate (g.cfgpreds (st.g.nodesBlock phi)).length (Operand.node orig) ∧
        phi ∉ g.nodes ∧ phi ∈ st.copies ∧ st.g.nodesBlock phi ∈ st.copy_blocks) ∧
      (∀ n ∈ g.nodes,
        st.g.kind n = g.kind n ∧ st.g.nodesBlock n = g.nodesBlock n ∧ st.g.ins n = g.ins n) ∧
      st.g.cfgpreds = g.cfgpreds ∧
      (∀ x, x ∈ st.copies ↔ x ∈ copies ∨ x ∈ phis) ∧
      (∀ b, b ∈ st.copy_blocks ↔ b ∈ copy_blocks ∨ b ∈ st.phi_blocks) := by
  have hdef1 : ∀ b ∈ g.blocks, ∃ df, df_map b = some df := by
    intro b hb
    exact Option.isSome_iff_exists.1 (hdef b hb)
  have hblocks1 : ∀ b ∈ g.blocks, ∀ df, df_map b = some df → ∀ y ∈ df, y ∈ g.blocks := by
    intro b hb df hdf y hy
    have := hblocks b hb y
    rw [hdf] at this
    exact this hy
  have hinit : PhiInv g df_map orig copies copy_blocks
      (PhiState.mk g copies copy_blocks [] copy_blocks) :=
    ⟨List.nodup_nil, fun y hy => absurd hy (List.not_mem_nil y), fun b hb => Or.inl hb, rfl,
      ⟨[], by simp, rfl, fun phi hp => absurd hp (List.not_mem_nil phi), fun x => by simp⟩,
      fun n _ => ⟨rfl, rfl, rfl⟩, fun b => by simp⟩
  have hmeasure : phi_measure g.blocks (PhiState.mk g copies copy_blocks [] copy_blocks) <
      fuel := by
    unfold phi_measure
    have h1 : (g.blocks.toFinset \ ([] : List Nat).toFinset).card ≤ g.blocks.length := by
      simp only [List.toFinset_nil, Finset.sdiff_empty]
      exact List.toFinset_card_le g.blocks
    simp only
    omega
  obtain ⟨st, h1, h2, h3⟩ := place_phi_loop_ends g df_map orig appear copies copy_blocks
    g.blocks hdef1 hblocks1 hs fuel _ hinit (fun b hb => by
      rcases hb with hb | hb
      · exact Or.inl hb
      · exact absurd hb (List.not_mem_nil b)) hmeasure
  obtain ⟨phis, n1, n2, n3, n4⟩ := h2.nodes
  refine ⟨st, phis, ?_, h2.nodup, ?_, n1, n2, ?_, h2.old, h2.cfg, n4, h2.blocks⟩
  · unfold place_phi_functions
    rw [if_pos (by
      rw [List.all_eq_true]
      intro b hb
      exact hdom b hb)]
    exact h1
  · intro y
    exact ⟨h2.idf y, InIDF_of_done df_map copy_blocks st h3 y⟩
  · intro phi hp
    obtain ⟨k1, k2, k3⟩ := n3 phi hp
    refine ⟨k1, k2, k3, (n4 phi).2 (Or.inr hp), (h2.blocks _).2 (Or.inr ?_)⟩
    rw [← n2]
    exact List.mem_map_of_mem _ hp

/-- The theorem `place_phi_functions_idf` at `loopGraph` for the value 10
of block 1 and its copy 30 in the loop body 3. -/
theorem place_phi_functions_idf_witness :
    (∀ b ∈ [1, 3], loopDom.block_dominates (loopGraph.nodesBlock 10) b = true) ∧
      (∀ b ∈ loopGraph.blocks, (loopFrontiers b).isSome = true) ∧
      (∀ b ∈ loopGraph.blocks, ∀ y ∈ (loopFrontiers b).getD [], y ∈ loopGraph.blocks) ∧
      (∀ b ∈ [1, 3], b ∈ loopGraph.blocks) ∧
      [1, 3].length + loopGraph.blocks.length < 7 ∧
      ∃ st phis,
        place_phi_functions loopGraph loopDom loopFrontiers true 7 10 [10, 30] [1, 3] =
          some st ∧
        st.phi_blocks.Nodup ∧
        (∀ y, y ∈ st.phi_blocks ↔ InIDF loopFrontiers [1, 3] y) ∧
        st.g.nodes = loopGraph.nodes ++ phis ∧
        phis.map st.g.nodesBlock = st.phi_blocks ∧
        (∀ phi ∈ phis, st.g.kind phi = NodeKind.Phi ∧
          st.g.ins phi =
            List.replicate (loopGraph.cfgpreds (st.g.nodesBlock phi)).length
              (Operand.node 10) ∧
          phi ∉ loopGraph.nodes ∧ phi ∈ st.copies ∧ st.g.nodesBlock phi ∈ st.copy_blocks) ∧
        (∀ n ∈ loopGraph.nodes,
          st.g.kind n = loopGraph.kind n ∧ st.g.nodesBlock n = loopGraph.nodesBlock n ∧
            st.g.ins n = loopGraph.ins n) ∧
        st.g.cfgpreds = loopGraph.cfgpreds ∧
        (∀ x, x ∈ st.copies ↔ x ∈ [10, 30] ∨ x ∈ phis) ∧
        (∀ b, b ∈ st.copy_blocks ↔ b ∈ [1, 3] ∨ b ∈ st.phi_blocks) :=
  ⟨by decide, by decide, by decide, by decide, by decide,
    place_phi_functions_idf loopGraph loopDom loopFrontiers true 7 10 [10, 30] [1, 3]
      (by decide) (by decide) (by decide) (by decide) (by decide)⟩

/-- The call of `place_phi_functions` at `loopGraph` for the value 10 of
block 1 and its copy 30 in the loop body 3: the loop header 2 gets the Phi
42 with two operands, and the header is the only block of the iterated
dominance frontier. -/
theorem place_phi_functions_loop_example :
    ((place_phi_functions loopGraph loopDom loopFrontiers true 7 10 [10, 30] [1, 3]).map
        fun st => (st.phi_blocks, st.copies, st.copy_blocks, st.g.nodes, st.g.kind 42,
          st.g.nodesBlock 42, st.g.ins 42, st.g.sched 2)) =
      some ([2], [10, 30, 42], [1, 3, 2], [10, 11, 20, 21, 22, 30, 31, 40, 41, 42],
        NodeKind.Phi, 2, [Operand.node 10, Operand.node 10], [42, 20, 21, 22]) ∧
      InIDF loopFrontiers [1, 3] 2 ∧ place_phi_functions loopGraph loopDom loopFrontiers true 2
        10 [10, 30] [1, 3] = none :=
  ⟨rfl, InIDF.base 3 2 [2] (by decide) (by decide) (by decide), rfl⟩

/-! ## The jump table -/

theorem wrapInt_id {x : Int} (h1 : LONG_MIN ≤ x) (h2 : x ≤ LONG_MAX) : wrapInt x = x := by
  unfold wrapInt
  unfold LONG_MIN at h1
  unfold LONG_MAX at h2
  omega

theorem tableEntry_succ (d : Nat) (bs : List Branch) (v : Int) (k : Nat) :
    tableEntry d bs v (k + 1) = tableEntry d bs (v + 1) k := by
  unfold tableEntry
  have : (fun b : Branch => decide (b.value = v + ((k + 1 : Nat) : Int))) =
      fun b : Branch => decide (b.value = v + 1 + (k : Int)) := by
    funext b
    congr 1
    apply propext
    constructor <;> intro h <;> rw [h] <;> push_cast <;> ring
  rw [this]

theorem range_map_succ (f : Nat → Nat) (n : Nat) :
    (List.range (n + 1)).map f = f 0 :: (List.range n).map fun k => f (k + 1) := by
  rw [List.range_succ_eq_map, List.map_cons, List.map_map]
  rfl

theorem emit_entries_spec (d : Nat) : ∀ (fuel : Nat) (v : Int) (bs : List Branch)
    (out : List Nat) (last : Int),
    bs.Pairwise (fun a b => a.value < b.value) →
    (∀ b ∈ bs, v ≤ b.value ∧ b.value ≤ last) → last ≤ LONG_MAX → LONG_MIN ≤ v →
    (∃ b ∈ bs, b.value = last) → last - v + 1 ≤ fuel →
    emit_entries d fuel v bs out =
      some (out ++ (List.range (last - v + 1).toNat).map (tableEntry d bs v)) := by
  intro fuel
  induction fuel with
  | zero =>
    intro v bs out last _ hr _ _ hex hf
    obtain ⟨b, hb, hbl⟩ := hex
    have := (hr b hb).1
    simp only [Nat.cast_zero] at hf
    omega
  | succ fuel ih =>
    intro v bs out last hs hr hmax hmin hex hf
    cases bs with
    | nil =>
      obtain ⟨b, hb, _⟩ := hex
      exact absurd hb (List.not_mem_nil b)
    | cons b rest =>
      obtain ⟨hs1, hs2⟩ := List.pairwise_cons.1 hs
      have hb := hr b (List.mem_cons_self _ _)
      have hn : (last - v + 1).toNat = (last - v).toNat + 1 := by omega
      rw [hn, range_map_succ]
      have htail : (fun k => tableEntry d (b :: rest) v (k + 1)) =
          fun k => tableEntry d (b :: rest) (v + 1) k := by
        funext k
        exact tableEntry_succ d _ v k
      unfold emit_entries
      by_cases hv : v = b.value
      · rw [if_neg (not_not.2 hv)]
        have hhead : tableEntry d (b :: rest) v 0 = b.target := by
          unfold tableEntry
          simp [hv]
        rw [hhead]
        cases rest with
        | nil =>
          obtain ⟨b1, hb1, hb1l⟩ := hex
          have : b1 = b := by simpa using hb1
          rw [this] at hb1l
          have h0 : (last - v).toNat = 0 := by omega
          rw [h0]
          simp [emit_entries]
        | cons c rest1 =>
          have hgt : ∀ x ∈ c :: rest1, b.value < x.value := hs1
          have hc := hgt c (List.mem_cons_self _ _)
          have hcl := (hr c (List.mem_cons_of_mem _ (List.mem_cons_self _ _))).2
          have hw : wrapInt (v + 1) = v + 1 := by
            apply wrapInt_id <;> omega
          rw [hw]
          have hex1 : ∃ x ∈ c :: rest1, x.value = last := by
            obtain ⟨b1, hb1, hb1l⟩ := hex
            rcases List.mem_cons.1 hb1 with h | h
            · rw [h] at hb1l; omega
            · exact ⟨b1, h, hb1l⟩
          have := ih (v + 1) (c :: rest1) (out ++ [b.target]) last hs2
            (fun x hx => ⟨by have := hgt x hx; omega, (hr x (List.mem_cons_of_mem _ hx)).2⟩)
            hmax (by omega) hex1 (by push_cast at hf; omega)
          rw [this]
          have h1 : (last - (v + 1) + 1).toNat = (last - v).toNat := by
            congr 1; ring
          rw [h1]
          have htl : (fun k => tableEntry d (b :: c :: rest1) v (k + 1)) =
              tableEntry d (c :: rest1) (v + 1) := by
            funext k
            rw [tableEntry_succ]
            unfold tableEntry
            have hne : ¬ (b.value = v + 1 + (k : Int)) := by omega
            simp [List.find?, hne]
          rw [htl]
          simp
      · rw [if_pos hv]
        have hlt : v < b.value := lt_of_le_of_ne hb.1 hv
        have hw : wrapInt (v + 1) = v + 1 := by
          apply wrapInt_id <;> omega
        rw [hw]
        have hge : ∀ x ∈ b :: rest, b.value ≤ x.value := by
          intro x hx
          rcases List.mem_cons.1 hx with h | h
          · rw [h]
          · exact (hs1 x h).le
        have := ih (v + 1) (b :: rest) (out ++ [d]) last hs
          (fun x hx => ⟨by have := hge x hx; omega, (hr x hx).2⟩)
          hmax (by omega) hex (by push_cast at hf; omega)
        rw [this]
        have h1 : (last - (v + 1) + 1).toNat = (last - v).toNat := by
          congr 1; ring
        rw [h1, htail]
        have hhead : tableEntry d (b :: rest) v 0 = d := by
          unfold tableEntry
          have hnone : (b :: rest).find? (fun x => decide (x.value = v + ((0 : Nat) : Int))) =
              none := by
            rw [List.find?_eq_none]
            intro x hx
            have := hge x hx
            simp only [Nat.cast_zero, add_zero, decide_eq_true_eq]
            omega
          rw [hnone]
        rw [hhead]
        simp

theorem collect_proj_fold (d : Int) : ∀ (projs : List (Nat × Int)) (t0 t : JmpTbl),
    projs.foldlM (collect_proj d) t0 = some t →
    t.branches = t0.branches ++
        (projs.filter fun p => decide (p.2 ≠ d)).map (fun p => Branch.mk p.1 (wrapInt p.2)) ∧
      t.num_branches = t0.num_branches ∧
      t.min_value ≤ t0.min_value ∧ (∀ p ∈ projs, p.2 ≠ d → t.min_value ≤ p.2) ∧
      (t.min_value = t0.min_value ∨ ∃ p ∈ projs, p.2 ≠ d ∧ p.2 = t.min_value) ∧
      t0.max_value ≤ t.max_value ∧ (∀ p ∈ projs, p.2 ≠ d → p.2 ≤ t.max_value) ∧
      (t.max_value = t0.max_value ∨ ∃ p ∈ projs, p.2 ≠ d ∧ p.2 = t.max_value) ∧
      (t.defProj = t0.defProj ∨ ∃ p ∈ projs, p.2 = d ∧ t.defProj = some p.1) := by
  intro projs
  induction projs with
  | nil =>
    intro t0 t h
    simp only [List.foldlM_nil] at h
    have : t0 = t := Option.some.inj h
    rw [← this]
    simp
  | cons q rest ih =>
    intro t0 t h
    simp only [List.foldlM_cons, Option.bind_eq_bind, Option.bind_eq_some] at h
    obtain ⟨t1, h1, h2⟩ := h
    obtain ⟨a1, a2, a3, a4, a5, a6, a7, a8, a9⟩ := ih t1 t h2
    unfold collect_proj at h1
    by_cases hq : q.2 = d
    · simp only [hq, if_true] at h1
      split_ifs at h1 with hd
      have ht1 : t1 = { t0 with defProj := some q.1 } := (Option.some.inj h1).symm
      rw [ht1] at a1 a2 a3 a5 a6 a8 a9
      simp only at a1 a2 a3 a5 a6 a8 a9
      refine ⟨?_, a2, a3, ?_, ?_, a6, ?_, ?_, ?_⟩
      · rw [a1]
        simp [hq]
      · intro p hp hpd
        rcases List.mem_cons.1 hp with h | h
        · rw [h] at hpd; exact absurd hq hpd
        · exact a4 p h hpd
      · rcases a5 with h | ⟨p, hp, h⟩
        · exact Or.inl h
        · exact Or.inr ⟨p, List.mem_cons_of_mem _ hp, h⟩
      · intro p hp hpd
        rcases List.mem_cons.1 hp with h | h
        · rw [h] at hpd; exact absurd hq hpd
        · exact a7 p h hpd
      · rcases a8 with h | ⟨p, hp, h⟩
        · exact Or.inl h
        · exact Or.inr ⟨p, List.mem_cons_of_mem _ hp, h⟩
      · rcases a9 with h | ⟨p, hp, h⟩
        · exact Or.inr ⟨q, List.mem_cons_self _ _, hq, h⟩
        · exact Or.inr ⟨p, List.mem_cons_of_mem _ hp, h⟩
    · simp only [hq, if_false] at h1
      have ht1 := (Option.some.inj h1).symm
      rw [ht1] at a1 a2 a3 a5 a6 a8 a9
      simp only at a1 a2 a3 a5 a6 a8 a9
      refine ⟨?_, a2, ?_, ?_, ?_, ?_, ?_, ?_, ?_⟩
      · rw [a1]
        simp [hq]
      · split_ifs at a3 <;> omega
      · intro p hp hpd
        rcases List.mem_cons.1 hp with h | h
        · rw [h]
          split_ifs at a3 <;> omega
        · exact a4 p h hpd
      · rcases a5 with h | ⟨p, hp, h⟩
        · split_ifs at h with hlt
          · exact Or.inr ⟨q, List.mem_cons_self _ _, hq, h.symm⟩
          · exact Or.inl h
        · exact Or.inr ⟨p, List.mem_cons_of_mem _ hp, h⟩
      · split_ifs at a6 <;> omega
      · intro p hp hpd
        rcases List.mem_cons.1 hp with h | h
        · rw [h]
          split_ifs at a6 <;> omega
        · exact a7 p h hpd
      · rcases a8 with h | ⟨p, hp, h⟩
        · split_ifs at h with hlt
          · exact Or.inr ⟨q, List.mem_cons_self _ _, hq, h.symm⟩
          · exact Or.inl h
        · exact Or.inr ⟨p, List.mem_cons_of_mem _ hp, h⟩
      · rcases a9 with h | ⟨p, hp, h⟩
        · exact Or.inl h
        · exact Or.inr ⟨p, List.mem_cons_of_mem _ hp, h⟩

theorem collect_proj_fold_some (d : Int) : ∀ (projs : List (Nat × Int)) (t0 : JmpTbl),
    (projs.filter fun p => decide (p.2 = d)).length + (if t0.defProj.isSome then 1 else 0) ≤ 1 →
    ∃ t, projs.foldlM (collect_proj d) t0 = some t ∧
      (((projs.filter fun p => decide (p.2 = d)).length = 1 ∨ t0.defProj.isSome = true) →
        t.defProj.isSome = true) := by
  intro projs
  induction projs with
  | nil =>
    intro t0 _
    refine ⟨t0, rfl, ?_⟩
    rintro (h | h)
    · simp at h
    · exact h
  | cons q rest ih =>
    intro t0 h
    by_cases hq : q.2 = d
    · have hf : ((q :: rest).filter fun p => decide (p.2 = d)) =
          q :: rest.filter fun p => decide (p.2 = d) := by simp [hq]
      rw [hf] at h
      simp only [List.length_cons] at h
      have hd : t0.defProj.isSome = false := by
        cases hx : t0.defProj.isSome with
        | false => rfl
        | true => rw [hx] at h; simp at h
      have hstep : collect_proj d t0 q = some { t0 with defProj := some q.1 } := by
        unfold collect_proj
        simp [hq, hd]
      have hc : (rest.filter fun p => decide (p.2 = d)).length = 0 := by omega
      obtain ⟨t, ht, hdef⟩ := ih { t0 with defProj := some q.1 } (by rw [hc]; simp)
      refine ⟨t, ?_, fun _ => hdef (Or.inr rfl)⟩
      rw [List.foldlM_cons, hstep]
      exact ht
    · have hf : ((q :: rest).filter fun p => decide (p.2 = d)) =
          rest.filter fun p => decide (p.2 = d) := by simp [hq]
      rw [hf] at h ⊢
      have hstep : ∃ t1, collect_proj d t0 q = some t1 ∧ t1.defProj = t0.defProj := by
        unfold collect_proj
        simp [hq]
      obtain ⟨t1, ht1, hd1⟩ := hstep
      obtain ⟨t, ht, hdef⟩ := ih t1 (by rw [hd1]; exact h)
      refine ⟨t, ?_, ?_⟩
      · rw [List.foldlM_cons, ht1]
        exact ht
      · rw [hd1] at hdef
        exact hdef

theorem length_filter_split (d : Int) : ∀ (projs : List (Nat × Int)),
    (projs.filter fun p => decide (p.2 = d)).length +
      (projs.filter fun p => decide (p.2 ≠ d)).length = projs.length := by
  intro projs
  induction projs with
  | nil => rfl
  | cons q rest ih =>
    by_cases hq : q.2 = d
    · rw [List.filter_cons_of_pos (by simp [hq]), List.filter_cons_of_neg (by simp [hq])]
      simp only [List.length_cons]
      omega
    · rw [List.filter_cons_of_neg (by simp [hq]), List.filter_cons_of_pos (by simp [hq])]
      simp only [List.length_cons]
      omega

theorem ia32_cmp_branch_t_le (a b : Branch) : ia32_cmp_branch_t a b ≤ 0 ↔ a.value ≤ b.value := by
  unfold ia32_cmp_branch_t
  split_ifs with h
  · simp [h]
  · simp [h]

theorem sorted_qsort_branches (l : List Branch) :
    List.Pairwise (fun a b => a.value ≤ b.value) (qsort_arr ia32_cmp_branch_t l) := by
  haveI : IsTotal Branch (fun a b => ia32_cmp_branch_t a b ≤ 0) :=
    ⟨fun a b => by
      rw [ia32_cmp_branch_t_le, ia32_cmp_branch_t_le]
      exact le_total _ _⟩
  haveI : IsTrans Branch (fun a b => ia32_cmp_branch_t a b ≤ 0) :=
    ⟨fun a b c => by
      rw [ia32_cmp_branch_t_le, ia32_cmp_branch_t_le, ia32_cmp_branch_t_le]
      exact le_trans⟩
  have h := List.sorted_insertionSort (fun a b => ia32_cmp_branch_t a b ≤ 0) l
  exact List.Pairwise.imp (fun {a b} hab => (ia32_cmp_branch_t_le a b).1 hab) h

theorem perm_qsort_arr {α : Type} (cmp : α → α → Int) (l : List α) :
    (qsort_arr cmp l).Perm l := List.perm_insertionSort _ l

/-- C10: for a `SwitchJmp` with one default Proj and at least two other Projs
with pairwise distinct numbers, `emit_ia32_SwitchJmp` and `bemit_switchjmp`
emit a jump table with `max - min + 1` entries, in which entry `k` is the Proj
with the number `min + k` if there is one and the default Proj otherwise;
`min` and `max` are the smallest and the largest number of a Proj that is not
the default. -/
theorem switch_jump_table (projs : List (Nat × Int)) (default_pn : Int) (fuel : Nat)
    (hlong : ∀ p ∈ projs, LONG_MIN ≤ p.2 ∧ p.2 ≤ LONG_MAX)
    (hdef : (projs.filter fun p => decide (p.2 = default_pn)).length = 1)
    (htwo : 2 ≤ (projs.filter fun p => decide (p.2 ≠ default_pn)).length)
    (hdist : ((projs.filter fun p => decide (p.2 ≠ default_pn)).map fun p => p.2).Nodup)
    (hfuel : ∀ p ∈ projs, ∀ q ∈ projs, p.2 ≠ default_pn → q.2 ≠ default_pn →
      q.2 - p.2 + 1 ≤ fuel) :
    ∃ tbl d entries,
      generate_jump_table projs default_pn = some tbl ∧
      (∃ p ∈ projs, p.2 = default_pn ∧ p.1 = d) ∧
      (∃ p ∈ projs, p.2 ≠ default_pn ∧ p.2 = tbl.min_value) ∧
      (∃ p ∈ projs, p.2 ≠ default_pn ∧ p.2 = tbl.max_value) ∧
      (∀ p ∈ projs, p.2 ≠ default_pn → tbl.min_value ≤ p.2 ∧ p.2 ≤ tbl.max_value) ∧
      emit_ia32_SwitchJmp projs default_pn fuel =
        some (SwitchCode.table ((tbl.max_value - tbl.min_value) % 4294967296).toNat d entries) ∧
      bemit_switchjmp projs default_pn fuel =
        some (SwitchCode.table ((tbl.max_value - tbl.min_value) % 4294967296).toNat d entries) ∧
      (entries.length : Int) = tbl.max_value - tbl.min_value + 1 ∧
      ∀ k, k < entries.length →
        (∀ p ∈ projs, p.2 ≠ default_pn → p.2 = tbl.min_value + k → entries[k]? = some p.1) ∧
        ((∀ p ∈ projs, p.2 ≠ default_pn → p.2 ≠ tbl.min_value + k) →
          entries[k]? = some d) := by
  obtain ⟨t, hfold, hsome⟩ := collect_proj_fold_some default_pn projs
    (JmpTbl.mk none LONG_MAX LONG_MIN ((projs.length : Int) - 1) [])
    (by rw [hdef]; simp)
  obtain ⟨a1, a2, a3, a4, a5, a6, a7, a8, a9⟩ := collect_proj_fold default_pn projs _ t hfold
  simp only [List.nil_append] at a1 a2 a3 a5 a6 a8 a9
  have hcase : ∀ p, p ∈ (projs.filter fun p => decide (p.2 ≠ default_pn)) ↔
      p ∈ projs ∧ p.2 ≠ default_pn := by
    intro p
    simp [List.mem_filter]
  -- a Proj that is not the default
  obtain ⟨c0, hc0⟩ : ∃ c, c ∈ (projs.filter fun p => decide (p.2 ≠ default_pn)) := by
    cases hx : (projs.filter fun p => decide (p.2 ≠ default_pn)) with
    | nil => rw [hx] at htwo; simp at htwo
    | cons c _ => exact ⟨c, List.mem_cons_self _ _⟩
  have hc0' := (hcase c0).1 hc0
  -- the default Proj
  have hd1 := hsome (Or.inl hdef)
  obtain ⟨d, hd⟩ := Option.isSome_iff_exists.1 hd1
  have hdp : ∃ p ∈ projs, p.2 = default_pn ∧ p.1 = d := by
    rcases a9 with h | ⟨p, hp, hpd, h⟩
    · rw [hd] at h; exact absurd h (by simp)
    · rw [hd] at h
      exact ⟨p, hp, hpd, (Option.some.inj h).symm⟩
  -- the smallest and the largest number
  have hmin : ∃ p ∈ projs, p.2 ≠ default_pn ∧ p.2 = t.min_value := by
    rcases a5 with h | h
    · refine ⟨c0, hc0'.1, hc0'.2, ?_⟩
      have h1 := a4 c0 hc0'.1 hc0'.2
      have h2 := (hlong c0 hc0'.1).2
      omega
    · exact h
  have hmax : ∃ p ∈ projs, p.2 ≠ default_pn ∧ p.2 = t.max_value := by
    rcases a8 with h | h
    · refine ⟨c0, hc0'.1, hc0'.2, ?_⟩
      have h1 := a7 c0 hc0'.1 hc0'.2
      have h2 := (hlong c0 hc0'.1).1
      omega
    · exact h
  -- the branches
  have hbr : t.branches =
      (projs.filter fun p => decide (p.2 ≠ default_pn)).map fun p => Branch.mk p.1 p.2 := by
    rw [a1]
    apply List.map_congr_left
    intro p hp
    have := hlong p ((hcase p).1 hp).1
    rw [wrapInt_id this.1 this.2]
  have hlen : (t.branches.length : Int) = t.num_branches := by
    rw [a2, hbr, List.length_map]
    have := length_filter_split default_pn projs
    omega
  have hgen : generate_jump_table projs default_pn =
      some { t with branches := qsort_arr ia32_cmp_branch_t t.branches } := by
    unfold generate_jump_table
    simp only [hfold]
    rw [if_pos hlen]
  have hperm := perm_qsort_arr ia32_cmp_branch_t t.branches
  have hmem : ∀ b, b ∈ qsort_arr ia32_cmp_branch_t t.branches ↔
      ∃ p ∈ projs, p.2 ≠ default_pn ∧ b = Branch.mk p.1 p.2 := by
    intro b
    rw [hperm.mem_iff, hbr, List.mem_map]
    constructor
    · rintro ⟨p, hp, h⟩
      exact ⟨p, ((hcase p).1 hp).1, ((hcase p).1 hp).2, h.symm⟩
    · rintro ⟨p, hp, hpd, h⟩
      exact ⟨p, (hcase p).2 ⟨hp, hpd⟩, h.symm⟩
  have hnod : ((qsort_arr ia32_cmp_branch_t t.branches).map fun b => b.value).Nodup := by
    rw [(hperm.map _).nodup_iff, hbr, List.map_map]
    exact hdist
  have hlt : (qsort_arr ia32_cmp_branch_t t.branches).Pairwise fun a b => a.value < b.value := by
    have h1 := sorted_qsort_branches t.branches
    have h2 : (qsort_arr ia32_cmp_branch_t t.branches).Pairwise fun a b => a.value ≠ b.value :=
      List.pairwise_map.1 hnod
    exact (h1.and h2).imp fun {a b} h => lt_of_le_of_ne h.1 h.2
  have hnum : t.num_branches > 1 := by
    rw [← hlen, hbr, List.length_map]
    omega
  -- the first branch has the smallest number
  cases hs : qsort_arr ia32_cmp_branch_t t.branches with
  | nil =>
    have := hperm.length_eq
    rw [hs, hbr, List.length_map] at this
    simp only [List.length_nil] at this
    omega
  | cons b0 rest0 =>
    rw [hs] at hmem hlt
    have hb0 : b0.value = t.min_value := by
      obtain ⟨p, hp, hpd, hb⟩ := (hmem b0).1 (List.mem_cons_self _ _)
      obtain ⟨pm, hpm, hpmd, hpmv⟩ := hmin
      have h1 := a4 p hp hpd
      have h2 : Branch.mk pm.1 pm.2 ∈ b0 :: rest0 := (hmem _).2 ⟨pm, hpm, hpmd, rfl⟩
      rw [hb]
      simp only
      rcases List.mem_cons.1 h2 with h | h
      · rw [← h] at hb
        have : pm.2 = p.2 := by
          have := congrArg Branch.value hb
          simpa using this
        omega
      · have := (List.pairwise_cons.1 hlt).1 _ h
        rw [hb] at this
        simp only at this
        omega
    have hrange : ∀ b ∈ b0 :: rest0, t.min_value ≤ b.value ∧ b.value ≤ t.max_value := by
      intro b hb
      obtain ⟨p, hp, hpd, h⟩ := (hmem b).1 hb
      rw [h]
      exact ⟨a4 p hp hpd, a7 p hp hpd⟩
    have hlast : ∃ b ∈ b0 :: rest0, b.value = t.max_value := by
      obtain ⟨p, hp, hpd, hv⟩ := hmax
      exact ⟨Branch.mk p.1 p.2, (hmem _).2 ⟨p, hp, hpd, rfl⟩, hv⟩
    have hmaxle : t.max_value ≤ LONG_MAX := by
      obtain ⟨p, hp, _, hv⟩ := hmax
      rw [← hv]; exact (hlong p hp).2
    have hminge : LONG_MIN ≤ t.min_value := by
      obtain ⟨p, hp, _, hv⟩ := hmin
      rw [← hv]; exact (hlong p hp).1
    have hf : t.max_value - t.min_value + 1 ≤ fuel := by
      obtain ⟨p, hp, hpd, hv⟩ := hmin
      obtain ⟨q, hq, hqd, hw⟩ := hmax
      rw [← hv, ← hw]
      exact hfuel p hp q hq hpd hqd
    have hemit := emit_entries_spec d fuel t.min_value (b0 :: rest0) [] t.max_value hlt hrange
      hmaxle hminge hlast hf
    rw [List.nil_append] at hemit
    have hpos : 0 ≤ t.max_value - t.min_value + 1 := by
      have := hrange b0 (List.mem_cons_self _ _)
      omega
    refine ⟨_, d,
      (List.range (t.max_value - t.min_value + 1).toNat).map
        (tableEntry d (b0 :: rest0) t.min_value),
      hgen, hdp, hmin, hmax, fun p hp hpd => ⟨a4 p hp hpd, a7 p hp hpd⟩, ?_, ?_, ?_, ?_⟩
    · unfold emit_ia32_SwitchJmp
      simp only [hgen, hd, hs, if_pos hnum, hb0, hemit, Option.map_some']
    · unfold bemit_switchjmp
      simp only [hgen, hd, hs, if_pos hnum, hb0, hemit, Option.map_some']
    · rw [List.length_map, List.length_range]
      exact Int.toNat_of_nonneg hpos
    · intro k hk
      rw [List.length_map, List.length_range] at hk
      have hget : ((List.range (t.max_value - t.min_value + 1).toNat).map
          (tableEntry d (b0 :: rest0) t.min_value))[k]? =
          some (tableEntry d (b0 :: rest0) t.min_value k) := by
        rw [List.getElem?_map, List.getElem?_range hk]
        rfl
      rw [hget]
      constructor
      · intro p hp hpd hpv
        unfold tableEntry
        cases hfind : (b0 :: rest0).find? fun b => decide (b.value = t.min_value + (k : Int)) with
        | none =>
          rw [List.find?_eq_none] at hfind
          have := hfind (Branch.mk p.1 p.2) ((hmem _).2 ⟨p, hp, hpd, rfl⟩)
          simp only [decide_eq_true_eq] at this
          exact absurd hpv this
        | some b =>
          have hbv := List.find?_some hfind
          simp only [decide_eq_true_eq] at hbv
          obtain ⟨q, hq, hqd, hb⟩ := (hmem b).1 (List.mem_of_find?_eq_some hfind)
          have hqv : q.2 = p.2 := by
            rw [hb] at hbv
            simp only at hbv
            rw [hbv, hpv]
          have hqp : q = p :=
            List.inj_on_of_nodup_map hdist ((hcase q).2 ⟨hq, hqd⟩) ((hcase p).2 ⟨hp, hpd⟩) hqv
          rw [hb, hqp]
      · intro hno
        unfold tableEntry
        cases hfind : (b0 :: rest0).find? fun b => decide (b.value = t.min_value + (k : Int)) with
        | none => rfl
        | some b =>
          have hbv := List.find?_some hfind
          simp only [decide_eq_true_eq] at hbv
          obtain ⟨q, hq, hqd, hb⟩ := (hmem b).1 (List.mem_of_find?_eq_some hfind)
          rw [hb] at hbv
          exact absurd hbv (hno q hq hqd)

/-- C10 for the cases 2 and 5, with the Projs 102 and 105, and the default
Proj 100: the table is `[102, 100, 100, 105]`. -/
theorem switch_jump_table_witness :
    ∃ tbl d entries,
      generate_jump_table [(105, 5), (100, 9), (102, 2)] 9 = some tbl ∧
      (∃ p ∈ [((105 : Nat), (5 : Int)), (100, 9), (102, 2)], p.2 = 9 ∧ p.1 = d) ∧
      (∃ p ∈ [((105 : Nat), (5 : Int)), (100, 9), (102, 2)], p.2 ≠ 9 ∧ p.2 = tbl.min_value) ∧
      (∃ p ∈ [((105 : Nat), (5 : Int)), (100, 9), (102, 2)], p.2 ≠ 9 ∧ p.2 = tbl.max_value) ∧
      (∀ p ∈ [((105 : Nat), (5 : Int)), (100, 9), (102, 2)], p.2 ≠ 9 →
        tbl.min_value ≤ p.2 ∧ p.2 ≤ tbl.max_value) ∧
      emit_ia32_SwitchJmp [(105, 5), (100, 9), (102, 2)] 9 4 =
        some (SwitchCode.table ((tbl.max_value - tbl.min_value) % 4294967296).toNat d entries) ∧
      bemit_switchjmp [(105, 5), (100, 9), (102, 2)] 9 4 =
        some (SwitchCode.table ((tbl.max_value - tbl.min_value) % 4294967296).toNat d entries) ∧
      (entries.length : Int) = tbl.max_value - tbl.min_value + 1 ∧
      ∀ k, k < entries.length →
        (∀ p ∈ [((105 : Nat), (5 : Int)), (100, 9), (102, 2)], p.2 ≠ 9 →
          p.2 = tbl.min_value + k → entries[k]? = some p.1) ∧
        ((∀ p ∈ [((105 : Nat), (5 : Int)), (100, 9), (102, 2)], p.2 ≠ 9 →
          p.2 ≠ tbl.min_value + k) → entries[k]? = some d) :=
  switch_jump_table [(105, 5), (100, 9), (102, 2)] 9 4 (by decide) (by decide) (by decide)
    (by decide) (by decide)

/-- The jump table for the cases 2 and 5 with the default Proj 100, from both
emitters. -/
theorem switch_jump_table_example :
    emit_ia32_SwitchJmp [(105, 5), (100, 9), (102, 2)] 9 4 =
        some (SwitchCode.table 3 100 [102, 100, 100, 105]) ∧
      bemit_switchjmp [(105, 5), (100, 9), (102, 2)] 9 4 =
        some (SwitchCode.table 3 100 [102, 100, 100, 105]) := by
  decide

/-! ## A switch with one case -/

/-- C11 fails: for the case 5 with the Proj 105 and the default Proj 100 the
text emitter emits the compare, the branch to the default target and a jump
to Proj 105; the binary emitter aborts (`panic("switch only has one case")`). -/
theorem bemit_switchjmp_one_case :
    emit_ia32_SwitchJmp [(105, 5), (100, 9)] 9 4 = some (SwitchCode.jump 0 100 105) ∧
      bemit_switchjmp [(105, 5), (100, 9)] 9 4 = none := by
  decide

/-- C11, as far as it holds: for a `SwitchJmp` with one default Proj and
exactly one other Proj, `emit_ia32_SwitchJmp` emits the compare (with the
interval 0), the branch to the default Proj and one jump to the other Proj,
and no table; `bemit_switchjmp` aborts. -/
theorem switchjmp_one_case (projs : List (Nat × Int)) (default_pn : Int) (fuel : Nat)
    (c : Nat × Int)
    (hlong : ∀ p ∈ projs, LONG_MIN ≤ p.2 ∧ p.2 ≤ LONG_MAX)
    (hdef : (projs.filter fun p => decide (p.2 = default_pn)).length = 1)
    (hone : (projs.filter fun p => decide (p.2 ≠ default_pn)) = [c]) :
    ∃ d, (∃ p ∈ projs, p.2 = default_pn ∧ p.1 = d) ∧
      emit_ia32_SwitchJmp projs default_pn fuel = some (SwitchCode.jump 0 d c.1) ∧
      bemit_switchjmp projs default_pn fuel = none := by
  obtain ⟨t, hfold, hsome⟩ := collect_proj_fold_some default_pn projs
    (JmpTbl.mk none LONG_MAX LONG_MIN ((projs.length : Int) - 1) [])
    (by rw [hdef]; simp)
  obtain ⟨a1, a2, a3, a4, a5, a6, a7, a8, a9⟩ := collect_proj_fold default_pn projs _ t hfold
  simp only [List.nil_append] at a1 a2 a3 a5 a6 a8 a9
  have hc : c ∈ projs ∧ c.2 ≠ default_pn := by
    have : c ∈ (projs.filter fun p => decide (p.2 ≠ default_pn)) := by
      rw [hone]; exact List.mem_singleton_self c
    simpa [List.mem_filter] using this
  have honly : ∀ p ∈ projs, p.2 ≠ default_pn → p = c := by
    intro p hp hpd
    have : p ∈ (projs.filter fun p => decide (p.2 ≠ default_pn)) := by
      simp [List.mem_filter, hp, hpd]
    rw [hone] at this
    exact List.mem_singleton.1 this
  have hd1 := hsome (Or.inl hdef)
  obtain ⟨d, hd⟩ := Option.isSome_iff_exists.1 hd1
  have hdp : ∃ p ∈ projs, p.2 = default_pn ∧ p.1 = d := by
    rcases a9 with h | ⟨p, hp, hpd, h⟩
    · rw [hd] at h; exact absurd h (by simp)
    · rw [hd] at h
      exact ⟨p, hp, hpd, (Option.some.inj h).symm⟩
  have hmin : t.min_value = c.2 := by
    rcases a5 with h | ⟨p, hp, hpd, h⟩
    · have h1 := a4 c hc.1 hc.2
      have h2 := (hlong c hc.1).2
      omega
    · rw [← h, honly p hp hpd]
  have hmax : t.max_value = c.2 := by
    rcases a8 with h | ⟨p, hp, hpd, h⟩
    · have h1 := a7 c hc.1 hc.2
      have h2 := (hlong c hc.1).1
      omega
    · rw [← h, honly p hp hpd]
  have hbr : t.branches = [Branch.mk c.1 (wrapInt c.2)] := by
    rw [a1, hone]
    rfl
  have hnum : t.num_branches = 1 := by
    rw [a2]
    have h1 := length_filter_split default_pn projs
    rw [hdef, hone] at h1
    simp only [List.length_singleton] at h1
    omega
  have hgen : generate_jump_table projs default_pn =
      some { t with branches := qsort_arr ia32_cmp_branch_t t.branches } := by
    unfold generate_jump_table
    simp only [hfold]
    rw [if_pos (by rw [hbr, hnum]; rfl)]
  have hq : qsort_arr ia32_cmp_branch_t t.branches = [Branch.mk c.1 (wrapInt c.2)] := by
    rw [hbr]
    rfl
  refine ⟨d, hdp, ?_, ?_⟩
  · unfold emit_ia32_SwitchJmp
    simp only [hgen, hd, hq, hnum, hmin, hmax]
    simp
  · unfold bemit_switchjmp
    simp only [hgen, hd, hq, hnum, hmin, hmax]
    simp

/-- C11 at the case 5 with the Proj 105 and the default Proj 100. -/
theorem switchjmp_one_case_witness :
    ∃ d, (∃ p ∈ [((105 : Nat), (5 : Int)), (100, 9)], p.2 = 9 ∧ p.1 = d) ∧
      emit_ia32_SwitchJmp [(105, 5), (100, 9)] 9 4 = some (SwitchCode.jump 0 d 105) ∧
      bemit_switchjmp [(105, 5), (100, 9)] 9 4 = none :=
  switchjmp_one_case [(105, 5), (100, 9)] 9 4 (105, 5) (by decide) (by decide) (by decide)

/-! ## Condition codes and conditional jumps -/

/-- C16: for a condition code that is the parity code or whose relation
`pnc & 7` is one of the six between 1 and 6, `ia32_emit_cmp_suffix` prints a
suffix and `pnc2cc` returns an encoding, and the encoding is the one of the
IA-32 condition that the suffix names; whether the compare is signed,
unsigned or a floating-point compare plays no role. -/
theorem cmp_suffix_matches_pnc2cc (K : CmpConsts) (hK : K.Positional) (pnc : Nat)
    (h : pnc = K.ia32_pn_Cmp_parity ∨ (1 ≤ pnc &&& 7 ∧ pnc &&& 7 ≤ 6)) :
    ∃ s cc, ia32_emit_cmp_suffix K pnc = some s ∧ pnc2cc K pnc = some cc ∧
      conditionEncoding s = some cc := by
  obtain ⟨k1, k2, k3, k4, k5, k6⟩ := hK
  unfold ia32_emit_cmp_suffix pnc2cc pnc_map_unsigned pnc_map_signed
  rw [k1, k2, k3, k4, k5, k6]
  by_cases hp : pnc = K.ia32_pn_Cmp_parity
  · refine ⟨"p", 0x0A, ?_, ?_, by decide⟩
    · rw [if_pos hp]
    · simp [hp]
  · rcases h with h | ⟨h1, h2⟩
    · exact absurd h hp
    · simp only [if_neg hp]
      generalize pnc &&& 7 = k at h1 h2
      by_cases hf : pnc &&& K.ia32_pn_Cmp_float ≠ 0 ∨ pnc &&& K.ia32_pn_Cmp_unsigned ≠ 0
      · simp only [if_pos hf]
        interval_cases k
        · exact ⟨"e", 0x4, by decide, by decide, by decide⟩
        · exact ⟨"b", 0x2, by decide, by decide, by decide⟩
        · exact ⟨"be", 0x6, by decide, by decide, by decide⟩
        · exact ⟨"a", 0x7, by decide, by decide, by decide⟩
        · exact ⟨"ae", 0x3, by decide, by decide, by decide⟩
        · exact ⟨"ne", 0x5, by decide, by decide, by decide⟩
      · simp only [if_neg hf]
        interval_cases k
        · exact ⟨"e", 0x4, by decide, by decide, by decide⟩
        · exact ⟨"l", 0xC, by decide, by decide, by decide⟩
        · exact ⟨"le", 0xE, by decide, by decide, by decide⟩
        · exact ⟨"g", 0xF, by decide, by decide, by decide⟩
        · exact ⟨"ge", 0xD, by decide, by decide, by decide⟩
        · exact ⟨"ne", 0x5, by decide, by decide, by decide⟩

theorem emit_ia32_Jcc_int (K : CmpConsts) (prev : Nat → Option Nat) (node : JccNode)
    (t f : Nat) (ht : node.true_target = some t) (hf : node.false_target = some f)
    (hint : determine_final_pnc K node.flags node.condcode &&& K.ia32_pn_Cmp_float = 0)
    (hneg : ia32_get_negated_pnc K (determine_final_pnc K node.flags node.condcode) &&&
      K.ia32_pn_Cmp_float = 0) :
    (can_be_fallthrough prev node.block t = true →
      can_be_fallthrough prev node.block f = false →
      ∀ s, ia32_emit_cmp_suffix K
          (ia32_get_negated_pnc K (determine_final_pnc K node.flags node.condcode)) = some s →
        emit_ia32_Jcc K prev node =
          some [AsmLine.branch ("j" ++ s) f, AsmLine.fallthrough t]) ∧
    (can_be_fallthrough prev node.block t = false →
      can_be_fallthrough prev node.block f = true →
      ∀ s, ia32_emit_cmp_suffix K (determine_final_pnc K node.flags node.condcode) = some s →
        emit_ia32_Jcc K prev node =
          some [AsmLine.branch ("j" ++ s) t, AsmLine.fallthrough f]) ∧
    (can_be_fallthrough prev node.block t = false →
      can_be_fallthrough prev node.block f = false →
      ∀ s, ia32_emit_cmp_suffix K (determine_final_pnc K node.flags node.condcode) = some s →
        emit_ia32_Jcc K prev node =
          some [AsmLine.branch ("j" ++ s) t, AsmLine.branch "jmp" f]) := by
  refine ⟨?_, ?_, ?_⟩
  · intro h1 _ s hs
    unfold emit_ia32_Jcc
    simp [ht, hf, h1, hneg, emit_jcc_line, hs]
  · intro h1 h2 s hs
    unfold emit_ia32_Jcc
    simp [ht, hf, h1, h2, hint, emit_jcc_line, hs]
  · intro h1 h2 s hs
    unfold emit_ia32_Jcc
    simp [ht, hf, h1, h2, hint, emit_jcc_line, hs]

theorem bemit_ia32_jcc_int (K : CmpConsts) (prev : Nat → Option Nat) (node : JccNode)
    (t f : Nat) (ht : node.true_target = some t) (hf : node.false_target = some f)
    (hint : determine_final_pnc K node.flags node.condcode &&& K.ia32_pn_Cmp_float = 0)
    (hneg : ia32_get_negated_pnc K (determine_final_pnc K node.flags node.condcode) &&&
      K.ia32_pn_Cmp_float = 0) :
    (can_be_fallthrough prev node.block t = true →
      can_be_fallthrough prev node.block f = false →
      ∀ cc, pnc2cc K
          (ia32_get_negated_pnc K (determine_final_pnc K node.flags node.condcode)) = some cc →
        bemit_ia32_jcc K prev node =
          some [bemit8 0x0F, bemit8 (0x80 + cc), BItem.jmp_destination f]) ∧
    (can_be_fallthrough prev node.block t = false →
      can_be_fallthrough prev node.block f = true →
      ∀ cc, pnc2cc K (determine_final_pnc K node.flags node.condcode) = some cc →
        bemit_ia32_jcc K prev node =
          some [bemit8 0x0F, bemit8 (0x80 + cc), BItem.jmp_destination t]) ∧
    (can_be_fallthrough prev node.block t = false →
      can_be_fallthrough prev node.block f = false →
      ∀ cc, pnc2cc K (determine_final_pnc K node.flags node.condcode) = some cc →
        bemit_ia32_jcc K prev node =
          some [bemit8 0x0F, bemit8 (0x80 + cc), BItem.jmp_destination t, bemit8 0xE9,
            BItem.jmp_destination f]) := by
  refine ⟨?_, ?_, ?_⟩
  · intro h1 _ cc hs
    unfold bemit_ia32_jcc
    simp [ht, hf, h1, hneg, bemit_jcc, hs]
  · intro h1 h2 cc hs
    unfold bemit_ia32_jcc
    simp [ht, hf, h1, h2, hint, bemit_jcc, hs]
  · intro h1 h2 cc hs
    unfold bemit_ia32_jcc
    simp [ht, hf, h1, h2, hint, bemit_jcc, hs, bemit_jmp]

theorem emit_arm_B_spec (R : RelConsts) (next : Nat → Option Nat) (verbose_asm : Bool)
    (irn : ArmBNode) (t f : Nat) (htf : t ≠ f)
    (ht : irn.true_target = some t) (hf : irn.false_target = some f)
    (h0 : (if irn.ins_permuted then R.get_inversed_relation irn.relation else irn.relation) ≠
      R.ir_relation_false)
    (h1 : (if irn.ins_permuted then R.get_inversed_relation irn.relation else irn.relation) ≠
      R.ir_relation_true) :
    (next irn.block = some t →
      ∀ s, arm_branch_suffix R (!irn.is_unsigned) (R.get_negated_relation
          (if irn.ins_permuted then R.get_inversed_relation irn.relation else irn.relation)) =
          some s →
        emit_arm_B R next verbose_asm irn =
          some (AsmLine.branch ("b" ++ s) f ::
            if verbose_asm then [AsmLine.fallthrough t] else [])) ∧
    (next irn.block = some f →
      ∀ s, arm_branch_suffix R (!irn.is_unsigned)
          (if irn.ins_permuted then R.get_inversed_relation irn.relation else irn.relation) =
          some s →
        emit_arm_B R next verbose_asm irn =
          some (AsmLine.branch ("b" ++ s) t ::
            if verbose_asm then [AsmLine.fallthrough f] else [])) ∧
    (next irn.block ≠ some t → next irn.block ≠ some f →
      ∀ s, arm_branch_suffix R (!irn.is_unsigned)
          (if irn.ins_permuted then R.get_inversed_relation irn.relation else irn.relation) =
          some s →
        emit_arm_B R next verbose_asm irn =
          some [AsmLine.branch ("b" ++ s) t, AsmLine.branch "b" f]) := by
  refine ⟨?_, ?_, ?_⟩
  · intro hn s hs
    unfold emit_arm_B
    simp [ht, hf, h0, h1, hn, hs]
  · intro hn s hs
    unfold emit_arm_B
    have hne : ¬ (t = f) := htf
    simp [ht, hf, h0, h1, hn, hs, hne]
  · intro hn1 hn2 s hs
    unfold emit_arm_B
    have e1 : ¬ (some t = next irn.block) := fun h => hn1 h.symm
    have e2 : ¬ (some f = next irn.block) := fun h => hn2 h.symm
    simp [ht, hf, h0, h1, e1, e2, hs]

/-- C12: a conditional jump on an integer compare with the target blocks `t`
(true) and `f` (false), `t ≠ f`; `pnc` and `rel` are the condition of the
ia32 node and the relation of the ARM node after `determine_final_pnc` and
after the inversion for permuted inputs, `npnc` and `nrel` their negations.
If `t` is the next scheduled block, `emit_ia32_Jcc` and `emit_arm_B` emit one
branch, to `f`, with the negated condition; if `f` is the next scheduled
block, one branch, to `t`, with the condition itself; if neither is, the
branch to `t` with the condition itself and an unconditional branch to `f`.
Besides the branches only the fall-through comment is emitted. -/
theorem cond_jump_fallthrough (K : CmpConsts) (prev : Nat → Option Nat) (node : JccNode)
    (R : RelConsts) (next : Nat → Option Nat) (verbose_asm : Bool) (irn : ArmBNode)
    (t f pnc npnc rel nrel : Nat) (htf : t ≠ f)
    (ht : node.true_target = some t) (hf : node.false_target = some f)
    (hp : determine_final_pnc K node.flags node.condcode = pnc)
    (hn : ia32_get_negated_pnc K pnc = npnc)
    (hint : pnc &&& K.ia32_pn_Cmp_float = 0) (hnint : npnc &&& K.ia32_pn_Cmp_float = 0)
    (hta : irn.true_target = some t) (hfa : irn.false_target = some f)
    (hr : (if irn.ins_permuted then R.get_inversed_relation irn.relation else irn.relation) =
      rel)
    (hnr : R.get_negated_relation rel = nrel)
    (h0 : rel ≠ R.ir_relation_false) (h1 : rel ≠ R.ir_relation_true) :
    ((can_be_fallthrough prev node.block t = true →
        can_be_fallthrough prev node.block f = false →
        ∀ s, ia32_emit_cmp_suffix K npnc = some s →
          emit_ia32_Jcc K prev node =
            some [AsmLine.branch ("j" ++ s) f, AsmLine.fallthrough t]) ∧
      (can_be_fallthrough prev node.block t = false →
        can_be_fallthrough prev node.block f = true →
        ∀ s, ia32_emit_cmp_suffix K pnc = some s →
          emit_ia32_Jcc K prev node =
            some [AsmLine.branch ("j" ++ s) t, AsmLine.fallthrough f]) ∧
      (can_be_fallthrough prev node.block t = false →
        can_be_fallthrough prev node.block f = false →
        ∀ s, ia32_emit_cmp_suffix K pnc = some s →
          emit_ia32_Jcc K prev node =
            some [AsmLine.branch ("j" ++ s) t, AsmLine.branch "jmp" f])) ∧
    ((next irn.block = some t →
        ∀ s, arm_branch_suffix R (!irn.is_unsigned) nrel = some s →
          emit_arm_B R next verbose_asm irn =
            some (AsmLine.branch ("b" ++ s) f ::
              if verbose_asm then [AsmLine.fallthrough t] else [])) ∧
      (next irn.block = some f →
        ∀ s, arm_branch_suffix R (!irn.is_unsigned) rel = some s →
          emit_arm_B R next verbose_asm irn =
            some (AsmLine.branch ("b" ++ s) t ::
              if verbose_asm then [AsmLine.fallthrough f] else [])) ∧
      (next irn.block ≠ some t → next irn.block ≠ some f →
        ∀ s, arm_branch_suffix R (!irn.is_unsigned) rel = some s →
          emit_arm_B R next verbose_asm irn =
            some [AsmLine.branch ("b" ++ s) t, AsmLine.branch "b" f])) := by
  subst hp hn hr hnr
  exact ⟨emit_ia32_Jcc_int K prev node t f ht hf hint hnint,
    emit_arm_B_spec R next verbose_asm irn t f htf hta hfa h0 h1⟩

/-- The binary emitter `bemit_ia32_jcc` follows the same rule as
`emit_ia32_Jcc`: a conditional jump `0F 80+cc` to the target that is not the
next block, with the negated condition if that target is the false target,
and a jump `E9` to the false target if no target is the next block. -/
theorem bemit_ia32_jcc_fallthrough (K : CmpConsts) (prev : Nat → Option Nat) (node : JccNode)
    (t f pnc npnc : Nat) (ht : node.true_target = some t) (hf : node.false_target = some f)
    (hp : determine_final_pnc K node.flags node.condcode = pnc)
    (hn : ia32_get_negated_pnc K pnc = npnc)
    (hint : pnc &&& K.ia32_pn_Cmp_float = 0) (hnint : npnc &&& K.ia32_pn_Cmp_float = 0) :
    (can_be_fallthrough prev node.block t = true →
      can_be_fallthrough prev node.block f = false →
      ∀ cc, pnc2cc K npnc = some cc →
        bemit_ia32_jcc K prev node =
          some [bemit8 0x0F, bemit8 (0x80 + cc), BItem.jmp_destination f]) ∧
    (can_be_fallthrough prev node.block t = false →
      can_be_fallthrough prev node.block f = true →
      ∀ cc, pnc2cc K pnc = some cc →
        bemit_ia32_jcc K prev node =
          some [bemit8 0x0F, bemit8 (0x80 + cc), BItem.jmp_destination t]) ∧
    (can_be_fallthrough prev node.block t = false →
      can_be_fallthrough prev node.block f = false →
      ∀ cc, pnc2cc K pnc = some cc →
        bemit_ia32_jcc K prev node =
          some [bemit8 0x0F, bemit8 (0x80 + cc), BItem.jmp_destination t, bemit8 0xE9,
            BItem.jmp_destination f]) := by
  subst hp hn
  exact bemit_ia32_jcc_int K prev node t f ht hf hint hnint

/-- C16 at the unsigned compare `<`. -/
theorem cmp_suffix_matches_pnc2cc_witness :
    ∃ s cc, ia32_emit_cmp_suffix firmCmpConsts 0x1002 = some s ∧
      pnc2cc firmCmpConsts 0x1002 = some cc ∧ conditionEncoding s = some cc :=
  cmp_suffix_matches_pnc2cc firmCmpConsts ⟨rfl, rfl, rfl, rfl, rfl, rfl⟩ 0x1002
    (Or.inr (by decide))

/-- The suffix and the encoding of the unsigned compare `<`. -/
theorem cmp_suffix_unsigned_less :
    ia32_emit_cmp_suffix firmCmpConsts 0x1002 = some "b" ∧
      pnc2cc firmCmpConsts 0x1002 = some 2 := by
  decide

/-- C12 at the jump `if a < b` in block 1 whose true target 2 is the next
block: both emitters emit one branch, to block 3, on `>=`. -/
theorem cond_jump_fallthrough_witness :
    emit_ia32_Jcc firmCmpConsts prevOf123 jccLess =
        some [AsmLine.branch ("j" ++ "ge") 3, AsmLine.fallthrough 2] ∧
      emit_arm_B firmRelConsts nextOf123 false armBLess =
        some (AsmLine.branch ("b" ++ "ge") 3 ::
          if false = true then [AsmLine.fallthrough 2] else []) :=
  have h := cond_jump_fallthrough firmCmpConsts prevOf123 jccLess firmRelConsts nextOf123
    false armBLess 2 3 2 5 2 13 (by decide) rfl rfl (by decide) (by decide) (by decide)
    (by decide) rfl rfl (by decide) (by decide) (by decide) (by decide)
  ⟨h.1.1 (by decide) (by decide) "ge" (by decide), h.2.1 (by decide) "ge" (by decide)⟩

/-! ## Address modes in binary and in text -/

theorem reg_gp_map_lt (r : Reg) : reg_gp_map r < 8 := by
  cases r <;> decide

theorem regOfEncoding_reg_gp_map (r : Reg) : regOfEncoding (reg_gp_map r) = some r := by
  cases r <;> rfl

theorem reg_gp_map_esp (r : Reg) : reg_gp_map r = 4 ↔ r = Reg.esp := by
  cases r <;> decide

theorem reg_gp_map_ebp (r : Reg) : reg_gp_map r = 5 ↔ r = Reg.ebp := by
  cases r <;> decide

/-- The fields of a SIB byte that is put together with `ENC_SIB`. -/
theorem sib_or (ss idx b : Nat) (hss : ss < 4) (hidx : idx < 8) (hb : b < 8) :
    (ss <<< 6) ||| (idx <<< 3) ||| b = ss * 64 + idx * 8 + b := by
  have h : ∀ ss < 4, ∀ idx < 8, ∀ b < 8,
      (ss <<< 6) ||| (idx <<< 3) ||| b = ss * 64 + idx * 8 + b := by decide
  exact h ss hss idx hidx b hb

theorem signExtend8_toUnsigned (x : Int) (h1 : -128 ≤ x) (h2 : x < 128) :
    signExtend8 (toUnsigned x % 256) = x := by
  unfold signExtend8 toUnsigned
  split_ifs <;> omega

theorem signExtend32_toUnsigned (x : Int) (h1 : -2147483648 ≤ x) (h2 : x < 2147483648) :
    signExtend32 (toUnsigned x) = x := by
  unfold signExtend32 toUnsigned
  split_ifs <;> omega

theorem or_small (M e : Nat) (hM : M = 0 ∨ M = 64 ∨ M = 128) (he : e < 8) : M ||| e = M + e := by
  have h : ∀ e < 8, 0 ||| e = 0 + e ∧ 64 ||| e = 64 + e ∧ 128 ||| e = 128 + e := by decide
  rcases hM with h1 | h1 | h1 <;> rw [h1]
  · exact (h e he).1
  · exact (h e he).2.1
  · exact (h e he).2.2

set_option maxRecDepth 100000 in
theorem or_reg (c reg : Nat) (hc : c < 256) (hz : c / 8 % 8 = 0) (hreg : reg < 8) :
    c ||| reg <<< 3 = c + reg * 8 := by
  have h : ∀ c < 256, ∀ reg < 8, c / 8 % 8 = 0 → c ||| reg <<< 3 = c + reg * 8 := by decide
  exact h c hc reg hreg hz

/-- Reading a ModR/M byte without SIB byte whose `rm` is a base register. -/
theorem decode_plain (a rm reg : Nat) (rest : List BItem) (ha : a < 3) (hrm : rm < 8)
    (h4 : rm ≠ 4) (h5 : ¬ (rm = 5 ∧ a = 0)) (hreg : reg < 8) :
    decodeModRM (bemit8 (a * 64 + rm + reg * 8) :: rest) =
      (decodeDisp a false rest).map fun d => (reg, MemOperand.mk (regOfEncoding rm) none d) := by
  have e0 : (a * 64 + rm + reg * 8) % 256 = a * 64 + rm + reg * 8 := by omega
  have e1 : (a * 64 + rm + reg * 8) / 64 = a := by omega
  have e2 : (a * 64 + rm + reg * 8) / 8 % 8 = reg := by omega
  have e3 : (a * 64 + rm + reg * 8) % 8 = rm := by omega
  have e4 : ¬ (256 ≤ a * 64 + rm + reg * 8) := by omega
  have e5 : a ≠ 3 := by omega
  unfold decodeModRM bemit8
  simp only [e0, e1, e2, e3, e4, e5, h4, h5, or_self, if_false]

/-- Reading a ModR/M byte that stands for a displacement alone. -/
theorem decode_abs (reg : Nat) (rest : List BItem) (hreg : reg < 8) :
    decodeModRM (bemit8 (0 * 64 + 5 + reg * 8) :: rest) =
      (decodeDisp 0 true rest).map fun d => (reg, MemOperand.mk none none d) := by
  have e0 : (0 * 64 + 5 + reg * 8) % 256 = 0 * 64 + 5 + reg * 8 := by omega
  have e1 : (0 * 64 + 5 + reg * 8) / 64 = 0 := by omega
  have e2 : (0 * 64 + 5 + reg * 8) / 8 % 8 = reg := by omega
  have e3 : (0 * 64 + 5 + reg * 8) % 8 = 5 := by omega
  have e4 : ¬ (256 ≤ 0 * 64 + 5 + reg * 8) := by omega
  unfold decodeModRM bemit8
  simp only [e0, e1, e2, e3, e4]
  simp

/-- Reading a ModR/M byte with a SIB byte. -/
theorem decode_sib (a reg ss idx b : Nat) (rest : List BItem) (ha : a < 3) (hreg : reg < 8)
    (hss : ss < 4) (hidx : idx < 8) (hb : b < 8) :
    decodeModRM (bemit8 (a * 64 + 4 + reg * 8) :: bemit8 (ss * 64 + idx * 8 + b) :: rest) =
      (decodeDisp a (decide (b = 5 ∧ a = 0)) rest).map fun d =>
        (reg, MemOperand.mk (if b = 5 ∧ a = 0 then none else regOfEncoding b)
          (if idx = 4 then none else (regOfEncoding idx).map fun r => (r, 2 ^ ss)) d) := by
  have e0 : (a * 64 + 4 + reg * 8) % 256 = a * 64 + 4 + reg * 8 := by omega
  have e1 : (a * 64 + 4 + reg * 8) / 64 = a := by omega
  have e2 : (a * 64 + 4 + reg * 8) / 8 % 8 = reg := by omega
  have e3 : (a * 64 + 4 + reg * 8) % 8 = 4 := by omega
  have e4 : ¬ (256 ≤ a * 64 + 4 + reg * 8) := by omega
  have e5 : a ≠ 3 := by omega
  have f0 : (ss * 64 + idx * 8 + b) % 256 = ss * 64 + idx * 8 + b := by omega
  have f1 : (ss * 64 + idx * 8 + b) / 64 = ss := by omega
  have f2 : (ss * 64 + idx * 8 + b) / 8 % 8 = idx := by omega
  have f3 : (ss * 64 + idx * 8 + b) % 8 = b := by omega
  have f4 : ¬ (256 ≤ ss * 64 + idx * 8 + b) := by omega
  unfold decodeModRM bemit8
  simp only [e0, e1, e2, e3, e4, e5, f0, f1, f2, f3, f4, or_self, if_false, if_true]
  by_cases hnb : b = 5 ∧ a = 0
  · simp [hnb]
  · simp [hnb]

theorem decodeDisp_byte (x : Int) (h1 : -128 ≤ x) (h2 : x < 128) :
    decodeDisp 1 false [bemit8 (toUnsigned x)] = some x := by
  unfold decodeDisp bemit8
  simp [signExtend8_toUnsigned x h1 h2]

theorem decodeDisp_long (mod : Nat) (force : Bool) (sign : Bool) (x : Int)
    (hm : force = true ∨ mod = 2) (h1 : -2147483648 ≤ x) (h2 : x < 2147483648) :
    decodeDisp mod force [bemit_entity none sign x false] = some x := by
  unfold decodeDisp bemit_entity bemit32
  simp [hm, signExtend32_toUnsigned x h1 h2]

theorem mod_am_emitoffs (reg : Nat) (node : Ia32Node) (m : ModAm)
    (h : mod_am_fields reg node = some m) :
    m.emitoffs =
      (if node.am_sc ≠ none ∨ node.base = none ∨
          ¬ (-128 ≤ node.am_offs ∧ node.am_offs < 128) then 32
        else if node.base ≠ some Reg.ebp ∧ node.am_offs = 0 then 0 else 8) := by
  unfold mod_am_fields at h
  cases hb : node.base with
  | none =>
    rw [hb] at h
    cases hi : node.index with
    | none =>
      rw [hi] at h
      simp at h
      rw [← h]
      simp
    | some ri =>
      rw [hi] at h
      simp at h
      obtain ⟨_, h⟩ := h
      rw [← h]
      simp
  | some rb =>
    rw [hb] at h
    have h5 := reg_gp_map_ebp rb
    have hsz : m.emitoffs =
        (if reg_gp_map rb = 5 ∧
            (if node.am_sc ≠ none then ((0x80 : Nat), (32 : Nat))
              else if node.am_offs = 0 then (0x00, 0)
              else if -128 ≤ node.am_offs ∧ node.am_offs < 128 then (0x40, 8)
              else (0x80, 32)).2 = 0 then 8
          else (if node.am_sc ≠ none then ((0x80 : Nat), (32 : Nat))
              else if node.am_offs = 0 then (0x00, 0)
              else if -128 ≤ node.am_offs ∧ node.am_offs < 128 then (0x40, 8)
              else (0x80, 32)).2) := by
      cases hi : node.index with
      | none =>
        rw [hi] at h
        simp only [Option.map_eq_some'] at h
        obtain ⟨s, _, h⟩ := h
        rw [← h]
        simp only
        split_ifs <;> rfl
      | some ri =>
        rw [hi] at h
        simp only [Option.map_eq_some'] at h
        obtain ⟨s, _, h⟩ := h
        rw [← h]
        simp only
        split_ifs <;> rfl
    rw [hsz]
    by_cases hs : node.am_sc = none
    · by_cases ho : node.am_offs = 0
      · by_cases he : rb = Reg.ebp
        · simp [hs, ho, he]
          rfl
        · have : reg_gp_map rb ≠ 5 := fun hx => he (h5.1 hx)
          simp [hs, ho, he, this]
      · by_cases hf : -128 ≤ node.am_offs ∧ node.am_offs < 128
        · simp [hs, ho, hf]
        · simp [hs, ho, hf]
    · simp [hs]

theorem mod_am_fields_isSome (reg : Nat) (node : Ia32Node)
    (hscale : node.index ≠ none → node.am_scale < 4) :
    ∃ m, mod_am_fields reg node = some m := by
  unfold mod_am_fields
  cases hi : node.index with
  | none =>
    simp only
    split_ifs <;> exact ⟨_, rfl⟩
  | some ri =>
    have := hscale (by rw [hi]; simp)
    simp only [this, if_true]
    exact ⟨_, rfl⟩

/-- C14: `bemit_mod_am` emits the ModR/M byte, the SIB byte if there is one,
and then a displacement of four bytes exactly if the address mode has a
symbol, or no base register, or an offset that does not fit in a signed byte;
no displacement exactly if it has a base register other than EBP, no symbol
and the offset 0; and one byte in the remaining cases. -/
theorem bemit_mod_am_displacement (reg : Nat) (node : Ia32Node)
    (hscale : node.index ≠ none → node.am_scale < 4) :
    ∃ m, mod_am_fields reg node = some m ∧
      bemit_mod_am reg node =
        some ([bemit8 m.modrm] ++ (if m.emitsib then [bemit8 m.sib] else []) ++
          (if node.am_sc ≠ none ∨ node.base = none ∨
              ¬ (-128 ≤ node.am_offs ∧ node.am_offs < 128) then
            [bemit_entity node.am_sc node.am_sc_sign node.am_offs false]
          else if (∃ r, node.base = some r ∧ r ≠ Reg.ebp) ∧ node.am_sc = none ∧
              node.am_offs = 0 then []
          else [bemit8 (toUnsigned node.am_offs)])) := by
  obtain ⟨m, hm⟩ := mod_am_fields_isSome reg node hscale
  have ho := mod_am_emitoffs reg node m hm
  refine ⟨m, hm, ?_⟩
  unfold bemit_mod_am
  rw [hm, Option.map_some', ho]
  by_cases h32 : node.am_sc ≠ none ∨ node.base = none ∨
      ¬ (-128 ≤ node.am_offs ∧ node.am_offs < 128)
  · simp only [if_pos h32]
    simp
  · simp only [if_neg h32]
    have hs : node.am_sc = none := by
      by_contra hx; exact h32 (Or.inl hx)
    have hb : node.base ≠ none := fun hx => h32 (Or.inr (Or.inl hx))
    obtain ⟨r, hr⟩ := Option.ne_none_iff_exists'.1 hb
    by_cases h0 : node.base ≠ some Reg.ebp ∧ node.am_offs = 0
    · have h0' : (∃ r, node.base = some r ∧ r ≠ Reg.ebp) ∧ node.am_sc = none ∧
          node.am_offs = 0 :=
        ⟨⟨r, hr, fun hx => h0.1 (by rw [hr, hx])⟩, hs, h0.2⟩
      simp only [if_pos h0, if_pos h0']
      simp
    · have h0' : ¬ ((∃ r, node.base = some r ∧ r ≠ Reg.ebp) ∧ node.am_sc = none ∧
          node.am_offs = 0) := by
        rintro ⟨⟨r1, hr1, hne⟩, _, hz⟩
        exact h0 ⟨fun hx => hne (by rw [hr1] at hx; exact Option.some.inj hx), hz⟩
      simp only [if_neg h0, if_neg h0']
      simp

/-- C14 at the address `8(%ebp)`. -/
theorem bemit_mod_am_displacement_witness :
    ∃ m, mod_am_fields 3 exampleAm = some m ∧
      bemit_mod_am 3 exampleAm =
        some ([bemit8 m.modrm] ++ (if m.emitsib then [bemit8 m.sib] else []) ++
          (if exampleAm.am_sc ≠ none ∨ exampleAm.base = none ∨
              ¬ (-128 ≤ exampleAm.am_offs ∧ exampleAm.am_offs < 128) then
            [bemit_entity exampleAm.am_sc exampleAm.am_sc_sign exampleAm.am_offs false]
          else if (∃ r, exampleAm.base = some r ∧ r ≠ Reg.ebp) ∧ exampleAm.am_sc = none ∧
              exampleAm.am_offs = 0 then []
          else [bemit8 (toUnsigned exampleAm.am_offs)])) :=
  bemit_mod_am_displacement 3 exampleAm (by decide)

theorem modrm_form (a e reg : Nat) (ha : a < 3) (he : e < 8) (hreg : reg < 8) :
    (a * 64 ||| e) ||| reg <<< 3 = a * 64 + e + reg * 8 := by
  rw [or_small (a * 64) e (by omega) he, or_reg (a * 64 + e) reg (by omega) (by omega) hreg]

theorem mod_class_a (offs : Int) :
    ∃ a, a < 3 ∧
      (if offs = 0 then ((0x00 : Nat), (0 : Nat))
        else if -128 ≤ offs ∧ offs < 128 then (0x40, 8) else (0x80, 32)) =
        (a * 64, if a = 0 then 0 else if a = 1 then 8 else 32) ∧
      (a = 0 ↔ offs = 0) ∧ (a = 1 → -128 ≤ offs ∧ offs < 128) := by
  by_cases h0 : offs = 0
  · exact ⟨0, by decide, by simp [h0], by simp [h0], by simp⟩
  · by_cases h1 : -128 ≤ offs ∧ offs < 128
    · exact ⟨1, by decide, by simp [h0, h1], by simp [h0], fun _ => h1⟩
    · exact ⟨2, by decide, by simp only [if_neg h0, if_neg h1]; rfl, by simp [h0], by simp⟩

theorem emitoffs_zero (a : Nat) :
    (if a = 0 then 0 else if a = 1 then 8 else 32) = 0 ↔ a = 0 := by
  split_ifs <;> simp_all

theorem emitoffs_byte (a : Nat) :
    (if a = 0 then 0 else if a = 1 then 8 else 32) = 8 ↔ a = 1 := by
  split_ifs <;> simp_all

theorem emitoffs_long (a : Nat) :
    (if a = 0 then 0 else if a = 1 then 8 else 32) = 32 ↔ (a ≠ 0 ∧ a ≠ 1) := by
  split_ifs <;> simp_all

theorem decode_plain_of (v a rm reg : Nat) (rest : List BItem)
    (hv : v = a * 64 + rm + reg * 8) (ha : a < 3) (hrm : rm < 8)
    (h4 : rm ≠ 4) (h5 : ¬ (rm = 5 ∧ a = 0)) (hreg : reg < 8) :
    decodeModRM (bemit8 v :: rest) =
      (decodeDisp a false rest).map fun d => (reg, MemOperand.mk (regOfEncoding rm) none d) := by
  subst hv
  exact decode_plain a rm reg rest ha hrm h4 h5 hreg

theorem decode_abs_of (v reg : Nat) (rest : List BItem) (hv : v = 0 * 64 + 5 + reg * 8)
    (hreg : reg < 8) :
    decodeModRM (bemit8 v :: rest) =
      (decodeDisp 0 true rest).map fun d => (reg, MemOperand.mk none none d) := by
  subst hv
  exact decode_abs reg rest hreg

theorem decode_sib_of (v s a reg ss idx b : Nat) (rest : List BItem)
    (hv : v = a * 64 + 4 + reg * 8) (hs : s = ss * 64 + idx * 8 + b)
    (ha : a < 3) (hreg : reg < 8) (hss : ss < 4) (hidx : idx < 8) (hb : b < 8) :
    decodeModRM (bemit8 v :: bemit8 s :: rest) =
      (decodeDisp a (decide (b = 5 ∧ a = 0)) rest).map fun d =>
        (reg, MemOperand.mk (if b = 5 ∧ a = 0 then none else regOfEncoding b)
          (if idx = 4 then none else (regOfEncoding idx).map fun r => (r, 2 ^ ss)) d) := by
  subst hv hs
  exact decode_sib a reg ss idx b rest ha hreg hss hidx hb

/-- The displacement that follows the class `a` of the offset reads back as
the offset. -/
theorem decodeDisp_emitted (a : Nat) (sign : Bool) (offs : Int) (ha : a < 3)
    (hoffs : -2147483648 ≤ offs ∧ offs < 2147483648)
    (ha0 : a = 0 ↔ offs = 0) (ha1 : a = 1 → -128 ≤ offs ∧ offs < 128) :
    decodeDisp a false
        (if a = 1 then [bemit8 (toUnsigned offs)]
          else if ¬ a = 0 ∧ ¬ a = 1 then [bemit_entity none sign offs false] else []) =
      some offs := by
  interval_cases a
  · have h0 : offs = 0 := ha0.1 rfl
    subst h0
    rfl
  · simp only [if_true]
    exact decodeDisp_byte offs (ha1 rfl).1 (ha1 rfl).2
  · have h1 : ¬ ((2 : Nat) = 1) := by decide
    have h2 : ¬ (2 : Nat) = 0 ∧ ¬ (2 : Nat) = 1 := by decide
    rw [if_neg h1, if_pos h2]
    exact decodeDisp_long 2 false sign offs (Or.inr rfl) hoffs.1 hoffs.2

theorem ebp_zero_iff (e a : Nat) :
    (e = 5 ∧ (¬ a = 0 → (if a = 1 then 8 else 32) = 0)) ↔ (e = 5 ∧ a = 0) := by
  constructor
  · rintro ⟨h1, h2⟩
    refine ⟨h1, ?_⟩
    by_contra h
    have h3 := h2 h
    split_ifs at h3
  · rintro ⟨h1, h2⟩
    exact ⟨h1, fun h => absurd h2 h⟩

/-- The bytes of `bemit_mod_am` read back as the operand of the node. -/
theorem bemit_mod_am_decode (reg : Nat) (node : Ia32Node) (hreg : reg < 8)
    (hsym : node.am_sc = none) (hscale : node.am_scale ≤ 3)
    (hidx : node.index ≠ some Reg.esp)
    (hoffs : -2147483648 ≤ node.am_offs ∧ node.am_offs < 2147483648) :
    ∃ items, bemit_mod_am reg node = some items ∧
      decodeModRM items =
        some (reg, MemOperand.mk node.base
          (node.index.map fun r => (r, 2 ^ node.am_scale)) node.am_offs) := by
  have hsc : node.am_scale < 4 := by omega
  unfold bemit_mod_am mod_am_fields
  simp only [hsym, ne_eq, not_true_eq_false, if_false, hsc, if_true]
  obtain ⟨a, ha, hs1, ha0, ha1⟩ := mod_class_a node.am_offs
  rw [hs1]
  cases hb : node.base with
  | none =>
    cases hi : node.index with
    | none =>
      simp
      rw [decode_abs_of _ reg _ (by rw [or_reg 5 reg (by decide) (by decide) hreg]) hreg,
        decodeDisp_long 0 true _ _ (Or.inl rfl) hoffs.1 hoffs.2]
      rfl
    | some ri =>
      have hei := reg_gp_map_lt ri
      have hne : reg_gp_map ri ≠ 4 := by
        intro h
        rw [reg_gp_map_esp] at h
        rw [hi, h] at hidx
        exact hidx rfl
      simp
      rw [decode_sib_of _ _ 0 reg node.am_scale (reg_gp_map ri) 5 _
        (by rw [or_reg 4 reg (by decide) (by decide) hreg])
        (sib_or _ _ _ hsc hei (by decide)) (by decide) hreg hsc hei (by decide)]
      simp only [and_self, decide_True, if_true, if_neg hne, regOfEncoding_reg_gp_map]
      rw [decodeDisp_long 0 true _ _ (Or.inl rfl) hoffs.1 hoffs.2]
      rfl
  | some rb =>
    have heb := reg_gp_map_lt rb
    have hrb := regOfEncoding_reg_gp_map rb
    cases hi : node.index with
    | none =>
      by_cases h4 : reg_gp_map rb = 4
      · simp [h4, emitoffs_zero, emitoffs_byte, emitoffs_long]
        rw [decode_sib_of _ _ a reg 0 4 4 _ (modrm_form a 4 reg ha (by decide) hreg)
          (by decide) ha hreg (by decide) (by decide) (by decide)]
        have hd : decide ((4 : Nat) = 5 ∧ a = 0) = false := by simp
        rw [hd, decodeDisp_emitted a _ _ ha hoffs ha0 ha1]
        rw [← h4, hrb]
        simp [h4]
      · by_cases h5 : reg_gp_map rb = 5 ∧ a = 0
        · simp [h4, h5, emitoffs_zero, emitoffs_byte, emitoffs_long]
          have h0 : node.am_offs = 0 := ha0.1 h5.2
          rw [decode_plain_of _ 1 (reg_gp_map rb) reg _
            (by rw [or_reg 69 reg (by decide) (by decide) hreg, h5.1]) (by decide) heb h4
            (by omega) hreg, hrb, decodeDisp_byte _ (by omega) (by omega)]
          rfl
        · simp [h4, h5, ebp_zero_iff, emitoffs_zero, emitoffs_byte, emitoffs_long]
          rw [decode_plain_of _ a (reg_gp_map rb) reg _
            (modrm_form a _ reg ha heb hreg) ha heb h4 h5 hreg, hrb,
            decodeDisp_emitted a _ _ ha hoffs ha0 ha1]
          rfl
    | some ri =>
      have hei := reg_gp_map_lt ri
      have hne : reg_gp_map ri ≠ 4 := by
        intro h
        rw [reg_gp_map_esp] at h
        rw [hi, h] at hidx
        exact hidx rfl
      by_cases h5 : reg_gp_map rb = 5 ∧ a = 0
      · simp [h5, emitoffs_zero, emitoffs_byte, emitoffs_long]
        have h0 : node.am_offs = 0 := ha0.1 h5.2
        rw [decode_sib_of _ _ 1 reg node.am_scale (reg_gp_map ri) (reg_gp_map rb) _
          (by rw [or_reg 68 reg (by decide) (by decide) hreg])
          (by rw [h5.1]; exact sib_or _ _ _ hsc hei (by decide)) (by decide) hreg hsc hei heb]
        have hd : decide (reg_gp_map rb = 5 ∧ (1 : Nat) = 0) = false := by simp
        rw [hd, decodeDisp_byte _ (by omega) (by omega)]
        simp [hne, hrb, regOfEncoding_reg_gp_map]
      · simp [h5, ebp_zero_iff, emitoffs_zero, emitoffs_byte, emitoffs_long]
        rw [decode_sib_of _ _ a reg node.am_scale (reg_gp_map ri) (reg_gp_map rb) _
          (modrm_form a 4 reg ha (by decide) hreg)
          (sib_or _ _ _ hsc hei heb) ha hreg hsc hei heb]
        have hd : decide (reg_gp_map rb = 5 ∧ a = 0) = false := by simp [h5]
        rw [hd, decodeDisp_emitted a _ _ ha hoffs ha0 ha1]
        simp [hne, hrb, h5, regOfEncoding_reg_gp_map]

theorem toString_natCast (n : Nat) : toString ((n : Nat) : Int) = toString n := rfl

/-- Without symbol the text of `ia32_emit_am` is the operand
`offs(base,index,2^scale)` in the syntax of the assembler. -/
theorem ia32_emit_am_operand (env : EmitEnv) (node : Ia32Node) (hsym : node.am_sc = none)
    (hframe : ¬ (node.use_frame ∧ node.frame_ent = none)) :
    ia32_emit_am env node =
      some (attOperand (MemOperand.mk node.base
        (node.index.map fun r => (r, 2 ^ node.am_scale)) node.am_offs)) := by
  unfold ia32_emit_am
  rw [if_neg hframe]
  have hpow : (2 ^ node.am_scale ≠ 1) ↔ node.am_scale > 0 := by
    constructor
    · intro h
      by_contra h0
      have : node.am_scale = 0 := by omega
      rw [this] at h
      exact h rfl
    · intro h h1
      have := Nat.one_lt_two_pow (Nat.pos_iff_ne_zero.1 h)
      omega
  unfold emit_am_entity emit_am_offset emit_am_registers attOperand emit_register
  simp only [fmt_d, toString_natCast, Nat.one_shiftLeft]
  cases hb : node.base <;> cases hi : node.index <;> simp [hsym, hpow]

/-- C13: for an address mode without symbol whose scale is in 0..3 and whose
index register is not ESP, and for every 3-bit `reg` field, `bemit_mod_am`
emits bytes, and reading them by the rules of 32-bit addressing gives that
`reg` field and the operand whose base register, index register, scale factor
and displacement are the ones that `ia32_emit_am` prints for the node. -/
theorem bemit_mod_am_roundtrip (env : EmitEnv) (reg : Nat) (node : Ia32Node) (hreg : reg < 8)
    (hsym : node.am_sc = none) (hscale : node.am_scale ≤ 3)
    (hidx : node.index ≠ some Reg.esp)
    (hoffs : -2147483648 ≤ node.am_offs ∧ node.am_offs < 2147483648)
    (hframe : ¬ (node.use_frame ∧ node.frame_ent = none)) :
    ∃ items m, bemit_mod_am reg node = some items ∧
      decodeModRM items = some (reg, m) ∧
      m = MemOperand.mk node.base (node.index.map fun r => (r, 2 ^ node.am_scale))
        node.am_offs ∧
      ia32_emit_am env node = some (attOperand m) := by
  obtain ⟨items, h1, h2⟩ := bemit_mod_am_decode reg node hreg hsym hscale hidx hoffs
  exact ⟨items, _, h1, h2, rfl, ia32_emit_am_operand env node hsym hframe⟩

theorem bemit_mod_am_roundtrip_witness :
    bemit_mod_am 3 exampleAmIndex =
        some [BItem.byte 0x5C, BItem.byte 0xB3, BItem.byte 0xFC] ∧
      ia32_emit_am exampleEnv exampleAmIndex = some "-4(%ebx,%esi,4)" ∧
      ∃ items m, bemit_mod_am 3 exampleAmIndex = some items ∧
        decodeModRM items = some (3, m) ∧
        m = MemOperand.mk exampleAmIndex.base
          (exampleAmIndex.index.map fun r => (r, 2 ^ exampleAmIndex.am_scale))
          exampleAmIndex.am_offs ∧
        ia32_emit_am exampleEnv exampleAmIndex = some (attOperand m) :=
  ⟨by decide, by decide,
    bemit_mod_am_roundtrip exampleEnv 3 exampleAmIndex (by decide) rfl (by decide) (by decide)
      (by decide) (by decide)⟩

/-! ## Immediates of binary operations -/

theorem get_signed_imm_size_one (offset : Int) :
    get_signed_imm_size offset = 1 ↔ (-128 ≤ offset ∧ offset < 128) := by
  unfold get_signed_imm_size
  split_ifs <;> simp_all

theorem get_signed_imm_size_cases (offset : Int) :
    get_signed_imm_size offset = 1 ∨ get_signed_imm_size offset = 2 ∨
      get_signed_imm_size offset = 4 := by
  unfold get_signed_imm_size
  split_ifs <;> simp

theorem bemit_entity_size (ent : Option Nat) (sign : Bool) (offset : Int) (rel : Bool) :
    (bemit_entity ent sign offset rel).size = 4 := by
  cases ent <;> rfl

/-- C15: `bemit_binop_with_imm` emits the form with a sign-extended immediate
of one byte (the opcode with the bit `SIGNEXT_IMM` set, the operand, one
byte) exactly if the immediate has no symbol, the opcode does not have the bit
2 set (as the opcode of `test` has) and the value fits in a signed byte; the
byte, sign-extended, is the value. In every other case the last item is the
immediate in four bytes. -/
theorem bemit_binop_with_imm_size (node : Ia32Node) (opcode_ax opcode ruval : Nat)
    (l : List BItem) (hop : binop_operand node ruval = some l) :
    ∃ out, bemit_binop_with_imm node opcode_ax opcode ruval = some out ∧
      (if node.imm.symconst = none ∧ opcode &&& 2 = 0 ∧
          -128 ≤ node.imm.offset ∧ node.imm.offset < 128 then
        ∃ b, out = [bemit8 (opcode ||| 2)] ++ l ++ [BItem.byte b] ∧
          signExtend8 b = node.imm.offset
      else
        ∃ pre, out = pre ++ [bemit_entity node.imm.symconst node.imm.sc_sign
            node.imm.offset false] ∧
          (bemit_entity node.imm.symconst node.imm.sc_sign node.imm.offset false).size = 4 ∧
          (pre = bemit8 opcode :: l ∨ pre = [bemit8 opcode_ax])) := by
  unfold binop_operand at hop
  unfold bemit_binop_with_imm
  by_cases hc : node.imm.symconst = none ∧ opcode &&& 2 = 0 ∧
      -128 ≤ node.imm.offset ∧ node.imm.offset < 128
  · obtain ⟨h1, h2, h3, h4⟩ := hc
    have hs : get_signed_imm_size node.imm.offset = 1 :=
      (get_signed_imm_size_one _).2 ⟨h3, h4⟩
    simp only [h1, h2, h3, h4, hs, ne_eq, not_true_eq_false, or_self, if_false, if_true,
      and_self, hop, Option.map_some']
    refine ⟨_, rfl, toUnsigned node.imm.offset % 256, rfl, ?_⟩
    exact signExtend8_toUnsigned _ h3 h4
  · simp only [if_neg hc]
    have hsz : (if node.imm.symconst ≠ none ∨ opcode &&& 2 ≠ 0 then 4
        else get_signed_imm_size node.imm.offset) ≠ 1 ∧
        ((if node.imm.symconst ≠ none ∨ opcode &&& 2 ≠ 0 then 4
          else get_signed_imm_size node.imm.offset) = 2 ∨
        (if node.imm.symconst ≠ none ∨ opcode &&& 2 ≠ 0 then 4
          else get_signed_imm_size node.imm.offset) = 4) := by
      by_cases hx : node.imm.symconst ≠ none ∨ opcode &&& 2 ≠ 0
      · rw [if_pos hx]
        exact ⟨by decide, Or.inr rfl⟩
      · rw [if_neg hx]
        have hx1 : node.imm.symconst = none := by
          by_contra h; exact hx (Or.inl h)
        have hx2 : opcode &&& 2 = 0 := by
          by_contra h; exact hx (Or.inr h)
        have hn : get_signed_imm_size node.imm.offset ≠ 1 := by
          intro h
          exact hc ⟨hx1, hx2, (get_signed_imm_size_one _).1 h⟩
        refine ⟨hn, ?_⟩
        rcases get_signed_imm_size_cases node.imm.offset with h | h | h
        · exact absurd h hn
        · exact Or.inl h
        · exact Or.inr h
    simp only [if_neg hsz.1, if_pos hsz.2]
    by_cases ham : node.op_type = OpType.AddrModeS
    · rw [if_pos ham] at hop
      simp only [if_pos ham, hop, Option.map_some']
      exact ⟨_, rfl, _, rfl, bemit_entity_size _ _ _ _, Or.inl rfl⟩
    · rw [if_neg ham] at hop
      simp only [if_neg ham]
      cases hl : node.left with
      | none => rw [hl] at hop; exact absurd hop (by simp)
      | some r =>
        rw [hl] at hop
        simp only at hop
        simp only
        by_cases hr : r = Reg.eax
        · simp only [if_pos hr, Option.map_some']
          exact ⟨_, rfl, _, rfl, bemit_entity_size _ _ _ _, Or.inr rfl⟩
        · simp only [if_neg hr, hop, Option.map_some']
          exact ⟨_, rfl, _, rfl, bemit_entity_size _ _ _ _, Or.inl rfl⟩

/-- C15 at `add $5, %ebx`: opcode 0x83, ModR/M 0xC3, the byte 5. -/
theorem bemit_binop_with_imm_size_witness :
    bemit_binop_with_imm exampleAddImm 0x05 0x81 0 =
        some [BItem.byte 0x83, BItem.byte 0xC3, BItem.byte 5] ∧
      ∃ out, bemit_binop_with_imm exampleAddImm 0x05 0x81 0 = some out ∧
        (if exampleAddImm.imm.symconst = none ∧ 0x81 &&& 2 = 0 ∧
            -128 ≤ exampleAddImm.imm.offset ∧ exampleAddImm.imm.offset < 128 then
          ∃ b, out = [bemit8 (0x81 ||| 2)] ++ [BItem.byte 0xC3] ++ [BItem.byte b] ∧
            signExtend8 b = exampleAddImm.imm.offset
        else
          ∃ pre, out = pre ++ [bemit_entity exampleAddImm.imm.symconst
              exampleAddImm.imm.sc_sign exampleAddImm.imm.offset false] ∧
            (bemit_entity exampleAddImm.imm.symconst exampleAddImm.imm.sc_sign
              exampleAddImm.imm.offset false).size = 4 ∧
            (pre = bemit8 0x81 :: [BItem.byte 0xC3] ∨ pre = [bemit8 0x05])) :=
  ⟨by decide, bemit_binop_with_imm_size exampleAddImm 0x05 0x81 0 [BItem.byte 0xC3] (by decide)⟩

/-- The opcode of `test` has the bit 2 set: with the immediate 5 the four
bytes are emitted. -/
theorem bemit_test_imm_long :
    bemit_binop_with_imm exampleAddImm 0xA9 0xF7 0 =
      some [BItem.byte 0xF7, BItem.byte 0xC3, BItem.long 5] := by decide

/-! ## The text of an address mode -/

theorem toDigitsCore_ne_nil (b : Nat) :
    ∀ (fuel n : Nat) (ds : List Char), ds ≠ [] → Nat.toDigitsCore b fuel n ds ≠ [] := by
  intro fuel
  induction fuel with
  | zero => intro n ds h; simpa [Nat.toDigitsCore] using h
  | succ fuel ih =>
    intro n ds _
    unfold Nat.toDigitsCore
    simp only
    split_ifs
    · simp
    · exact ih _ _ (by simp)

theorem toDigits_ne_nil (b n : Nat) : Nat.toDigits b n ≠ [] := by
  unfold Nat.toDigits Nat.toDigitsCore
  simp only
  split_ifs
  · simp
  · exact toDigitsCore_ne_nil b _ _ _ (by simp)

theorem string_length_pos_iff (s : String) : 0 < s.length ↔ s ≠ "" := by
  constructor
  · intro h hs
    rw [hs] at h
    exact absurd h (by decide)
  · intro h
    by_contra h0
    apply h
    have hl : s.data.length = 0 := by
      have : s.length = 0 := by omega
      exact this
    apply String.ext_iff.2
    exact List.length_eq_zero.1 hl

theorem toString_nat_length (n : Nat) : 0 < (toString n).length := by
  show 0 < (Nat.toDigits 10 n).asString.length
  have h := toDigits_ne_nil 10 n
  show 0 < (Nat.toDigits 10 n).length
  exact List.length_pos.2 h

theorem toString_int_length (x : Int) : 0 < (toString x).length := by
  cases x with
  | ofNat m => exact toString_nat_length m
  | negSucc m =>
    show 0 < ("-" ++ toString m.succ).length
    rw [String.length_append]
    have := toString_nat_length m.succ
    omega

theorem fmt_plus_d_length (x : Int) : 0 < (fmt_plus_d x).length := by
  unfold fmt_plus_d
  split_ifs
  · rw [String.length_append]
    have := toString_int_length x
    omega
  · exact toString_int_length x

/-- C20: `ia32_emit_am` prints the entity, the offset and the registers, in
this order. The register part is text in parentheses if the node has a base
or an index register, and it is empty if it has neither; with neither and
without symbol the text is the offset, also if the offset is 0. The text is
never empty (the name of an entity is not empty). -/
theorem ia32_emit_am_shape (env : EmitEnv) (node : Ia32Node)
    (hframe : ¬ (node.use_frame ∧ node.frame_ent = none))
    (hname : ∀ e, env.entity_name e ≠ "") :
    ∃ text, ia32_emit_am env node = some text ∧
      text = emit_am_entity env node ++ emit_am_offset node ++ emit_am_registers node ∧
      ((node.base ≠ none ∨ node.index ≠ none) ↔
        ∃ inner, emit_am_registers node = "(" ++ inner ++ ")") ∧
      (node.base = none → node.index = none → emit_am_registers node = "" ∧
        (node.am_sc = none → text = fmt_d node.am_offs)) ∧
      text ≠ "" := by
  refine ⟨_, by unfold ia32_emit_am; rw [if_neg hframe], rfl, ?_, ?_, ?_⟩
  · constructor
    · intro h
      unfold emit_am_registers
      rw [if_pos h]
      exact ⟨_, rfl⟩
    · rintro ⟨inner, hi⟩
      by_contra h
      unfold emit_am_registers at hi
      rw [if_neg h] at hi
      have hl := congrArg String.length hi
      simp only [String.length_append] at hl
      have h1 : ("(" : String).length = 1 := by decide
      have h0 : ("" : String).length = 0 := by decide
      omega
  · intro hb hi
    have hr : emit_am_registers node = "" := by
      unfold emit_am_registers
      simp [hb, hi]
    refine ⟨hr, ?_⟩
    intro hs
    rw [hr]
    unfold emit_am_entity emit_am_offset
    simp [hs, hb, hi]
  · rw [← string_length_pos_iff]
    simp only [String.length_append]
    by_cases hr : node.base ≠ none ∨ node.index ≠ none
    · have : 0 < (emit_am_registers node).length := by
        unfold emit_am_registers
        rw [if_pos hr]
        simp only [String.length_append]
        have h1 : ("(" : String).length = 1 := by decide
        omega
      omega
    · cases hs : node.am_sc with
      | some ent =>
        have : 0 < (emit_am_entity env node).length := by
          unfold emit_am_entity ia32_emit_entity
          rw [hs]
          simp only [String.length_append]
          have := (string_length_pos_iff _).2 (hname ent)
          omega
        omega
      | none =>
        have hb : node.base = none := by
          by_contra h; exact hr (Or.inl h)
        have hi : node.index = none := by
          by_contra h; exact hr (Or.inr h)
        have : 0 < (emit_am_offset node).length := by
          unfold emit_am_offset
          simp only [hs, hb, hi, and_self, or_true, if_true, ne_eq, not_true_eq_false,
            if_false]
          exact toString_int_length _
        omega

/-- C20 for the address 0 without registers and without symbol: `0`. -/
theorem ia32_emit_am_shape_witness :
    ia32_emit_am exampleEnv (amNode none none 0 0) = some "0" ∧
      ∃ text, ia32_emit_am exampleEnv (amNode none none 0 0) = some text ∧
        text = emit_am_entity exampleEnv (amNode none none 0 0) ++
          emit_am_offset (amNode none none 0 0) ++ emit_am_registers (amNode none none 0 0) ∧
        (((amNode none none 0 0).base ≠ none ∨ (amNode none none 0 0).index ≠ none) ↔
          ∃ inner, emit_am_registers (amNode none none 0 0) = "(" ++ inner ++ ")") ∧
        ((amNode none none 0 0).base = none → (amNode none none 0 0).index = none →
          emit_am_registers (amNode none none 0 0) = "" ∧
          ((amNode none none 0 0).am_sc = none → text = fmt_d (amNode none none 0 0).am_offs)) ∧
        text ≠ "" :=
  ⟨by decide, ia32_emit_am_shape exampleEnv (amNode none none 0 0) (by decide)
    (fun _ => by show ("sym" : String) ≠ ""; decide)⟩

/-! ## The constant pool of the ARM emitter -/

theorem or_bytes (a b c d : Nat) (hb : b < 256) (hc : c < 256) (hd : d < 256) :
    (a <<< 24) ||| (b <<< 16) ||| (c <<< 8) ||| (d <<< 0) =
      d + 256 * c + 65536 * b + 16777216 * a := by
  simp only [Nat.shiftLeft_eq]
  have e1 : a * 2 ^ 24 ||| b * 2 ^ 16 = 2 ^ 24 * a + b * 2 ^ 16 := by
    rw [Nat.mul_comm a]
    exact (Nat.mul_add_lt_is_or (by omega) a).symm
  have e2 : 2 ^ 24 * a + b * 2 ^ 16 = 2 ^ 16 * (256 * a + b) := by omega
  have e3 : 2 ^ 16 * (256 * a + b) ||| c * 2 ^ 8 = 2 ^ 16 * (256 * a + b) + c * 2 ^ 8 :=
    (Nat.mul_add_lt_is_or (by omega) _).symm
  have e4 : 2 ^ 16 * (256 * a + b) + c * 2 ^ 8 = 2 ^ 8 * (65536 * a + 256 * b + c) := by omega
  have e5 : 2 ^ 8 * (65536 * a + 256 * b + c) ||| d * 2 ^ 0 =
      2 ^ 8 * (65536 * a + 256 * b + c) + d * 2 ^ 0 :=
    (Nat.mul_add_lt_is_or (by omega) _).symm
  rw [e1, e2, e3, e4, e5]
  omega

theorem decr_unsigned_pos (vi : Nat) (h0 : 0 < vi) (h : vi < 4294967296) :
    decr_unsigned vi = vi - 1 := by
  unfold decr_unsigned
  omega

/-- The words of a constant of `4 * k` bytes, whatever the fuel above `k`. -/
theorem emit_tarval_words_eq (byte : Nat → Nat) :
    ∀ (k fuel : Nat), (∀ i < 4 * k, byte i < 256) → k ≤ fuel → 4 * k < 4294967296 →
      emit_tarval_words byte fuel (4 * k) =
        some ((List.range k).map (wordAt byte)).reverse := by
  intro k
  induction k with
  | zero =>
    intro fuel _ _ _
    unfold emit_tarval_words
    simp
  | succ k ih =>
    intro fuel hbyte hf hk
    cases fuel with
    | zero => omega
    | succ fuel =>
      unfold emit_tarval_words
      have h0 : ¬ (4 * (k + 1) = 0) := by omega
      rw [if_neg h0]
      have d1 : decr_unsigned (4 * (k + 1)) = 4 * k + 3 := by
        rw [decr_unsigned_pos _ (by omega) hk]; omega
      have d2 : decr_unsigned (4 * k + 3) = 4 * k + 2 := by
        rw [decr_unsigned_pos _ (by omega) (by omega)]; omega
      have d3 : decr_unsigned (4 * k + 2) = 4 * k + 1 := by
        rw [decr_unsigned_pos _ (by omega) (by omega)]; omega
      have d4 : decr_unsigned (4 * k + 1) = 4 * k := by
        rw [decr_unsigned_pos _ (by omega) (by omega)]; omega
      simp only [d1, d2, d3, d4]
      rw [ih fuel (fun i hi => hbyte i (by omega)) (by omega) (by omega),
        or_bytes _ _ _ _ (hbyte _ (by omega)) (hbyte _ (by omega)) (hbyte _ (by omega))]
      have hw : (byte (4 * k) + 256 * byte (4 * k + 1) + 65536 * byte (4 * k + 2) +
          16777216 * byte (4 * k + 3)) % 4294967296 = wordAt byte k := by
        unfold wordAt
        have := hbyte (4 * k) (by omega)
        have := hbyte (4 * k + 1) (by omega)
        have := hbyte (4 * k + 2) (by omega)
        have := hbyte (4 * k + 3) (by omega)
        omega
      rw [hw, List.range_succ]
      simp

/-- C18: for a tarval of `4 * k` bytes in the constant pool,
`arm_emit_function` emits the label and `k` words; the word `j` (from 0) is
`byte[4(k-1-j)] + 256 byte[4(k-1-j)+1] + 65536 byte[4(k-1-j)+2] +
16777216 byte[4(k-1-j)+3]`, where `byte[i]` is `get_tarval_sub_bits(tv, i)`:
the most significant word comes first. -/
theorem pool_constant_words (T : TarvalOps) (entry : ent_or_tv_t) (k : Nat)
    (htv : entry.is_entity = false)
    (hsize : T.get_mode_size_bytes (T.get_tarval_mode entry.u) = 4 * k)
    (hround : T.round_up2 (4 * k) 4 = 4 * k) (hk : 4 * k < 4294967296)
    (hbyte : ∀ i < 4 * k, T.get_tarval_sub_bits entry.u i < 256) :
    ∃ ws : List Nat,
      emit_pool_entry T entry =
        some (PoolLine.constant_name entry.label :: ws.map PoolLine.word) ∧
      ws.length = k ∧
      ∀ j < k, ws[j]? =
        some (T.get_tarval_sub_bits entry.u (4 * (k - 1 - j)) +
          256 * T.get_tarval_sub_bits entry.u (4 * (k - 1 - j) + 1) +
          65536 * T.get_tarval_sub_bits entry.u (4 * (k - 1 - j) + 2) +
          16777216 * T.get_tarval_sub_bits entry.u (4 * (k - 1 - j) + 3)) := by
  refine ⟨((List.range k).map (wordAt (T.get_tarval_sub_bits entry.u))).reverse, ?_, ?_, ?_⟩
  · unfold emit_pool_entry
    simp only [htv, Bool.false_eq_true, if_false, hsize, hround, Nat.mod_eq_of_lt hk]
    rw [emit_tarval_words_eq _ k (4 * k) hbyte (by omega) hk]
    rfl
  · simp
  · intro j hj
    have hlen : j < ((List.range k).map (wordAt (T.get_tarval_sub_bits entry.u))).reverse.length := by
      simpa using hj
    rw [List.getElem?_eq_getElem hlen, List.getElem_reverse, List.getElem_map,
      List.getElem_range]
    simp only [List.length_map, List.length_range]
    rfl

/-- C18 for a `double` whose bytes are 1, ..., 8: the words are
`0x08070605` and `0x04030201`. -/
theorem pool_constant_words_witness :
    emit_pool_entry exampleTarvals (ent_or_tv_t.mk 7 1 false) =
        some [PoolLine.constant_name 1, PoolLine.word 134678021, PoolLine.word 67305985] ∧
      ∃ ws : List Nat,
        emit_pool_entry exampleTarvals (ent_or_tv_t.mk 7 1 false) =
          some (PoolLine.constant_name 1 :: ws.map PoolLine.word) ∧
        ws.length = 2 ∧
        ∀ j < 2, ws[j]? =
          some (exampleTarvals.get_tarval_sub_bits 7 (4 * (2 - 1 - j)) +
            256 * exampleTarvals.get_tarval_sub_bits 7 (4 * (2 - 1 - j) + 1) +
            65536 * exampleTarvals.get_tarval_sub_bits 7 (4 * (2 - 1 - j) + 2) +
            16777216 * exampleTarvals.get_tarval_sub_bits 7 (4 * (2 - 1 - j) + 3)) :=
  ⟨by decide,
    pool_constant_words exampleTarvals (ent_or_tv_t.mk 7 1 false) 2 rfl rfl (by decide)
      (by decide) (by decide)⟩

theorem assignLabels_map_u (l : List ent_or_tv_t) :
    ∀ id, (assignLabels id l).map (fun e => e.u) = l.map fun e => e.u := by
  induction l with
  | nil => intro id; rfl
  | cons k ks ih => intro id; simp [assignLabels, ih]

theorem assignLabels_labels (l : List ent_or_tv_t) :
    ∀ id, (assignLabels id l).map (fun e => e.label) = List.range' (id + 1) l.length := by
  induction l with
  | nil => intro id; rfl
  | cons k ks ih => intro id; simp [assignLabels, ih, List.range'_succ]

theorem firstRequests_fresh (keys : List ent_or_tv_t) :
    ∀ seen, ∀ k ∈ firstRequests seen keys, k.u ∉ seen := by
  induction keys with
  | nil => intro seen k hk; simp [firstRequests] at hk
  | cons key keys ih =>
    intro seen k hk
    unfold firstRequests at hk
    split_ifs at hk with h
    · exact ih seen k hk
    · rcases List.mem_cons.1 hk with h1 | h1
      · rw [h1]; exact h
      · intro hx
        exact ih _ k h1 (List.mem_append_left _ hx)

theorem firstRequests_nodup (keys : List ent_or_tv_t) :
    ∀ seen, ((firstRequests seen keys).map fun e => e.u).Nodup := by
  induction keys with
  | nil => intro seen; simp [firstRequests]
  | cons key keys ih =>
    intro seen
    unfold firstRequests
    split_ifs with h
    · exact ih seen
    · rw [List.map_cons, List.nodup_cons]
      refine ⟨?_, ih _⟩
      intro hx
      obtain ⟨k, hk, hku⟩ := List.mem_map.1 hx
      exact firstRequests_fresh keys _ k hk (by rw [hku]; simp)

theorem firstRequests_mem (keys : List ent_or_tv_t) :
    ∀ seen, ∀ key ∈ keys, key.u ∈ seen ∨ key.u ∈ (firstRequests seen keys).map fun e => e.u := by
  induction keys with
  | nil => intro seen key hk; simp at hk
  | cons k0 keys ih =>
    intro seen key hk
    unfold firstRequests
    rcases List.mem_cons.1 hk with h1 | h1
    · split_ifs with h
      · left; rw [h1]; exact h
      · right; rw [h1]; simp
    · split_ifs with h
      · exact ih seen key h1
      · rcases ih (seen ++ [k0.u]) key h1 with h2 | h2
        · rcases List.mem_append.1 h2 with h3 | h3
          · exact Or.inl h3
          · right
            have : key.u = k0.u := by simpa using h3
            rw [this]; simp
        · right
          rw [List.map_cons]
          exact List.mem_cons_of_mem _ h2

theorem firstRequests_sublist (keys : List ent_or_tv_t) :
    ∀ seen, List.Sublist (firstRequests seen keys) keys := by
  induction keys with
  | nil => intro seen; simp [firstRequests]
  | cons key keys ih =>
    intro seen
    unfold firstRequests
    split_ifs with h
    · exact List.Sublist.cons _ (ih seen)
    · exact List.Sublist.cons₂ _ (ih _)

theorem pool_init_inv {M : Type} (P : PMapOps M) (hP : P.Lawful) (id : Nat) :
    PoolInv P (pool_init P id) := by
  intro k
  simp [pool_init, hP.1 k]

/-- A request for a key that the map finds returns the entry the map holds
and changes nothing. -/
theorem get_ent_or_tv_entry_found {M : Type} (P : PMapOps M) (st : PoolState M)
    (key entry : ent_or_tv_t) (h : P.pmap_get st.ent_or_tv key.u = some entry) :
    get_ent_or_tv_entry P st key = (entry, st) := by
  unfold get_ent_or_tv_entry
  rw [h]

theorem find_u_some {l : List ent_or_tv_t} {k : Nat} {e : ent_or_tv_t}
    (h : l.find? (fun e => decide (e.u = k)) = some e) : e.u = k ∧ e ∈ l := by
  refine ⟨?_, List.mem_of_find?_eq_some h⟩
  have := List.find?_some h
  simpa using this

theorem find_u_none {l : List ent_or_tv_t} {k : Nat}
    (h : l.find? (fun e => decide (e.u = k)) = none) : k ∉ l.map fun e => e.u := by
  intro hx
  obtain ⟨e, he, hu⟩ := List.mem_map.1 hx
  have := List.find?_eq_none.1 h e he
  simp [hu] at this

/-- The pool after a sequence of requests, from a state in which map and list
agree. -/
theorem request_entries_spec {M : Type} (P : PMapOps M) (hP : P.Lawful) :
    ∀ (keys : List ent_or_tv_t) (st : PoolState M), PoolInv P st →
      st.id + keys.length < 4294967296 →
      (request_entries P st keys).2.ent_or_tv_first =
          st.ent_or_tv_first ++ assignLabels st.id
            (firstRequests (st.ent_or_tv_first.map fun e => e.u) keys) ∧
        PoolInv P (request_entries P st keys).2 ∧
        (request_entries P st keys).1.length = keys.length ∧
        ∀ (i : Nat) (key e : ent_or_tv_t), keys[i]? = some key →
          (request_entries P st keys).1[i]? = some e →
          e.u = key.u ∧ e ∈ (request_entries P st keys).2.ent_or_tv_first := by
  intro keys
  induction keys with
  | nil =>
    intro st hinv _
    simp [request_entries, firstRequests, assignLabels, hinv]
  | cons key keys ih =>
    intro st hinv hid
    have hlen : st.id + keys.length + 1 < 4294967296 := by
      simpa [Nat.add_assoc] using hid
    cases hg : P.pmap_get st.ent_or_tv key.u with
    | some entry =>
      have hstep := get_ent_or_tv_entry_found P st key entry hg
      have hf := hinv key.u
      rw [hg] at hf
      obtain ⟨hu, hmem⟩ := find_u_some hf.symm
      have hseen : key.u ∈ st.ent_or_tv_first.map fun e => e.u :=
        List.mem_map.2 ⟨entry, hmem, hu⟩
      obtain ⟨h1, h2, h3, h4⟩ := ih st hinv (by omega)
      have hr : request_entries P st (key :: keys) =
          (entry :: (request_entries P st keys).1, (request_entries P st keys).2) := by
        simp [request_entries, hstep]
      rw [hr]
      refine ⟨?_, h2, by simp [h3], ?_⟩
      · simp only [firstRequests, if_pos hseen]
        exact h1
      · intro i k e hk he
        cases i with
        | zero =>
          simp only [List.getElem?_cons_zero, Option.some.injEq] at hk he
          rw [← hk, ← he]
          refine ⟨hu, ?_⟩
          simp only
          rw [h1]
          exact List.mem_append_left _ hmem
        | succ i =>
          simp only [List.getElem?_cons_succ] at hk he
          exact h4 i k e hk he
    | none =>
      have hf := hinv key.u
      rw [hg] at hf
      have hseen : key.u ∉ st.ent_or_tv_first.map fun e => e.u := find_u_none hf.symm
      have hidw : (st.id + 1) % 4294967296 = st.id + 1 := Nat.mod_eq_of_lt (by omega)
      let entry : ent_or_tv_t := { key with label := st.id + 1 }
      let st1 : PoolState M :=
        { ent_or_tv := P.pmap_insert st.ent_or_tv key.u entry
          ent_or_tv_first := st.ent_or_tv_first ++ [entry]
          id := st.id + 1 }
      have hstep : get_ent_or_tv_entry P st key = (entry, st1) := by
        unfold get_ent_or_tv_entry arm_get_unique_label
        rw [hg]
        simp only [hidw]
      have hinv1 : PoolInv P st1 := by
        intro k
        show P.pmap_get (P.pmap_insert st.ent_or_tv key.u entry) k =
          (st.ent_or_tv_first ++ [entry]).find? fun e => decide (e.u = k)
        rw [hP.2, List.find?_append]
        by_cases hk : k = key.u
        · rw [if_pos hk, hk, ← hf]
          simp [entry]
        · rw [if_neg hk, hinv k]
          cases hfk : st.ent_or_tv_first.find? fun e => decide (e.u = k) with
          | some x => simp
          | none =>
            have : ¬ (key.u = k) := fun h => hk h.symm
            simp [entry, this]
      obtain ⟨h1, h2, h3, h4⟩ := ih st1 hinv1 (by show st.id + 1 + keys.length < _; omega)
      have hr : request_entries P st (key :: keys) =
          (entry :: (request_entries P st1 keys).1, (request_entries P st1 keys).2) := by
        simp [request_entries, hstep]
      rw [hr]
      refine ⟨?_, h2, by simp [h3], ?_⟩
      · simp only [firstRequests, if_neg hseen, assignLabels]
        rw [h1]
        simp [st1, entry]
      · intro i k e hk he
        cases i with
        | zero =>
          simp only [List.getElem?_cons_zero, Option.some.injEq] at hk he
          rw [← hk, ← he]
          refine ⟨rfl, ?_⟩
          simp only
          rw [h1]
          exact List.mem_append_left _ (by simp [st1])
        | succ i =>
          simp only [List.getElem?_cons_succ] at hk he
          exact h4 i k e hk he

theorem emit_tarval_words_isSome (byte : Nat → Nat) :
    ∀ (k fuel : Nat), k ≤ fuel → 4 * k < 4294967296 →
      ∃ ws, emit_tarval_words byte fuel (4 * k) = some ws := by
  intro k
  induction k with
  | zero =>
    intro fuel _ _
    unfold emit_tarval_words
    exact ⟨[], by simp⟩
  | succ k ih =>
    intro fuel hf hk
    cases fuel with
    | zero => omega
    | succ fuel =>
      unfold emit_tarval_words
      have h0 : ¬ (4 * (k + 1) = 0) := by omega
      rw [if_neg h0]
      have d1 : decr_unsigned (4 * (k + 1)) = 4 * k + 3 := by
        rw [decr_unsigned_pos _ (by omega) hk]; omega
      have d2 : decr_unsigned (4 * k + 3) = 4 * k + 2 := by
        rw [decr_unsigned_pos _ (by omega) (by omega)]; omega
      have d3 : decr_unsigned (4 * k + 2) = 4 * k + 1 := by
        rw [decr_unsigned_pos _ (by omega) (by omega)]; omega
      have d4 : decr_unsigned (4 * k + 1) = 4 * k := by
        rw [decr_unsigned_pos _ (by omega) (by omega)]; omega
      simp only [d1, d2, d3, d4]
      obtain ⟨ws, hws⟩ := ih fuel (by omega) (by omega)
      rw [hws]
      exact ⟨_, rfl⟩

theorem poolLabels_append (a b : List PoolLine) :
    poolLabels (a ++ b) = poolLabels a ++ poolLabels b := by
  induction a with
  | nil => rfl
  | cons x xs ih => cases x <;> simp [poolLabels, ih]

theorem poolLabels_words (ws : List Nat) : poolLabels (ws.map PoolLine.word) = [] := by
  induction ws with
  | nil => rfl
  | cons x xs ih => simp [poolLabels, ih]

/-- The lines of an entry begin with its label and hold no other label. -/
theorem emit_pool_entry_labels (T : TarvalOps) (entry : ent_or_tv_t)
    (h : entry.is_entity = false →
      ∃ k, T.round_up2 (T.get_mode_size_bytes (T.get_tarval_mode entry.u)) 4 = 4 * k ∧
        4 * k < 4294967296) :
    ∃ ls, emit_pool_entry T entry = some ls ∧ poolLabels ls = [entry.label] := by
  unfold emit_pool_entry
  cases he : entry.is_entity with
  | true =>
    refine ⟨[PoolLine.constant_name entry.label, PoolLine.word_entity entry.u], ?_, rfl⟩
    simp
  | false =>
    obtain ⟨k, hk, hlt⟩ := h he
    simp only [Bool.false_eq_true, if_false, hk, Nat.mod_eq_of_lt hlt]
    obtain ⟨ws, hws⟩ := emit_tarval_words_isSome (T.get_tarval_sub_bits entry.u) k (4 * k)
      (by omega) hlt
    rw [hws]
    exact ⟨_, rfl, by simp [poolLabels, poolLabels_words]⟩

theorem emit_pool_entries_labels (T : TarvalOps) (l : List ent_or_tv_t)
    (h : ∀ entry ∈ l, entry.is_entity = false →
      ∃ k, T.round_up2 (T.get_mode_size_bytes (T.get_tarval_mode entry.u)) 4 = 4 * k ∧
        4 * k < 4294967296) :
    ∃ ls, emit_pool_entries T l = some ls ∧ poolLabels ls = l.map fun e => e.label := by
  induction l with
  | nil => exact ⟨[], rfl, rfl⟩
  | cons e es ih =>
    obtain ⟨a, ha, hla⟩ := emit_pool_entry_labels T e (h e (List.mem_cons_self _ _))
    obtain ⟨b, hb, hlb⟩ := ih fun x hx => h x (List.mem_cons_of_mem _ hx)
    refine ⟨a ++ b, ?_, ?_⟩
    · unfold emit_pool_entries
      rw [ha, hb]
    · rw [poolLabels_append, hla, hlb]
      rfl

theorem emit_pool_labels (T : TarvalOps) (l : List ent_or_tv_t)
    (h : ∀ entry ∈ l, entry.is_entity = false →
      ∃ k, T.round_up2 (T.get_mode_size_bytes (T.get_tarval_mode entry.u)) 4 = 4 * k ∧
        4 * k < 4294967296) :
    ∃ ls, emit_pool T l = some ls ∧ poolLabels ls = l.map fun e => e.label := by
  unfold emit_pool
  by_cases hl : l = []
  · rw [if_pos hl, hl]
    exact ⟨[], rfl, rfl⟩
  · rw [if_neg hl]
    obtain ⟨ls, h1, h2⟩ := emit_pool_entries_labels T l h
    rw [h1]
    refine ⟨_, rfl, ?_⟩
    show poolLabels (ls ++ [PoolLine.blank]) = _
    rw [poolLabels_append, h2]
    simp [poolLabels]

theorem assignLabels_mem (l : List ent_or_tv_t) :
    ∀ id, ∀ e ∈ assignLabels id l, ∃ k ∈ l, e.u = k.u ∧ e.is_entity = k.is_entity := by
  induction l with
  | nil => intro id e he; simp [assignLabels] at he
  | cons k ks ih =>
    intro id e he
    unfold assignLabels at he
    rcases List.mem_cons.1 he with h | h
    · exact ⟨k, List.mem_cons_self _ _, by rw [h], by rw [h]⟩
    · obtain ⟨k2, hk2, h2⟩ := ih _ e h
      exact ⟨k2, List.mem_cons_of_mem _ hk2, h2⟩

/-- C17: the constant pool of the ARM emitter is an order-preserving
deduplication. After the requests `keys` in a function, as long as the
counter of the labels does not wrap around: the pool holds the keys in the
order of their first request, with consecutive labels; every key that was
requested is in it exactly once; a request returns the entry of the pool
with its key, so that requests for the same key return the same entry and
label and requests for different keys return different labels; a further
request for such a key returns this entry and changes neither the pool nor
the map; and the pool that is emitted lists the labels of the entries in
this order. -/
theorem arm_pool_dedup {M : Type} (P : PMapOps M) (hP : P.Lawful) (T : TarvalOps)
    (id0 : Nat) (keys : List ent_or_tv_t) (hid : id0 + keys.length < 4294967296)
    (htv : ∀ key ∈ keys, key.is_entity = false →
      ∃ k, T.round_up2 (T.get_mode_size_bytes (T.get_tarval_mode key.u)) 4 = 4 * k ∧
        4 * k < 4294967296)
    (results : List ent_or_tv_t) (st : PoolState M)
    (hrun : request_entries P (pool_init P id0) keys = (results, st)) :
    st.ent_or_tv_first = assignLabels id0 (firstRequests [] keys) ∧
      List.Sublist (firstRequests [] keys) keys ∧
      (st.ent_or_tv_first.map fun e => e.u).Nodup ∧
      (∀ x, x ∈ (st.ent_or_tv_first.map fun e => e.u) ↔ x ∈ keys.map fun e => e.u) ∧
      results.length = keys.length ∧
      (∀ (i : Nat) (key e : ent_or_tv_t), keys[i]? = some key → results[i]? = some e →
        e.u = key.u ∧ e ∈ st.ent_or_tv_first ∧ get_ent_or_tv_entry P st key = (e, st)) ∧
      (∀ (i j : Nat) (ki kj ei ej : ent_or_tv_t), keys[i]? = some ki → keys[j]? = some kj →
        results[i]? = some ei → results[j]? = some ej →
        (ki.u = kj.u → ei = ej) ∧ (ki.u ≠ kj.u → ei.label ≠ ej.label)) ∧
      ∃ lines, emit_pool T st.ent_or_tv_first = some lines ∧
        poolLabels lines = st.ent_or_tv_first.map fun e => e.label := by
  obtain ⟨h1, h2, h3, h4⟩ := request_entries_spec P hP keys (pool_init P id0)
    (pool_init_inv P hP id0) hid
  rw [hrun] at h1 h2 h3 h4
  simp only [pool_init, List.map_nil, List.nil_append] at h1
  simp only at h2 h3 h4
  have hu : (st.ent_or_tv_first.map fun e => e.u) =
      (firstRequests [] keys).map fun e => e.u := by
    rw [h1, assignLabels_map_u]
  have hnd : (st.ent_or_tv_first.map fun e => e.u).Nodup := by
    rw [hu]; exact firstRequests_nodup keys []
  have hlab : (st.ent_or_tv_first.map fun e => e.label).Nodup := by
    rw [h1, assignLabels_labels]
    exact List.nodup_range' _ _
  have hsub := firstRequests_sublist keys []
  have hinj : ∀ a ∈ st.ent_or_tv_first, ∀ b ∈ st.ent_or_tv_first, a.u = b.u → a = b :=
    fun a ha b hb hab => List.inj_on_of_nodup_map hnd ha hb hab
  have hinjl : ∀ a ∈ st.ent_or_tv_first, ∀ b ∈ st.ent_or_tv_first,
      a.label = b.label → a = b :=
    fun a ha b hb hab => List.inj_on_of_nodup_map hlab ha hb hab
  refine ⟨h1, hsub, hnd, ?_, h3, ?_, ?_, ?_⟩
  · intro x
    rw [hu]
    constructor
    · intro hx
      obtain ⟨k, hk, hku⟩ := List.mem_map.1 hx
      exact List.mem_map.2 ⟨k, hsub.subset hk, hku⟩
    · intro hx
      obtain ⟨k, hk, hku⟩ := List.mem_map.1 hx
      rcases firstRequests_mem keys [] k hk with h | h
      · simp at h
      · rw [← hku]; exact h
  · intro i key e hk he
    obtain ⟨hku, hmem⟩ := h4 i key e hk he
    refine ⟨hku, hmem, ?_⟩
    apply get_ent_or_tv_entry_found
    rw [h2 key.u]
    cases hf : st.ent_or_tv_first.find? fun e => decide (e.u = key.u) with
    | none =>
      exact absurd (List.mem_map.2 ⟨e, hmem, hku⟩) (find_u_none hf)
    | some e2 =>
      obtain ⟨hu2, hm2⟩ := find_u_some hf
      rw [hinj e2 hm2 e hmem (by rw [hu2, hku])]
  · intro i j ki kj ei ej hki hkj hei hej
    obtain ⟨hui, hmi⟩ := h4 i ki ei hki hei
    obtain ⟨huj, hmj⟩ := h4 j kj ej hkj hej
    constructor
    · intro h
      exact hinj ei hmi ej hmj (by rw [hui, huj, h])
    · intro h hl
      have := hinjl ei hmi ej hmj hl
      rw [this, huj] at hui
      exact h hui.symm
  · apply emit_pool_labels
    intro entry hentry hent
    rw [h1] at hentry
    obtain ⟨k, hk, hku, hke⟩ := assignLabels_mem _ _ entry hentry
    rw [hku]
    exact htv k (hsub.subset hk) (by rw [← hke]; exact hent)

/-- C17 for the requests tarval 7, entity 3, tarval 7 with the counter at 0:
the entries have the labels 1, 2, 1 and the pool has two constants. -/
theorem arm_pool_dedup_witness :
    (request_entries funPMap (pool_init funPMap 0) exampleRequests).1 =
        [ent_or_tv_t.mk 7 1 false, ent_or_tv_t.mk 3 2 true, ent_or_tv_t.mk 7 1 false] ∧
      (request_entries funPMap (pool_init funPMap 0) exampleRequests).2.ent_or_tv_first =
        [ent_or_tv_t.mk 7 1 false, ent_or_tv_t.mk 3 2 true] ∧
      emit_pool exampleTarvals
          (request_entries funPMap (pool_init funPMap 0) exampleRequests).2.ent_or_tv_first =
        some [PoolLine.align, PoolLine.constant_name 1, PoolLine.word 134678021,
          PoolLine.word 67305985, PoolLine.constant_name 2, PoolLine.word_entity 3,
          PoolLine.blank] ∧
      (request_entries funPMap (pool_init funPMap 0) exampleRequests).2.ent_or_tv_first =
        assignLabels 0 (firstRequests [] exampleRequests) :=
  ⟨by decide, by decide, by decide,
    (arm_pool_dedup funPMap
      ⟨fun _ => rfl, fun m k v k2 => by
        show Function.update m k v k2 = _
        by_cases h : k2 = k
        · rw [if_pos h, h, Function.update_same]
        · rw [if_neg h, Function.update_noteq h]
          rfl⟩
      exampleTarvals 0 exampleRequests (by decide)
      (fun _ _ _ => ⟨2, by simp [exampleTarvals], by decide⟩) _ _ rfl).1⟩

/-! ## Emitting a node twice -/

/-- The emitter of the node `switchNode` is the one that
`ia32_register_emitters` enters for a `SwitchJmp`. -/
theorem switchNode_generic :
    switchNode.generic =
      some (ia32_generic emitterEnv (Ia32Insn.SwitchJmp [(105, 5), (100, 9), (102, 2)] 9)) :=
  rfl

/-- The end of a text of an inline assembler is reached within as many
rounds as it has characters. -/
theorem emit_asm_operand_length (sscanf_d : List Char → Option (Int × Nat)) (a : AsmNode)
    (s : List Char) (out : List EmitPiece) (s1 : List Char)
    (h : emit_asm_operand sscanf_d a s = some (out, s1)) : s1.length ≤ s.length := by
  unfold emit_asm_operand at h
  simp only [] at h
  have htail : s.tail.length ≤ s.length := by simp
  have hs1 : (if '0' ≤ s.headD '\x00' ∧ s.headD '\x00' ≤ '9' then s else s.tail).length ≤
      s.length := by
    split
    · exact le_rfl
    · exact htail
  split at h
  · exact absurd h (by simp)
  · split at h
    · simp only [Option.some.injEq, Prod.mk.injEq] at h
      rw [← h.2]; exact htail
    · split at h
      · simp only [Option.some.injEq, Prod.mk.injEq] at h
        rw [← h.2]; exact hs1
      · rename_i num p _
        have hdrop : ((if '0' ≤ s.headD '\x00' ∧ s.headD '\x00' ≤ '9' then s
            else s.tail).drop p).length ≤ s.length :=
          le_trans (by simp) hs1
        split at h
        · simp only [Option.some.injEq, Prod.mk.injEq] at h
          rw [← h.2]; exact hs1
        · unfold emit_asm_operand_num at h
          split at h
          · simp only [Option.some.injEq, Prod.mk.injEq] at h
            rw [← h.2]; exact hdrop
          · split at h
            · simp only [Option.some.injEq, Prod.mk.injEq] at h
              rw [← h.2]; exact hdrop
            · split at h
              · exact absurd h (by simp)
              · split at h
                · simp only [Option.some.injEq, Prod.mk.injEq] at h
                  rw [← h.2]; exact hdrop
                · split at h
                  · exact absurd h (by simp)
                  · simp only [Option.some.injEq, Prod.mk.injEq] at h
                    rw [← h.2]; exact hdrop

/-- More rounds than the text has characters do not change what the loop of
`emit_ia32_Asm` prints. -/
theorem emit_asm_text_fuel (sscanf_d : List Char → Option (Int × Nat)) (a : AsmNode)
    (n : Nat) : ∀ (s : List Char) (fuel : Nat), s.length ≤ n → n ≤ fuel →
      emit_asm_text sscanf_d a fuel s = emit_asm_text sscanf_d a n s := by
  induction n with
  | zero =>
    intro s fuel hs _
    have : s = [] := List.length_eq_zero.mp (Nat.le_zero.mp hs)
    subst this
    cases fuel <;> rfl
  | succ n ih =>
    intro s fuel hs hfuel
    cases s with
    | nil => cases fuel <;> rfl
    | cons ch rest =>
      obtain ⟨f, rfl⟩ : ∃ f, fuel = f + 1 := ⟨fuel - 1, by omega⟩
      have hrest : rest.length ≤ n := by simpa using hs
      have hf : n ≤ f := by omega
      simp only [emit_asm_text]
      split
      · rfl
      · split
        · cases hop : emit_asm_operand sscanf_d a rest with
          | none => rfl
          | some r =>
            obtain ⟨out, s1⟩ := r
            have hlen := emit_asm_operand_length sscanf_d a rest out s1 hop
            simp only []
            rw [ih s1 f (le_trans hlen hrest) hf]
        · rw [ih rest f hrest hf]

/-- On a node of each of the operations the emitter returns, and each
emitter but the one of the `SwitchJmp` returns the counters that it got. -/
theorem emitters_samples_return :
    (emitterSamples.all fun insn =>
        (ia32_generic emitterEnv insn (EmitCounters.mk 0 0)).isSome) = true ∧
      (emitterSamples.all fun insn => insn.is_SwitchJmp ||
        ((ia32_generic emitterEnv insn (EmitCounters.mk 5 7)).map Prod.snd ==
          some (EmitCounters.mk 5 7))) = true := by
  constructor <;> decide

/-- C21 fails as stated: a block without predecessors and without label
entity needs no label for `block_needs_label`, although it does not have
exactly one predecessor; `arm_emit_block_header` asks for a label. -/
theorem block_needs_label_no_preds :
    block_needs_label (LabelBlock.mk false []) none = false ∧
      block_needs_label (LabelBlock.mk false []) (some 7) = false ∧
      arm_emit_block_header (LabelBlock.mk false []) none = true := by
  decide

/-- C21, amended: `block_needs_label` reports that a block needs no label
exactly if the block carries no label entity and either has no predecessor at
all, or has exactly one predecessor that lies in the block scheduled
immediately before it and is not a Proj of a SwitchJmp. -/
theorem block_needs_label_iff (block : LabelBlock) (prev_block_sched : Option Nat) :
    block_needs_label block prev_block_sched = false ↔
      block.has_entity = false ∧
        (block.cfgpreds = [] ∨
          ∃ cfgpred, block.cfgpreds = [cfgpred] ∧ prev_block_sched = some cfgpred.block ∧
            ¬ (cfgpred.is_Proj = true ∧ cfgpred.pred_is_SwitchJmp = true)) := by
  unfold block_needs_label is_fallthrough
  cases he : block.has_entity with
  | true => simp
  | false =>
    simp only [Bool.false_eq_true, if_false, true_and]
    cases hp : block.cfgpreds with
    | nil => simp
    | cons p rest =>
      cases rest with
      | nil =>
        simp only [List.cons.injEq, and_true, exists_eq_left', false_or, reduceCtorEq]
        cases p.is_Proj <;> cases p.pred_is_SwitchJmp <;> simp
      | cons q rest => simp

/-- A block with a label entity always needs a label. -/
theorem block_needs_label_entity (cfgpreds : List CfgPred) (prev_block_sched : Option Nat) :
    block_needs_label (LabelBlock.mk true cfgpreds) prev_block_sched = true := by
  simp [block_needs_label]

/-- For a block with at least one predecessor the two emitters agree, if the
block has no label entity. -/
theorem arm_emit_block_header_eq (block : LabelBlock) (prev : Option Nat)
    (he : block.has_entity = false) (hp : block.cfgpreds ≠ []) :
    arm_emit_block_header block prev = block_needs_label block prev := by
  unfold arm_emit_block_header block_needs_label is_fallthrough
  rw [he]
  simp only [Bool.false_eq_true, if_false]
  cases hc : block.cfgpreds with
  | nil => exact absurd hc hp
  | cons p rest =>
    cases rest with
    | nil =>
      simp only
      by_cases h : prev = some p.block
      · cases p.is_Proj <;> cases p.pred_is_SwitchJmp <;> simp [h]
      · have h2 : ¬ (some p.block = prev) := fun hx => h hx.symm
        cases p.is_Proj <;> cases p.pred_is_SwitchJmp <;> simp [h, h2]
    | cons q rest => rfl

/-! ## The exception label id of a node that is emitted twice -/

/-- C23 fails as stated: a node that can fail is emitted twice; the first
emission attaches the exception label id 1 and prints the label `.LE1`, the
second one replaces the id by 2 and prints `.LE2`. -/
theorem ia32_emit_node_new_exc_label_id :
    ia32_emit_node ".LE" false excNode (EmitCounters.mk 0 0) =
        some ([NodeText.exc_label ".LE1" 4, NodeText.text "movl (%eax), %ecx"],
          EmitCounters.mk 0 1) ∧
      ia32_emit_node_exc_label_id excNode 0 (EmitCounters.mk 0 0) = 1 ∧
      ia32_emit_node ".LE" false excNode (EmitCounters.mk 0 1) =
        some ([NodeText.exc_label ".LE2" 4, NodeText.text "movl (%eax), %ecx"],
          EmitCounters.mk 0 2) ∧
      ia32_emit_node_exc_label_id excNode 1 (EmitCounters.mk 0 1) = 2 := by
  refine ⟨by decide, by decide, by decide, by decide⟩

/-- The label that `ia32_emit_node` prints for a node that can fail holds the
id that the node has after the call. -/
theorem ia32_emit_node_label_id (insn_label_pfx : String) (mark_spill_reload : Bool)
    (node : EmitNode) (id : Nat) (c : EmitCounters)
    (hexc : node.is_ia32_irn ∧ node.exc_label) (out : List NodeText) (c1 : EmitCounters)
    (h : ia32_emit_node insn_label_pfx mark_spill_reload node c = some (out, c1)) :
    out.head? = some (NodeText.exc_label
      (insn_label_pfx ++ toString (ia32_emit_node_exc_label_id node id c))
      node.cfop_target) := by
  unfold ia32_emit_node at h
  unfold ia32_emit_node_exc_label_id
  rw [if_pos hexc]
  simp only [if_pos hexc] at h
  cases hg : node.generic with
  | none => rw [hg] at h; cases h
  | some func =>
    rw [hg] at h
    simp only [Option.map_eq_some'] at h
    obtain ⟨r, _, hr⟩ := h
    have h1 := congrArg Prod.fst hr
    simp only at h1
    rw [← h1]
    simp [ia32_assign_exc_label]

/-- C23, amended: every emission of a node that can fail assigns it a new
exception label id, the incremented counter `exc_label_id`. If the emitter
of the operation leaves the counter alone and the counter does not wrap
around, the second emission replaces the id of the first emission by the
next number. The id of a node that cannot fail is not changed. -/
theorem ia32_emit_node_exc_label_twice (insn_label_pfx : String) (mark_spill_reload : Bool)
    (node : EmitNode) (id0 : Nat) (c c1 : EmitCounters) (out : List NodeText)
    (func : EmitCounters → Option (List NodeText × EmitCounters))
    (hg : node.generic = some func)
    (hfunc : ∀ x r, func x = some r → r.2.exc_label_id = x.exc_label_id)
    (hwrap : c.exc_label_id + 2 < 4294967296)
    (h1 : ia32_emit_node insn_label_pfx mark_spill_reload node c = some (out, c1)) :
    (node.is_ia32_irn ∧ node.exc_label →
      ia32_emit_node_exc_label_id node id0 c = c.exc_label_id + 1 ∧
      ia32_emit_node_exc_label_id node (ia32_emit_node_exc_label_id node id0 c) c1 =
        c.exc_label_id + 2 ∧
      ia32_emit_node_exc_label_id node (ia32_emit_node_exc_label_id node id0 c) c1 ≠
        ia32_emit_node_exc_label_id node id0 c) ∧
    (¬ (node.is_ia32_irn ∧ node.exc_label) →
      ia32_emit_node_exc_label_id node id0 c = id0 ∧
      ia32_emit_node_exc_label_id node (ia32_emit_node_exc_label_id node id0 c) c1 = id0) := by
  constructor
  · intro hexc
    have hc1 : c1.exc_label_id = c.exc_label_id + 1 := by
      unfold ia32_emit_node at h1
      simp only [if_pos hexc, hg, Option.map_eq_some'] at h1
      obtain ⟨r, hr, hr2⟩ := h1
      have h2 := hfunc _ r hr
      have h3 := congrArg Prod.snd hr2
      simp only at h3
      rw [← h3, h2]
      simp only [ia32_assign_exc_label]
      exact Nat.mod_eq_of_lt (by omega)
    unfold ia32_emit_node_exc_label_id
    simp only [if_pos hexc]
    rw [hc1, Nat.mod_eq_of_lt (by omega : c.exc_label_id + 1 < 4294967296),
      Nat.mod_eq_of_lt (by omega : c.exc_label_id + 1 + 1 < 4294967296)]
    exact ⟨rfl, rfl, by omega⟩
  · intro hexc
    unfold ia32_emit_node_exc_label_id
    rw [if_neg hexc, if_neg hexc]
    exact ⟨rfl, rfl⟩

/-- C23 at a load that can fail. -/
theorem ia32_emit_node_exc_label_twice_witness :
    ia32_emit_node_exc_label_id excNode 0 (EmitCounters.mk 0 0) = 0 + 1 ∧
      ia32_emit_node_exc_label_id excNode
          (ia32_emit_node_exc_label_id excNode 0 (EmitCounters.mk 0 0))
          (EmitCounters.mk 0 1) = 0 + 2 ∧
      ia32_emit_node_exc_label_id excNode
          (ia32_emit_node_exc_label_id excNode 0 (EmitCounters.mk 0 0))
          (EmitCounters.mk 0 1) ≠
        ia32_emit_node_exc_label_id excNode 0 (EmitCounters.mk 0 0) :=
  (ia32_emit_node_exc_label_twice ".LE" false excNode 0 (EmitCounters.mk 0 0)
    (EmitCounters.mk 0 1)
    [NodeText.exc_label ".LE1" 4, NodeText.text "movl (%eax), %ecx"]
    (fun c => some ([NodeText.text "movl (%eax), %ecx"], c)) rfl
    (fun x r h => by rw [← Option.some.inj h]) (by decide) (by decide)).1 (by decide)

/-! ## The jumps on a floating-point compare and the summary table -/

theorem firmCodes_firm : FirmCodes firmCmpConsts firmUnorderedConsts :=
  ⟨⟨rfl, rfl, rfl, rfl, rfl, rfl⟩, rfl, rfl, rfl, rfl, rfl, rfl, rfl, rfl, rfl, rfl, fun _ => rfl⟩

theorem and_seven_of_and_fifteen (q n : Nat) (h : q &&& 15 = n) : q &&& 7 = n &&& 7 := by
  rw [← h, Nat.and_assoc]; rfl

theorem xor_fifteen_and_fifteen (p n : Nat) (h : p &&& 15 = n) :
    (p ^^^ 15) &&& 15 = n ^^^ 15 := by
  rw [Nat.and_xor_distrib_right, h]; rfl

theorem xor_fifteen_and_float (p : Nat) : (p ^^^ 15) &&& 8192 = p &&& 8192 := by
  rw [Nat.and_xor_distrib_right]; exact Nat.xor_zero _

theorem ne_parity_of_float (q : Nat) (h : q &&& 8192 ≠ 0) : q ≠ 16384 := by
  rintro rfl; exact h (by decide)

/-- The jumps of `emit_ia32_Jcc` for a floating-point compare. -/
theorem emit_ia32_Jcc_float_run (K : CmpConsts) (U : UnorderedConsts) (prev : Nat → Option Nat)
    (node : JccNode) (t f : Nat) (fl : Flags) (row : SummaryRow) (hK : FirmCodes K U)
    (ht : node.true_target = some t) (hf : node.false_target = some f)
    (hfloat : determine_final_pnc K node.flags node.condcode &&& K.ia32_pn_Cmp_float ≠ 0)
    (hrow : determine_final_pnc K node.flags node.condcode &&& 15 = row.code K U) :
    ∃ lines, emit_ia32_Jcc K prev node = some lines ∧
      runJumps fl none lines =
        some (if (if row = SummaryRow.pnc_Lg then fl.NE
          else if row = SummaryRow.pnc_Ne then fl.P || fl.NE else row.summary fl) then t
          else f) := by
  obtain ⟨⟨h1, h2, h3, h4, h5, h6⟩, h7, h8, h9, h10, h11, h12, h13, h14, hfl, hpar, hneg⟩ := hK
  generalize hp : determine_final_pnc K node.flags node.condcode = p at hfloat hrow
  rw [hfl] at hfloat
  unfold emit_ia32_Jcc
  simp only [ht, hf, hp, can_be_fallthrough]
  have hq : ia32_get_negated_pnc K p = p ^^^ 15 := by
    unfold ia32_get_negated_pnc
    rw [hfl, hneg p |>.symm.trans (congrArg _ (decide_eq_true hfloat).symm) |>.symm]
  have hxf : (p ^^^ 15) &&& 8192 ≠ 0 := by rw [xor_fifteen_and_float]; exact hfloat
  have hpp := ne_parity_of_float p hfloat
  have hxp := ne_parity_of_float _ hxf
  have hp7 := and_seven_of_and_fifteen _ _ hrow
  have hx15 := xor_fifteen_and_fifteen _ _ hrow
  have hx7 := and_seven_of_and_fifteen _ _ hx15
  rcases fl with ⟨c, z, pp, s, o⟩
  cases row <;>
    simp only [SummaryRow.code, h1, h2, h3, h4, h5, h6, h7, h8, h9, h10, h11, h12, h13, h14,
      Nat.reduceXor, Nat.reduceAnd] at hrow hp7 hx15 hx7 <;>
    by_cases hs : prev t = some node.block <;>
    by_cases hff : prev f = some node.block <;>
    simp only [hs, hff, hq, hrow, hp7, hx15, hx7, hfloat, hxf, hpp, hxp, hfl, hpar, h1, h2, h3,
      h4, h5, h6, h7, h8, h12, h13, h14, emit_jcc_line, ia32_emit_cmp_suffix, cmp2condition_u,
      decide_True, decide_False, if_true, if_false, ne_eq, not_false_eq_true, not_true_eq_false,
      Nat.reduceEqDiff, OfNat.ofNat_ne_zero, or_self, or_true, true_or, or_false, false_or,
      Option.map_some', List.getD_cons_succ, List.getD_cons_zero, List.cons_append,
      List.nil_append, List.singleton_append, reduceCtorEq, Bool.false_eq_true,
      exists_eq_left', Option.some.injEq, Nat.reduceAnd, Nat.reduceXor] <;>
    cases c <;> cases z <;> cases pp <;> first | rfl | exact ⟨_, rfl, rfl⟩

/-- The jumps of `emit_ia32_Jcc` for a floating-point compare reach the true
target exactly for the outcomes of the compare that the condition code
names: the outcome has its bit in the condition code. -/
theorem emit_ia32_Jcc_float_outcome (K : CmpConsts) (U : UnorderedConsts)
    (prev : Nat → Option Nat) (node : JccNode) (t f : Nat) (o : CmpOutcome) (row : SummaryRow)
    (hK : FirmCodes K U) (ht : node.true_target = some t) (hf : node.false_target = some f)
    (hfloat : determine_final_pnc K node.flags node.condcode &&& K.ia32_pn_Cmp_float ≠ 0)
    (hrow : determine_final_pnc K node.flags node.condcode &&& 15 = row.code K U) :
    ∃ lines, emit_ia32_Jcc K prev node = some lines ∧
      runJumps o.flags none lines = some (if row.code K U &&& o.bit ≠ 0 then t else f) := by
  obtain ⟨lines, hl, hr⟩ :=
    emit_ia32_Jcc_float_run K U prev node t f o.flags row hK ht hf hfloat hrow
  refine ⟨lines, hl, ?_⟩
  rw [hr]
  obtain ⟨⟨h1, h2, h3, h4, h5, h6⟩, h7, h8, h9, h10, h11, h12, h13, h14, -, -, -⟩ := hK
  cases row <;> cases o <;>
    simp only [SummaryRow.code, h1, h2, h3, h4, h5, h6, h7, h8, h9, h10, h11, h12, h13, h14] <;>
    rfl

/-- C24: for a Jcc on a floating-point compare whose final condition is one
of Eq, Lt, Le, Gt, Ge, Leg, Uo, Ue, Ul, Ule, Ug, Uge, `emit_ia32_Jcc` emits a
jump sequence, and the sequence reaches the true target if the flags satisfy
the condition that the summary table of the file lists for the final
condition and the false target otherwise, whether the false target, the true
target or none of them is the next block of the schedule. -/
theorem emit_ia32_Jcc_float_summary (K : CmpConsts) (U : UnorderedConsts)
    (prev : Nat → Option Nat) (node : JccNode) (t f : Nat) (fl : Flags) (row : SummaryRow)
    (hK : FirmCodes K U) (ht : node.true_target = some t) (hf : node.false_target = some f)
    (hfloat : determine_final_pnc K node.flags node.condcode &&& K.ia32_pn_Cmp_float ≠ 0)
    (hrow : determine_final_pnc K node.flags node.condcode &&& 15 = row.code K U)
    (hne : row ≠ SummaryRow.pnc_Lg ∧ row ≠ SummaryRow.pnc_Ne) :
    ∃ lines, emit_ia32_Jcc K prev node = some lines ∧
      runJumps fl none lines = some (if row.summary fl then t else f) ∧
      (t ≠ f → (runJumps fl none lines = some t ↔ row.summary fl = true) ∧
        (runJumps fl none lines = some f ↔ row.summary fl = false)) := by
  obtain ⟨lines, h1, h2⟩ := emit_ia32_Jcc_float_run K U prev node t f fl row hK ht hf hfloat hrow
  rw [if_neg hne.1, if_neg hne.2] at h2
  refine ⟨lines, h1, h2, fun htf => ?_⟩
  rw [h2]
  cases hsum : row.summary fl
  · simp [htf, Ne.symm htf]
  · simp [htf, Ne.symm htf]

/-- C24 at the jump `if a == b` for equal operands: the jumps are `jp 1f`,
`je` to block 3, the label `1:` and the fall into block 2. -/
theorem emit_ia32_Jcc_float_summary_witness :
    ∃ lines, emit_ia32_Jcc firmCmpConsts prevOf123 jccFloatEq = some lines ∧
      runJumps CmpOutcome.equal.flags none lines =
        some (if SummaryRow.pnc_Eq.summary CmpOutcome.equal.flags then 3 else 2) ∧
      ((3 : Nat) ≠ 2 → (runJumps CmpOutcome.equal.flags none lines = some 3 ↔
          SummaryRow.pnc_Eq.summary CmpOutcome.equal.flags = true) ∧
        (runJumps CmpOutcome.equal.flags none lines = some 2 ↔
          SummaryRow.pnc_Eq.summary CmpOutcome.equal.flags = false)) :=
  emit_ia32_Jcc_float_summary firmCmpConsts firmUnorderedConsts prevOf123 jccFloatEq 3 2
    CmpOutcome.equal.flags SummaryRow.pnc_Eq firmCodes_firm rfl rfl (by decide) (by decide)
    ⟨by decide, by decide⟩

/-- C25 fails as stated. For unordered operands, where the parity flag and
the zero flag are set, the table lists a condition that holds for Lg, and
the jump `jne` that `emit_ia32_Jcc` emits for Lg is not taken; the table
lists a condition that does not hold for Ne, and the jump `jp` that
`emit_ia32_Jcc` emits for Ne is taken. -/
theorem emit_ia32_Jcc_Lg_Ne_not_summary :
    (emit_ia32_Jcc firmCmpConsts prevOf123 jccFloatLg =
        some [AsmLine.branch "jne" 3, AsmLine.fallthrough 2] ∧
      SummaryRow.pnc_Lg.summary CmpOutcome.unordered.flags = true ∧
      runJumps CmpOutcome.unordered.flags none
        [AsmLine.branch "jne" 3, AsmLine.fallthrough 2] = some 2) ∧
    (emit_ia32_Jcc firmCmpConsts prevOf123 jccFloatNe =
        some [AsmLine.branch "jp" 3, AsmLine.branch "jne" 3, AsmLine.fallthrough 2] ∧
      SummaryRow.pnc_Ne.summary CmpOutcome.unordered.flags = false ∧
      runJumps CmpOutcome.unordered.flags none
        [AsmLine.branch "jp" 3, AsmLine.branch "jne" 3, AsmLine.fallthrough 2] = some 3) := by
  refine ⟨⟨by decide, by decide, by decide⟩, by decide, by decide, by decide⟩

/-- C25, amended: for a Jcc on a floating-point compare, the jump sequence
that `emit_ia32_Jcc` emits reaches the true target exactly when NE holds if
the final condition is Lg, and exactly when P || NE holds if the final
condition is Ne; otherwise it reaches the false target. The two rows of the
summary table are exchanged. -/
theorem emit_ia32_Jcc_Lg_Ne (K : CmpConsts) (U : UnorderedConsts)
    (prev : Nat → Option Nat) (node : JccNode) (t f : Nat) (fl : Flags) (row : SummaryRow)
    (hK : FirmCodes K U) (ht : node.true_target = some t) (hf : node.false_target = some f)
    (hfloat : determine_final_pnc K node.flags node.condcode &&& K.ia32_pn_Cmp_float ≠ 0)
    (hrow : determine_final_pnc K node.flags node.condcode &&& 15 = row.code K U)
    (hlg : row = SummaryRow.pnc_Lg ∨ row = SummaryRow.pnc_Ne) :
    ∃ lines, emit_ia32_Jcc K prev node = some lines ∧
      runJumps fl none lines =
        some (if (if row = SummaryRow.pnc_Lg then SummaryRow.pnc_Ne.summary fl
          else SummaryRow.pnc_Lg.summary fl) then t else f) ∧
      (row = SummaryRow.pnc_Lg → runJumps fl none lines = some (if fl.NE then t else f)) ∧
      (row = SummaryRow.pnc_Ne →
        runJumps fl none lines = some (if fl.P || fl.NE then t else f)) := by
  obtain ⟨lines, h1, h2⟩ := emit_ia32_Jcc_float_run K U prev node t f fl row hK ht hf hfloat hrow
  refine ⟨lines, h1, ?_, ?_, ?_⟩
  · rcases hlg with h | h
    · rw [h] at h2 ⊢
      exact h2
    · rw [h] at h2 ⊢
      exact h2
  · intro h
    rw [h] at h2
    exact h2
  · intro h
    rw [h] at h2
    exact h2

/-- C25 at the jump `if a <> b` for unordered operands: the jump `jne` is not
taken and block 2 is reached. -/
theorem emit_ia32_Jcc_Lg_Ne_witness :
    ∃ lines, emit_ia32_Jcc firmCmpConsts prevOf123 jccFloatLg = some lines ∧
      runJumps CmpOutcome.unordered.flags none lines =
        some (if (if SummaryRow.pnc_Lg = SummaryRow.pnc_Lg
            then SummaryRow.pnc_Ne.summary CmpOutcome.unordered.flags
          else SummaryRow.pnc_Lg.summary CmpOutcome.unordered.flags) then 3 else 2) ∧
      (SummaryRow.pnc_Lg = SummaryRow.pnc_Lg → runJumps CmpOutcome.unordered.flags none lines =
        some (if CmpOutcome.unordered.flags.NE then 3 else 2)) ∧
      (SummaryRow.pnc_Lg = SummaryRow.pnc_Ne → runJumps CmpOutcome.unordered.flags none lines =
        some (if CmpOutcome.unordered.flags.P || CmpOutcome.unordered.flags.NE then 3 else 2)) :=
  emit_ia32_Jcc_Lg_Ne firmCmpConsts firmUnorderedConsts prevOf123 jccFloatLg 3 2
    CmpOutcome.unordered.flags SummaryRow.pnc_Lg firmCodes_firm rfl rfl (by decide) (by decide)
    (Or.inl rfl)

/-! ## Unknown conversions in the formats of `arm_emitf` and `ia32_emitf` -/

theorem prepend_done_iff {α β : Type} (items : List α) (r : EmitfResult α β) (out : List α)
    (args : List β) :
    r.prepend items = EmitfResult.done out args ↔
      ∃ out1, r = EmitfResult.done out1 args ∧ out = items ++ out1 := by
  cases r with
  | done o a =>
    simp only [EmitfResult.prepend, EmitfResult.done.injEq]
    constructor
    · rintro ⟨h1, h2⟩
      exact ⟨o, ⟨rfl, h2⟩, h1.symm⟩
    · rintro ⟨o1, ⟨h1, h2⟩, h3⟩
      exact ⟨by rw [h3, h1], h2⟩
  | panic msg => simp [EmitfResult.prepend]
  | undefined => simp [EmitfResult.prepend]

theorem prepend_prepend {α β : Type} (a b : List α) (r : EmitfResult α β) :
    (r.prepend b).prepend a = r.prepend (a ++ b) := by
  cases r <;> simp [EmitfResult.prepend]

theorem prepend_nil {α β : Type} (r : EmitfResult α β) : r.prepend [] = r := by
  cases r <;> simp [EmitfResult.prepend]

/-- `arm_emitf` leaves its loop only at the head of the loop, at the end of
the format. -/
theorem arm_emitf_char_halt (is_digit : Char → Bool) (state : ArmScanState) (c : Char)
    (args : List ArmEmitArg) (h : arm_emitf_char is_digit state c args = EmitfStep.halt) :
    state = ArmScanState.text ∧ c = '\x00' := by
  cases state <;> rw [arm_emitf_char] at h
  · unfold arm_emitf_text at h
    by_cases hc : c = '\x00'
    · exact ⟨rfl, hc⟩
    · simp only [ite_eq_iff, reduceCtorEq, and_false, or_false, false_or, false_and, and_self,
        hc] at h
  · exfalso
    unfold arm_emitf_conversion at h
    rcases args with _ | ⟨a, args1⟩
    · simp only [ite_eq_iff, reduceCtorEq, and_false, or_false, false_or, false_and,
        and_self] at h
    · cases a <;>
      simp only [ite_eq_iff, reduceCtorEq, and_false, or_false, false_or, false_and,
        and_self] at h
  · exfalso
    unfold arm_emitf_source_digit at h
    simp only [ite_eq_iff, reduceCtorEq, and_false, or_false, false_or, false_and,
      and_self] at h
  · exfalso
    unfold arm_emitf_dest_digit at h
    simp only [ite_eq_iff, reduceCtorEq, and_false, or_false, false_or, false_and,
      and_self] at h
  · exfalso
    unfold arm_emitf_mode_letter at h
    simp only [ite_eq_iff, reduceCtorEq, and_false, or_false, false_or, false_and,
      and_self] at h

/-- The loop of `arm_emitf` on a format that is continued: if the loop
returns for `pre`, it goes on with `s` behind `pre`. -/
theorem arm_emitf_scan_append (is_digit : Char → Bool) (s : List Char) :
    ∀ (pre : List Char) (state : ArmScanState) (args args1 : List ArmEmitArg)
      (out : List ArmEmitItem), (∀ c ∈ pre, c ≠ '\x00') →
      arm_emitf_scan is_digit state pre args = EmitfResult.done out args1 →
      arm_emitf_scan is_digit state (pre ++ s) args =
        (arm_emitf_scan is_digit ArmScanState.text s args1).prepend out := by
  intro pre
  induction pre with
  | nil =>
    intro state args args1 out _ h
    rw [arm_emitf_scan] at h
    cases hs : arm_emitf_char is_digit state '\x00' args with
    | halt =>
      rw [hs] at h
      cases h
      rw [(arm_emitf_char_halt _ _ _ _ hs).1, List.nil_append, prepend_nil]
    | panic msg => rw [hs] at h; cases h
    | undefined => rw [hs] at h; cases h
    | next items state1 args2 => rw [hs] at h; cases h
  | cons c rest ih =>
    intro state args args1 out hnul h
    have hc : c ≠ '\x00' := hnul c (List.mem_cons_self _ _)
    have hnul1 : ∀ x ∈ rest, x ≠ '\x00' := fun x hx => hnul x (List.mem_cons_of_mem _ hx)
    rw [List.cons_append, arm_emitf_scan]
    rw [arm_emitf_scan] at h
    cases hs : arm_emitf_char is_digit state c args with
    | halt => exact absurd (arm_emitf_char_halt _ _ _ _ hs).2 hc
    | panic msg => rw [hs] at h; cases h
    | undefined => rw [hs] at h; cases h
    | next items state1 args2 =>
      rw [hs] at h
      simp only [if_neg hc] at h ⊢
      obtain ⟨out1, h1, h2⟩ := (prepend_done_iff _ _ _ _).1 h
      rw [ih state1 args2 args1 out1 hnul1 h1, prepend_prepend, h2]

/-- The character of a conversion that `arm_emitf` does not know. -/
theorem arm_emitf_conversion_unknown (d : Char) (args : List ArmEmitArg)
    (h : d ∉ arm_conversions) :
    arm_emitf_conversion d args = EmitfStep.panic "unknown format conversion" := by
  simp only [arm_conversions, List.mem_cons, List.mem_singleton, List.not_mem_nil, or_false,
    not_or] at h
  obtain ⟨h1, h2, h3, h4, h5, h6, h7, h8, h9, h10, h11, h12, h13, h14, h15⟩ := h
  unfold arm_emitf_conversion
  rw [if_neg h1, if_neg h2, if_neg h3, if_neg h4, if_neg h5, if_neg h6, if_neg h7, if_neg h8,
    if_neg h9, if_neg h10, if_neg h11, if_neg h12, if_neg h13, if_neg h14, if_neg h15]

/-- The letter behind `%M` that `arm_emitf` does not know. -/
theorem arm_emitf_mode_letter_unknown (e : Char) (args : List ArmEmitArg)
    (h : e ∉ arm_mode_conversions) :
    arm_emitf_mode_letter e args = EmitfStep.panic "unknown format conversion" := by
  simp only [arm_mode_conversions, List.mem_cons, List.mem_singleton, List.not_mem_nil,
    or_false, not_or] at h
  obtain ⟨h1, h2, h3, h4⟩ := h
  unfold arm_emitf_mode_letter
  rw [if_neg h1, if_neg h2, if_neg h3, if_neg h4]

/-- The loop of `arm_emitf` behind `%S` and a character that is no digit. -/
theorem arm_emitf_scan_source_digit (is_digit : Char → Bool) (rest : List Char)
    (args : List ArmEmitArg) (h : is_digit (rest.headD '\x00') = false) :
    arm_emitf_scan is_digit ArmScanState.source_digit rest args =
      EmitfResult.panic "unknown format conversion" := by
  rcases rest with _ | ⟨e, rest3⟩ <;>
    simp only [List.headD_nil, List.headD_cons] at h <;>
    simp [arm_emitf_scan, arm_emitf_char, arm_emitf_source_digit, h]

/-- The loop of `arm_emitf` behind `%D` and a character that is no digit. -/
theorem arm_emitf_scan_dest_digit (is_digit : Char → Bool) (rest : List Char)
    (args : List ArmEmitArg) (h : is_digit (rest.headD '\x00') = false) :
    arm_emitf_scan is_digit ArmScanState.dest_digit rest args =
      EmitfResult.panic "unknown format conversion" := by
  rcases rest with _ | ⟨e, rest3⟩ <;>
    simp only [List.headD_nil, List.headD_cons] at h <;>
    simp [arm_emitf_scan, arm_emitf_char, arm_emitf_dest_digit, h]

/-- The loop of `arm_emitf` behind `%M` and a letter that it does not
know. -/
theorem arm_emitf_scan_mode_letter (is_digit : Char → Bool) (rest : List Char)
    (args : List ArmEmitArg) (h : rest.headD '\x00' ∉ arm_mode_conversions) :
    arm_emitf_scan is_digit ArmScanState.mode_letter rest args =
      EmitfResult.panic "unknown format conversion" := by
  rcases rest with _ | ⟨e, rest3⟩ <;>
    simp only [List.headD_nil, List.headD_cons] at h <;>
    simp [arm_emitf_scan, arm_emitf_char, arm_emitf_mode_letter_unknown _ _ h]

/-- The loop of `arm_emitf` ends in `panic` behind a `'%'` that is not the
head of a conversion. -/
theorem arm_emitf_scan_unknown (is_digit : Char → Bool) (tail : List Char)
    (args : List ArmEmitArg) (h : arm_unknown_conversion is_digit tail) :
    arm_emitf_scan is_digit ArmScanState.conversion tail args =
      EmitfResult.panic "unknown format conversion" := by
  rcases h with h | ⟨h1, h2⟩ | ⟨h1, h2⟩
  · rcases tail with _ | ⟨d, rest2⟩ <;>
      simp only [List.headD_nil, List.headD_cons] at h <;>
      simp [arm_emitf_scan, arm_emitf_char, arm_emitf_conversion_unknown _ _ h]
  · rcases tail with _ | ⟨d, rest2⟩
    · simp only [List.headD_nil] at h1
      rcases h1 with h1 | h1 <;> exact absurd h1 (by decide)
    · simp only [List.headD_cons, List.tail_cons] at h1 h2
      rcases h1 with h1 | h1
      · subst h1
        have hs : arm_emitf_conversion 'S' args =
            EmitfStep.next [] ArmScanState.source_digit args := rfl
        rw [arm_emitf_scan, arm_emitf_char, hs]
        simp only [Char.reduceEq, if_false]
        rw [arm_emitf_scan_source_digit is_digit rest2 args h2]
        rfl
      · subst h1
        have hs : arm_emitf_conversion 'D' args =
            EmitfStep.next [] ArmScanState.dest_digit args := rfl
        rw [arm_emitf_scan, arm_emitf_char, hs]
        simp only [Char.reduceEq, if_false]
        rw [arm_emitf_scan_dest_digit is_digit rest2 args h2]
        rfl
  · rcases tail with _ | ⟨d, rest2⟩
    · simp only [List.headD_nil] at h1
      exact absurd h1 (by decide)
    · simp only [List.headD_cons, List.tail_cons] at h1 h2
      subst h1
      have hs : arm_emitf_conversion 'M' args =
          EmitfStep.next [] ArmScanState.mode_letter args := rfl
      rw [arm_emitf_scan, arm_emitf_char, hs]
      simp only [Char.reduceEq, if_false]
      rw [arm_emitf_scan_mode_letter is_digit rest2 args h2]
      rfl

/-- `arm_emitf` ends in `panic` at a `'%'` that is not the head of a
conversion, if it returns for the format in front of the `'%'`. -/
theorem arm_emitf_unknown (is_digit : Char → Bool) (pre tail : List Char)
    (args args1 : List ArmEmitArg) (out : List ArmEmitItem) (hnul : ∀ c ∈ pre, c ≠ '\x00')
    (hpre : arm_emitf is_digit pre args = EmitfResult.done out args1)
    (h : arm_unknown_conversion is_digit tail) :
    arm_emitf is_digit (pre ++ '%' :: tail) args =
      EmitfResult.panic "unknown format conversion" := by
  unfold arm_emitf at hpre ⊢
  cases hp : arm_emitf_scan is_digit ArmScanState.text pre args with
  | panic msg => rw [hp] at hpre; cases hpre
  | undefined => rw [hp] at hpre; cases hpre
  | done out1 args2 =>
    rw [hp] at hpre
    simp only [EmitfResult.prepend, EmitfResult.done.injEq] at hpre
    rw [arm_emitf_scan_append is_digit _ pre _ args args2 out1 hnul hp]
    have hs : arm_emitf_scan is_digit ArmScanState.text ('%' :: tail) args2 =
        EmitfResult.panic "unknown format conversion" := by
      have ht : arm_emitf_text '%' args2 = EmitfStep.next [] ArmScanState.conversion args2 := rfl
      rw [arm_emitf_scan, arm_emitf_char, ht]
      simp only [Char.reduceEq, if_false]
      rw [arm_emitf_scan_unknown is_digit tail args2 h]
      rfl
    rw [hs]
    rfl

/-- `ia32_emitf` leaves its loop only at the head of the loop, at the end of
the format. -/
theorem ia32_emitf_char_halt (node : EmitfNode) (state : Ia32ScanState) (c : Char)
    (args : List Ia32EmitArg) (h : ia32_emitf_char node state c args = EmitfStep.halt) :
    state = Ia32ScanState.text ∧ c = '\x00' := by
  cases state <;> rw [ia32_emitf_char] at h
  · unfold ia32_emitf_text at h
    by_cases hc : c = '\x00'
    · exact ⟨rfl, hc⟩
    · simp only [ite_eq_iff, reduceCtorEq, and_false, or_false, false_or, false_and, and_self,
        hc] at h
  · exfalso
    unfold ia32_emitf_conversion at h
    rcases args with _ | ⟨a, args1⟩
    · simp only [ite_eq_iff, reduceCtorEq, and_false, or_false, false_or, false_and,
        and_self] at h
    · cases a <;>
      simp only [ite_eq_iff, reduceCtorEq, and_false, or_false, false_or, false_and,
        and_self] at h
  · exfalso
    unfold ia32_emitf_am_letter at h
    rcases args with _ | ⟨a, args1⟩
    · simp only [ite_eq_iff, reduceCtorEq, and_false, or_false, false_or, false_and,
        and_self] at h
    · cases a <;>
      simp only [ite_eq_iff, reduceCtorEq, and_false, or_false, false_or, false_and,
        and_self] at h
  · exfalso
    unfold ia32_emitf_am_skip at h
    cases h
  · exfalso
    unfold ia32_emitf_source_digit at h
    simp only [ite_eq_iff, reduceCtorEq, and_false, or_false, false_or, false_and,
      and_self] at h
  · exfalso
    unfold ia32_emitf_dest_digit at h
    simp only [ite_eq_iff, reduceCtorEq, and_false, or_false, false_or, false_and,
      and_self] at h

/-- The loop of `ia32_emitf` on a format that is continued: if the loop
returns for `pre`, it goes on with `s` behind `pre`. -/
theorem ia32_emitf_scan_append (node : EmitfNode) (s : List Char) :
    ∀ (pre : List Char) (state : Ia32ScanState) (args args1 : List Ia32EmitArg)
      (out : List Ia32EmitItem), (∀ c ∈ pre, c ≠ '\x00') →
      ia32_emitf_scan node state pre args = EmitfResult.done out args1 →
      ia32_emitf_scan node state (pre ++ s) args =
        (ia32_emitf_scan node Ia32ScanState.text s args1).prepend out := by
  intro pre
  induction pre with
  | nil =>
    intro state args args1 out _ h
    rw [ia32_emitf_scan] at h
    cases hs : ia32_emitf_char node state '\x00' args with
    | halt =>
      rw [hs] at h
      cases h
      rw [(ia32_emitf_char_halt _ _ _ _ hs).1, List.nil_append, prepend_nil]
    | panic msg => rw [hs] at h; cases h
    | undefined => rw [hs] at h; cases h
    | next items state1 args2 => rw [hs] at h; cases h
  | cons c rest ih =>
    intro state args args1 out hnul h
    have hc : c ≠ '\x00' := hnul c (List.mem_cons_self _ _)
    have hnul1 : ∀ x ∈ rest, x ≠ '\x00' := fun x hx => hnul x (List.mem_cons_of_mem _ hx)
    rw [List.cons_append, ia32_emitf_scan]
    rw [ia32_emitf_scan] at h
    cases hs : ia32_emitf_char node state c args with
    | halt => exact absurd (ia32_emitf_char_halt _ _ _ _ hs).2 hc
    | panic msg => rw [hs] at h; cases h
    | undefined => rw [hs] at h; cases h
    | next items state1 args2 =>
      rw [hs] at h
      simp only [if_neg hc] at h ⊢
      obtain ⟨out1, h1, h2⟩ := (prepend_done_iff _ _ _ _).1 h
      rw [ih state1 args2 args1 out1 hnul1 h1, prepend_prepend, h2]

/-- The loop of `ia32_emitf` reads the modifiers behind a `'%'` and goes on
behind them. -/
theorem ia32_emitf_scan_modifiers (node : EmitfNode) (tail : List Char)
    (args : List Ia32EmitArg) :
    ∀ (mods : List Char) (mod : Nat), (∀ c ∈ mods, c ∈ ia32_modifiers) →
      ∃ mod1, ia32_emitf_scan node (Ia32ScanState.conversion mod) (mods ++ tail) args =
        ia32_emitf_scan node (Ia32ScanState.conversion mod1) tail args := by
  intro mods
  induction mods with
  | nil => intro mod _; exact ⟨mod, rfl⟩
  | cons c rest ih =>
    intro mod h
    have hc : c ∈ ia32_modifiers := h c (List.mem_cons_self _ _)
    have hrest : ∀ x ∈ rest, x ∈ ia32_modifiers := fun x hx => h x (List.mem_cons_of_mem _ hx)
    simp only [ia32_modifiers, List.mem_cons, List.mem_singleton, List.not_mem_nil,
      or_false] at hc
    rcases hc with hc | hc | hc | hc | hc <;> subst hc
    · obtain ⟨mod1, h1⟩ := ih (mod ||| EMIT_ALTERNATE_AM) hrest
      refine ⟨mod1, ?_⟩
      rw [← h1, List.cons_append, ia32_emitf_scan, ia32_emitf_char]
      have hs : ia32_emitf_conversion mod '*' args =
          EmitfStep.next [] (Ia32ScanState.conversion (mod ||| EMIT_ALTERNATE_AM)) args := rfl
      rw [hs]
      simp only [Char.reduceEq, if_false, prepend_nil]
    · obtain ⟨mod1, h1⟩ := ih (mod ||| EMIT_RESPECT_LS) hrest
      refine ⟨mod1, ?_⟩
      rw [← h1, List.cons_append, ia32_emitf_scan, ia32_emitf_char]
      have hs : ia32_emitf_conversion mod '#' args =
          EmitfStep.next [] (Ia32ScanState.conversion (mod ||| EMIT_RESPECT_LS)) args := rfl
      rw [hs]
      simp only [Char.reduceEq, if_false, prepend_nil]
    · obtain ⟨mod1, h1⟩ := ih (mod ||| EMIT_LONG) hrest
      refine ⟨mod1, ?_⟩
      rw [← h1, List.cons_append, ia32_emitf_scan, ia32_emitf_char]
      have hs : ia32_emitf_conversion mod 'l' args =
          EmitfStep.next [] (Ia32ScanState.conversion (mod ||| EMIT_LONG)) args := rfl
      rw [hs]
      simp only [Char.reduceEq, if_false, prepend_nil]
    · obtain ⟨mod1, h1⟩ := ih (mod ||| EMIT_HIGH_REG) hrest
      refine ⟨mod1, ?_⟩
      rw [← h1, List.cons_append, ia32_emitf_scan, ia32_emitf_char]
      have hs : ia32_emitf_conversion mod '>' args =
          EmitfStep.next [] (Ia32ScanState.conversion (mod ||| EMIT_HIGH_REG)) args := rfl
      rw [hs]
      simp only [Char.reduceEq, if_false, prepend_nil]
    · obtain ⟨mod1, h1⟩ := ih (mod ||| EMIT_LOW_REG) hrest
      refine ⟨mod1, ?_⟩
      rw [← h1, List.cons_append, ia32_emitf_scan, ia32_emitf_char]
      have hs : ia32_emitf_conversion mod '<' args =
          EmitfStep.next [] (Ia32ScanState.conversion (mod ||| EMIT_LOW_REG)) args := rfl
      rw [hs]
      simp only [Char.reduceEq, if_false, prepend_nil]

/-- The character of a conversion that `ia32_emitf` does not know. -/
theorem ia32_emitf_conversion_unknown (mod : Nat) (c : Char) (args : List Ia32EmitArg)
    (hm : c ∉ ia32_modifiers) (h : c ∉ ia32_conversions) :
    ia32_emitf_conversion mod c args =
      EmitfStep.panic "unknown format conversion in ia32_emitf()" := by
  simp only [ia32_modifiers, List.mem_cons, List.mem_singleton, List.not_mem_nil, or_false,
    not_or] at hm
  simp only [ia32_conversions, List.mem_cons, List.mem_singleton, List.not_mem_nil, or_false,
    not_or] at h
  obtain ⟨m1, m2, m3, m4, m5⟩ := hm
  obtain ⟨h1, h2, h3, h4, h5, h6, h7, h8, h9, h10, h11, h12⟩ := h
  unfold ia32_emitf_conversion
  rw [if_neg m1, if_neg m2, if_neg m3, if_neg m4, if_neg m5, if_neg h1, if_neg h2, if_neg h3,
    if_neg h4, if_neg h5, if_neg h6, if_neg h7, if_neg h8, if_neg h9, if_neg h10, if_neg h11,
    if_neg h12]

/-- The letter behind `%A` that `ia32_emitf` does not know. -/
theorem ia32_emitf_am_letter_unknown (node : EmitfNode) (mod : Nat) (e : Char)
    (args : List Ia32EmitArg) (h : e ∉ ia32_am_conversions) :
    ia32_emitf_am_letter node mod e args =
      EmitfStep.panic "unknown format conversion in ia32_emitf()" := by
  simp only [ia32_am_conversions, List.mem_cons, List.mem_singleton, List.not_mem_nil,
    or_false, not_or] at h
  obtain ⟨h1, h2, h3⟩ := h
  unfold ia32_emitf_am_letter
  rw [if_neg h1, if_neg h2, if_neg h3]

/-- A character that is no digit fails the test of `ia32_emitf`. -/
theorem not_digit_test (e : Char) (h : e.isDigit = false) : e.toNat < 48 ∨ 57 ≤ e.toNat := by
  simp only [Char.isDigit, Bool.and_eq_false_imp, decide_eq_true_eq, decide_eq_false_iff_not,
    ge_iff_le, UInt32.le_def, BitVec.le_def, not_le] at h
  simp only [Char.toNat]
  by_cases h1 : 48 ≤ e.val.toNat
  · right
    exact Nat.le_of_lt (h h1)
  · left
    exact Nat.lt_of_not_le h1

/-- The loop of `ia32_emitf` behind `%S` and a character that is no digit. -/
theorem ia32_emitf_scan_source_digit (node : EmitfNode) (mod : Nat) (rest : List Char)
    (args : List Ia32EmitArg) (h : (rest.headD '\x00').isDigit = false) :
    ia32_emitf_scan node (Ia32ScanState.source_digit mod) rest args =
      EmitfResult.panic "unknown format conversion in ia32_emitf()" := by
  rcases rest with _ | ⟨e, rest3⟩ <;>
    simp only [List.headD_nil, List.headD_cons] at h <;>
    rw [ia32_emitf_scan, ia32_emitf_char, ia32_emitf_source_digit, if_pos (not_digit_test _ h)]

/-- The loop of `ia32_emitf` behind `%D` and a character that is no digit. -/
theorem ia32_emitf_scan_dest_digit (node : EmitfNode) (mod : Nat) (rest : List Char)
    (args : List Ia32EmitArg) (h : (rest.headD '\x00').isDigit = false) :
    ia32_emitf_scan node (Ia32ScanState.dest_digit mod) rest args =
      EmitfResult.panic "unknown format conversion in ia32_emitf()" := by
  rcases rest with _ | ⟨e, rest3⟩ <;>
    simp only [List.headD_nil, List.headD_cons] at h <;>
    rw [ia32_emitf_scan, ia32_emitf_char, ia32_emitf_dest_digit, if_pos (not_digit_test _ h)]

/-- The loop of `ia32_emitf` behind `%A` and a letter that it does not
know. -/
theorem ia32_emitf_scan_am_letter (node : EmitfNode) (mod : Nat) (rest : List Char)
    (args : List Ia32EmitArg) (h : rest.headD '\x00' ∉ ia32_am_conversions) :
    ia32_emitf_scan node (Ia32ScanState.am_letter mod) rest args =
      EmitfResult.panic "unknown format conversion in ia32_emitf()" := by
  rcases rest with _ | ⟨e, rest3⟩ <;>
    simp only [List.headD_nil, List.headD_cons] at h <;>
    rw [ia32_emitf_scan, ia32_emitf_char, ia32_emitf_am_letter_unknown _ _ _ _ h]

/-- The loop of `ia32_emitf` ends in `panic` behind a `'%'` and modifiers
that are not the head of a conversion. -/
theorem ia32_emitf_scan_unknown (node : EmitfNode) (mod : Nat) (tail : List Char)
    (args : List Ia32EmitArg) (h : ia32_unknown_conversion tail) :
    ia32_emitf_scan node (Ia32ScanState.conversion mod) tail args =
      EmitfResult.panic "unknown format conversion in ia32_emitf()" := by
  rcases h with ⟨hm, h⟩ | ⟨h1, h2⟩ | ⟨h1, h2⟩
  · rcases tail with _ | ⟨d, rest2⟩ <;>
      simp only [List.headD_nil, List.headD_cons] at h hm <;>
      rw [ia32_emitf_scan, ia32_emitf_char, ia32_emitf_conversion_unknown _ _ _ hm h]
  · rcases tail with _ | ⟨d, rest2⟩
    · simp only [List.headD_nil] at h1
      rcases h1 with h1 | h1 <;> exact absurd h1 (by decide)
    · simp only [List.headD_cons, List.tail_cons] at h1 h2
      rcases h1 with h1 | h1
      · subst h1
        have hs : ia32_emitf_conversion mod 'S' args =
            EmitfStep.next [] (Ia32ScanState.source_digit mod) args := rfl
        rw [ia32_emitf_scan, ia32_emitf_char, hs]
        simp only [Char.reduceEq, if_false]
        rw [ia32_emitf_scan_source_digit node mod rest2 args h2]
        rfl
      · subst h1
        have hs : ia32_emitf_conversion mod 'D' args =
            EmitfStep.next [] (Ia32ScanState.dest_digit mod) args := rfl
        rw [ia32_emitf_scan, ia32_emitf_char, hs]
        simp only [Char.reduceEq, if_false]
        rw [ia32_emitf_scan_dest_digit node mod rest2 args h2]
        rfl
  · rcases tail with _ | ⟨d, rest2⟩
    · simp only [List.headD_nil] at h1
      exact absurd h1 (by decide)
    · simp only [List.headD_cons, List.tail_cons] at h1 h2
      subst h1
      have hs : ia32_emitf_conversion mod 'A' args =
          EmitfStep.next [] (Ia32ScanState.am_letter mod) args := rfl
      rw [ia32_emitf_scan, ia32_emitf_char, hs]
      simp only [Char.reduceEq, if_false]
      rw [ia32_emitf_scan_am_letter node mod rest2 args h2]
      rfl

/-- `ia32_emitf` ends in `panic` at a `'%'` with modifiers that is not the
head of a conversion, if it returns for the format in front of the `'%'`. -/
theorem ia32_emitf_unknown (node : EmitfNode) (pre mods tail : List Char)
    (args args1 : List Ia32EmitArg) (out : List Ia32EmitItem)
    (hnul : ∀ c ∈ pre, c ≠ '\x00')
    (hpre : ia32_emitf node pre args = EmitfResult.done out args1)
    (hmods : ∀ c ∈ mods, c ∈ ia32_modifiers) (h : ia32_unknown_conversion tail) :
    ia32_emitf node (pre ++ '%' :: (mods ++ tail)) args =
      EmitfResult.panic "unknown format conversion in ia32_emitf()" := by
  unfold ia32_emitf at hpre ⊢
  rw [ia32_emitf_scan_append node _ pre _ args args1 out hnul hpre]
  have ht : ia32_emitf_text '%' args1 =
      EmitfStep.next [] (Ia32ScanState.conversion 0) args1 := rfl
  obtain ⟨mod1, hm⟩ := ia32_emitf_scan_modifiers node tail args1 mods 0 hmods
  have hs : ia32_emitf_scan node Ia32ScanState.text ('%' :: (mods ++ tail)) args1 =
      EmitfResult.panic "unknown format conversion in ia32_emitf()" := by
    rw [ia32_emitf_scan, ia32_emitf_char, ht]
    simp only [Char.reduceEq, if_false]
    rw [hm, ia32_emitf_scan_unknown node mod1 tail args1 h]
    rfl
  rw [hs]
  rfl

/-- `ia32_emitf` takes the digits 0 to 8 behind `%S` and `%D`: the digit 9
ends in `panic`. -/
theorem ia32_emitf_digit_nine :
    ia32_emitf emitfNodeAM "movl %S9, %D0".toList [] =
        EmitfResult.panic "unknown format conversion in ia32_emitf()" ∧
      ia32_emitf emitfNodeAM "movl %S8, %D0".toList [] =
        EmitfResult.done ("movl ".toList.map Ia32EmitItem.char ++
          [Ia32EmitItem.in_register 8 false, Ia32EmitItem.char ',', Ia32EmitItem.char ' ',
            Ia32EmitItem.out_register 0 false]) [] := by
  constructor <;> decide

/-- `ia32_emitf` skips the character behind `%AS` for an operation with a
source address mode, whatever it is. -/
theorem ia32_emitf_am_skip_any :
    ia32_emitf emitfNodeAM "%ASq".toList [] = EmitfResult.done [Ia32EmitItem.am] [] := by
  decide

/-- C22: `arm_emitf` and `ia32_emitf` end in `panic` at every `'%'` of the
format that is followed (behind the modifiers, for `ia32_emitf`) by a
character outside their conversion sets, by `S` or `D` and no digit, or by
`M` (`arm_emitf`) or `A` (`ia32_emitf`) and an unknown letter. The format in
front of the `'%'` is one for which the emitter returns; the terminating
`'\0'` is a character outside the conversion sets. The call does not return,
so the conversion is not skipped. -/
theorem emitf_unknown_conversion_panic (is_digit : Char → Bool) (node : EmitfNode) :
    (∀ (pre tail : List Char) (args args1 : List ArmEmitArg) (out : List ArmEmitItem),
      (∀ c ∈ pre, c ≠ '\x00') → arm_emitf is_digit pre args = EmitfResult.done out args1 →
      arm_unknown_conversion is_digit tail →
      arm_emitf is_digit (pre ++ '%' :: tail) args =
        EmitfResult.panic "unknown format conversion") ∧
    (∀ (pre mods tail : List Char) (args args1 : List Ia32EmitArg) (out : List Ia32EmitItem),
      (∀ c ∈ pre, c ≠ '\x00') → ia32_emitf node pre args = EmitfResult.done out args1 →
      (∀ c ∈ mods, c ∈ ia32_modifiers) → ia32_unknown_conversion tail →
      ia32_emitf node (pre ++ '%' :: (mods ++ tail)) args =
        EmitfResult.panic "unknown format conversion in ia32_emitf()") :=
  ⟨fun pre tail args args1 out hnul hpre h =>
      arm_emitf_unknown is_digit pre tail args args1 out hnul hpre h,
    fun pre mods tail args args1 out hnul hpre hmods h =>
      ia32_emitf_unknown node pre mods tail args args1 out hnul hpre hmods h⟩

/-- C22 at the formats `mov %D0, %Sx` of `arm_emitf` and `movl %S0, %#*q` of
`ia32_emitf`. -/
theorem emitf_unknown_conversion_panic_witness :
    arm_emitf Char.isDigit ("mov %D0, ".toList ++ '%' :: "Sx".toList) [] =
        EmitfResult.panic "unknown format conversion" ∧
      ia32_emitf emitfNodeAM ("movl %S0, ".toList ++ '%' :: ("#*".toList ++ "q".toList)) [] =
        EmitfResult.panic "unknown format conversion in ia32_emitf()" :=
  ⟨(emitf_unknown_conversion_panic Char.isDigit emitfNodeAM).1 "mov %D0, ".toList "Sx".toList
      [] [] ("\tmov ".toList.map ArmEmitItem.char ++
        [ArmEmitItem.dest_register 0, ArmEmitItem.char ',', ArmEmitItem.char ' ',
          ArmEmitItem.finish_line])
      (by decide) (by decide) (Or.inr (Or.inl ⟨Or.inl rfl, by decide⟩)),
    (emitf_unknown_conversion_panic Char.isDigit emitfNodeAM).2 "movl %S0, ".toList
      "#*".toList "q".toList [] [] ("movl ".toList.map Ia32EmitItem.char ++
        [Ia32EmitItem.in_register 0 false, Ia32EmitItem.char ',', Ia32EmitItem.char ' '])
      (by decide) (by decide) (by decide) (Or.inl ⟨by decide, by decide⟩)⟩

/-! ## The bound check and the selector of a `SwitchJmp` -/

/-- The comparison of `selector - min` with `max - min` as unsigned numbers
of 32 bits. -/
theorem unsigned_range_check (mn mx s : Int) (h1 : LONG_MIN ≤ mn) (h2 : mx ≤ LONG_MAX)
    (h : mn ≤ mx) (h3 : LONG_MIN ≤ s) (h4 : s ≤ LONG_MAX) :
    ((mx - mn) % 4294967296).toNat < toUnsigned (s - mn) ↔ s < mn ∨ mx < s := by
  unfold toUnsigned
  unfold LONG_MIN at h1 h3
  unfold LONG_MAX at h2 h4
  omega

/-- The bounds of the table of `generate_jump_table` are numbers of Projs
that are not the default, if there is one. -/
theorem generate_jump_table_bounds (projs : List (Nat × Int)) (default_pn : Int) (tbl : JmpTbl)
    (hlong : ∀ p ∈ projs, LONG_MIN ≤ p.2 ∧ p.2 ≤ LONG_MAX)
    (hcase : ∃ p ∈ projs, p.2 ≠ default_pn)
    (htbl : generate_jump_table projs default_pn = some tbl) :
    (∃ p ∈ projs, p.2 ≠ default_pn ∧ p.2 = tbl.min_value) ∧
      (∃ p ∈ projs, p.2 ≠ default_pn ∧ p.2 = tbl.max_value) ∧
      ∀ p ∈ projs, p.2 ≠ default_pn → tbl.min_value ≤ p.2 ∧ p.2 ≤ tbl.max_value := by
  unfold generate_jump_table at htbl
  simp only at htbl
  cases hf : projs.foldlM (collect_proj default_pn)
      (JmpTbl.mk none LONG_MAX LONG_MIN ((projs.length : Int) - 1) []) with
  | none => rw [hf] at htbl; cases htbl
  | some t =>
    rw [hf] at htbl
    simp only at htbl
    split at htbl
    · have ht := Option.some.inj htbl
      obtain ⟨-, -, -, a4, a5, -, a7, a8, -⟩ := collect_proj_fold default_pn projs _ t hf
      simp only at a5 a8
      have hmin : tbl.min_value = t.min_value := by rw [← ht]
      have hmax : tbl.max_value = t.max_value := by rw [← ht]
      rw [hmin, hmax]
      obtain ⟨p, hp, hpd⟩ := hcase
      refine ⟨?_, ?_, fun q hq hqd => ⟨a4 q hq hqd, a7 q hq hqd⟩⟩
      · rcases a5 with h | h
        · refine ⟨p, hp, hpd, ?_⟩
          have h1 := a4 p hp hpd
          have h2 := (hlong p hp).2
          rw [h] at h1 ⊢
          exact le_antisymm h2 h1
        · exact h
      · rcases a8 with h | h
        · refine ⟨p, hp, hpd, ?_⟩
          have h1 := a7 p hp hpd
          have h2 := (hlong p hp).1
          rw [h] at h1 ⊢
          exact le_antisymm h1 h2
        · exact h
    · cases htbl

/-- The operand of the `cmpl` that the emitters of a SwitchJmp emit. -/
theorem switch_code_interval (projs : List (Nat × Int)) (default_pn : Int) (fuel : Nat)
    (tbl : JmpTbl) (code : SwitchCode)
    (htbl : generate_jump_table projs default_pn = some tbl)
    (hcode : emit_ia32_SwitchJmp projs default_pn fuel = some code ∨
      bemit_switchjmp projs default_pn fuel = some code) :
    code.interval = ((tbl.max_value - tbl.min_value) % 4294967296).toNat ∧
      ∃ d, tbl.defProj = some d ∧ ∀ x, code.interval < x → code.run x = some d := by
  rcases hcode with hcode | hcode
  · unfold emit_ia32_SwitchJmp at hcode
    rw [htbl] at hcode
    simp only at hcode
    cases hd : tbl.defProj with
    | none => rw [hd] at hcode; cases hcode
    | some d =>
      rw [hd] at hcode
      simp only at hcode
      cases hb : tbl.branches with
      | nil => rw [hb] at hcode; simp at hcode
      | cons b rest =>
        rw [hb] at hcode
        simp only at hcode
        split at hcode
        · simp only [Option.map_eq_some'] at hcode
          obtain ⟨entries, -, he⟩ := hcode
          rw [← he]
          exact ⟨rfl, d, rfl, fun x hx => by simp [SwitchCode.run, SwitchCode.interval] at hx ⊢; intro h; omega⟩
        · rw [← Option.some.inj hcode]
          exact ⟨rfl, d, rfl, fun x hx => by simp [SwitchCode.run, SwitchCode.interval] at hx ⊢; intro h; omega⟩
  · unfold bemit_switchjmp at hcode
    rw [htbl] at hcode
    simp only at hcode
    cases hd : tbl.defProj with
    | none => rw [hd] at hcode; cases hcode
    | some d =>
      rw [hd] at hcode
      simp only at hcode
      cases hb : tbl.branches with
      | nil => rw [hb] at hcode; simp at hcode
      | cons b rest =>
        rw [hb] at hcode
        simp only at hcode
        split at hcode
        · simp only [Option.map_eq_some'] at hcode
          obtain ⟨entries, -, he⟩ := hcode
          rw [← he]
          exact ⟨rfl, d, rfl, fun x hx => by simp [SwitchCode.run, SwitchCode.interval] at hx ⊢; intro h; omega⟩
        · cases hcode

/-- C34: for the bounds `min <= max` of the cases of a SwitchJmp and every
selector value `s` of 32 bits, the comparison of `(s - min) mod 2^32` with
`interval = (max - min) mod 2^32` as unsigned numbers, on which the code that
`emit_ia32_SwitchJmp` and `bemit_switchjmp` emit jumps to the default Proj,
holds exactly when `s < min` or `s > max`. -/
theorem switch_bound_check (projs : List (Nat × Int)) (default_pn : Int) (fuel : Nat)
    (tbl : JmpTbl) (code : SwitchCode) (s : Int)
    (hlong : ∀ p ∈ projs, LONG_MIN ≤ p.2 ∧ p.2 ≤ LONG_MAX)
    (hcase : ∃ p ∈ projs, p.2 ≠ default_pn)
    (htbl : generate_jump_table projs default_pn = some tbl)
    (hcode : emit_ia32_SwitchJmp projs default_pn fuel = some code ∨
      bemit_switchjmp projs default_pn fuel = some code)
    (hs : LONG_MIN ≤ s ∧ s ≤ LONG_MAX) :
    LONG_MIN ≤ tbl.min_value ∧ tbl.min_value ≤ tbl.max_value ∧ tbl.max_value ≤ LONG_MAX ∧
      code.interval = ((tbl.max_value - tbl.min_value) % 4294967296).toNat ∧
      (code.interval < toUnsigned (s - tbl.min_value) ↔ s < tbl.min_value ∨ tbl.max_value < s) ∧
      ((s < tbl.min_value ∨ tbl.max_value < s) →
        (code.run (toUnsigned (s - tbl.min_value))).isSome = true ∧
        code.run (toUnsigned (s - tbl.min_value)) = tbl.defProj) := by
  obtain ⟨⟨p, hp, -, hpm⟩, ⟨q, hq, -, hqm⟩, hall⟩ :=
    generate_jump_table_bounds projs default_pn tbl hlong hcase htbl
  obtain ⟨r, hr, hrd⟩ := hcase
  have h1 : LONG_MIN ≤ tbl.min_value := by rw [← hpm]; exact (hlong p hp).1
  have h2 : tbl.max_value ≤ LONG_MAX := by rw [← hqm]; exact (hlong q hq).2
  have h3 : tbl.min_value ≤ tbl.max_value := le_trans (hall r hr hrd).1 (hall r hr hrd).2
  obtain ⟨hi, d, hd, hrun⟩ := switch_code_interval projs default_pn fuel tbl code htbl hcode
  have hiff := unsigned_range_check tbl.min_value tbl.max_value s h1 h2 h3 hs.1 hs.2
  rw [← hi] at hiff
  refine ⟨h1, h3, h2, hi, hiff, fun hout => ?_⟩
  rw [hrun _ (hiff.2 hout), hd]
  exact ⟨rfl, rfl⟩

/-- C34 at the cases 2 and 5 and the selector 7: `7 - 2 = 5` is above the
interval 3. -/
theorem switch_bound_check_witness :
    LONG_MIN ≤ (JmpTbl.mk (some 100) 2 5 2 [Branch.mk 102 2, Branch.mk 105 5]).min_value ∧
      (JmpTbl.mk (some 100) 2 5 2 [Branch.mk 102 2, Branch.mk 105 5]).min_value ≤
        (JmpTbl.mk (some 100) 2 5 2 [Branch.mk 102 2, Branch.mk 105 5]).max_value ∧
      (JmpTbl.mk (some 100) 2 5 2 [Branch.mk 102 2, Branch.mk 105 5]).max_value ≤ LONG_MAX ∧
      (SwitchCode.table 3 100 [102, 100, 100, 105]).interval =
        (((JmpTbl.mk (some 100) 2 5 2 [Branch.mk 102 2, Branch.mk 105 5]).max_value -
          (JmpTbl.mk (some 100) 2 5 2 [Branch.mk 102 2, Branch.mk 105 5]).min_value) %
            4294967296).toNat ∧
      ((SwitchCode.table 3 100 [102, 100, 100, 105]).interval <
          toUnsigned (7 - (JmpTbl.mk (some 100) 2 5 2
            [Branch.mk 102 2, Branch.mk 105 5]).min_value) ↔
        7 < (JmpTbl.mk (some 100) 2 5 2 [Branch.mk 102 2, Branch.mk 105 5]).min_value ∨
          (JmpTbl.mk (some 100) 2 5 2 [Branch.mk 102 2, Branch.mk 105 5]).max_value < 7) ∧
      ((7 < (JmpTbl.mk (some 100) 2 5 2 [Branch.mk 102 2, Branch.mk 105 5]).min_value ∨
          (JmpTbl.mk (some 100) 2 5 2 [Branch.mk 102 2, Branch.mk 105 5]).max_value < 7) →
        ((SwitchCode.table 3 100 [102, 100, 100, 105]).run
          (toUnsigned (7 - (JmpTbl.mk (some 100) 2 5 2
            [Branch.mk 102 2, Branch.mk 105 5]).min_value))).isSome = true ∧
        (SwitchCode.table 3 100 [102, 100, 100, 105]).run
          (toUnsigned (7 - (JmpTbl.mk (some 100) 2 5 2
            [Branch.mk 102 2, Branch.mk 105 5]).min_value)) =
          (JmpTbl.mk (some 100) 2 5 2 [Branch.mk 102 2, Branch.mk 105 5]).defProj) :=
  switch_bound_check [(105, 5), (100, 9), (102, 2)] 9 4
    (JmpTbl.mk (some 100) 2 5 2 [Branch.mk 102 2, Branch.mk 105 5])
    (SwitchCode.table 3 100 [102, 100, 100, 105]) 7 (by decide) (by decide) rfl
    (Or.inl (by decide)) (by decide)

/-- The smallest number that the loop of `create_Switch` finds. -/
theorem create_Switch_min (projs : List (Nat × Int)) : ∀ (m0 : Int),
    projs.foldl (fun switch_min proj =>
        if wrapInt proj.2 < switch_min then wrapInt proj.2 else switch_min) m0 ≤ m0 ∧
      (∀ p ∈ projs, projs.foldl (fun switch_min proj =>
        if wrapInt proj.2 < switch_min then wrapInt proj.2 else switch_min) m0 ≤ wrapInt p.2) ∧
      (projs.foldl (fun switch_min proj =>
          if wrapInt proj.2 < switch_min then wrapInt proj.2 else switch_min) m0 = m0 ∨
        ∃ p ∈ projs, projs.foldl (fun switch_min proj =>
          if wrapInt proj.2 < switch_min then wrapInt proj.2 else switch_min) m0 =
            wrapInt p.2) := by
  induction projs with
  | nil => intro m0; simp
  | cons q rest ih =>
    intro m0
    simp only [List.foldl_cons, List.mem_cons, forall_eq_or_imp, exists_eq_or_imp]
    obtain ⟨h1, h2, h3⟩ := ih (if wrapInt q.2 < m0 then wrapInt q.2 else m0)
    by_cases hq : wrapInt q.2 < m0
    · rw [if_pos hq] at h1 h2 h3 ⊢
      refine ⟨le_trans h1 (le_of_lt hq), ⟨h1, h2⟩, ?_⟩
      rcases h3 with h | h
      · exact Or.inr (Or.inl h)
      · exact Or.inr (Or.inr h)
    · rw [if_neg hq] at h1 h2 h3 ⊢
      refine ⟨h1, ⟨le_trans h1 (not_lt.1 hq), h2⟩, ?_⟩
      rcases h3 with h | h
      · exact Or.inl h
      · exact Or.inr (Or.inr h)

/-- C35 fails on the code: `create_Switch` takes the smallest number of all
Projs of the Cond, the default Proj included. For the cases 1 and 2 with the
Projs 101 and 102 and the default Proj 100 with the number 0 it creates no
Lea, the table begins with the case 1, and the code jumps to the Proj of the
case 2 for the selector 1, to the default Proj for the selector 2 and to the
Proj of the case 1 for the selector 0. -/
theorem create_Switch_default_smallest :
    create_Switch [(100, 0), (101, 1), (102, 2)] 0 = SwitchJmpNode.mk none 0 ∧
      emit_ia32_SwitchJmp [(100, 0), (101, 1), (102, 2)] 0 2 =
        some (SwitchCode.table 1 100 [101, 102]) ∧
      bemit_switchjmp [(100, 0), (101, 1), (102, 2)] 0 2 =
        some (SwitchCode.table 1 100 [101, 102]) ∧
      (SwitchCode.table 1 100 [101, 102]).run ((SwitchJmpNode.mk none 0).register 1) =
        some 102 ∧
      (SwitchCode.table 1 100 [101, 102]).run ((SwitchJmpNode.mk none 0).register 2) =
        some 100 ∧
      (SwitchCode.table 1 100 [101, 102]).run ((SwitchJmpNode.mk none 0).register 0) =
        some 101 := by
  refine ⟨by decide, by decide, by decide, by decide, by decide, by decide⟩

/-- Where the number of the default Proj is not below the smallest case,
`create_Switch` subtracts the smallest case: the input register of the
SwitchJmp holds `selector - min_value`. -/
theorem create_Switch_register (projs : List (Nat × Int)) (default_pn : Int) (tbl : JmpTbl)
    (s : Int) (hlong : ∀ p ∈ projs, LONG_MIN ≤ p.2 ∧ p.2 ≤ LONG_MAX)
    (hcase : ∃ p ∈ projs, p.2 ≠ default_pn)
    (htbl : generate_jump_table projs default_pn = some tbl)
    (hdef : tbl.min_value ≤ default_pn) :
    (create_Switch projs default_pn).register s = toUnsigned (s - tbl.min_value) ∧
      ((create_Switch projs default_pn).lea_offs = none ↔ tbl.min_value = 0) := by
  obtain ⟨⟨p, hp, hpd, hpm⟩, -, hall⟩ :=
    generate_jump_table_bounds projs default_pn tbl hlong hcase htbl
  obtain ⟨h1, h2, h3⟩ := create_Switch_min projs LONG_MAX
  have hw : ∀ q ∈ projs, wrapInt q.2 = q.2 :=
    fun q hq => wrapInt_id (hlong q hq).1 (hlong q hq).2
  have hm : projs.foldl (fun switch_min proj =>
      if wrapInt proj.2 < switch_min then wrapInt proj.2 else switch_min) LONG_MAX =
      tbl.min_value := by
    apply le_antisymm
    · have := h2 p hp
      rw [hw p hp, hpm] at this
      exact this
    · rcases h3 with h | ⟨q, hq, h⟩
      · rw [h, ← hpm]
        exact (hlong p hp).2
      · rw [h, hw q hq]
        by_cases hqd : q.2 = default_pn
        · rw [hqd]; exact hdef
        · exact (hall q hq hqd).1
  have hmin1 : LONG_MIN ≤ tbl.min_value := by rw [← hpm]; exact (hlong p hp).1
  have hmin2 : tbl.min_value ≤ LONG_MAX := by rw [← hpm]; exact (hlong p hp).2
  unfold create_Switch SwitchJmpNode.register
  simp only [hm]
  by_cases h0 : tbl.min_value = 0
  · simp [h0]
  · simp only [ne_eq, h0, not_false_eq_true, if_true, reduceCtorEq, iff_false]
    refine ⟨?_, trivial⟩
    unfold toUnsigned wrapInt
    unfold LONG_MIN at hmin1
    unfold LONG_MAX at hmin2
    congr 1
    omega

/-! ## The short jump over the conditional jump in `bemit_ia32_jcc` -/

/-- C36: in `bemit_ia32_jcc`, for a compare of floating-point numbers whose
condition at the `switch` is Eq, Lt or Le and whose false target is the
fall-through, the output is the short jump `jp` with the displacement 6 and
the conditional jump to the true target; the conditional jump has 6 bytes,
two bytes of the opcode and four of the destination, and is the end of the
output, so the short jump lands behind it. This is the place of the label
`1:` in the output of `emit_ia32_Jcc`, which is `jp 1f`, the conditional
jump, `1:` and the comment of the fall-through. `pnc`, `proj_true` and
`proj_false` are the values of these variables at the `switch`, behind the
exchange of the Projs. -/
theorem bemit_ia32_jcc_parity_skip (K : CmpConsts) (U : UnorderedConsts)
    (prev : Nat → Option Nat) (node : JccNode) (t f pnc proj_true proj_false : Nat)
    (hK : FirmCodes K U) (ht : node.true_target = some t) (hf : node.false_target = some f)
    (hpnc : pnc = if can_be_fallthrough prev node.block t
      then ia32_get_negated_pnc K (determine_final_pnc K node.flags node.condcode)
      else determine_final_pnc K node.flags node.condcode)
    (htrue : proj_true = if can_be_fallthrough prev node.block t then f else t)
    (hfalse : proj_false = if can_be_fallthrough prev node.block t then t else f)
    (hfloat : pnc &&& K.ia32_pn_Cmp_float ≠ 0)
    (hrow : pnc &&& 15 = K.pn_Cmp_Eq ∨ pnc &&& 15 = K.pn_Cmp_Lt ∨ pnc &&& 15 = K.pn_Cmp_Le)
    (hfall : can_be_fallthrough prev node.block proj_false = true) :
    ∃ jcc suffix, bemit_jcc K pnc proj_true = some jcc ∧
      bemit_ia32_jcc K prev node = some ([BItem.byte 0x7A, BItem.byte 6] ++ jcc) ∧
      (jcc.map BItem.size).sum = 6 ∧
      ia32_emit_cmp_suffix K pnc = some suffix ∧
      emit_ia32_Jcc K prev node =
        some [AsmLine.branch_local "jp" "1f", AsmLine.branch ("j" ++ suffix) proj_true,
          AsmLine.local_label "1", AsmLine.fallthrough proj_false] := by
  obtain ⟨⟨h1, h2, h3, h4, h5, h6⟩, h7, h8, -, -, -, -, -, -, hfl, hpar, -⟩ := hK
  rw [hfl] at hfloat
  have hp7 : ∀ n, pnc &&& 15 = n → pnc &&& 7 = n &&& 7 := fun n hn =>
    and_seven_of_and_fifteen _ _ hn
  have hpp := ne_parity_of_float pnc hfloat
  rw [h1, h2, h3] at hrow
  have hcc : ∃ cc suffix, pnc2cc K pnc = some cc ∧ ia32_emit_cmp_suffix K pnc = some suffix := by
    unfold pnc2cc ia32_emit_cmp_suffix
    simp only [hpar, hfl, hpp, hfloat, if_false, ne_eq, not_false_eq_true, true_or, if_true,
      pnc_map_unsigned, cmp2condition_u, h1, h2, h3, h4, h5]
    rw [h6]
    rcases hrow with h | h | h
    · rw [show pnc &&& 7 = 1 from hp7 1 h]
      exact ⟨4, "e", by decide, by decide⟩
    · rw [show pnc &&& 7 = 2 from hp7 2 h]
      exact ⟨2, "b", by decide, by decide⟩
    · rw [show pnc &&& 7 = 3 from hp7 3 h]
      exact ⟨6, "be", by decide, by decide⟩
  obtain ⟨cc, suffix, hcc1, hcc2⟩ := hcc
  have hu : pnc &&& 15 ≠ 8 ∧ pnc &&& 15 ≠ 7 := by
    rcases hrow with h | h | h <;> rw [h] <;> decide
  refine ⟨[bemit8 0x0F, bemit8 (0x80 + cc), BItem.jmp_destination proj_true], suffix, ?_, ?_, ?_,
    hcc2, ?_⟩
  · simp [bemit_jcc, hcc1]
  · unfold bemit_ia32_jcc
    simp only [ht, hf]
    rw [← hpnc, ← htrue, ← hfalse]
    simp only [hfall, hfl, hfloat, h7, h8, h1, h2, h3, hu.1, hu.2, hrow, bemit_jcc, hcc1,
      ne_eq, not_false_eq_true, if_true, if_false, Option.map_some', List.append_nil]
    rfl
  · rfl
  · unfold emit_ia32_Jcc
    simp only [ht, hf]
    rw [← hpnc, ← htrue, ← hfalse]
    simp only [hfall, hfl, hfloat, h7, h8, h1, h2, h3, hu.1, hu.2, hrow, emit_jcc_line, hcc2,
      ne_eq, not_false_eq_true, if_true, if_false, Option.map_some', List.append_nil]
    rfl

/-- C36 at the jump `if a == b` in block 1 with the true target 3 and the
false target 2, the next block. -/
theorem bemit_ia32_jcc_parity_skip_witness :
    ∃ jcc suffix, bemit_jcc firmCmpConsts 8193 3 = some jcc ∧
      bemit_ia32_jcc firmCmpConsts prevOf123 jccFloatEq =
        some ([BItem.byte 0x7A, BItem.byte 6] ++ jcc) ∧
      (jcc.map BItem.size).sum = 6 ∧
      ia32_emit_cmp_suffix firmCmpConsts 8193 = some suffix ∧
      emit_ia32_Jcc firmCmpConsts prevOf123 jccFloatEq =
        some [AsmLine.branch_local "jp" "1f", AsmLine.branch ("j" ++ suffix) 3,
          AsmLine.local_label "1", AsmLine.fallthrough 2] :=
  bemit_ia32_jcc_parity_skip firmCmpConsts firmUnorderedConsts prevOf123 jccFloatEq 3 2 8193 3 2
    firmCodes_firm rfl rfl (by decide) (by decide) (by decide) (by decide) (by decide)
    (by decide)

/-- The bytes that `bemit_ia32_jcc` emits for the jump `if a == b` with the
false target as the next block: `jp` over six bytes, and `je` to block 3. -/
theorem bemit_ia32_jcc_parity_skip_example :
    bemit_ia32_jcc firmCmpConsts prevOf123 jccFloatEq =
      some [BItem.byte 0x7A, BItem.byte 6, BItem.byte 0x0F, BItem.byte 0x84,
        BItem.jmp_destination 3] := by
  decide

/-! ## The digits of `%D` and `%S` in `ia32_emitf` -/

/-- The test of the digit in `ia32_emitf` is `*fmt < '0' || '9' <= *fmt`: it
lets the digits 0 to 8 pass, and `%D9` and `%S9` end in `panic`, for every
node, whatever the modifiers. No format of `ia32_emitter.c` has the digit 9
behind `%D` or `%S`. -/
theorem ia32_emitf_nine_any_node (node : EmitfNode) :
    ia32_emitf node "%D9".toList [] =
        EmitfResult.panic "unknown format conversion in ia32_emitf()" ∧
      ia32_emitf node "%S9".toList [] =
        EmitfResult.panic "unknown format conversion in ia32_emitf()" ∧
      ia32_emitf node "%#D9".toList [] =
        EmitfResult.panic "unknown format conversion in ia32_emitf()" ∧
      ia32_emitf node "%*S9".toList [] =
        EmitfResult.panic "unknown format conversion in ia32_emitf()" :=
  ⟨rfl, rfl, rfl, rfl⟩

/-- C39 fails on the code: `try_create_Immediate` negates the target value
`offset` and gives the Immediate `val`, which it read before. For
`Minus(Const 5)` the Immediate has the offset 5 and is printed as `0x5`; for
`Sub(SymConst s, Const 5)` it is `s` with the offset 5, printed as `sym+5`.
The values of the nodes are -5 and the address of `s` minus 5. -/
theorem try_create_Immediate_not_negated (addr : Nat → Int) :
    try_create_Immediate true false
        (ImmExpr.Minus (ImmExpr.Const (ConstTarval.mk true 5 false))) '\x00' =
        some (some (ImmAttr.mk none false false 5)) ∧
      (ImmExpr.Minus (ImmExpr.Const (ConstTarval.mk true 5 false))).value addr = -5 ∧
      (ImmAttr.mk none false false 5).value addr = 5 ∧
      emit_ia32_Immediate_no_prefix exampleEnv (ImmAttr.mk none false false 5) = "0x5" ∧
      try_create_Immediate true false
        (ImmExpr.Sub (ImmExpr.SymConst true 7) (ImmExpr.Const (ConstTarval.mk true 5 false)))
        '\x00' = some (some (ImmAttr.mk (some 7) false false 5)) ∧
      (ImmExpr.Sub (ImmExpr.SymConst true 7)
        (ImmExpr.Const (ConstTarval.mk true 5 false))).value addr = addr 7 - 5 ∧
      (ImmAttr.mk (some 7) false false 5).value addr = addr 7 + 5 ∧
      emit_ia32_Immediate_no_prefix exampleEnv (ImmAttr.mk (some 7) false false 5) =
        "sym+5" := by
  refine ⟨rfl, ?_, ?_, by decide, rfl, ?_, ?_, by decide⟩
  · simp [ImmExpr.value]
  · simp [ImmAttr.value]
  · simp [ImmExpr.value]
  · simp [ImmAttr.value]

/-- The tests of the kind of the node in `try_create_Immediate` set the signs
as the constant and the symbol occur in the node. -/
theorem try_create_Immediate_match_value (addr : Nat → Int) (minus : Bool) (node : ImmExpr)
    (m : ImmMatch) (h : try_create_Immediate_match minus node = some m)
    (hc : m.cnst ≠ none ∨ m.symconst ≠ none) :
    (if minus then -node.value addr else node.value addr) =
      (match m.symconst with
        | some (_, entity) => if m.symconst_sign then -addr entity else addr entity
        | none => 0) +
      (match m.cnst with
        | some tv =>
          if m.offset_sign then -(if tv.tarval_is_long then tv.get_tarval_long else 0)
          else if tv.tarval_is_long then tv.get_tarval_long else 0
        | none => 0) := by
  cases node with
  | Const tv =>
    simp only [try_create_Immediate_match, Option.some.injEq] at h
    subst h
    cases minus <;> simp [ImmExpr.value]
  | SymConst a e =>
    simp only [try_create_Immediate_match, Option.some.injEq] at h
    subst h
    cases minus <;> simp [ImmExpr.value]
  | Minus op => simp [try_create_Immediate_match] at h
  | other => simp [try_create_Immediate_match] at h
  | Add l r =>
    cases l <;> cases r <;> simp only [try_create_Immediate_match, Option.some.injEq] at h <;>
      subst h <;> first
      | (exfalso; rcases hc with hc | hc <;> exact hc rfl)
      | (cases minus <;> simp [ImmExpr.value] <;> ring)
  | Sub l r =>
    cases l <;> cases r <;> simp only [try_create_Immediate_match, Option.some.injEq] at h <;>
      subst h <;> first
      | (exfalso; rcases hc with hc | hc <;> exact hc rfl)
      | (cases minus <;> simp [ImmExpr.value] <;> ring)

/-- What `try_create_Immediate` creates behind the test for a Minus: the sign
of the symbol is set as the symbol occurs in the node, and the offset is the
value of the constant, also where the constant occurs negatively; the value
of the node is then the value of the Immediate minus twice the offset. -/
theorem try_create_Immediate_body_value (addr : Nat → Int) (minus : Bool) (node1 : ImmExpr)
    (immediate_constraint_type : Char) (imm : ImmAttr)
    (h : try_create_Immediate_body minus node1 immediate_constraint_type = some (some imm)) :
    ∃ m, try_create_Immediate_match minus node1 = some m ∧
      imm.sc_sign = m.symconst_sign ∧
      (if minus then -node1.value addr else node1.value addr) =
        imm.value addr - if m.offset_sign then 2 * imm.offset else 0 := by
  unfold try_create_Immediate_body at h
  cases hm : try_create_Immediate_match minus node1 with
  | none => rw [hm] at h; cases h
  | some m =>
    rw [hm] at h
    simp only at h
    refine ⟨m, rfl, ?_⟩
    obtain ⟨cnst, symconst, ssign, osign⟩ := m
    simp only at h ⊢
    cases cnst with
    | none =>
      simp only at h
      cases symconst with
      | none => simp at h
      | some sc =>
        obtain ⟨a, e⟩ := sc
        simp only at h
        split at h
        · cases h
        split at h
        · cases h
        have himm := Option.some.inj (Option.some.inj h)
        have hmv := try_create_Immediate_match_value addr minus node1 _ hm (Or.inr (by simp))
        rw [← himm]
        refine ⟨rfl, ?_⟩
        rw [hmv]
        simp [ImmAttr.value]
    | some tv =>
      have hmv := try_create_Immediate_match_value addr minus node1 _ hm (Or.inl (by simp))
      simp only at hmv h
      by_cases hl : tv.tarval_is_long = true
      · simp only [hl, if_true] at h hmv
        cases hchk : check_immediate_constraint tv.get_tarval_long immediate_constraint_type with
        | none => rw [hchk] at h; simp at h
        | some ok =>
          rw [hchk] at h
          cases ok with
          | false => simp at h
          | true =>
            simp only [Option.map_some', if_true] at h
            cases symconst with
            | none =>
              simp only [reduceCtorEq, if_false] at h
              have himm := Option.some.inj (Option.some.inj h)
              rw [← himm]
              refine ⟨rfl, ?_⟩
              rw [hmv]
              cases osign <;> simp [ImmAttr.value] <;> ring
            | some sc =>
              obtain ⟨a, e⟩ := sc
              simp only at h
              split at h
              · cases h
              split at h
              · cases h
              have himm := Option.some.inj (Option.some.inj h)
              rw [← himm]
              refine ⟨rfl, ?_⟩
              rw [hmv]
              cases osign <;> simp [ImmAttr.value] <;> ring
      · have hl2 : tv.tarval_is_long = false := by simpa using hl
        simp only [hl2, Bool.false_eq_true, if_false] at h hmv
        by_cases hn : tv.tarval_is_null = true
        · simp only [hn, if_true] at h
          cases hchk : check_immediate_constraint 0 immediate_constraint_type with
          | none => rw [hchk] at h; simp at h
          | some ok =>
            rw [hchk] at h
            cases ok with
            | false => simp at h
            | true =>
              simp only [Option.map_some', if_true] at h
              cases symconst with
              | none =>
                simp only [reduceCtorEq, if_false] at h
                have himm := Option.some.inj (Option.some.inj h)
                rw [← himm]
                refine ⟨rfl, ?_⟩
                rw [hmv]
                cases osign <;> simp [ImmAttr.value]
              | some sc =>
                obtain ⟨a, e⟩ := sc
                simp only at h
                split at h
                · cases h
                split at h
                · cases h
                have himm := Option.some.inj (Option.some.inj h)
                rw [← himm]
                refine ⟨rfl, ?_⟩
                rw [hmv]
                cases osign <;> simp [ImmAttr.value]
        · simp [hn] at h

/-- The Immediate of `try_create_Immediate` has the value of the node, or
the value of the node plus twice its offset. -/
theorem try_create_Immediate_value (addr : Nat → Int) (mode_is_int mode_is_reference : Bool)
    (node : ImmExpr) (immediate_constraint_type : Char) (imm : ImmAttr)
    (h : try_create_Immediate mode_is_int mode_is_reference node immediate_constraint_type =
      some (some imm)) :
    node.value addr = imm.value addr ∨ node.value addr = imm.value addr - 2 * imm.offset := by
  unfold try_create_Immediate at h
  split at h
  · cases h
  have key : ∀ (minus : Bool) (node1 : ImmExpr),
      try_create_Immediate_body minus node1 immediate_constraint_type = some (some imm) →
      (if minus then -node1.value addr else node1.value addr) = node.value addr →
      node.value addr = imm.value addr ∨ node.value addr = imm.value addr - 2 * imm.offset := by
    intro minus node1 hb hv
    obtain ⟨m, -, -, hm⟩ := try_create_Immediate_body_value addr minus node1 _ imm hb
    rw [hv] at hm
    cases hs : m.offset_sign
    · left; rw [hm, hs]; simp
    · right; rw [hm, hs]; simp
  cases node with
  | Minus op => exact key true op h (by simp [ImmExpr.value])
  | Const tv => exact key false _ h (by simp)
  | SymConst a e => exact key false _ h (by simp)
  | Add l r => exact key false _ h (by simp)
  | Sub l r => exact key false _ h (by simp)
  | other => exact key false _ h (by simp)

/-! ## The negation of a number of 64 bits -/

theorem decodeModRR_modrr (src1 src2 : Reg) :
    ∃ m, bemit_modrr src1 src2 = BItem.byte m ∧ decodeModRR m = some (src1, src2) := by
  cases src1 <;> cases src2 <;> exact ⟨_, rfl, by decide⟩

theorem decodeModRR_modru (reg : Reg) :
    ∃ m, bemit_modru reg 3 = some [BItem.byte m] ∧ decodeModRR m = some (reg, Reg.ebx) ∧
      m / 8 % 8 = 3 := by
  cases reg <;> exact ⟨_, rfl, by decide, by decide⟩

/-- The bytes of `bemit_helper_mov` stand for `movl`. -/
theorem decode_helper_mov (src dst : Reg) (rest : List BItem) (insns : List NegInsn)
    (h : decodeNegInsns rest = some insns) :
    ∃ items, bemit_helper_mov src dst = some items ∧
      decodeNegInsns (items ++ rest) = some (NegInsn.movl src dst :: insns) := by
  obtain ⟨m, h1, h2⟩ := decodeModRR_modrr src dst
  refine ⟨[bemit8 0x8B, BItem.byte m], by rw [bemit_helper_mov, h1], ?_⟩
  show (match decodeModRR m, decodeNegInsns rest with
    | some (rm, reg), some insns => some (NegInsn.movl rm reg :: insns)
    | _, _ => none) = _
  rw [h2, h]

/-- The bytes of `bemit_helper_sbb` stand for `sbbl`. -/
theorem decode_helper_sbb (src dst : Reg) (rest : List BItem) (insns : List NegInsn)
    (h : decodeNegInsns rest = some insns) :
    ∃ items, bemit_helper_sbb src dst = some items ∧
      decodeNegInsns (items ++ rest) = some (NegInsn.sbbl src dst :: insns) := by
  obtain ⟨m, h1, h2⟩ := decodeModRR_modrr src dst
  refine ⟨[bemit8 0x1B, BItem.byte m], by rw [bemit_helper_sbb, h1], ?_⟩
  show (match decodeModRR m, decodeNegInsns rest with
    | some (rm, reg), some insns => some (NegInsn.sbbl rm reg :: insns)
    | _, _ => none) = _
  rw [h2, h]

/-- The bytes of `bemit_helper_zero` stand for `xorl` of a register with
itself. -/
theorem decode_helper_zero (reg : Reg) (rest : List BItem) (insns : List NegInsn)
    (h : decodeNegInsns rest = some insns) :
    ∃ items, bemit_helper_zero reg = some items ∧
      decodeNegInsns (items ++ rest) = some (NegInsn.xorl reg reg :: insns) := by
  obtain ⟨m, h1, h2⟩ := decodeModRR_modrr reg reg
  refine ⟨[bemit8 0x33, BItem.byte m], by rw [bemit_helper_zero, h1], ?_⟩
  show (match decodeModRR m, decodeNegInsns rest with
    | some (rm, reg), some insns => some (NegInsn.xorl rm reg :: insns)
    | _, _ => none) = _
  rw [h2, h]

/-- The bytes of `bemit_helper_neg` stand for `negl`. -/
theorem decode_helper_neg (reg : Reg) (rest : List BItem) (insns : List NegInsn)
    (h : decodeNegInsns rest = some insns) :
    ∃ items, bemit_helper_neg reg = some items ∧
      decodeNegInsns (items ++ rest) = some (NegInsn.negl reg :: insns) := by
  obtain ⟨m, h1, h2, h3⟩ := decodeModRR_modru reg
  refine ⟨[bemit8 0xF7, BItem.byte m], by rw [bemit_helper_neg, h1]; rfl, ?_⟩
  show (match decodeModRR m, decodeNegInsns rest with
    | some (rm, _), some insns =>
      if m / 8 % 8 = 3 then some (NegInsn.negl rm :: insns) else none
    | _, _ => none) = _
  rw [h2, h]
  simp only [h3, if_true]

/-- The bytes of `bemit_helper_sbb0` stand for `sbbl $0`. -/
theorem decode_helper_sbb0 (reg : Reg) (rest : List BItem) (insns : List NegInsn)
    (h : decodeNegInsns rest = some insns) :
    ∃ items, bemit_helper_sbb0 reg = some items ∧
      decodeNegInsns (items ++ rest) = some (NegInsn.sbbl0 reg :: insns) := by
  obtain ⟨m, h1, h2, h3⟩ := decodeModRR_modru reg
  refine ⟨[bemit8 0x83, BItem.byte m, bemit8 0], by rw [bemit_helper_sbb0, h1]; rfl, ?_⟩
  show (match decodeModRR m, decodeNegInsns rest with
    | some (rm, _), some insns =>
      if m / 8 % 8 = 3 then some (NegInsn.sbbl0 rm :: insns) else none
    | _, _ => none) = _
  rw [h2, h]
  simp only [h3, if_true]

/-- The bytes of `bemit_helper_xchg` stand for `xchgl` of the two
registers. -/
theorem decode_helper_xchg (src dst : Reg) (hne : src ≠ dst) (rest : List BItem)
    (insns : List NegInsn) (h : decodeNegInsns rest = some insns) :
    ∃ items insn, bemit_helper_xchg src dst = some items ∧
      decodeNegInsns (items ++ rest) = some (insn :: insns) ∧
      insn.same (NegInsn.xchgl src dst) = true := by
  by_cases h1 : src = Reg.eax
  · subst h1
    refine ⟨[bemit8 (0x90 + reg_gp_map dst)], NegInsn.xchgl Reg.eax dst,
      by simp [bemit_helper_xchg], ?_, by simp [NegInsn.same]⟩
    cases dst
    · exact absurd rfl hne
    all_goals
      show (match regOfEncoding _, decodeNegInsns rest with
        | some r, some insns => some (NegInsn.xchgl Reg.eax r :: insns)
        | _, _ => none) = _
      rw [h]
      rfl
  · by_cases h2 : dst = Reg.eax
    · subst h2
      refine ⟨[bemit8 (0x90 + reg_gp_map src)], NegInsn.xchgl Reg.eax src,
        by simp [bemit_helper_xchg, h1], ?_, by simp [NegInsn.same]⟩
      cases src
      · exact absurd rfl h1
      all_goals
        show (match regOfEncoding _, decodeNegInsns rest with
          | some r, some insns => some (NegInsn.xchgl Reg.eax r :: insns)
          | _, _ => none) = _
        rw [h]
        rfl
    · obtain ⟨m, h3, h4⟩ := decodeModRR_modrr src dst
      refine ⟨[bemit8 0x87, BItem.byte m], NegInsn.xchgl src dst,
        by rw [bemit_helper_xchg, if_neg h1, if_neg h2, h3], ?_, by simp [NegInsn.same]⟩
      show (match decodeModRR m, decodeNegInsns rest with
        | some (rm, reg), some insns => some (NegInsn.xchgl rm reg :: insns)
        | _, _ => none) = _
      rw [h4, h]

/-- The negation of a number of 64 bits from the negations of its halves. -/
theorem neg64_arith (a b : Nat) (ha : a < 4294967296) (hb : b < 4294967296) :
    ((4294967296 - b) % 4294967296 + 4294967296 - (if a ≠ 0 then 1 else 0)) % 4294967296 *
        4294967296 + (4294967296 - a) % 4294967296 =
      (18446744073709551616 - (b * 4294967296 + a)) % 18446744073709551616 ∧
    ((0 + 8589934592 - b - (if a ≠ 0 then 1 else 0)) % 4294967296) * 4294967296 +
        (4294967296 - a) % 4294967296 =
      (18446744073709551616 - (b * 4294967296 + a)) % 18446744073709551616 := by
  by_cases h : a = 0
  · subst h
    simp only [ne_eq, not_true_eq_false, if_false]
    omega
  · simp only [ne_eq, h, not_false_eq_true, if_true]
    omega

/-- The sequence `normal_neg` negates the number in `out_hi:out_lo`. -/
theorem run_normal_neg (out_lo out_hi : Reg) (hout : out_lo ≠ out_hi) (s : RegFile)
    (hlo : s.reg out_lo < 4294967296) (hhi : s.reg out_hi < 4294967296) :
    (runNegInsns [emit_neg out_hi, emit_neg out_lo, emit_sbb0 out_hi] s).reg out_hi *
        4294967296 +
      (runNegInsns [emit_neg out_hi, emit_neg out_lo, emit_sbb0 out_hi] s).reg out_lo =
      (18446744073709551616 - (s.reg out_hi * 4294967296 + s.reg out_lo)) %
        18446744073709551616 := by
  have hne : out_hi ≠ out_lo := Ne.symm hout
  simp only [runNegInsns, List.foldl_cons, List.foldl_nil, emit_neg, emit_sbb0, NegInsn.exec,
    Function.update_same, Function.update_noteq hout, Function.update_noteq hne, ne_eq,
    decide_eq_true_eq]
  exact (neg64_arith (s.reg out_lo) (s.reg out_hi) hlo hhi).1

/-- The sequence `zero_neg` puts the negation of the number in
`in_hi:out_lo` into `out_hi:out_lo`. -/
theorem run_zero_neg (in_hi out_lo out_hi : Reg) (hout : out_lo ≠ out_hi)
    (h1 : in_hi ≠ out_hi) (h2 : in_hi ≠ out_lo) (s : RegFile)
    (hlo : s.reg out_lo < 4294967296) (hhi : s.reg in_hi < 4294967296) :
    (runNegInsns [emit_zero out_hi, emit_neg out_lo, emit_sbb in_hi out_hi] s).reg out_hi *
        4294967296 +
      (runNegInsns [emit_zero out_hi, emit_neg out_lo, emit_sbb in_hi out_hi] s).reg out_lo =
      (18446744073709551616 - (s.reg in_hi * 4294967296 + s.reg out_lo)) %
        18446744073709551616 := by
  have hne : out_hi ≠ out_lo := Ne.symm hout
  simp only [runNegInsns, List.foldl_cons, List.foldl_nil, emit_neg, emit_zero, emit_sbb,
    NegInsn.exec, Function.update_same, Function.update_noteq hout, Function.update_noteq hne,
    Function.update_noteq h1, Function.update_noteq h2, ne_eq, decide_eq_true_eq, Nat.xor_self]
  exact (neg64_arith (s.reg out_lo) (s.reg in_hi) hlo hhi).2

/-- The instructions in front of a sequence are run first. -/
theorem runNegInsns_cons (insn : NegInsn) (l : List NegInsn) (s : RegFile) :
    runNegInsns (insn :: l) s = runNegInsns l (insn.exec s) := rfl

/-- The instructions of `emit_ia32_Minus64Bit` negate the number in
`in_hi:in_lo` into `out_hi:out_lo`. -/
theorem emit_ia32_Minus64Bit_run (in_lo in_hi out_lo out_hi : Reg) (hin : in_lo ≠ in_hi)
    (hout : out_lo ≠ out_hi) (s : RegFile) (hlo : s.reg in_lo < 4294967296)
    (hhi : s.reg in_hi < 4294967296) :
    (runNegInsns (emit_ia32_Minus64Bit in_lo in_hi out_lo out_hi) s).reg out_hi * 4294967296 +
      (runNegInsns (emit_ia32_Minus64Bit in_lo in_hi out_lo out_hi) s).reg out_lo =
      (18446744073709551616 - (s.reg in_hi * 4294967296 + s.reg in_lo)) %
        18446744073709551616 := by
  unfold emit_ia32_Minus64Bit
  simp only
  by_cases c1 : out_lo = in_lo
  · rw [if_pos c1]
    by_cases c2 : out_hi ≠ in_hi
    · rw [if_pos c2]
      subst c1
      exact run_zero_neg in_hi out_lo out_hi hout (Ne.symm c2) (Ne.symm hin) s hlo hhi
    · rw [if_neg c2]
      have c3 : out_hi = in_hi := not_not.1 c2
      subst c1 c3
      exact run_normal_neg out_lo out_hi hout s hlo hhi
  · rw [if_neg c1]
    by_cases c2 : out_lo = in_hi
    · rw [if_pos c2]
      by_cases c3 : out_hi = in_lo
      · rw [if_pos c3, runNegInsns_cons]
        subst c2 c3
        rw [run_normal_neg out_lo out_hi hout _
          (by simp [emit_xchg, NegInsn.exec, Function.update_noteq hout, hhi, hlo])
          (by simp [emit_xchg, NegInsn.exec, Function.update_noteq hout, hhi, hlo])]
        simp [emit_xchg, NegInsn.exec, Function.update_noteq hout]
      · rw [if_neg c3, runNegInsns_cons, runNegInsns_cons]
        subst c2
        have c4 : in_lo ≠ out_hi := Ne.symm c3
        rw [run_normal_neg out_lo out_hi hout _
          (by simp [emit_mov, NegInsn.exec, Function.update_noteq c4, hlo])
          (by simp [emit_mov, NegInsn.exec, Function.update_noteq (Ne.symm hout), hhi])]
        simp [emit_mov, NegInsn.exec, Function.update_noteq c4,
          Function.update_noteq (Ne.symm hout)]
    · rw [if_neg c2]
      have c5 : in_hi ≠ out_lo := Ne.symm c2
      by_cases c3 : out_hi = in_lo
      · rw [if_pos c3, runNegInsns_cons]
        subst c3
        rw [run_zero_neg in_hi out_lo out_hi hout (Ne.symm hin) c5 _
          (by simp [emit_mov, NegInsn.exec, hlo])
          (by simp [emit_mov, NegInsn.exec, Function.update_noteq c5, hhi])]
        simp [emit_mov, NegInsn.exec, Function.update_noteq c5]
      · rw [if_neg c3]
        by_cases c4 : out_hi = in_hi
        · rw [if_pos c4, runNegInsns_cons]
          subst c4
          rw [run_normal_neg out_lo out_hi hout _
            (by simp [emit_mov, NegInsn.exec, hlo])
            (by simp [emit_mov, NegInsn.exec, Function.update_noteq c5, hhi])]
          simp [emit_mov, NegInsn.exec, Function.update_noteq c5]
        · rw [if_neg c4, runNegInsns_cons]
          rw [run_zero_neg in_hi out_lo out_hi hout (Ne.symm c4) c5 _
            (by simp [emit_mov, NegInsn.exec, hlo])
            (by simp [emit_mov, NegInsn.exec, Function.update_noteq c5, hhi])]
          simp [emit_mov, NegInsn.exec, Function.update_noteq c5]

/-- The low half of the result of `emit_ia32_Minus64Bit` has 32 bits. -/
theorem emit_ia32_Minus64Bit_lo_lt (in_lo in_hi out_lo out_hi : Reg) (hout : out_lo ≠ out_hi)
    (s : RegFile) :
    (runNegInsns (emit_ia32_Minus64Bit in_lo in_hi out_lo out_hi) s).reg out_lo <
      4294967296 := by
  unfold emit_ia32_Minus64Bit
  simp only
  split_ifs <;>
    simp only [runNegInsns, List.foldl_cons, List.foldl_nil, emit_neg, emit_sbb0, emit_sbb,
      emit_zero, emit_mov, emit_xchg, NegInsn.exec, Function.update_same,
      Function.update_noteq hout] <;>
    exact Nat.mod_lt _ (by decide)

/-- The high half of the result of `emit_ia32_Minus64Bit` has 32 bits. -/
theorem emit_ia32_Minus64Bit_hi_lt (in_lo in_hi out_lo out_hi : Reg) (s : RegFile) :
    (runNegInsns (emit_ia32_Minus64Bit in_lo in_hi out_lo out_hi) s).reg out_hi <
      4294967296 := by
  unfold emit_ia32_Minus64Bit
  simp only
  split_ifs <;>
    simp only [runNegInsns, List.foldl_cons, List.foldl_nil, emit_neg, emit_sbb0, emit_sbb,
      emit_zero, emit_mov, emit_xchg, NegInsn.exec, Function.update_same] <;>
    exact Nat.mod_lt _ (by decide)

/-- An instruction is the same instruction as itself. -/
theorem NegInsn.same_refl (a : NegInsn) : a.same a = true := by
  simp [NegInsn.same]

/-- Two instructions that are the same instruction do the same to the
registers and the carry flag. -/
theorem NegInsn.same_exec (a b : NegInsn) (h : a.same b = true) (s : RegFile) :
    a.exec s = b.exec s := by
  by_cases hab : a = b
  · rw [hab]
  · cases a <;> cases b <;> simp [NegInsn.same, hab] at h
    rename_i s1 d1 s2 d2
    obtain ⟨h1, h2⟩ := h
    subst h1 h2
    simp only [NegInsn.exec]
    by_cases hsd : s1 = d1
    · rw [hsd]
    · rw [Function.update_comm hsd]

/-- Two sequences of the same instructions do the same to the registers and
the carry flag. -/
theorem runNegInsns_same (l1 l2 : List NegInsn)
    (h : List.Forall₂ (fun a b => a.same b = true) l1 l2) (s : RegFile) :
    runNegInsns l1 s = runNegInsns l2 s := by
  induction h generalizing s with
  | nil => rfl
  | cons hab _ ih =>
    show runNegInsns _ (NegInsn.exec _ s) = runNegInsns _ (NegInsn.exec _ s)
    rw [NegInsn.same_exec _ _ hab s, ih]

theorem bemitDecodes_nil : BemitDecodes [] [] :=
  ⟨[], [], rfl, rfl, List.Forall₂.nil⟩

theorem bemitDecodes_cons (call : Option (List BItem)) (target : NegInsn)
    (hcall : ∀ rest insns, decodeNegInsns rest = some insns →
      ∃ items insn, call = some items ∧ decodeNegInsns (items ++ rest) = some (insn :: insns) ∧
        insn.same target = true)
    (calls : List (Option (List BItem))) (insns : List NegInsn)
    (h : BemitDecodes calls insns) : BemitDecodes (call :: calls) (target :: insns) := by
  obtain ⟨out, dec, h1, h2, h3⟩ := h
  obtain ⟨items, insn, h4, h5, h6⟩ := hcall out dec h2
  refine ⟨items ++ out, insn :: dec, ?_, h5, List.Forall₂.cons h6 h3⟩
  rw [h4]
  show (bemit_seq calls).map _ = _
  rw [h1]
  rfl

theorem bemitDecodes_mov (src dst : Reg) (calls : List (Option (List BItem)))
    (insns : List NegInsn) (h : BemitDecodes calls insns) :
    BemitDecodes (bemit_helper_mov src dst :: calls) (emit_mov src dst :: insns) :=
  bemitDecodes_cons _ _ (fun rest l hl => by
    obtain ⟨items, h1, h2⟩ := decode_helper_mov src dst rest l hl
    exact ⟨items, _, h1, h2, NegInsn.same_refl _⟩) calls insns h

theorem bemitDecodes_neg (reg : Reg) (calls : List (Option (List BItem)))
    (insns : List NegInsn) (h : BemitDecodes calls insns) :
    BemitDecodes (bemit_helper_neg reg :: calls) (emit_neg reg :: insns) :=
  bemitDecodes_cons _ _ (fun rest l hl => by
    obtain ⟨items, h1, h2⟩ := decode_helper_neg reg rest l hl
    exact ⟨items, _, h1, h2, NegInsn.same_refl _⟩) calls insns h

theorem bemitDecodes_sbb0 (reg : Reg) (calls : List (Option (List BItem)))
    (insns : List NegInsn) (h : BemitDecodes calls insns) :
    BemitDecodes (bemit_helper_sbb0 reg :: calls) (emit_sbb0 reg :: insns) :=
  bemitDecodes_cons _ _ (fun rest l hl => by
    obtain ⟨items, h1, h2⟩ := decode_helper_sbb0 reg rest l hl
    exact ⟨items, _, h1, h2, NegInsn.same_refl _⟩) calls insns h

theorem bemitDecodes_sbb (src dst : Reg) (calls : List (Option (List BItem)))
    (insns : List NegInsn) (h : BemitDecodes calls insns) :
    BemitDecodes (bemit_helper_sbb src dst :: calls) (emit_sbb src dst :: insns) :=
  bemitDecodes_cons _ _ (fun rest l hl => by
    obtain ⟨items, h1, h2⟩ := decode_helper_sbb src dst rest l hl
    exact ⟨items, _, h1, h2, NegInsn.same_refl _⟩) calls insns h

theorem bemitDecodes_zero (reg : Reg) (calls : List (Option (List BItem)))
    (insns : List NegInsn) (h : BemitDecodes calls insns) :
    BemitDecodes (bemit_helper_zero reg :: calls) (emit_zero reg :: insns) :=
  bemitDecodes_cons _ _ (fun rest l hl => by
    obtain ⟨items, h1, h2⟩ := decode_helper_zero reg rest l hl
    exact ⟨items, _, h1, h2, NegInsn.same_refl _⟩) calls insns h

theorem bemitDecodes_xchg (src dst : Reg) (hne : src ≠ dst)
    (calls : List (Option (List BItem))) (insns : List NegInsn)
    (h : BemitDecodes calls insns) :
    BemitDecodes (bemit_helper_xchg src dst :: calls) (emit_xchg src dst :: insns) :=
  bemitDecodes_cons _ _ (fun rest l hl => decode_helper_xchg src dst hne rest l hl) calls insns h

/-- The bytes of `bemit_minus64bit` stand for the instructions of
`emit_ia32_Minus64Bit`. -/
theorem bemit_minus64bit_decodes (in_lo in_hi out_lo out_hi : Reg) (hin : in_lo ≠ in_hi) :
    ∃ items dec, bemit_minus64bit in_lo in_hi out_lo out_hi = some items ∧
      decodeNegInsns items = some dec ∧
      List.Forall₂ (fun a b => a.same b = true) dec
        (emit_ia32_Minus64Bit in_lo in_hi out_lo out_hi) := by
  have hn : BemitDecodes
      [bemit_helper_neg out_hi, bemit_helper_neg out_lo, bemit_helper_sbb0 out_hi]
      [emit_neg out_hi, emit_neg out_lo, emit_sbb0 out_hi] :=
    bemitDecodes_neg _ _ _ (bemitDecodes_neg _ _ _ (bemitDecodes_sbb0 _ _ _ bemitDecodes_nil))
  have hz : BemitDecodes
      [bemit_helper_zero out_hi, bemit_helper_neg out_lo, bemit_helper_sbb in_hi out_hi]
      [emit_zero out_hi, emit_neg out_lo, emit_sbb in_hi out_hi] :=
    bemitDecodes_zero _ _ _ (bemitDecodes_neg _ _ _ (bemitDecodes_sbb _ _ _ _ bemitDecodes_nil))
  unfold bemit_minus64bit emit_ia32_Minus64Bit
  simp only
  by_cases c1 : out_lo = in_lo
  · rw [if_pos c1, if_pos c1]
    by_cases c2 : out_hi ≠ in_hi
    · rw [if_pos c2, if_pos c2]
      exact hz
    · rw [if_neg c2, if_neg c2]
      exact hn
  · rw [if_neg c1, if_neg c1]
    by_cases c2 : out_lo = in_hi
    · rw [if_pos c2, if_pos c2]
      by_cases c3 : out_hi = in_lo
      · rw [if_pos c3, if_pos c3]
        exact bemitDecodes_xchg _ _ hin _ _ hn
      · rw [if_neg c3, if_neg c3]
        exact bemitDecodes_mov _ _ _ _ (bemitDecodes_mov _ _ _ _ hn)
    · rw [if_neg c2, if_neg c2]
      by_cases c3 : out_hi = in_lo
      · rw [if_pos c3, if_pos c3]
        exact bemitDecodes_mov _ _ _ _ hz
      · rw [if_neg c3, if_neg c3]
        by_cases c4 : out_hi = in_hi
        · rw [if_pos c4, if_pos c4]
          exact bemitDecodes_mov _ _ _ _ hn
        · rw [if_neg c4, if_neg c4]
          exact bemitDecodes_mov _ _ _ _ hz

/-- C38: for registers with `in_lo` different from `in_hi` and `out_lo`
different from `out_hi`, whatever registers the inputs and outputs share,
and values of 32 bits in the input registers, running the instructions of
`emit_ia32_Minus64Bit` leaves in `out_hi:out_lo` the negation in two's
complement of the number of 64 bits in `in_hi:in_lo`; `bemit_minus64bit`
emits bytes, and they stand for the same instructions in the same order, so
running them gives the same registers and carry flag. -/
theorem minus64bit_negates (in_lo in_hi out_lo out_hi : Reg) (hin : in_lo ≠ in_hi)
    (hout : out_lo ≠ out_hi) (s : RegFile) (hlo : s.reg in_lo < 4294967296)
    (hhi : s.reg in_hi < 4294967296) :
    (runNegInsns (emit_ia32_Minus64Bit in_lo in_hi out_lo out_hi) s).reg out_hi * 4294967296 +
        (runNegInsns (emit_ia32_Minus64Bit in_lo in_hi out_lo out_hi) s).reg out_lo =
      (18446744073709551616 - (s.reg in_hi * 4294967296 + s.reg in_lo)) %
        18446744073709551616 ∧
    (runNegInsns (emit_ia32_Minus64Bit in_lo in_hi out_lo out_hi) s).reg out_lo < 4294967296 ∧
    (runNegInsns (emit_ia32_Minus64Bit in_lo in_hi out_lo out_hi) s).reg out_hi < 4294967296 ∧
    ∃ items dec, bemit_minus64bit in_lo in_hi out_lo out_hi = some items ∧
      decodeNegInsns items = some dec ∧
      List.Forall₂ (fun a b => a.same b = true) dec
        (emit_ia32_Minus64Bit in_lo in_hi out_lo out_hi) ∧
      runNegInsns dec s = runNegInsns (emit_ia32_Minus64Bit in_lo in_hi out_lo out_hi) s := by
  refine ⟨emit_ia32_Minus64Bit_run in_lo in_hi out_lo out_hi hin hout s hlo hhi, ?_, ?_, ?_⟩
  · exact emit_ia32_Minus64Bit_lo_lt in_lo in_hi out_lo out_hi hout s
  · exact emit_ia32_Minus64Bit_hi_lt in_lo in_hi out_lo out_hi s
  · obtain ⟨items, dec, h1, h2, h3⟩ := bemit_minus64bit_decodes in_lo in_hi out_lo out_hi hin
    exact ⟨items, dec, h1, h2, h3, runNegInsns_same _ _ h3 s⟩

/-- The theorem `minus64bit_negates` at the node whose outputs are its
inputs in the other order, with 5 in `eax` and 7 in `edx`. -/
theorem minus64bit_negates_witness :
    Reg.eax ≠ Reg.edx ∧ Reg.edx ≠ Reg.eax ∧ exampleRegFile.reg Reg.eax < 4294967296 ∧
      exampleRegFile.reg Reg.edx < 4294967296 ∧
    ((runNegInsns (emit_ia32_Minus64Bit Reg.eax Reg.edx Reg.edx Reg.eax) exampleRegFile).reg
          Reg.eax * 4294967296 +
        (runNegInsns (emit_ia32_Minus64Bit Reg.eax Reg.edx Reg.edx Reg.eax) exampleRegFile).reg
          Reg.edx =
      (18446744073709551616 -
        (exampleRegFile.reg Reg.edx * 4294967296 + exampleRegFile.reg Reg.eax)) %
        18446744073709551616 ∧
    (runNegInsns (emit_ia32_Minus64Bit Reg.eax Reg.edx Reg.edx Reg.eax) exampleRegFile).reg
        Reg.edx < 4294967296 ∧
    (runNegInsns (emit_ia32_Minus64Bit Reg.eax Reg.edx Reg.edx Reg.eax) exampleRegFile).reg
        Reg.eax < 4294967296 ∧
    ∃ items dec, bemit_minus64bit Reg.eax Reg.edx Reg.edx Reg.eax = some items ∧
      decodeNegInsns items = some dec ∧
      List.Forall₂ (fun a b => a.same b = true) dec
        (emit_ia32_Minus64Bit Reg.eax Reg.edx Reg.edx Reg.eax) ∧
      runNegInsns dec exampleRegFile =
        runNegInsns (emit_ia32_Minus64Bit Reg.eax Reg.edx Reg.edx Reg.eax) exampleRegFile) :=
  ⟨by decide, by decide, by decide, by decide,
    minus64bit_negates Reg.eax Reg.edx Reg.edx Reg.eax (by decide) (by decide) exampleRegFile
      (by decide) (by decide)⟩

/-- The node whose outputs are its inputs in the other order: the text is
`xchgl %eax, %edx` and the three instructions of the negation, the bytes
are `92 F7 D8 F7 DA 83 D8 00`, and -(7 * 2^32 + 5) is left in `eax:edx`. -/
theorem minus64bit_example :
    (emit_ia32_Minus64Bit Reg.eax Reg.edx Reg.edx Reg.eax).map NegInsn.text =
        ["\txchgl %eax, %edx\n", "\tnegl %eax\n", "\tnegl %edx\n", "\tsbbl $0, %eax\n"] ∧
      bemit_minus64bit Reg.eax Reg.edx Reg.edx Reg.eax =
        some [BItem.byte 0x92, BItem.byte 0xF7, BItem.byte 0xD8, BItem.byte 0xF7,
          BItem.byte 0xDA, BItem.byte 0x83, BItem.byte 0xD8, BItem.byte 0] ∧
      (runNegInsns (emit_ia32_Minus64Bit Reg.eax Reg.edx Reg.edx Reg.eax) exampleRegFile).reg
          Reg.eax = 4294967288 ∧
      (runNegInsns (emit_ia32_Minus64Bit Reg.eax Reg.edx Reg.edx Reg.eax) exampleRegFile).reg
          Reg.edx = 4294967291 := by
  refine ⟨by decide, by decide, by decide, by decide⟩

end Firm
